import Mathlib

/-!
# BusTub storage core: a verification development

Shallow embedding of the buffer pool (`lru_replacer.cpp`,
`buffer_pool_manager_instance.cpp`) and of the extendible hash index
(`hash_table_bucket_page.cpp`, `extendible_hash_table.cpp`).

Conventions of the embedding
* Latches and mutexes are dropped: every operation runs alone, start to end.
* `frame_id_t` is an index into the frame array; the replacer is generic in it.
* `page_id_t` is `Int`, `INVALID_PAGE_ID` is `-1`.
* The disk is a total map from page id to bytes.
* The hash table is read over a buffer pool in which no page is evicted.
* Write-ahead logging is switched off (`enable_logging` is false), so the log
  flush in front of a page write-back does not appear.
-/

namespace Bustub

/-! ## LRU replacer (`src/buffer/lru_replacer.cpp`) -/

/-- The replacer keeps a doubly linked list between `dummy_head` and
`dummy_tail`, indexed by the hash map `loc_list`.  `frames` is that list read
from `dummy_head->next` (least recently unpinned) to `dummy_tail->prev`; the
keys of `loc_list` are its elements. -/
structure LRUReplacer (F : Type) where
  frames : List F
deriving DecidableEq

namespace LRUReplacer

variable {F : Type} [DecidableEq F]

/-- Constructor: `dummy_head->next = dummy_tail`, empty `loc_list`. -/
def init : LRUReplacer F := ⟨[]⟩

/-- `LRUReplacer::Victim`: with an empty `loc_list` it returns false (here
`none`) and touches nothing; otherwise it unlinks `dummy_head->next`, erases it
from `loc_list` and returns its frame id. -/
def Victim (r : LRUReplacer F) : Option F × LRUReplacer F :=
  match r.frames with
  | [] => (none, r)
  | f :: rest => (some f, ⟨rest⟩)

/-- `LRUReplacer::Pin`: when `loc_list` knows the frame, its node is unlinked
and the entry erased; otherwise nothing happens. -/
def Pin (r : LRUReplacer F) (frame_id : F) : LRUReplacer F :=
  if frame_id ∈ r.frames then ⟨r.frames.erase frame_id⟩ else r

/-- `LRUReplacer::Unpin`: when `loc_list` knows the frame it returns at once;
otherwise a new node is linked right before `dummy_tail`. -/
def Unpin (r : LRUReplacer F) (frame_id : F) : LRUReplacer F :=
  if frame_id ∈ r.frames then r else ⟨r.frames ++ [frame_id]⟩

/-- `LRUReplacer::Size`: `loc_list.size()`. -/
def Size (r : LRUReplacer F) : Nat := r.frames.length

/-- One call on the replacer. -/
inductive Call (F : Type) where
  | unpin (f : F)
  | pin (f : F)
  | victim
deriving DecidableEq

/-- A replacer together with the bookkeeping of the specification: for every
frame the number of the `Unpin` call that added it (`none` when the frame is
not held), and the number of calls made so far. -/
structure Trace (F : Type) where
  r : LRUReplacer F
  added : F → Option Nat
  now : Nat

/-- The trace of a fresh replacer. -/
def Trace.init : Trace F := ⟨LRUReplacer.init, fun _ => none, 0⟩

/-- One call: the replacer runs the code; the bookkeeping records an adding
`Unpin`, and forgets a frame removed by `Pin` or returned by `Victim`. -/
def Trace.step (t : Trace F) : Call F → Trace F
  | .unpin f =>
      ⟨t.r.Unpin f,
       fun g => if g = f then (match t.added f with
                               | some n => some n
                               | none => some t.now) else t.added g,
       t.now + 1⟩
  | .pin f => ⟨t.r.Pin f, fun g => if g = f then none else t.added g, t.now + 1⟩
  | .victim =>
      ⟨t.r.Victim.2,
       fun g => if t.r.Victim.1 = some g then none else t.added g,
       t.now + 1⟩

/-- The trace after a sequence of calls on a fresh replacer. -/
def Trace.run (calls : List (Call F)) : Trace F := calls.foldl Trace.step Trace.init

/-- The replacer after a sequence of calls on a fresh replacer. -/
def run (calls : List (Call F)) : LRUReplacer F :=
  calls.foldl (fun r c => match c with
                          | .unpin f => r.Unpin f
                          | .pin f => r.Pin f
                          | .victim => r.Victim.2) LRUReplacer.init

/-- The frames returned by the `Victim` calls of a sequence, in order
(`none` for a `Victim` that returned false). -/
def victims : LRUReplacer F → List (Call F) → List (Option F)
  | _, [] => []
  | r, .unpin f :: cs => victims (r.Unpin f) cs
  | r, .pin f :: cs => victims (r.Pin f) cs
  | r, .victim :: cs => r.Victim.1 :: victims r.Victim.2 cs

/-- Bookkeeping and list agree: the list holds exactly the frames with a
recorded adding call, holds none twice, recorded calls are in the past, and
the list is ordered by adding call, oldest first. -/
structure Trace.Inv (t : Trace F) : Prop where
  held : ∀ f, f ∈ t.r.frames ↔ ∃ n, t.added f = some n
  nodup : t.r.frames.Nodup
  past : ∀ f n, t.added f = some n → n < t.now
  sorted : t.r.frames.Pairwise
    (fun a b => ∀ ta tb, t.added a = some ta → t.added b = some tb → ta < tb)

end LRUReplacer

end Bustub

/-! ## Buffer pool manager instance (`src/buffer/buffer_pool_manager_instance.cpp`) -/

namespace Bustub

abbrev page_id_t := Int
abbrev frame_id_t := Nat
abbrev Bytes := List Nat

/-- The value of a 32-bit signed integer (`lsn_t`, `page_id_t`) after an
arithmetic result `x`. -/
def wrap32 (x : Int) : Int := (x + 2147483648) % 4294967296 - 2147483648

/-- Modelled from the spec: `INVALID_PAGE_ID` (`common/config.h` is not part
of the sources at hand), the page id -1 that stands for no page. -/
def INVALID_PAGE_ID : page_id_t := -1

/-- Modelled from the spec: class `Page` (`storage/page/page.h` is not part of
the sources at hand), a frame of the pool with the byte buffer and the
metadata of the page it holds.  `pin_count_` is never decremented below zero
by the code, so it is a natural number here. -/
structure Page where
  data : Bytes
  page_id : page_id_t
  pin_count : Nat
  is_dirty : Bool
deriving DecidableEq

/-- Modelled from the spec: `Page::ResetMemory`, which zeroes the page
bytes. -/
def Page.ResetMemory (p : Page) : Page := { p with data := p.data.map (fun _ => 0) }

/-- Assignment `m[k] = v` on a total map. -/
def setAt {K V : Type} [DecidableEq K] (m : K → V) (k : K) (v : V) : K → V :=
  fun x => if x = k then v else m x

/-- Modelled from the spec: the disk manager (`DiskManager::WritePage`, whose
source is not part of the sources at hand) stores the bytes under the page
id. -/
def WritePage (disk : page_id_t → Bytes) (page_id : page_id_t) (data : Bytes) :
    page_id_t → Bytes :=
  setAt disk page_id data

/-- Modelled from the spec: the disk manager (`DiskManager::ReadPage`) returns
the bytes stored under the page id. -/
def ReadPage (disk : page_id_t → Bytes) (page_id : page_id_t) : Bytes := disk page_id

/-- State of one buffer pool instance, with the disk it writes to. -/
structure BufferPoolManagerInstance where
  pool_size : Nat
  num_instances : Nat
  instance_index : Nat
  next_page_id : page_id_t
  pages : frame_id_t → Page
  page_table : page_id_t → Option frame_id_t
  free_list : List frame_id_t
  replacer : LRUReplacer frame_id_t
  disk : page_id_t → Bytes

namespace BufferPoolManagerInstance

/-- Constructor: zeroed frames holding no page, every frame in the free list,
`next_page_id_ = instance_index` (a `uint32_t` stored in the 32-bit signed
`page_id_t`).  `page_size` is `PAGE_SIZE`. -/
def init (pool_size num_instances instance_index page_size : Nat)
    (disk : page_id_t → Bytes) : BufferPoolManagerInstance where
  pool_size := pool_size
  num_instances := num_instances
  instance_index := instance_index
  next_page_id := wrap32 instance_index
  pages := fun _ => ⟨List.replicate page_size 0, INVALID_PAGE_ID, 0, false⟩
  page_table := fun _ => none
  free_list := List.range pool_size
  replacer := LRUReplacer.init
  disk := disk

/-- The loop of `FlushPgImp`: the first frame `i < pool_size_` whose
`GetPageId()` is the page id. -/
def findFrame (s : BufferPoolManagerInstance) (page_id : page_id_t) : Option frame_id_t :=
  (List.range s.pool_size).find? (fun i => decide ((s.pages i).page_id = page_id))

/-- `FlushPgImp`: writes the first frame that carries the page id to disk and
clears its dirty flag; false when no frame carries it. -/
def FlushPgImp (s : BufferPoolManagerInstance) (page_id : page_id_t) :
    Bool × BufferPoolManagerInstance :=
  match s.findFrame page_id with
  | some i =>
      (true, { s with disk := WritePage s.disk page_id (s.pages i).data,
                      pages := setAt s.pages i { s.pages i with is_dirty := false } })
  | none => (false, s)

/-- Body of the loop of `FlushAllPgsImp` for frame `i`. -/
def flushFrame (s : BufferPoolManagerInstance) (i : frame_id_t) : BufferPoolManagerInstance :=
  if (s.pages i).page_id ≠ INVALID_PAGE_ID then
    { s with disk := WritePage s.disk (s.pages i).page_id (s.pages i).data,
             pages := setAt s.pages i { s.pages i with is_dirty := false } }
  else s

/-- `FlushAllPgsImp`: every frame with a valid page id is written and marked
clean. -/
def FlushAllPgsImp (s : BufferPoolManagerInstance) : BufferPoolManagerInstance :=
  (List.range s.pool_size).foldl flushFrame s

/-- `AllocatePage`: hands out `next_page_id_` and advances it by
`num_instances_`; `next_page_id_` is a 32-bit signed integer, the sum wraps
around. -/
def AllocatePage (s : BufferPoolManagerInstance) : page_id_t × BufferPoolManagerInstance :=
  (s.next_page_id, { s with next_page_id := wrap32 (s.next_page_id + s.num_instances) })

/-- Lines 86-98 and 142-154: the frame to reuse.  The front of the free list
when there is one; otherwise the replacer's victim, whose page id is erased
from the page table; `none` when the replacer has no victim either. -/
def pickFrame (s : BufferPoolManagerInstance) :
    Option (frame_id_t × BufferPoolManagerInstance) :=
  match s.free_list with
  | f :: rest => some (f, { s with free_list := rest })
  | [] =>
    match s.replacer.Victim with
    | (none, _) => none
    | (some f, r) =>
        some (f, { s with replacer := r,
                          page_table := setAt s.page_table (s.pages f).page_id none })

/-- `NewPgImp`: the result is the new page id and the frame (`nullptr` is
`none`). -/
def NewPgImp (s : BufferPoolManagerInstance) :
    Option (page_id_t × frame_id_t) × BufferPoolManagerInstance :=
  match s.pickFrame with
  | none => (none, s)
  | some (f, s1) =>
    let (page_id, s2) := s1.AllocatePage
    if page_id = INVALID_PAGE_ID then (none, s2)
    else
      let p := s2.pages f
      let disk := if p.is_dirty then WritePage s2.disk p.page_id p.data else s2.disk
      let p0 := p.ResetMemory
      let p1 : Page := { p0 with pin_count := 1, is_dirty := true, page_id := page_id }
      (some (page_id, f),
       { s2 with disk := disk, pages := setAt s2.pages f p1,
                 page_table := setAt s2.page_table page_id (some f) })

/-- `FetchPgImp`: the result is the frame that holds the page (`nullptr` is
`none`). -/
def FetchPgImp (s : BufferPoolManagerInstance) (page_id : page_id_t) :
    Option frame_id_t × BufferPoolManagerInstance :=
  match s.page_table page_id with
  | some f =>
      (some f, { s with pages := setAt s.pages f
                          { s.pages f with pin_count := (s.pages f).pin_count + 1 },
                        replacer := s.replacer.Pin f })
  | none =>
    match s.pickFrame with
    | none => (none, s)
    | some (f, s1) =>
      let p := s1.pages f
      let disk := if p.is_dirty ∧ p.page_id ≠ INVALID_PAGE_ID
                  then WritePage s1.disk p.page_id p.data else s1.disk
      let p1 : Page := { data := ReadPage disk page_id, pin_count := 1,
                         is_dirty := false, page_id := page_id }
      (some f, { s1 with disk := disk, pages := setAt s1.pages f p1,
                         page_table := setAt s1.page_table page_id (some f) })

/-- `DeletePgImp`.  `DeallocatePage` does nothing. -/
def DeletePgImp (s : BufferPoolManagerInstance) (page_id : page_id_t) :
    Bool × BufferPoolManagerInstance :=
  match s.page_table page_id with
  | none => (true, s)
  | some i =>
    if (s.pages i).pin_count > 0 then (false, s)
    else
      let p := (s.pages i).ResetMemory
      let p1 : Page := { p with page_id := INVALID_PAGE_ID, pin_count := 0, is_dirty := false }
      (true, { s with pages := setAt s.pages i p1 })

/-- `UnpinPgImp`. -/
def UnpinPgImp (s : BufferPoolManagerInstance) (page_id : page_id_t) (is_dirty : Bool) :
    Bool × BufferPoolManagerInstance :=
  match s.page_table page_id with
  | none => (false, s)
  | some i =>
    let p := s.pages i
    let p1 : Page := if is_dirty then { p with is_dirty := true } else p
    let p2 : Page := if p1.pin_count > 0 then { p1 with pin_count := p1.pin_count - 1 } else p1
    let r := if p2.pin_count = 0 then s.replacer.Unpin i else s.replacer
    (true, { s with pages := setAt s.pages i p2, replacer := r })

/-- A client writes the buffer of a frame through the pointer it got from
`FetchPgImp` or `NewPgImp`. -/
def WriteData (s : BufferPoolManagerInstance) (f : frame_id_t) (data : Bytes) :
    BufferPoolManagerInstance :=
  { s with pages := setAt s.pages f { s.pages f with data := data } }

/-- One call on the pool, or a write of a client into the frame it has
pinned. -/
inductive Call where
  | fetch (page_id : page_id_t)
  | newPage
  | unpin (page_id : page_id_t) (is_dirty : Bool)
  | flush (page_id : page_id_t)
  | flushAll
  | delete (page_id : page_id_t)
  | write (f : frame_id_t) (data : Bytes)

/-- The state after one call. -/
def step (s : BufferPoolManagerInstance) : Call → BufferPoolManagerInstance
  | .fetch page_id => (s.FetchPgImp page_id).2
  | .newPage => s.NewPgImp.2
  | .unpin page_id is_dirty => (s.UnpinPgImp page_id is_dirty).2
  | .flush page_id => (s.FlushPgImp page_id).2
  | .flushAll => s.FlushAllPgsImp
  | .delete page_id => (s.DeletePgImp page_id).2
  | .write f data => s.WriteData f data

/-- The state after a sequence of calls. -/
def run (s : BufferPoolManagerInstance) (calls : List Call) : BufferPoolManagerInstance :=
  calls.foldl step s

/-- States a pool can be in: the constructor's (its assertions ask for
`num_instances > 0` and `instance_index < num_instances`), and what calls make
of them. -/
inductive Reachable : BufferPoolManagerInstance → Prop where
  | init (pool_size num_instances instance_index page_size : Nat)
      (disk : page_id_t → Bytes)
      (h0 : 0 < num_instances) (h1 : instance_index < num_instances) :
      Reachable (init pool_size num_instances instance_index page_size disk)
  | step (s : BufferPoolManagerInstance) (c : Call) : Reachable s → Reachable (s.step c)

/-- A later sequence of `FetchPage`, `NewPage`, `UnpinPage` and `FlushPage`
calls in which `NewPage` never hands out `page_id` and is never called with
the allocator at `INVALID_PAGE_ID`. -/
def Keeps (page_id : page_id_t) : BufferPoolManagerInstance → List Call → Prop
  | _, [] => True
  | s, .fetch q :: cs => Keeps page_id (s.step (.fetch q)) cs
  | s, .newPage :: cs =>
    s.next_page_id ≠ page_id ∧ s.next_page_id ≠ INVALID_PAGE_ID ∧
      Keeps page_id (s.step .newPage) cs
  | s, .unpin q d :: cs => Keeps page_id (s.step (.unpin q d)) cs
  | s, .flush q :: cs => Keeps page_id (s.step (.flush q)) cs
  | _, _ :: _ => False

end BufferPoolManagerInstance

end Bustub

namespace Bustub
namespace BufferPoolManagerInstance

/-- What `pickFrame` leaves when it takes the replacer's victim `f`: the
victim is out of the replacer and its page id out of the page table. -/
def victimState (s : BufferPoolManagerInstance) (f : frame_id_t) : BufferPoolManagerInstance :=
  { s with replacer := s.replacer.Victim.2,
           page_table := setAt s.page_table (s.pages f).page_id none }

/-- A pool of one frame whose only frame is pinned by `NewPgImp`. -/
def pinnedPool : BufferPoolManagerInstance :=
  run (init 1 1 0 4 (fun _ => [])) [.newPage]

/-- The scenario of a pool of three frames: pages 0, 1, 2 fetched, then
unpinned in that order. -/
def threeUnpinned : BufferPoolManagerInstance :=
  run (init 3 1 0 4 (fun _ => []))
    [.fetch 0, .fetch 1, .fetch 2, .unpin 0 false, .unpin 1 false, .unpin 2 false]

/-- A pool of one frame after `FetchPage(0); UnpinPage(0, false)`. -/
def fetchedOnce : BufferPoolManagerInstance :=
  run (init 1 1 0 4 (fun _ => [])) [.fetch 0, .unpin 0 false]

/-- A pool of one frame after `NewPage` (page 0) and `UnpinPage(0, false)`. -/
def unpinnedNew : BufferPoolManagerInstance :=
  run (init 1 1 0 4 (fun _ => [])) [.newPage, .unpin 0 false]

/-- A pool of two frames after `FetchPage(0); UnpinPage(0, false); NewPage`:
the allocator, which starts at the instance index, hands out page id 0 for the
free frame 1 although frame 0 still carries page id 0. -/
def collided : BufferPoolManagerInstance :=
  run (init 2 1 0 1 (fun _ => [5])) [.fetch 0, .unpin 0 false, .newPage]

/-- A pool of two frames with index 2^30 - 1 among 2^30 instances after three
`NewPage` calls: page 1073741823 was unpinned and evicted, page 2147483647 is
pinned in frame 1, page -1073741825 (the 32-bit sum) is pinned in frame 0, and
the allocator is at `INVALID_PAGE_ID`. -/
def allocatorAtInvalid : BufferPoolManagerInstance :=
  run (init 2 1073741824 1073741823 1 (fun _ => [5]))
    [.newPage, .unpin 1073741823 false, .newPage, .newPage]

/-- The page table maps `page_id` to frame `f`, and `f` is the only frame of
the pool that carries `page_id`. -/
def SoleHolder (s : BufferPoolManagerInstance) (page_id : page_id_t) (f : frame_id_t) : Prop :=
  s.page_table page_id = some f ∧
    ∀ g, g < s.pool_size → ((s.pages g).page_id = page_id ↔ g = f)

/-- The state after a client has written `data` into frame `f`, unpinned
`page_id` with `is_dirty = true`, and the later `calls` were made. -/
def afterDirtyWrite (s : BufferPoolManagerInstance) (page_id : page_id_t) (f : frame_id_t)
    (data : Bytes) (calls : List Call) : BufferPoolManagerInstance :=
  run ((s.WriteData f data).UnpinPgImp page_id true).2 calls

/-- What every reachable state satisfies: the free list and the replacer hold
no frame twice and only frames of the pool; a free frame holds no page, is
clean, is unknown to the page table and to the replacer; a frame in the
replacer has pin count 0. -/
structure RInv (s : BufferPoolManagerInstance) : Prop where
  free_nodup : s.free_list.Nodup
  free : ∀ f, f ∈ s.free_list →
    f < s.pool_size ∧ (s.pages f).page_id = INVALID_PAGE_ID ∧ (s.pages f).is_dirty = false ∧
      f ∉ s.replacer.frames ∧ ∀ q, s.page_table q ≠ some f
  rep_nodup : s.replacer.frames.Nodup
  rep : ∀ f, f ∈ s.replacer.frames → f < s.pool_size ∧ (s.pages f).pin_count = 0
  table : ∀ q f, s.page_table q = some f → f < s.pool_size

/-- The bytes `B` of page `pid` are safe: a frame of the pool that carries
`pid` is the one the page table names, holds `B`, and is dirty unless the disk
holds `B` too; when the page table does not know `pid`, the disk holds `B`. -/
structure Holds (s : BufferPoolManagerInstance) (pid : page_id_t) (B : Bytes) : Prop where
  frames : ∀ g, g < s.pool_size → (s.pages g).page_id = pid →
    s.page_table pid = some g ∧ (s.pages g).data = B ∧
      ((s.pages g).is_dirty = true ∨ s.disk pid = B)
  table : ∀ f, s.page_table pid = some f → (s.pages f).page_id = pid
  absent : s.page_table pid = none → s.disk pid = B

end BufferPoolManagerInstance
end Bustub

/-! ## Extendible hash table
(`src/storage/page/hash_table_bucket_page.cpp`,
`src/container/hash/extendible_hash_table.cpp`)

The table is read over a buffer pool that is large enough: `FetchPage` and
`NewPage` always succeed and no page is evicted, so the pool is a map from
page id to page content; `NewPage` and `DeletePage` hand out a zeroed frame
(`ResetMemory`).  `BUCKET_ARRAY_SIZE` depends on the key and value types and
is a parameter; the hash function is a parameter. -/

namespace Bustub

/-- Modelled from the spec: `DIRECTORY_ARRAY_SIZE` (`hash_table_page_defs.h`
is not part of the sources at hand), the number of slots of the directory
page. -/
def DIRECTORY_ARRAY_SIZE : Nat := 512

/-- A bucket page: the bits of `occupied_` and `readable_` (bit `8 * i + j` is
bit `j` of byte `i`) and the slots of `array_`. -/
structure HashTableBucketPage (K V : Type) where
  occupied : List Bool
  readable : List Bool
  array : List (K × V)

namespace HashTableBucketPage

variable {K V : Type} [DecidableEq K] [DecidableEq V] [Inhabited K] [Inhabited V]

/-- A zeroed page read as a bucket of `n = BUCKET_ARRAY_SIZE` slots: both bit
maps have `(n - 1) / 8 + 1` bytes. -/
def zeroed (n : Nat) : HashTableBucketPage K V where
  occupied := List.replicate (8 * ((n - 1) / 8 + 1)) false
  readable := List.replicate (8 * ((n - 1) / 8 + 1)) false
  array := List.replicate n default

def IsOccupied (b : HashTableBucketPage K V) (bucket_idx : Nat) : Bool :=
  b.occupied.getD bucket_idx false

def SetOccupied (b : HashTableBucketPage K V) (bucket_idx : Nat) : HashTableBucketPage K V :=
  { b with occupied := b.occupied.set bucket_idx true }

def IsReadable (b : HashTableBucketPage K V) (bucket_idx : Nat) : Bool :=
  b.readable.getD bucket_idx false

def SetReadable (b : HashTableBucketPage K V) (bucket_idx : Nat) (set_value : Bool) :
    HashTableBucketPage K V :=
  { b with readable := b.readable.set bucket_idx set_value }

def KeyAt (b : HashTableBucketPage K V) (bucket_idx : Nat) : K :=
  (b.array.getD bucket_idx default).1

def ValueAt (b : HashTableBucketPage K V) (bucket_idx : Nat) : V :=
  (b.array.getD bucket_idx default).2

/-- `array_[bucket_idx] = std::make_pair(key, value)`. -/
def setPair (b : HashTableBucketPage K V) (bucket_idx : Nat) (key : K) (value : V) :
    HashTableBucketPage K V :=
  { b with array := b.array.set bucket_idx (key, value) }

/-- The loop of `GetValue` from `bucket_idx` on, `n` slots left: it stops at
the first slot that is not occupied and appends the values of the readable
slots with the key. -/
def getLoop (b : HashTableBucketPage K V) (key : K) : Nat → Nat → List V → List V
  | _, 0, result => result
  | bucket_idx, n + 1, result =>
    if !b.IsOccupied bucket_idx then result
    else if b.IsReadable bucket_idx ∧ b.KeyAt bucket_idx = key then
      getLoop b key (bucket_idx + 1) n (result ++ [b.ValueAt bucket_idx])
    else getLoop b key (bucket_idx + 1) n result

/-- `HashTableBucketPage::GetValue`, for a bucket of `size` slots: the values
are appended to `result`; true when `result` is not empty afterwards. -/
def GetValue (b : HashTableBucketPage K V) (size : Nat) (key : K) (result : List V) :
    Bool × List V :=
  let r := getLoop b key 0 size result
  (decide (r.length > 0), r)

/-- The first loop of `Insert` and the loop of `Remove`: `Sum.inl i` when slot
`i` is readable and holds the pair, else `Sum.inr i` with the first slot that
is not occupied (`bucket_idx + n` when all are). -/
def findPair (b : HashTableBucketPage K V) (key : K) (value : V) : Nat → Nat → Sum Nat Nat
  | bucket_idx, 0 => .inr bucket_idx
  | bucket_idx, n + 1 =>
    if !b.IsOccupied bucket_idx then .inr bucket_idx
    else if b.IsReadable bucket_idx ∧ b.KeyAt bucket_idx = key ∧ b.ValueAt bucket_idx = value
    then .inl bucket_idx
    else findPair b key value (bucket_idx + 1) n

/-- The second loop of `Insert`: the first slot that is not readable. -/
def findFree (b : HashTableBucketPage K V) : Nat → Nat → Option Nat
  | _, 0 => none
  | bucket_idx, n + 1 =>
    if !b.IsReadable bucket_idx then some bucket_idx else findFree b (bucket_idx + 1) n

/-- `HashTableBucketPage::Insert`, for a bucket of `size` slots. -/
def Insert (b : HashTableBucketPage K V) (size : Nat) (key : K) (value : V) :
    Bool × HashTableBucketPage K V :=
  match findPair b key value 0 size with
  | .inl _ => (false, b)
  | .inr bucket_idx =>
    if bucket_idx = size then
      match findFree b 0 size with
      | some i => (true, (b.setPair i key value).SetReadable i true)
      | none => (false, b)
    else
      (true, ((b.setPair bucket_idx key value).SetOccupied bucket_idx).SetReadable bucket_idx true)

/-- `HashTableBucketPage::Remove`, for a bucket of `size` slots. -/
def Remove (b : HashTableBucketPage K V) (size : Nat) (key : K) (value : V) :
    Bool × HashTableBucketPage K V :=
  match findPair b key value 0 size with
  | .inl bucket_idx => (true, b.SetReadable bucket_idx false)
  | .inr _ => (false, b)

/-- Byte `i` of a bit map is `0xFF`, which is `-1` as a (signed) `char`. -/
def byteAllOnes (bits : List Bool) (i : Nat) : Bool :=
  (List.range 8).all (fun j => bits.getD (8 * i + j) false)

/-- Byte `i` of a bit map is not zero. -/
def byteNonZero (bits : List Bool) (i : Nat) : Bool :=
  (List.range 8).any (fun j => bits.getD (8 * i + j) false)

/-- `HashTableBucketPage::IsFull`: every byte of `readable_` is `-1`. -/
def IsFull (b : HashTableBucketPage K V) (size : Nat) : Bool :=
  (List.range ((size - 1) / 8 + 1)).all (fun i => byteAllOnes b.readable i)

/-- The loop of `IsEmpty` from byte `i` on, `n` bytes left. -/
def emptyLoop (b : HashTableBucketPage K V) : Nat → Nat → Bool
  | _, 0 => true
  | i, n + 1 =>
    if byteNonZero b.readable i then false
    else if !byteNonZero b.occupied i then true
    else emptyLoop b (i + 1) n

/-- `HashTableBucketPage::IsEmpty`. -/
def IsEmpty (b : HashTableBucketPage K V) (size : Nat) : Bool :=
  emptyLoop b 0 ((size - 1) / 8 + 1)

end HashTableBucketPage

/-- The directory page (global depth, local depths, bucket page ids) and the
bucket pages of the buffer pool, with the constants of the table. -/
structure ExtendibleHashTable (K V : Type) where
  bucket_array_size : Nat
  hash_fn : K → Nat
  global_depth : Nat
  local_depths : List Nat
  bucket_page_ids : List page_id_t
  pages : page_id_t → HashTableBucketPage K V
  next_page_id : page_id_t

namespace ExtendibleHashTable

variable {K V : Type} [DecidableEq K] [DecidableEq V] [Inhabited K] [Inhabited V]

/-- Modelled from the spec: `HashTableDirectoryPage::GetGlobalDepthMask` (the
directory page's source is not part of the sources at hand),
`(1 << global_depth) - 1`. -/
def GetGlobalDepthMask (t : ExtendibleHashTable K V) : Nat := (1 <<< t.global_depth) - 1

/-- Modelled from the spec: `HashTableDirectoryPage::Size`, the number of
directory slots in use, `1 << global_depth`. -/
def Size (t : ExtendibleHashTable K V) : Nat := 1 <<< t.global_depth

/-- Modelled from the spec: `HashTableDirectoryPage::GetLocalDepth`. -/
def GetLocalDepth (t : ExtendibleHashTable K V) (bucket_idx : Nat) : Nat :=
  t.local_depths.getD bucket_idx 0

/-- Modelled from the spec: `HashTableDirectoryPage::SetLocalDepth`; local
depths are `uint8_t`. -/
def SetLocalDepth (t : ExtendibleHashTable K V) (bucket_idx : Nat) (local_depth : Nat) :
    ExtendibleHashTable K V :=
  { t with local_depths := t.local_depths.set bucket_idx (local_depth % 256) }

/-- Modelled from the spec: `HashTableDirectoryPage::IncrLocalDepth`. -/
def IncrLocalDepth (t : ExtendibleHashTable K V) (bucket_idx : Nat) : ExtendibleHashTable K V :=
  t.SetLocalDepth bucket_idx (t.GetLocalDepth bucket_idx + 1)

/-- Modelled from the spec: `HashTableDirectoryPage::DecrLocalDepth`. -/
def DecrLocalDepth (t : ExtendibleHashTable K V) (bucket_idx : Nat) : ExtendibleHashTable K V :=
  t.SetLocalDepth bucket_idx (t.GetLocalDepth bucket_idx + 255)

/-- Modelled from the spec: `HashTableDirectoryPage::GetLocalDepthMask`,
`(1 << local_depth) - 1`. -/
def GetLocalDepthMask (t : ExtendibleHashTable K V) (bucket_idx : Nat) : Nat :=
  (1 <<< t.GetLocalDepth bucket_idx) - 1

/-- Modelled from the spec: `HashTableDirectoryPage::GetBucketPageId`. -/
def GetBucketPageId (t : ExtendibleHashTable K V) (bucket_idx : Nat) : page_id_t :=
  t.bucket_page_ids.getD bucket_idx 0

/-- Modelled from the spec: `HashTableDirectoryPage::SetBucketPageId`. -/
def SetBucketPageId (t : ExtendibleHashTable K V) (bucket_idx : Nat) (page_id : page_id_t) :
    ExtendibleHashTable K V :=
  { t with bucket_page_ids := t.bucket_page_ids.set bucket_idx page_id }

/-- Modelled from the spec: `HashTableDirectoryPage::GetSplitImageIndex`, the
slot that differs from `bucket_idx` only in its highest local-depth bit. -/
def GetSplitImageIndex (t : ExtendibleHashTable K V) (bucket_idx : Nat) : Nat :=
  bucket_idx ^^^ (1 <<< (t.GetLocalDepth bucket_idx - 1))

/-- Modelled from the spec: `HashTableDirectoryPage::CanShrink`, every slot in
use has a local depth below the global depth. -/
def CanShrink (t : ExtendibleHashTable K V) : Bool :=
  (List.range t.Size).all (fun i => decide (t.GetLocalDepth i < t.global_depth))

/-- `Hash`: the hash of the key, downcast to 32 bits. -/
def Hash (t : ExtendibleHashTable K V) (key : K) : Nat := t.hash_fn key % 2 ^ 32

def KeyToDirectoryIndex (t : ExtendibleHashTable K V) (key : K) : Nat :=
  t.Hash key &&& t.GetGlobalDepthMask

def KeyToPageId (t : ExtendibleHashTable K V) (key : K) : page_id_t :=
  t.GetBucketPageId (t.Hash key &&& t.GetGlobalDepthMask)

/-- `NewPage` of the buffer pool: a zeroed page under the next page id. -/
def NewPage (t : ExtendibleHashTable K V) : page_id_t × ExtendibleHashTable K V :=
  (t.next_page_id,
   { t with pages := setAt t.pages t.next_page_id (HashTableBucketPage.zeroed t.bucket_array_size),
            next_page_id := t.next_page_id + 1 })

/-- Constructor, on a buffer pool whose next page id is `first`: the directory
page takes `first`, global depth 1, two zeroed buckets of local depth 1. -/
def init (bucket_array_size : Nat) (hash_fn : K → Nat) (first : page_id_t) :
    ExtendibleHashTable K V where
  bucket_array_size := bucket_array_size
  hash_fn := hash_fn
  global_depth := 1
  local_depths := (List.replicate DIRECTORY_ARRAY_SIZE 0).set 0 1 |>.set 1 1
  bucket_page_ids := (List.replicate DIRECTORY_ARRAY_SIZE 0).set 0 (first + 1) |>.set 1 (first + 2)
  pages := fun _ => HashTableBucketPage.zeroed bucket_array_size
  next_page_id := first + 3

/-- `ExtendibleHashTable::GetValue`, with an empty result vector. -/
def GetValue (t : ExtendibleHashTable K V) (key : K) : Bool × List V :=
  (t.pages (t.KeyToPageId key)).GetValue t.bucket_array_size key []

/-- Lines 150-154 of `SplitInsert`: slot `bucket_index + (1 << global_depth)`
becomes a copy of slot `bucket_index`, for `n` slots from `bucket_index` on. -/
def doubleLoop (t : ExtendibleHashTable K V) : Nat → Nat → ExtendibleHashTable K V
  | _, 0 => t
  | bucket_index, n + 1 =>
    let new_bucket_index := bucket_index + (1 <<< t.global_depth)
    let t1 := t.SetLocalDepth new_bucket_index (t.GetLocalDepth bucket_index)
    let t2 := t1.SetBucketPageId new_bucket_index (t1.GetBucketPageId bucket_index)
    doubleLoop t2 (bucket_index + 1) n

/-- Lines 167-173 of `SplitInsert`: the loop over `i < BUCKET_ARRAY_SIZE` that
gives the slots of the old bucket the new local depth and redirects those of
the other half to the new bucket. -/
def redirectLoop (t : ExtendibleHashTable K V) (dir_index : Nat)
    (old_bucket_page_id new_bucket_page_id : page_id_t) (local_mask : Nat) :
    Nat → Nat → ExtendibleHashTable K V
  | _, 0 => t
  | i, n + 1 =>
    if i ≠ dir_index ∧ t.GetBucketPageId i = old_bucket_page_id then
      let t1 := t.SetLocalDepth i (t.GetLocalDepth dir_index)
      let t2 := if (local_mask &&& i) ≠ (local_mask &&& dir_index)
                then t1.SetBucketPageId i new_bucket_page_id else t1
      redirectLoop t2 dir_index old_bucket_page_id new_bucket_page_id local_mask (i + 1) n
    else redirectLoop t dir_index old_bucket_page_id new_bucket_page_id local_mask (i + 1) n

/-- Lines 176-182 of `SplitInsert`: every slot of the old bucket whose key now
falls in the other half is inserted into the new bucket and made unreadable in
the old one. -/
def rehashLoop (t : ExtendibleHashTable K V) (dir_index local_mask : Nat) :
    HashTableBucketPage K V → HashTableBucketPage K V → Nat → Nat →
      HashTableBucketPage K V × HashTableBucketPage K V
  | old_bucket, new_bucket, _, 0 => (old_bucket, new_bucket)
  | old_bucket, new_bucket, i, n + 1 =>
    let new_index := t.KeyToDirectoryIndex (old_bucket.KeyAt i)
    if (local_mask &&& new_index) ≠ (local_mask &&& dir_index) then
      rehashLoop t dir_index local_mask (old_bucket.SetReadable i false)
        (new_bucket.Insert t.bucket_array_size (old_bucket.KeyAt i) (old_bucket.ValueAt i)).2
        (i + 1) n
    else rehashLoop t dir_index local_mask old_bucket new_bucket (i + 1) n

/-- `SplitInsert` up to its last line (the call of `Insert`): `none` when the
directory cannot grow, else the table after the split. -/
def splitBucket (t : ExtendibleHashTable K V) (key : K) : Option (ExtendibleHashTable K V) :=
  let dir_index := t.KeyToDirectoryIndex key
  let old_bucket_page_id := t.KeyToPageId key
  let grown : Option (ExtendibleHashTable K V) :=
    if t.global_depth = t.GetLocalDepth dir_index then
      if t.Size = DIRECTORY_ARRAY_SIZE then none
      else
        let t1 := doubleLoop t 0 t.Size
        some { t1 with global_depth := t1.global_depth + 1 }
    else some t
  match grown with
  | none => none
  | some t1 =>
    let (new_bucket_page_id, t2) := t1.NewPage
    let t3 := t2.IncrLocalDepth dir_index
    let local_mask := t3.GetLocalDepthMask dir_index
    let t4 := redirectLoop t3 dir_index old_bucket_page_id new_bucket_page_id local_mask
                0 t3.bucket_array_size
    let (old_bucket, new_bucket) :=
      rehashLoop t4 dir_index local_mask (t4.pages old_bucket_page_id)
        (t4.pages new_bucket_page_id) 0 t4.bucket_array_size
    some { t4 with pages := setAt (setAt t4.pages old_bucket_page_id old_bucket)
                              new_bucket_page_id new_bucket }

/-- `ExtendibleHashTable::Insert`, with `SplitInsert` inlined; `fuel` bounds the
number of nested `Insert` calls, `none` is returned when it runs out. -/
def Insert (t : ExtendibleHashTable K V) (key : K) (value : V) :
    Nat → Option Bool × ExtendibleHashTable K V
  | 0 => (none, t)
  | fuel + 1 =>
    let bucket_page_id := t.KeyToPageId key
    if (t.pages bucket_page_id).IsFull t.bucket_array_size then
      match t.splitBucket key with
      | none => (some false, t)
      | some t1 => Insert t1 key value fuel
    else
      let r := (t.pages bucket_page_id).Insert t.bucket_array_size key value
      (some r.1, { t with pages := setAt t.pages bucket_page_id r.2 })

/-- Lines 243-250 of `Merge`: the loop over `i < BUCKET_ARRAY_SIZE` that moves
the slots of the deleted bucket to the sibling and lowers the local depths. -/
def mergeLoop (t : ExtendibleHashTable K V) (bucket_page_id sibling_page_id : page_id_t) :
    Nat → Nat → ExtendibleHashTable K V
  | _, 0 => t
  | i, n + 1 =>
    if t.GetBucketPageId i = bucket_page_id then
      mergeLoop ((t.DecrLocalDepth i).SetBucketPageId i sibling_page_id)
        bucket_page_id sibling_page_id (i + 1) n
    else if t.GetBucketPageId i = sibling_page_id then
      mergeLoop (t.DecrLocalDepth i) bucket_page_id sibling_page_id (i + 1) n
    else mergeLoop t bucket_page_id sibling_page_id (i + 1) n

/-- Lines 254-256 of `Merge`: `while (CanShrink() && GetGlobalDepth() > 1)
DecrGlobalDepth()`, at most `n` rounds. -/
def shrinkLoop (t : ExtendibleHashTable K V) : Nat → ExtendibleHashTable K V
  | 0 => t
  | n + 1 =>
    if t.CanShrink ∧ t.global_depth > 1 then
      shrinkLoop { t with global_depth := t.global_depth - 1 } n
    else t

/-- `ExtendibleHashTable::Merge`.  `DeletePage` of the unpinned bucket page
resets its frame. -/
def Merge (t : ExtendibleHashTable K V) (key : K) : ExtendibleHashTable K V :=
  let bucket_page_id := t.KeyToPageId key
  if !(t.pages bucket_page_id).IsEmpty t.bucket_array_size then t
  else
    let bucket_idx := t.KeyToDirectoryIndex key
    let sibling_bucket_idx := t.GetSplitImageIndex bucket_idx
    let sibling_page_id := t.GetBucketPageId sibling_bucket_idx
    let t1 :=
      if bucket_page_id ≠ sibling_page_id ∧
          t.GetLocalDepth bucket_idx = t.GetLocalDepth sibling_bucket_idx ∧
          t.GetLocalDepth bucket_idx > 0 then
        mergeLoop
          { t with pages := setAt t.pages bucket_page_id
                              (HashTableBucketPage.zeroed t.bucket_array_size) }
          bucket_page_id sibling_page_id 0 t.bucket_array_size
      else t
    shrinkLoop t1 t1.global_depth

/-- `ExtendibleHashTable::Remove`. -/
def Remove (t : ExtendibleHashTable K V) (key : K) (value : V) :
    Bool × ExtendibleHashTable K V :=
  let bucket_page_id := t.KeyToPageId key
  let r := (t.pages bucket_page_id).Remove t.bucket_array_size key value
  let t1 := { t with pages := setAt t.pages bucket_page_id r.2 }
  if r.1 ∧ r.2.IsEmpty t.bucket_array_size then (r.1, t1.Merge key) else (r.1, t1)

/-- A call on the table. -/
inductive Call (K V : Type) where
  | insert (key : K) (value : V)
  | remove (key : K) (value : V)

/-- Fuel that lets `Insert` reach every directory size. -/
def insertFuel : Nat := 1024

/-- The table after one call. -/
def step (t : ExtendibleHashTable K V) : Call K V → ExtendibleHashTable K V
  | .insert key value => (t.Insert key value insertFuel).2
  | .remove key value => (t.Remove key value).2

/-- The table after a sequence of calls. -/
def run (t : ExtendibleHashTable K V) (calls : List (Call K V)) : ExtendibleHashTable K V :=
  calls.foldl step t

/-- A table for keys of 64 bytes and record ids (`GenericKey<64>`, `RID`:
`BUCKET_ARRAY_SIZE` is `4 * 4096 / (4 * 72 + 1) = 56`), keys named by their
hash, after 55 pairs whose hashes all end in the bits 11000 were inserted:
they fill 55 slots of the bucket of directory slot 0. -/
def oneBucket55 : ExtendibleHashTable Nat Nat :=
  run (init 56 id 0) ((List.range 55).map (fun i => Call.insert (88 + 32 * i) 0))

/-- The calls that bring the same kind of table into a state where the pair
(58, 0) is stored twice: 57 odd hashes take the directory to global depth 6;
56 even hashes fill the other bucket, whose split skips directory slot 58;
(58, 0) is inserted again; two removals merge buckets and shrink the
directory to global depth 5. -/
def twiceStoredCalls : List (Call Nat Nat) :=
  (List.range 55).map (fun i => Call.insert (1 + 64 * i) 0) ++
  [Call.insert 33 0, Call.insert 3521 0] ++
  (List.range 54).map (fun i => Call.insert (64 * i) 0) ++
  [Call.insert 2 0, Call.insert 58 0, Call.insert 3456 0, Call.insert 58 0,
   Call.remove 33 0, Call.remove 2 0]

/-- The table after `twiceStoredCalls`. -/
def twiceStored : ExtendibleHashTable Nat Nat :=
  run (init 56 id 0) twiceStoredCalls

end ExtendibleHashTable

end Bustub

/-! ## Hash bucket page: reachable buckets -/

namespace Bustub
namespace HashTableBucketPage

variable {K V : Type} [DecidableEq K] [DecidableEq V] [Inhabited K] [Inhabited V]

/-- Slot `i` is readable and holds the pair `(key, value)`. -/
def HoldsAt (b : HashTableBucketPage K V) (i : Nat) (key : K) (value : V) : Prop :=
  b.IsReadable i = true ∧ b.KeyAt i = key ∧ b.ValueAt i = value

/-- A call on a bucket page. -/
inductive Call (K V : Type) where
  | insert (key : K) (value : V)
  | remove (key : K) (value : V)

/-- The bucket of `size` slots after one call. -/
def step (size : Nat) (b : HashTableBucketPage K V) : Call K V → HashTableBucketPage K V
  | .insert key value => (b.Insert size key value).2
  | .remove key value => (b.Remove size key value).2

/-- The bucket of `size` slots after a sequence of calls. -/
def run (size : Nat) (b : HashTableBucketPage K V) (calls : List (Call K V)) :
    HashTableBucketPage K V :=
  calls.foldl (step size) b

/-- Buckets of `size` slots that `Insert` and `Remove` make of a zeroed
page. -/
inductive Reachable (size : Nat) : HashTableBucketPage K V → Prop where
  | zeroed : Reachable size (zeroed size)
  | step (b : HashTableBucketPage K V) (c : Call K V) :
      Reachable size b → Reachable size (step size b c)

/-- What every reachable bucket of `size` slots satisfies: the bit maps and
the array have their sizes, the occupied slots are the slots below some
`n ≤ size`, a readable slot is occupied, and no pair is held by two readable
slots. -/
structure WF (size : Nat) (b : HashTableBucketPage K V) : Prop where
  occ_len : b.occupied.length = 8 * ((size - 1) / 8 + 1)
  rd_len : b.readable.length = 8 * ((size - 1) / 8 + 1)
  arr_len : b.array.length = size
  occ_initial : ∃ n, n ≤ size ∧ ∀ i, b.IsOccupied i = true ↔ i < n
  rd_occ : ∀ i, b.IsReadable i = true → b.IsOccupied i = true
  nodup : ∀ i j key value, b.HoldsAt i key value → b.HoldsAt j key value → i = j

/-- The bucket of the page test (`int` keys and values, 496 slots) after
`Insert(i, i)` for `i = 0 .. 99`. -/
def sample100 : HashTableBucketPage Nat Nat :=
  run 496 (zeroed 496) ((List.range 100).map (fun i => Call.insert i i))

/-- The bucket of the page test after the pairs with odd `i` were removed. -/
def sampleEven : HashTableBucketPage Nat Nat :=
  run 496 sample100 ((List.range 50).map (fun i => Call.remove (2 * i + 1) (2 * i + 1)))

/-- A bucket of 496 slots with a tombstone in slot 0, a readable pair in slot
1 and the slots from 2 on never occupied. -/
def tombstoneFirst : HashTableBucketPage Nat Nat :=
  run 496 (zeroed 496) [.insert 1 1, .insert 2 2, .remove 1 1]

/-- The values of the readable slots `lo .. lo + n - 1` that hold `key`, in
slot order. -/
def matching (b : HashTableBucketPage K V) (key : K) (lo n : Nat) : List V :=
  ((List.range' lo n).filter (fun i => b.IsReadable i && decide (b.KeyAt i = key))).map
    (fun i => b.ValueAt i)

end HashTableBucketPage
end Bustub

/-! ## Lock manager (`src/concurrency/lock_manager.cpp`) -/

namespace Bustub

abbrev txn_id_t := Int

/-- Modelled from the spec: a record id (`common/rid.h` is not part of the
sources at hand): a page id and a slot number. -/
structure RID where
  page_id : Int
  slot_num : Nat
  deriving DecidableEq, Repr

/-- Modelled from the spec: the transaction states of section 3. -/
inductive TransactionState
  | GROWING | SHRINKING | COMMITTED | ABORTED
  deriving DecidableEq, Repr

/-- Modelled from the spec: the isolation levels of section 3. -/
inductive IsolationLevel
  | READ_UNCOMMITTED | REPEATABLE_READ | READ_COMMITTED
  deriving DecidableEq, Repr

/-- Modelled from the spec: the abort reasons of section 4.4. -/
inductive AbortReason
  | LOCK_ON_SHRINKING | UPGRADE_CONFLICT | DEADLOCK | LOCKSHARED_ON_READ_UNCOMMITTED
  deriving DecidableEq, Repr

/-- Modelled from the spec: the lock modes S and X of a queue entry
(`lock_manager.h` is not part of the sources at hand). -/
inductive LockMode
  | SHARED | EXCLUSIVE
  deriving DecidableEq, Repr

/-- Modelled from the spec: the mode summary of a request queue. -/
inductive RequestQueueState
  | NOTHING | READ | WRITE | UPGRADE
  deriving DecidableEq, Repr

/-- Modelled from the spec: a queue entry `(txn_id, mode, granted?)`; the
constructor `LockRequest(txn_id, mode)` of the absent header leaves `granted`
false. -/
structure LockRequest where
  txn_id : txn_id_t
  lock_mode : LockMode
  granted : Bool
  deriving DecidableEq, Repr

/-- Modelled from the spec: a request queue is the ordered entries and the mode
summary `state`; the condition variable is represented by the wait predicates
below. -/
structure LockRequestQueue where
  request_queue : List LockRequest
  state : RequestQueueState
  deriving DecidableEq, Repr

/-- A default-constructed queue, as `lock_table_.emplace(rid)` and
`lock_table_[rid]` make it. Modelled from the spec: its state is NOTHING. -/
def LockRequestQueue.empty : LockRequestQueue := ⟨[], RequestQueueState.NOTHING⟩

/-- Modelled from the spec: the part of a transaction the lock manager reads and
writes: state, isolation level and the two lock sets (`unordered_set<RID>`, kept
as duplicate-free lists). -/
structure Transaction where
  state : TransactionState
  isolation_level : IsolationLevel
  shared_lock_set : List RID
  exclusive_lock_set : List RID
  deriving DecidableEq, Repr

/-- Models `unordered_set::emplace`. -/
def setEmplace (s : List RID) (rid : RID) : List RID :=
  if rid ∈ s then s else s ++ [rid]

/-- Models `unordered_set::erase`. -/
def setErase (s : List RID) (rid : RID) : List RID :=
  s.filter (fun r => decide (r ≠ rid))

def Transaction.SetState (txn : Transaction) (st : TransactionState) : Transaction :=
  { txn with state := st }

/-- What a call does to its caller: it returns a boolean, it throws a
`TransactionAbortException` with a reason, or it blocks in `cv_.wait`. -/
inductive Outcome
  | returned (b : Bool)
  | thrown (r : AbortReason)
  | waiting
  deriving DecidableEq, Repr

/-- The lock manager with the transaction objects it points to: `txns` is the
transaction object of each id, `transaction_table` the ids stored in
`transaction_table_`, `lock_table` the map `lock_table_`. Every queue entry is
pushed after its transaction was stored in `transaction_table_`, so the write
`transaction_table_[id]->SetState` of `PreventDeadLock` is a write to `txns id`. -/
structure LockManager where
  lock_table : RID → Option LockRequestQueue
  transaction_table : List txn_id_t
  txns : txn_id_t → Transaction

namespace LockManager

def init (txns : txn_id_t → Transaction) : LockManager :=
  ⟨fun _ => none, [], txns⟩

def setTxnState (lm : LockManager) (t : txn_id_t) (st : TransactionState) : LockManager :=
  { lm with txns := setAt lm.txns t ((lm.txns t).SetState st) }

/-- The queue `lock_table_[rid]` refers to (a default queue when absent). -/
def queueOf (lm : LockManager) (rid : RID) : LockRequestQueue :=
  (lm.lock_table rid).getD LockRequestQueue.empty

def setQueue (lm : LockManager) (rid : RID) (q : LockRequestQueue) : LockManager :=
  { lm with lock_table := setAt lm.lock_table rid (some q) }

/-- Models `if (lock_table_.find(rid) == lock_table_.end()) lock_table_.emplace(rid)`. -/
def ensureQueue (lm : LockManager) (rid : RID) : LockManager :=
  if (lm.lock_table rid).isNone then lm.setQueue rid LockRequestQueue.empty else lm

/-- Models `transaction_table_[txn->GetTransactionId()] = txn`. -/
def register (lm : LockManager) (t : txn_id_t) : LockManager :=
  { lm with transaction_table :=
      if t ∈ lm.transaction_table then lm.transaction_table else lm.transaction_table ++ [t] }

/-- Models `CheckShrinking`: a SHRINKING transaction is set to ABORTED and
LOCK_ON_SHRINKING is thrown. -/
def CheckShrinking (lm : LockManager) (t : txn_id_t) : Option AbortReason × LockManager :=
  if (lm.txns t).state = TransactionState.SHRINKING then
    (some AbortReason.LOCK_ON_SHRINKING, lm.setTxnState t TransactionState.ABORTED)
  else (none, lm)

/-- Models `CheckAborted`: DEADLOCK is thrown for an ABORTED transaction. -/
def CheckAborted (lm : LockManager) (t : txn_id_t) : Option AbortReason :=
  if (lm.txns t).state = TransactionState.ABORTED then some AbortReason.DEADLOCK else none

/-- The first loop of `PreventDeadLock`: every entry with a larger id has its
transaction set to ABORTED. -/
def wound (txns : txn_id_t → Transaction) (t : txn_id_t) :
    List LockRequest → (txn_id_t → Transaction)
  | [] => txns
  | e :: es =>
    if e.txn_id > t then
      wound (setAt txns e.txn_id ((txns e.txn_id).SetState TransactionState.ABORTED)) t es
    else wound txns t es

/-- Models `PreventDeadLock(txn, req_queue)`. -/
def PreventDeadLock (txns : txn_id_t → Transaction) (t : txn_id_t) (q : LockRequestQueue) :
    (txn_id_t → Transaction) × LockRequestQueue :=
  let txns1 := wound txns t q.request_queue
  let rq := q.request_queue.filter (fun e => decide (¬ e.txn_id > t))
  let st :=
    match rq with
    | [] => RequestQueueState.NOTHING
    | e :: _ =>
      if e.lock_mode = LockMode.EXCLUSIVE then RequestQueueState.WRITE
      else RequestQueueState.READ
  (txns1, ⟨rq, st⟩)

/-- `PreventDeadLock` applied to the queue of `rid` inside the manager. -/
def preventOn (lm : LockManager) (t : txn_id_t) (rid : RID) : LockManager :=
  let r := PreventDeadLock lm.txns t (lm.queueOf rid)
  { lm with txns := r.1, lock_table := setAt lm.lock_table rid (some r.2) }

/-- The predicate of the `cv_.wait` of `LockShared`. -/
def sharedWake (lm : LockManager) (t : txn_id_t) (rid : RID) : Bool :=
  decide ((lm.txns t).state = TransactionState.ABORTED) ||
    (decide ((lm.queueOf rid).state ≠ RequestQueueState.WRITE) &&
      decide ((lm.queueOf rid).state ≠ RequestQueueState.UPGRADE))

/-- The predicate of the `cv_.wait` of `LockExclusive` and `LockUpgrade`. -/
def exclusiveWake (lm : LockManager) (t : txn_id_t) (rid : RID) : Bool :=
  decide ((lm.txns t).state = TransactionState.ABORTED) ||
    decide ((lm.queueOf rid).state = RequestQueueState.NOTHING)

/-- The part of `LockShared` after the wait. -/
def LockSharedFinish (lm : LockManager) (t : txn_id_t) (rid : RID) : Outcome × LockManager :=
  match lm.CheckAborted t with
  | some r => (Outcome.thrown r, lm)
  | none =>
    let txn := lm.txns t
    let lm1 := { lm with
      txns := setAt lm.txns t { txn with shared_lock_set := setEmplace txn.shared_lock_set rid } }
    let q := lm1.queueOf rid
    (Outcome.returned true,
      lm1.setQueue rid ⟨q.request_queue ++ [⟨t, LockMode.SHARED, false⟩], RequestQueueState.READ⟩)

/-- Models `LockShared` up to the point where it returns, throws or blocks. -/
def LockShared (lm : LockManager) (t : txn_id_t) (rid : RID) : Outcome × LockManager :=
  if (lm.txns t).isolation_level = IsolationLevel.READ_UNCOMMITTED then
    (Outcome.thrown AbortReason.LOCKSHARED_ON_READ_UNCOMMITTED,
      lm.setTxnState t TransactionState.ABORTED)
  else
    match lm.CheckShrinking t with
    | (some r, lm1) => (Outcome.thrown r, lm1)
    | (none, lm1) =>
      let lm2 := lm1.register t
      let lm3 := lm2.ensureQueue rid
      if (lm3.queueOf rid).state = RequestQueueState.WRITE ∨
          (lm3.queueOf rid).state = RequestQueueState.UPGRADE then
        let lm4 := lm3.preventOn t rid
        if lm4.sharedWake t rid then lm4.LockSharedFinish t rid else (Outcome.waiting, lm4)
      else lm3.LockSharedFinish t rid

/-- A blocked `LockShared` re-evaluates its predicate when it is woken. -/
def LockSharedResume (lm : LockManager) (t : txn_id_t) (rid : RID) : Outcome × LockManager :=
  if lm.sharedWake t rid then lm.LockSharedFinish t rid else (Outcome.waiting, lm)

/-- The part of `LockExclusive` after the wait. -/
def LockExclusiveFinish (lm : LockManager) (t : txn_id_t) (rid : RID) :
    Outcome × LockManager :=
  match lm.CheckAborted t with
  | some r => (Outcome.thrown r, lm)
  | none =>
    let txn := lm.txns t
    let lm1 := { lm with
      txns := setAt lm.txns t
        { txn with exclusive_lock_set := setEmplace txn.exclusive_lock_set rid } }
    let q := lm1.queueOf rid
    (Outcome.returned true,
      lm1.setQueue rid
        ⟨q.request_queue ++ [⟨t, LockMode.EXCLUSIVE, false⟩], RequestQueueState.WRITE⟩)

/-- Models `LockExclusive` up to the point where it returns, throws or blocks. -/
def LockExclusive (lm : LockManager) (t : txn_id_t) (rid : RID) : Outcome × LockManager :=
  match lm.CheckShrinking t with
  | (some r, lm1) => (Outcome.thrown r, lm1)
  | (none, lm1) =>
    let lm2 := lm1.register t
    let lm3 := lm2.ensureQueue rid
    if (lm3.queueOf rid).state ≠ RequestQueueState.NOTHING then
      let lm4 := lm3.preventOn t rid
      if lm4.exclusiveWake t rid then lm4.LockExclusiveFinish t rid else (Outcome.waiting, lm4)
    else lm3.LockExclusiveFinish t rid

/-- A blocked `LockExclusive` re-evaluates its predicate when it is woken. -/
def LockExclusiveResume (lm : LockManager) (t : txn_id_t) (rid : RID) :
    Outcome × LockManager :=
  if lm.exclusiveWake t rid then lm.LockExclusiveFinish t rid else (Outcome.waiting, lm)

/-- The part of `LockUpgrade` after the wait. -/
def LockUpgradeFinish (lm : LockManager) (t : txn_id_t) (rid : RID) : Outcome × LockManager :=
  if (lm.queueOf rid).state = RequestQueueState.UPGRADE then
    (Outcome.thrown AbortReason.UPGRADE_CONFLICT, lm.setTxnState t TransactionState.ABORTED)
  else
    match lm.CheckAborted t with
    | some r => (Outcome.thrown r, lm)
    | none =>
      let txn := lm.txns t
      let lm1 := { lm with
        txns := setAt lm.txns t
          { txn with
            shared_lock_set := setErase txn.shared_lock_set rid
            exclusive_lock_set := setEmplace txn.exclusive_lock_set rid } }
      (Outcome.returned true,
        lm1.setQueue rid ⟨[⟨t, LockMode.EXCLUSIVE, false⟩], RequestQueueState.WRITE⟩)

/-- Models `LockUpgrade` up to the point where it returns, throws or blocks. -/
def LockUpgrade (lm : LockManager) (t : txn_id_t) (rid : RID) : Outcome × LockManager :=
  match lm.CheckShrinking t with
  | (some r, lm1) => (Outcome.thrown r, lm1)
  | (none, lm1) =>
    let lm2 := lm1.register t
    match lm2.lock_table rid with
    | none => (Outcome.returned false, lm2)
    | some q =>
      let rq := q.request_queue.eraseP (fun e => decide (e.txn_id = t))
      let q1 : LockRequestQueue :=
        ⟨rq, if rq.length = 0 then RequestQueueState.NOTHING else q.state⟩
      let lm3 := lm2.setQueue rid q1
      if q1.state ≠ RequestQueueState.NOTHING then
        let lm4 := lm3.preventOn t rid
        if lm4.exclusiveWake t rid then lm4.LockUpgradeFinish t rid else (Outcome.waiting, lm4)
      else lm3.LockUpgradeFinish t rid

/-- A blocked `LockUpgrade` re-evaluates its predicate when it is woken. -/
def LockUpgradeResume (lm : LockManager) (t : txn_id_t) (rid : RID) : Outcome × LockManager :=
  if lm.exclusiveWake t rid then lm.LockUpgradeFinish t rid else (Outcome.waiting, lm)

/-- The first two statements of `Unlock`: the record id is erased from both
lock sets of the transaction. -/
def eraseLocks (lm : LockManager) (t : txn_id_t) (rid : RID) : LockManager :=
  { lm with
    txns := setAt lm.txns t
      { lm.txns t with
        shared_lock_set := setErase (lm.txns t).shared_lock_set rid
        exclusive_lock_set := setErase (lm.txns t).exclusive_lock_set rid } }

/-- Models `Unlock`. -/
def Unlock (lm : LockManager) (t : txn_id_t) (rid : RID) : Bool × LockManager :=
  let lm1 := lm.eraseLocks t rid
  let q := lm1.queueOf rid
  let lm2 := lm1.setQueue rid q
  match q.request_queue.find? (fun e => decide (e.txn_id = t)) with
  | none => (false, lm2)
  | some e =>
    let lm3 :=
      if (lm2.txns t).state = TransactionState.GROWING ∧
          ¬ ((lm2.txns t).isolation_level = IsolationLevel.READ_COMMITTED ∧
              e.lock_mode = LockMode.SHARED) then
        lm2.setTxnState t TransactionState.SHRINKING
      else lm2
    let rq := q.request_queue.eraseP (fun e => decide (e.txn_id = t))
    (true, lm3.setQueue rid
      ⟨rq, if rq.length = 0 then RequestQueueState.NOTHING else q.state⟩)

/-- The transaction holds a lock on `rid`: the queue of `rid` has an entry of
the transaction; `e` is the first one. -/
def Holds (lm : LockManager) (t : txn_id_t) (rid : RID) (e : LockRequest) : Prop :=
  (lm.queueOf rid).request_queue.find? (fun e => decide (e.txn_id = t)) = some e

/-- A transaction object in GROWING with empty lock sets. -/
def freshTxn (iso : IsolationLevel) : Transaction :=
  ⟨TransactionState.GROWING, iso, [], []⟩

def rid0 : RID := ⟨0, 0⟩

/-- Transaction 1 runs under READ_UNCOMMITTED and took an exclusive lock on
`rid0`. -/
def uncommittedWriter : LockManager :=
  ((init (fun _ => freshTxn IsolationLevel.READ_UNCOMMITTED)).LockExclusive 1 rid0).2

/-- Transaction 1 is in its shrinking phase. -/
def shrinkingTxn : LockManager :=
  (init (fun _ => freshTxn IsolationLevel.REPEATABLE_READ)).setTxnState 1
    TransactionState.SHRINKING

/-- Transactions 5 and 10 hold shared locks on `rid0`, then 20 and 3 took
their place in the queue. -/
def sharedHolders : LockManager :=
  let lm0 := init (fun _ => freshTxn IsolationLevel.REPEATABLE_READ)
  let lm1 := (lm0.LockShared 5 rid0).2
  let lm2 := (lm1.LockShared 10 rid0).2
  let lm3 := (lm2.LockShared 20 rid0).2
  (lm3.LockShared 3 rid0).2

/-- No queue, no registered transaction; every transaction is GROWING under
REPEATABLE_READ with empty lock sets. -/
def emptyManager : LockManager := init (fun _ => freshTxn IsolationLevel.REPEATABLE_READ)

/-- The call `r` made from `lm` threw `reason` and changed nothing but the
state of the transaction, which is ABORTED. -/
def AbortedOnly (lm : LockManager) (t : txn_id_t) (r : Outcome × LockManager)
    (reason : AbortReason) : Prop :=
  r.1 = Outcome.thrown reason ∧
  (r.2.txns t).state = TransactionState.ABORTED ∧
  r.2.lock_table = lm.lock_table ∧
  (r.2.txns t).shared_lock_set = (lm.txns t).shared_lock_set ∧
  (r.2.txns t).exclusive_lock_set = (lm.txns t).exclusive_lock_set ∧
  ∀ u, u ≠ t → r.2.txns u = lm.txns u

/-- The lock set of a transaction that matches a lock mode. -/
def lockSet (txn : Transaction) : LockMode → List RID
  | LockMode.SHARED => txn.shared_lock_set
  | LockMode.EXCLUSIVE => txn.exclusive_lock_set

/-- The lock is recorded: an entry of the transaction with the mode is in the
queue, the record id is in the matching lock set, the transaction is GROWING. -/
def Granted (lm : LockManager) (t : txn_id_t) (rid : RID) (mode : LockMode) : Prop :=
  (∃ e, e ∈ (lm.queueOf rid).request_queue ∧ e.txn_id = t ∧ e.lock_mode = mode) ∧
  rid ∈ lockSet (lm.txns t) mode ∧
  (lm.txns t).state = TransactionState.GROWING

/-- The call returned true with the lock recorded, or threw with the
transaction in ABORTED. -/
def GrantOrAbort (r : Outcome × LockManager) (t : txn_id_t) (rid : RID) (mode : LockMode) :
    Prop :=
  (r.1 = Outcome.returned true ∧ Granted r.2 t rid mode) ∨
  (∃ reason, r.1 = Outcome.thrown reason ∧ (r.2.txns t).state = TransactionState.ABORTED)

/-- The effect of a granted upgrade on the lock sets and on the queue. -/
def Upgraded (lm lm1 : LockManager) (t : txn_id_t) (rid : RID) : Prop :=
  (lm1.txns t).shared_lock_set = setErase (lm.txns t).shared_lock_set rid ∧
  (lm1.txns t).exclusive_lock_set = setEmplace (lm.txns t).exclusive_lock_set rid ∧
  rid ∉ (lm1.txns t).shared_lock_set ∧
  rid ∈ (lm1.txns t).exclusive_lock_set ∧
  lm1.lock_table rid = some ⟨[⟨t, LockMode.EXCLUSIVE, false⟩], RequestQueueState.WRITE⟩

/-- The call made from `lm` returned false: there was no queue for the record
id, and neither a transaction nor the lock table changed. -/
def Refused (lm : LockManager) (r : Outcome × LockManager) (rid : RID) : Prop :=
  r.1 = Outcome.returned false ∧ lm.lock_table rid = none ∧
  r.2.txns = lm.txns ∧ r.2.lock_table = lm.lock_table

end LockManager
end Bustub

/-! ## Log manager (`src/recovery/log_manager.cpp`) -/

namespace Bustub

/-- The four bytes, least significant first, of a 32-bit integer. -/
def le32 (x : Int) : Bytes :=
  let n := (x % 4294967296).toNat
  [n % 256, n / 256 % 256, n / 65536 % 256, n / 16777216 % 256]

/-- Modelled from the spec: the record types of section 3 (`log_record.h` is
not part of the sources at hand), numbered in the order of the enumeration. -/
inductive LogRecordType
  | INVALID | INSERT | MARKDELETE | APPLYDELETE | ROLLBACKDELETE | UPDATE
  | BEGIN | COMMIT | ABORT | NEWPAGE
  deriving DecidableEq, Repr

def LogRecordType.toInt : LogRecordType → Int
  | INVALID => 0 | INSERT => 1 | MARKDELETE => 2 | APPLYDELETE => 3
  | ROLLBACKDELETE => 4 | UPDATE => 5 | BEGIN => 6 | COMMIT => 7 | ABORT => 8
  | NEWPAGE => 9

/-- Modelled from the spec: a tuple is its bytes; it is serialized as a uint32
size followed by the bytes. -/
structure Tuple where
  data : Bytes
  deriving DecidableEq, Repr

def Tuple.GetLength (tp : Tuple) : Nat := tp.data.length

/-- Modelled from the spec: the log record of section 6: the 20-byte header
fields and the payload fields of each type. -/
structure LogRecord where
  size : Nat
  lsn : Int
  txn_id : txn_id_t
  prev_lsn : Int
  log_record_type : LogRecordType
  insert_rid : RID
  insert_tuple : Tuple
  delete_rid : RID
  delete_tuple : Tuple
  update_rid : RID
  old_tuple : Tuple
  new_tuple : Tuple
  prev_page_id : page_id_t
  page_id : page_id_t
  deriving DecidableEq, Repr

/-- Modelled from the spec: the first 20 bytes of a record: size, lsn, txn_id,
prev_lsn, type. -/
def LogRecord.header (r : LogRecord) : Bytes :=
  le32 r.size ++ le32 r.lsn ++ le32 r.txn_id ++ le32 r.prev_lsn ++ le32 r.log_record_type.toInt

/-- Modelled from the spec: the 8 bytes of a record id: page id, slot. -/
def RID.bytes (rid : RID) : Bytes := le32 rid.page_id ++ le32 rid.slot_num

/-- Modelled from the spec: `Tuple::SerializeTo`: uint32 size, then the bytes. -/
def Tuple.bytes (tp : Tuple) : Bytes := le32 tp.data.length ++ tp.data

/-- The log manager: the buffer being filled, the buffer being written, the
fill offset, the next and the persistent LSN, the flush request flag, and the
log file of the disk manager. -/
structure LogManager where
  log_buffer : Bytes
  flush_buffer : Bytes
  buffer_offset : Nat
  next_lsn : Int
  persistent_lsn : Int
  need_flush : Bool
  log_file : Bytes
  deriving DecidableEq, Repr

namespace LogManager

/-- A log manager with zeroed buffers of `LOG_BUFFER_SIZE` bytes, next LSN 0
and persistent LSN -1 (INVALID_LSN). -/
def init (LOG_BUFFER_SIZE : Nat) : LogManager :=
  ⟨List.replicate LOG_BUFFER_SIZE 0, List.replicate LOG_BUFFER_SIZE 0, 0, 0, -1, false, []⟩

/-- Models `memcpy(buf + off, data, data.length)` on a buffer. -/
def writeBytes (buf : Bytes) (off : Nat) (data : Bytes) : Bytes :=
  buf.take off ++ data ++ buf.drop (off + data.length)

/-- Modelled from the spec: `write_to_buffer(data, n)` (declared in the absent
header) copies the bytes to `log_buffer_ + buffer_offset_` and advances the
offset. -/
def write_to_buffer (lm : LogManager) (data : Bytes) : LogManager :=
  { lm with
    log_buffer := writeBytes lm.log_buffer lm.buffer_offset data
    buffer_offset := lm.buffer_offset + data.length }

/-- Modelled from the spec: `serialize_to_buffer(tuple)` (declared in the absent
header) writes the serialized tuple and advances the offset. -/
def serialize_to_buffer (lm : LogManager) (tp : Tuple) : LogManager :=
  lm.write_to_buffer tp.bytes

/-- Models `GetNextLSN`. -/
def GetNextLSN (lm : LogManager) : Int := lm.next_lsn

/-- The part of `AppendLogRecord` after the wait: the record gets the LSN
`next_lsn_++`, header and payload are written, `GetNextLSN() - 1` is returned. -/
def appendBody (lm : LogManager) (r : LogRecord) : Int × LogRecord × LogManager :=
  let r1 := { r with lsn := lm.next_lsn }
  let lm1 := { lm with next_lsn := wrap32 (lm.next_lsn + 1) }
  let lm2 := lm1.write_to_buffer r1.header
  let lm3 :=
    match r1.log_record_type with
    | LogRecordType.INSERT =>
      (lm2.write_to_buffer r1.insert_rid.bytes).serialize_to_buffer r1.insert_tuple
    | LogRecordType.APPLYDELETE | LogRecordType.MARKDELETE | LogRecordType.ROLLBACKDELETE =>
      (lm2.write_to_buffer r1.delete_rid.bytes).serialize_to_buffer r1.delete_tuple
    | LogRecordType.UPDATE =>
      ((lm2.write_to_buffer r1.update_rid.bytes).serialize_to_buffer
        r1.old_tuple).serialize_to_buffer r1.new_tuple
    | LogRecordType.NEWPAGE =>
      (lm2.write_to_buffer (le32 r1.prev_page_id)).write_to_buffer (le32 r1.page_id)
    | _ => lm2
  (wrap32 (lm3.GetNextLSN - 1), r1, lm3)

/-- Models `AppendLogRecord`: `none` is a call blocked in `append_cv_.wait`
(the flush request is set), `some lsn` the returned LSN; the record is returned
with the LSN it was given. -/
def AppendLogRecord (LOG_BUFFER_SIZE : Nat) (lm : LogManager) (r : LogRecord) :
    Option Int × LogRecord × LogManager :=
  if lm.buffer_offset + r.size ≥ LOG_BUFFER_SIZE then
    (none, r, { lm with need_flush := true })
  else
    let b := lm.appendBody r
    (some b.1, b.2.1, b.2.2)

/-- A blocked `AppendLogRecord` re-evaluates its predicate when it is woken. -/
def AppendResume (LOG_BUFFER_SIZE : Nat) (lm : LogManager) (r : LogRecord) :
    Option Int × LogRecord × LogManager :=
  if lm.buffer_offset + r.size < LOG_BUFFER_SIZE then
    let b := lm.appendBody r
    (some b.1, b.2.1, b.2.2)
  else (none, r, lm)

/-- Models one cycle of the flush thread of `RunFlushThread`. Modelled from the
spec: `WriteLog` appends the bytes to the log file. -/
def flushCycle (LOG_BUFFER_SIZE : Nat) (lm : LogManager) : LogManager :=
  let lm1 :=
    if lm.buffer_offset > 0 then
      { lm with
        log_buffer := List.replicate LOG_BUFFER_SIZE 0
        flush_buffer := lm.log_buffer
        log_file := lm.log_file ++ lm.log_buffer.take lm.buffer_offset
        persistent_lsn := wrap32 (lm.GetNextLSN - 1) }
    else lm
  { lm1 with need_flush := false }

inductive Call
  | append (r : LogRecord)
  | resume (r : LogRecord)
  | flush

/-- One call on the log manager; `acc.1` collects the LSNs of the appends that
returned, in the order they returned. -/
def step (LOG_BUFFER_SIZE : Nat) (acc : List Int × LogManager) :
    Call → List Int × LogManager
  | Call.append r =>
    match AppendLogRecord LOG_BUFFER_SIZE acc.2 r with
    | (some l, _, lm1) => (acc.1 ++ [l], lm1)
    | (none, _, lm1) => (acc.1, lm1)
  | Call.resume r =>
    match AppendResume LOG_BUFFER_SIZE acc.2 r with
    | (some l, _, lm1) => (acc.1 ++ [l], lm1)
    | (none, _, lm1) => (acc.1, lm1)
  | Call.flush => (acc.1, flushCycle LOG_BUFFER_SIZE acc.2)

def run (LOG_BUFFER_SIZE : Nat) (lm : LogManager) (calls : List Call) :
    List Int × LogManager :=
  calls.foldl (step LOG_BUFFER_SIZE) ([], lm)

/-- A BEGIN record of a transaction: header only, 20 bytes. -/
def beginRecord (txn : txn_id_t) : LogRecord :=
  ⟨20, -1, txn, -1, LogRecordType.BEGIN, ⟨0, 0⟩, ⟨[]⟩, ⟨0, 0⟩, ⟨[]⟩, ⟨0, 0⟩, ⟨[]⟩, ⟨[]⟩, -1, -1⟩

/-- A log manager with a 128-byte buffer whose next LSN is 2147483647, the
largest value of the 32-bit signed `lsn_t`. -/
def atLastLsn : LogManager := { init 128 with next_lsn := 2147483647 }

/-- Three appends with a flush cycle in between, on a 128-byte buffer. -/
def threeAppends : List Call :=
  [Call.append (beginRecord 1), Call.append (beginRecord 2), Call.flush,
    Call.append (beginRecord 3)]

end LogManager
end Bustub

/-! ## Buffer pool: sharding, page-table invariant, disk traces;
parallel buffer pool manager (`src/buffer/parallel_buffer_pool_manager.cpp`) -/

namespace Bustub
namespace BufferPoolManagerInstance

/-- `ValidatePageId`: the assertion `page_id % num_instances_ == instance_index_`.
The two members are `uint32_t` (the constructor's parameter types), so the
32-bit signed page id is converted to unsigned 32 bits before the remainder is
taken. -/
def ValidatePageId (s : BufferPoolManagerInstance) (page_id : page_id_t) : Prop :=
  (page_id % 4294967296) % (s.num_instances : Int) = (s.instance_index : Int)

/-- The page id a call hands out: the id `NewPgImp` returns, nothing for the
other calls. -/
def newPageId (s : BufferPoolManagerInstance) : Call → Option page_id_t
  | .newPage => s.NewPgImp.1.map (fun r => r.1)
  | _ => none

/-- The page ids handed out by `NewPgImp` along a sequence of calls, in
allocation order. -/
def newPageIds : BufferPoolManagerInstance → List Call → List page_id_t
  | _, [] => []
  | s, c :: cs => (s.newPageId c).toList ++ newPageIds (s.step c) cs

/-- The number of `NewPage` calls in a sequence of calls. -/
def newPages : List Call → Nat
  | [] => 0
  | .newPage :: cs => newPages cs + 1
  | _ :: cs => newPages cs

/-- The allocator after at most `m` allocations: `next_page_id_` is the 32-bit
value of the instance index plus `k` times the number of instances, for some
`k ≤ m`. -/
def ShardedBy (m : Nat) (s : BufferPoolManagerInstance) : Prop :=
  ∃ k : Nat, k ≤ m ∧
    s.next_page_id = wrap32 ((s.instance_index : Int) + (k : Int) * (s.num_instances : Int))

/-- An instance of four frames with index 0 among 3 * 2^29 instances. -/
def wideShard : BufferPoolManagerInstance := init 4 1610612736 0 4 (fun _ => [])

/-- A call of the buffer pool on the disk manager or the log manager. -/
inductive DiskOp where
  | WritePage (page_id : page_id_t)
  | ReadPage (page_id : page_id_t)
  | FlushLog
  deriving DecidableEq, Repr

/-- Lines 106-111 and 159-164: what happens to the frame to reuse before it is
overwritten: `WritePage`, then, when logging is enabled and the LSN of the page
is above the persistent LSN, `log_manager_->Flush(true)`. `GetLSN` is
`Page::GetLSN` of the absent header. -/
def writeBackOps (enable_logging : Bool) (GetLSN : Page → Int) (persistent_lsn : Int)
    (p : Page) : List DiskOp :=
  [DiskOp.WritePage p.page_id] ++
    (if enable_logging = true ∧ GetLSN p > persistent_lsn then [DiskOp.FlushLog] else [])

/-- The calls `NewPgImp` makes on the disk manager and the log manager, in
order. -/
def NewPgImpOps (s : BufferPoolManagerInstance) (enable_logging : Bool) (GetLSN : Page → Int)
    (persistent_lsn : Int) : List DiskOp :=
  match s.pickFrame with
  | none => []
  | some (f, s1) =>
    let (page_id, s2) := s1.AllocatePage
    if page_id = INVALID_PAGE_ID then []
    else
      let p := s2.pages f
      if p.is_dirty then writeBackOps enable_logging GetLSN persistent_lsn p else []

/-- The calls `FetchPgImp` makes on the disk manager and the log manager, in
order. -/
def FetchPgImpOps (s : BufferPoolManagerInstance) (page_id : page_id_t) (enable_logging : Bool)
    (GetLSN : Page → Int) (persistent_lsn : Int) : List DiskOp :=
  match s.page_table page_id with
  | some _ => []
  | none =>
    match s.pickFrame with
    | none => []
    | some (f, s1) =>
      let p := s1.pages f
      (if p.is_dirty ∧ p.page_id ≠ INVALID_PAGE_ID
        then writeBackOps enable_logging GetLSN persistent_lsn p else []) ++
        [DiskOp.ReadPage page_id]

end BufferPoolManagerInstance

/-- The parallel pool: its instances and the disk manager they share. -/
structure ParallelBufferPoolManager where
  num_instance : Nat
  pool_size : Nat
  starting_index : Nat
  buffer_pool_managers : List BufferPoolManagerInstance
  disk : page_id_t → Bytes

namespace ParallelBufferPoolManager

/-- Constructor: instance `i` is built with `(pool_size, num_instances, i)`;
the starting index is 0. -/
def init (num_instances pool_size page_size : Nat) (disk : page_id_t → Bytes) :
    ParallelBufferPoolManager where
  num_instance := num_instances
  pool_size := pool_size
  starting_index := 0
  buffer_pool_managers :=
    (List.range num_instances).map
      (fun i => BufferPoolManagerInstance.init pool_size num_instances i page_size disk)
  disk := disk

/-- The conversion of a 32-bit page id to `size_t` (64 bits): a negative id
`d` becomes `2^64 + d`. -/
def toSizeT (page_id : page_id_t) : Nat :=
  if page_id < 0 then (page_id + 18446744073709551616).toNat else page_id.toNat

/-- `GetBufferPoolManager`: the index `page_id % num_instance`, the page id
converted to `size_t` before the remainder is taken. -/
def GetBufferPoolManager (p : ParallelBufferPoolManager) (page_id : page_id_t) : Nat :=
  toSizeT page_id % p.num_instance

/-- A call `op` on instance `k`, which works on the shared disk; `dflt` stands
for an index outside the vector, which no call computes when there is at
least one instance. -/
def onInstance {α : Type} (p : ParallelBufferPoolManager) (k : Nat)
    (op : BufferPoolManagerInstance → α × BufferPoolManagerInstance) (dflt : α) :
    α × ParallelBufferPoolManager :=
  match p.buffer_pool_managers.get? k with
  | none => (dflt, p)
  | some inst =>
    let r := op { inst with disk := p.disk }
    (r.1, { p with buffer_pool_managers := p.buffer_pool_managers.set k r.2, disk := r.2.disk })

def FetchPgImp (p : ParallelBufferPoolManager) (page_id : page_id_t) :
    Option frame_id_t × ParallelBufferPoolManager :=
  p.onInstance (p.GetBufferPoolManager page_id) (fun s => s.FetchPgImp page_id) none

def UnpinPgImp (p : ParallelBufferPoolManager) (page_id : page_id_t) (is_dirty : Bool) :
    Bool × ParallelBufferPoolManager :=
  p.onInstance (p.GetBufferPoolManager page_id) (fun s => s.UnpinPgImp page_id is_dirty) false

def FlushPgImp (p : ParallelBufferPoolManager) (page_id : page_id_t) :
    Bool × ParallelBufferPoolManager :=
  p.onInstance (p.GetBufferPoolManager page_id) (fun s => s.FlushPgImp page_id) false

def DeletePgImp (p : ParallelBufferPoolManager) (page_id : page_id_t) :
    Bool × ParallelBufferPoolManager :=
  p.onInstance (p.GetBufferPoolManager page_id) (fun s => s.DeletePgImp page_id) false

/-- The loop of `NewPgImp` from index `i`: the result (page id, instance,
frame), the index `i` after the loop, and the pool. The loop body runs at most
`num_instance` times, after which `i` is back at the starting index; `fuel`
counts the runs that are left. -/
def probe (p : ParallelBufferPoolManager) :
    Nat → Nat → Option (page_id_t × Nat × frame_id_t) × Nat × ParallelBufferPoolManager
  | 0, i => (none, i, p)
  | fuel + 1, i =>
    let r := p.onInstance i (fun s => s.NewPgImp) none
    let i1 := (i + 1) % p.num_instance
    match r.1 with
    | some (page_id, f) => (some (page_id, i, f), i1, r.2)
    | none => if i1 = p.starting_index then (none, i1, r.2) else probe r.2 fuel i1

/-- `NewPgImp`: the result names the page id, the instance that allocated it
and the frame. -/
def NewPgImp (p : ParallelBufferPoolManager) :
    Option (page_id_t × Nat × frame_id_t) × ParallelBufferPoolManager :=
  let r := p.probe p.num_instance p.starting_index
  (r.1, { r.2.2 with starting_index := (r.2.1 + 1) % p.num_instance })

/-- `FlushAllPgsImp`: `FlushAllPages` on every instance. -/
def FlushAllPgsImp (p : ParallelBufferPoolManager) : ParallelBufferPoolManager :=
  (List.range p.buffer_pool_managers.length).foldl
    (fun q k => (q.onInstance k (fun s => ((), s.FlushAllPgsImp)) ()).2) p

inductive Call where
  | fetch (page_id : page_id_t)
  | newPage
  | unpin (page_id : page_id_t) (is_dirty : Bool)
  | flush (page_id : page_id_t)
  | flushAll
  | delete (page_id : page_id_t)

def step (p : ParallelBufferPoolManager) : Call → ParallelBufferPoolManager
  | .fetch page_id => (p.FetchPgImp page_id).2
  | .newPage => p.NewPgImp.2
  | .unpin page_id is_dirty => (p.UnpinPgImp page_id is_dirty).2
  | .flush page_id => (p.FlushPgImp page_id).2
  | .flushAll => p.FlushAllPgsImp
  | .delete page_id => (p.DeletePgImp page_id).2

def run (p : ParallelBufferPoolManager) (calls : List Call) : ParallelBufferPoolManager :=
  calls.foldl step p


/-- The number of `NewPage` calls in a sequence of calls on the pool. -/
def newPages : List Call → Nat
  | [] => 0
  | .newPage :: cs => newPages cs + 1
  | _ :: cs => newPages cs

/-- What a pool satisfies after at most `m` calls of `NewPage`: instance `k` of
the `num_instance` instances has index `k`, knows the number of instances, and
its allocator has made at most `m` allocations. -/
structure PoolInv (m : Nat) (p : ParallelBufferPoolManager) : Prop where
  pos : 0 < p.num_instance
  len : p.buffer_pool_managers.length = p.num_instance
  inst : ∀ k s, p.buffer_pool_managers.get? k = some s →
    s.num_instances = p.num_instance ∧ s.instance_index = k ∧ s.ShardedBy m

/-- A pool of two instances of two frames each. -/
def twoByTwo : ParallelBufferPoolManager := init 2 2 4 (fun _ => [])

end ParallelBufferPoolManager
end Bustub

/-! ## Log recovery (`src/recovery/log_recovery.cpp`) -/

namespace Bustub

/-- The unsigned 32-bit value of the four bytes at `off`, least significant
first (`memcpy` into a `uint32_t`). -/
def readU32 (buf : Bytes) (off : Nat) : Nat :=
  buf.getD off 0 + 256 * buf.getD (off + 1) 0 + 65536 * buf.getD (off + 2) 0 +
    16777216 * buf.getD (off + 3) 0

/-- The signed 32-bit value of the four bytes at `off` (`memcpy` into an
`int32_t`). -/
def read32 (buf : Bytes) (off : Nat) : Int := wrap32 (readU32 buf off)

/-- The record type with a given number; numbers outside the enumeration take
the `default` branch of every switch, as INVALID does. -/
def LogRecordType.ofInt (x : Int) : LogRecordType :=
  if x = 1 then INSERT else if x = 2 then MARKDELETE else if x = 3 then APPLYDELETE
  else if x = 4 then ROLLBACKDELETE else if x = 5 then UPDATE else if x = 6 then BEGIN
  else if x = 7 then COMMIT else if x = 8 then ABORT else if x = 9 then NEWPAGE
  else INVALID

/-- Modelled from the spec: `memcpy(&rid, data, sizeof(RID))`: page id, then
slot. -/
def RID.read (buf : Bytes) (off : Nat) : RID := ⟨read32 buf off, readU32 buf (off + 4)⟩

/-- Modelled from the spec: `Tuple::DeserializeFrom` (`tuple.h` is not part of
the sources at hand): a uint32 size, then that many bytes. -/
def Tuple.DeserializeFrom (buf : Bytes) (off : Nat) : Tuple :=
  ⟨(buf.drop (off + 4)).take (readU32 buf off)⟩

namespace LogRecovery

/-- Models `DeserializeLogRecord(data, log_record)`, `data` being the offset
into `log_buffer_`: the fields of `log_record` that the record type does not
carry keep their values. The size is read as a signed 32-bit integer; a record
whose size is not positive is refused. -/
def DeserializeLogRecord (LOG_BUFFER_SIZE : Nat) (log_buffer : Bytes) (data : Nat)
    (log_record : LogRecord) : Bool × LogRecord :=
  if data + 20 > LOG_BUFFER_SIZE then (false, log_record)
  else
    let size := read32 log_buffer data
    let r1 : LogRecord :=
      { log_record with
        size := size.toNat
        lsn := read32 log_buffer (data + 4)
        txn_id := read32 log_buffer (data + 8)
        prev_lsn := read32 log_buffer (data + 12)
        log_record_type := LogRecordType.ofInt (read32 log_buffer (data + 16)) }
    if size + data > LOG_BUFFER_SIZE ∨ size ≤ 0 then (false, r1)
    else
      let d := data + 20
      match r1.log_record_type with
      | LogRecordType.INSERT =>
        (true, { r1 with
          insert_rid := RID.read log_buffer d
          insert_tuple := Tuple.DeserializeFrom log_buffer (d + 8) })
      | LogRecordType.APPLYDELETE | LogRecordType.MARKDELETE | LogRecordType.ROLLBACKDELETE =>
        (true, { r1 with
          delete_rid := RID.read log_buffer d
          delete_tuple := Tuple.DeserializeFrom log_buffer (d + 8) })
      | LogRecordType.UPDATE =>
        let old := Tuple.DeserializeFrom log_buffer (d + 8)
        (true, { r1 with
          update_rid := RID.read log_buffer d
          old_tuple := old
          new_tuple := Tuple.DeserializeFrom log_buffer (d + 8 + old.GetLength) })
      | LogRecordType.NEWPAGE =>
        (true, { r1 with
          prev_page_id := read32 log_buffer d
          page_id := read32 log_buffer (d + 4) })
      | _ => (true, r1)

/-- A call `Redo` makes on the buffer pool or on the table page it fetched;
`page_id` is the id of the page the call goes to. -/
inductive RedoEvent where
  | FetchPage (page_id : page_id_t)
  | UnpinPage (page_id : page_id_t) (is_dirty : Bool)
  | Init (page_id prev_page_id : page_id_t)
  | SetLSN (page_id : page_id_t) (lsn : Int)
  | SetNextPageId (page_id next : page_id_t)
  | InsertTuple (page_id : page_id_t) (rid : RID) (tp : Tuple)
  | ApplyDelete (page_id : page_id_t) (rid : RID)
  | MarkDelete (page_id : page_id_t) (rid : RID)
  | RollbackDelete (page_id : page_id_t) (rid : RID)
  | UpdateTuple (page_id : page_id_t) (rid : RID) (new_tuple old_tuple : Tuple)
  deriving DecidableEq, Repr

/-- Assignment `m[k] = v` on a map kept as a list of entries. -/
def mapSet {K V : Type} [DecidableEq K] (m : List (K × V)) (k : K) (v : V) : List (K × V) :=
  m.filter (fun e => decide (e.1 ≠ k)) ++ [(k, v)]

def mapErase {K V : Type} [DecidableEq K] (m : List (K × V)) (k : K) : List (K × V) :=
  m.filter (fun e => decide (e.1 ≠ k))

/-- What `Redo` reads and writes. Modelled from the spec: of the table pages
(`table_page.h` is not part of the sources at hand) the LSN and the next page
id of each page; `FetchPage` finds a frame. `trace` lists the calls made, in
order. -/
structure RedoState where
  page_lsn : page_id_t → Int
  next_page_id : page_id_t → page_id_t
  active_txn : List (txn_id_t × Int)
  lsn_mapping : List (Int × Nat)
  trace : List RedoEvent

def RedoState.emit (st : RedoState) (e : RedoEvent) : RedoState :=
  { st with trace := st.trace ++ [e] }

/-- The `NEWPAGE` case of the first switch of `Redo` (lines 100-115).
Modelled from the spec: `TablePage::Init` starts a page without a successor. -/
def redoNewPage (st : RedoState) (record : LogRecord) : RedoState :=
  let st1 := st.emit (RedoEvent.FetchPage record.page_id)
  let need_redo := decide (record.lsn > st1.page_lsn record.page_id)
  let st2 :=
    if need_redo then
      let a := st1.emit (RedoEvent.Init record.page_id record.prev_page_id)
      let b : RedoState :=
        { a.emit (RedoEvent.SetLSN record.page_id record.lsn) with
          next_page_id := setAt a.next_page_id record.page_id INVALID_PAGE_ID
          page_lsn := setAt a.page_lsn record.page_id record.lsn }
      if record.prev_page_id ≠ INVALID_PAGE_ID then
        let c := b.emit (RedoEvent.FetchPage record.prev_page_id)
        let need_update := decide (c.next_page_id record.prev_page_id ≠ record.page_id)
        let d : RedoState :=
          { c.emit (RedoEvent.SetNextPageId record.prev_page_id record.page_id) with
            next_page_id := setAt c.next_page_id record.prev_page_id record.page_id }
        d.emit (RedoEvent.UnpinPage record.prev_page_id need_update)
      else b
    else st1
  st2.emit (RedoEvent.UnpinPage record.page_id need_redo)

/-- Lines 120-150 of `Redo`: the page `record.page_id_` is fetched, and the
operation of the record is replayed on it when the LSN of the record is above
the LSN of that page. Modelled from the spec: with logging disabled the
table-page calls leave the LSN of the page. -/
def redoTail (st : RedoState) (record : LogRecord) : RedoState :=
  let st1 := st.emit (RedoEvent.FetchPage record.page_id)
  let need_redo := decide (record.lsn > st1.page_lsn record.page_id)
  let st2 :=
    if need_redo then
      match record.log_record_type with
      | LogRecordType.INSERT =>
        st1.emit (RedoEvent.InsertTuple record.page_id record.insert_rid record.insert_tuple)
      | LogRecordType.APPLYDELETE =>
        st1.emit (RedoEvent.ApplyDelete record.page_id record.delete_rid)
      | LogRecordType.MARKDELETE =>
        st1.emit (RedoEvent.MarkDelete record.page_id record.delete_rid)
      | LogRecordType.ROLLBACKDELETE =>
        st1.emit (RedoEvent.RollbackDelete record.page_id record.delete_rid)
      | LogRecordType.UPDATE =>
        st1.emit (RedoEvent.UpdateTuple record.page_id record.update_rid record.new_tuple
          record.old_tuple)
      | _ => st1
    else st1
  st2.emit (RedoEvent.UnpinPage record.page_id need_redo)

/-- The body of the inner loop of `Redo` for a record that was deserialized at
file offset `pos`. -/
def redoRecord (st : RedoState) (record : LogRecord) (pos : Nat) : RedoState :=
  let st1 : RedoState :=
    { st with
      lsn_mapping := mapSet st.lsn_mapping record.lsn pos
      active_txn := mapSet st.active_txn record.txn_id record.lsn }
  match record.log_record_type with
  | LogRecordType.BEGIN => st1
  | LogRecordType.COMMIT | LogRecordType.ABORT =>
    { st1 with active_txn := mapErase st1.active_txn record.txn_id }
  | LogRecordType.NEWPAGE => redoTail (redoNewPage st1 record) record
  | _ => redoTail st1 record

/-- The inner loop of `Redo` on one buffer: `record` is the record object that
every `DeserializeLogRecord` of the loop writes into. Every round advances
`buffer_offset` by a positive size, so `LOG_BUFFER_SIZE` rounds of `fuel`
exhaust the buffer. -/
def redoBuffer (LOG_BUFFER_SIZE : Nat) (log_buffer : Bytes) (offset : Nat) :
    Nat → Nat → LogRecord → RedoState → Nat × RedoState
  | 0, buffer_offset, _, st => (buffer_offset, st)
  | fuel + 1, buffer_offset, record, st =>
    match DeserializeLogRecord LOG_BUFFER_SIZE log_buffer buffer_offset record with
    | (false, _) => (buffer_offset, st)
    | (true, r) =>
      redoBuffer LOG_BUFFER_SIZE log_buffer offset fuel (buffer_offset + r.size) r
        (redoRecord st r (buffer_offset + offset))

/-- Modelled from the spec: `DiskManager::ReadLog(buf, size, offset)` fills the
buffer with the bytes of the log file from `offset`, zeroes behind them; it
returns false (`none`) at or behind the end of the file. -/
def ReadLog (log_file : Bytes) (size offset : Nat) : Option Bytes :=
  if offset ≥ log_file.length then none
  else
    let chunk := (log_file.drop offset).take size
    some (chunk ++ List.replicate (size - chunk.length) 0)

/-- Models `Redo`: `none` when `fuel` rounds of the outer loop did not reach
the end of the log file. `record0` is the default-constructed `LogRecord` of
each round. -/
def Redo (LOG_BUFFER_SIZE : Nat) (log_file : Bytes) (record0 : LogRecord) :
    Nat → Nat → RedoState → Option RedoState
  | 0, _, _ => none
  | fuel + 1, offset, st =>
    match ReadLog log_file LOG_BUFFER_SIZE offset with
    | none => some st
    | some log_buffer =>
      let r := redoBuffer LOG_BUFFER_SIZE log_buffer offset LOG_BUFFER_SIZE 0 record0 st
      Redo LOG_BUFFER_SIZE log_file record0 fuel (offset + r.1) r.2

/-- No page was ever written: every page LSN is -1 (INVALID_LSN). -/
def RedoState.fresh : RedoState :=
  ⟨fun _ => -1, fun _ => INVALID_PAGE_ID, [], [], []⟩

end LogRecovery

namespace LogManager

/-- An UPDATE record of transaction 1 on record id (0, 0): the original tuple
has the four bytes 1, 0, 0, 0, the updated tuple the two bytes 9, 9; the size
is 20 + 8 + (4 + 4) + (4 + 2). -/
def updateRecord : LogRecord :=
  ⟨42, -1, 1, -1, LogRecordType.UPDATE, ⟨0, 0⟩, ⟨[]⟩, ⟨0, 0⟩, ⟨[]⟩, ⟨0, 0⟩, ⟨[1, 0, 0, 0]⟩,
    ⟨[9, 9]⟩, -1, -1⟩

/-- An INSERT record of transaction 1: record id (0, 0), tuple bytes 7, 8, 9;
the size is 20 + 8 + (4 + 3). -/
def insertRecord : LogRecord :=
  ⟨35, -1, 1, -1, LogRecordType.INSERT, ⟨0, 0⟩, ⟨[7, 8, 9]⟩, ⟨0, 0⟩, ⟨[]⟩, ⟨0, 0⟩, ⟨[]⟩,
    ⟨[]⟩, -1, -1⟩

/-- A NEWPAGE record of transaction 1 for page `page_id` after `prev`; the
size is 20 + 8. -/
def newPageRecord (prev page_id : page_id_t) : LogRecord :=
  ⟨28, -1, 1, -1, LogRecordType.NEWPAGE, ⟨0, 0⟩, ⟨[]⟩, ⟨0, 0⟩, ⟨[]⟩, ⟨0, 0⟩, ⟨[]⟩, ⟨[]⟩,
    prev, page_id⟩

/-- A default-constructed record. Modelled from the spec: type INVALID, LSN
and page ids invalid (-1). -/
def emptyRecord : LogRecord :=
  ⟨0, -1, -1, -1, LogRecordType.INVALID, ⟨-1, 0⟩, ⟨[]⟩, ⟨-1, 0⟩, ⟨[]⟩, ⟨-1, 0⟩, ⟨[]⟩, ⟨[]⟩,
    -1, -1⟩

/-- The log file after NEWPAGE records for pages 0 and 1 and an INSERT record
whose record id is on page 0 were appended and flushed. -/
def insertAfterNewPages : Bytes :=
  (run 128 (init 128)
    [Call.append (newPageRecord (-1) 0), Call.append (newPageRecord 0 1),
      Call.append insertRecord, Call.flush]).2.log_file

/-- The log file that holds one INSERT record whose record id is on page 0. -/
def insertOnly : Bytes :=
  (run 128 (init 128) [Call.append insertRecord, Call.flush]).2.log_file

end LogManager
end Bustub

/-! ## Executors (`src/execution/*.cpp`) -/

namespace Bustub

/-- Modelled from the spec: the result of `Value::CompareEquals` (the value
system is not part of the sources at hand). -/
inductive CmpBool
  | CmpFalse | CmpTrue | CmpNull
  deriving DecidableEq, Repr

/-- Modelled from the spec: a child executor (`AbstractExecutor`), which after
every `Init` yields the rows `rows` in order; `rest` are the rows it has not
yielded yet. A `Next` that returns false leaves the output tuple. -/
structure ChildExecutor (Row : Type) where
  rows : List Row
  rest : List Row

namespace ChildExecutor

variable {Row : Type}

def Init (c : ChildExecutor Row) : ChildExecutor Row := { c with rest := c.rows }

def Next (c : ChildExecutor Row) : Option Row × ChildExecutor Row :=
  match c.rest with
  | [] => (none, c)
  | r :: rs => (some r, { c with rest := rs })

end ChildExecutor

/-- The rows an executor yields: `Next` is called until it returns false, at
most `fuel` times. -/
def drain {S Row : Type} (next : S → Option Row × S) : Nat → S → List Row
  | 0, _ => []
  | fuel + 1, s =>
    match next s with
    | (none, _) => []
    | (some r, s1) => r :: drain next fuel s1

/-! ### Sequential scan (`seq_scan_executor.cpp`) -/

/-- What `SeqScanExecutor::Next` does to its caller: a row with its record id,
false at the end of the table, an abort thrown by the lock manager, or a wait
inside `LockShared`. -/
inductive ScanResult (Row : Type)
  | row (tuple : Row) (rid : RID)
  | done
  | thrown (r : AbortReason)
  | waiting
  deriving DecidableEq

/-- Modelled from the spec: the table heap as the rows of its iterator, each
with its record id; `iterator` is the position of the iterator, the length of
the table being `end`. `predicate` is the predicate of the plan (null is
`none`), `projection` the tuple built from the output columns when the
`projection` flag is set. -/
structure SeqScanExecutor (Row : Type) where
  table : List (RID × Row)
  iterator : Nat
  predicate : Option (Row → Bool)
  projection : Option (Row → Row)

namespace SeqScanExecutor

variable {Row : Type}

/-- Modelled from the spec: the record id of the end iterator, an invalid
one. -/
def endRid : RID := ⟨INVALID_PAGE_ID, 0⟩

/-- `iterator->GetRid()` for an iterator at position `i`. -/
def ridAt (table : List (RID × Row)) (i : Nat) : RID :=
  ((table.get? i).map (fun x => x.1)).getD endRid

/-- The part of `Next` that follows `++iterator` for the row `(rid, tuple)`:
`LockShared` on `iterator->GetRid()` unless the transaction is null or reads
uncommitted, the projection, `Unlock` of `iterator->GetRid()` under
READ_COMMITTED, `return true`; `i` is the position of the iterator, already
advanced. -/
def emitRow (e : SeqScanExecutor Row) (lm : LockManager) (txn : Option txn_id_t)
    (rid : RID) (tuple : Row) (i : Nat) : ScanResult Row × SeqScanExecutor Row × LockManager :=
  let e1 := { e with iterator := i }
  let out := match e.projection with
    | some pr => pr tuple
    | none => tuple
  match txn with
  | none => (ScanResult.row out rid, e1, lm)
  | some t =>
    match (lm.txns t).isolation_level with
    | IsolationLevel.READ_UNCOMMITTED => (ScanResult.row out rid, e1, lm)
    | IsolationLevel.READ_COMMITTED =>
      match lm.LockShared t (ridAt e.table i) with
      | (Outcome.thrown r, lm1) => (ScanResult.thrown r, e1, lm1)
      | (Outcome.waiting, lm1) => (ScanResult.waiting, e1, lm1)
      | (Outcome.returned _, lm1) =>
        (ScanResult.row out rid, e1, (lm1.Unlock t (ridAt e.table i)).2)
    | IsolationLevel.REPEATABLE_READ =>
      match lm.LockShared t (ridAt e.table i) with
      | (Outcome.thrown r, lm1) => (ScanResult.thrown r, e1, lm1)
      | (Outcome.waiting, lm1) => (ScanResult.waiting, e1, lm1)
      | (Outcome.returned _, lm1) => (ScanResult.row out rid, e1, lm1)

/-- The loop of `Next` over the rows from position `i` on. -/
def nextLoop (e : SeqScanExecutor Row) (lm : LockManager) (txn : Option txn_id_t) :
    List (RID × Row) → Nat → ScanResult Row × SeqScanExecutor Row × LockManager
  | [], i => (ScanResult.done, { e with iterator := i }, lm)
  | (rid, tuple) :: rest, i =>
    match e.predicate with
    | some pred =>
      if pred tuple then e.emitRow lm txn rid tuple (i + 1)
      else nextLoop e lm txn rest (i + 1)
    | none => e.emitRow lm txn rid tuple (i + 1)

/-- Models `SeqScanExecutor::Next`. -/
def Next (e : SeqScanExecutor Row) (lm : LockManager) (txn : Option txn_id_t) :
    ScanResult Row × SeqScanExecutor Row × LockManager :=
  e.nextLoop lm txn (e.table.drop e.iterator) e.iterator

/-- A table of two rows, 10 at record id (0, 0) and 11 at (0, 1), scanned from
the start without predicate and without projection. -/
def twoRows : SeqScanExecutor Nat := ⟨[(⟨0, 0⟩, 10), (⟨0, 1⟩, 11)], 0, none, none⟩

/-- Every transaction is GROWING under READ_COMMITTED; nothing is locked. -/
def committedReaders : LockManager :=
  LockManager.init (fun _ => LockManager.freshTxn IsolationLevel.READ_COMMITTED)

end SeqScanExecutor

/-! ### Nested-loop join (`nested_loop_join_executor.cpp`) -/

/-- The executor with its children and the outer tuple; `predicate` is the
predicate of the plan (null is `none`), `combine` the tuple of the output
columns evaluated on an outer and an inner tuple. -/
structure NestedLoopJoinExecutor (Row : Type) where
  left_executor : ChildExecutor Row
  right_executor : ChildExecutor Row
  outer_tuple : Row
  predicate : Option (Row → Row → Bool)
  combine : Row → Row → Row

namespace NestedLoopJoinExecutor

variable {Row : Type}

/-- Constructor: `outer_tuple_()` is a default-constructed tuple. -/
def mk0 [Inhabited Row] (left right : List Row) (predicate : Option (Row → Row → Bool))
    (combine : Row → Row → Row) : NestedLoopJoinExecutor Row :=
  ⟨⟨left, left⟩, ⟨right, right⟩, default, predicate, combine⟩

/-- `Init`: both children are initialized and the first left row is read into
`outer_tuple_`; the result of that `Next` is not looked at. -/
def Init (e : NestedLoopJoinExecutor Row) : NestedLoopJoinExecutor Row :=
  let l := e.left_executor.Init.Next
  { e with
    left_executor := l.2
    right_executor := e.right_executor.Init
    outer_tuple := l.1.getD e.outer_tuple }

/-- The `while` loop of `Next`: the first inner row that matches the outer
tuple, with the rows of the right child that are left. -/
def scanRight (e : NestedLoopJoinExecutor Row) (outer : Row) :
    List Row → Option (Row × List Row)
  | [] => none
  | inner :: rest =>
    let isMatch := match e.predicate with
      | some pred => pred outer inner
      | none => true
    if isMatch then some (e.combine outer inner, rest) else scanRight e outer rest

/-- `Next` with the left rows that are left as its recursion argument: when the
right child is exhausted it is initialized again, the next left row becomes the
outer tuple and `Next` calls itself. -/
def nextFrom (e : NestedLoopJoinExecutor Row) :
    List Row → Row → List Row → Option Row × NestedLoopJoinExecutor Row
  | leftRest, outer, rightRest =>
    match e.scanRight outer rightRest with
    | some (out, rest) =>
      (some out, { e with
        left_executor := { e.left_executor with rest := leftRest }
        right_executor := { e.right_executor with rest := rest }
        outer_tuple := outer })
    | none =>
      match leftRest with
      | [] =>
        (none, { e with
          left_executor := { e.left_executor with rest := [] }
          right_executor := e.right_executor.Init
          outer_tuple := outer })
      | l :: ls => nextFrom e ls l e.right_executor.rows

/-- Models `NestedLoopJoinExecutor::Next`. -/
def Next (e : NestedLoopJoinExecutor Row) : Option Row × NestedLoopJoinExecutor Row :=
  e.nextFrom e.left_executor.rest e.outer_tuple e.right_executor.rest

/-- A cross join (null predicate) of an empty left child with a right child
that yields the one row 5; the output column is the column of the right
row. -/
def emptyLeft : NestedLoopJoinExecutor Nat := mk0 [] [5] none (fun _ r => r)

end NestedLoopJoinExecutor

/-! ### Distinct (`distinct_executor.cpp`, `distinct_plan.h`) -/

/-- `DistinctKey::operator==` on the values of two keys: the same number of
values, and `CompareEquals` is `CmpTrue` at every position. -/
def DistinctKey.eq {Val : Type} (CompareEquals : Val → Val → CmpBool) :
    List Val → List Val → Bool
  | [], [] => true
  | a :: as, b :: bs =>
    if CompareEquals a b ≠ CmpBool.CmpTrue then false else DistinctKey.eq CompareEquals as bs
  | _, _ => false

/-- The executor with its child and the keys seen. A row is the list of its
values. Modelled from the spec: `MakeDistinctKey` (declared in the absent
executor header) takes the values of the row as the key; the hash of the set
agrees with `operator==`, so `key_set.count(key)` finds a stored key exactly
when `key == stored` holds for one. -/
structure DistinctExecutor (Val : Type) where
  child_executor : ChildExecutor (List Val)
  key_set : List (List Val)
  CompareEquals : Val → Val → CmpBool

namespace DistinctExecutor

variable {Val : Type}

def MakeDistinctKey (tuple : List Val) : List Val := tuple

/-- `key_set.count(key)`. -/
def count (e : DistinctExecutor Val) (key_set : List (List Val)) (key : List Val) : Nat :=
  if key_set.any (fun stored => DistinctKey.eq e.CompareEquals key stored) then 1 else 0

def Init (e : DistinctExecutor Val) : DistinctExecutor Val :=
  { e with key_set := [], child_executor := e.child_executor.Init }

/-- The `while` loop of `Next` over the rows the child has left. -/
def nextLoop (e : DistinctExecutor Val) (key_set : List (List Val)) :
    List (List Val) → Option (List Val) × DistinctExecutor Val
  | [] => (none, { e with key_set := key_set, child_executor := { e.child_executor with rest := [] } })
  | tuple :: rest =>
    if e.count key_set (MakeDistinctKey tuple) = 0 then
      (some tuple, { e with
        key_set := key_set ++ [MakeDistinctKey tuple]
        child_executor := { e.child_executor with rest := rest } })
    else nextLoop e key_set rest

/-- Models `DistinctExecutor::Next`. -/
def Next (e : DistinctExecutor Val) : Option (List Val) × DistinctExecutor Val :=
  e.nextLoop e.key_set e.child_executor.rest

/-- Two rows are equal for the executor. -/
def rowEq (e : DistinctExecutor Val) (a b : List Val) : Bool :=
  DistinctKey.eq e.CompareEquals (MakeDistinctKey a) (MakeDistinctKey b)

/-- In the words of the spec: the rows of the child with every row that equals
an earlier row removed; `earlier` are the rows before `rows`. -/
def firstOccurrences (e : DistinctExecutor Val) :
    List (List Val) → List (List Val) → List (List Val)
  | _, [] => []
  | earlier, r :: rs =>
    if earlier.any (fun x => e.rowEq r x) then firstOccurrences e (earlier ++ [r]) rs
    else r :: firstOccurrences e (earlier ++ [r]) rs

/-- The rows `Next` yields from a state with keys `key_set` and child rows
`rest`, in closed form. -/
def yielded (CompareEquals : Val → Val → CmpBool) :
    List (List Val) → List (List Val) → List (List Val)
  | _, [] => []
  | key_set, r :: rs =>
    if key_set.any (fun stored => DistinctKey.eq CompareEquals (MakeDistinctKey r) stored) then
      yielded CompareEquals key_set rs
    else r :: yielded CompareEquals (key_set ++ [MakeDistinctKey r]) rs

/-- Integer values compared by equality. -/
def intRows (rows : List (List Int)) : DistinctExecutor Int :=
  ⟨⟨rows, rows⟩, [], fun a b => if a = b then CmpBool.CmpTrue else CmpBool.CmpFalse⟩

end DistinctExecutor

/-! ### Hash join (`hash_join_executor.cpp`, `hash_join_executor.h`) -/

/-- `HashJoinKey::operator==`. -/
def HashJoinKey.eq {Val : Type} (CompareEquals : Val → Val → CmpBool) (a b : Val) : Bool :=
  decide (CompareEquals a b = CmpBool.CmpTrue)

/-- An output column: the tuple index and the column index of its
`ColumnValueExpression`. -/
structure OutputColumn where
  tuple_idx : Nat
  col_idx : Nat
  deriving DecidableEq, Repr

/-- The executor: a row is the list of its values; `ht` is the hash table
`ht_` as the list of its entries, whose hash agrees with `operator==`;
`LeftJoinKeyExpression` and `RightJoinKeyExpression` evaluate the join keys,
`columns` are the columns of the output schema. -/
structure HashJoinExecutor (Val : Type) where
  left_executor : ChildExecutor (List Val)
  right_executor : ChildExecutor (List Val)
  ht : List (Val × List (List Val))
  cur_key : Val
  cur_idx : Int
  right_tuple : List Val
  CompareEquals : Val → Val → CmpBool
  LeftJoinKeyExpression : List Val → Val
  RightJoinKeyExpression : List Val → Val
  columns : List OutputColumn

namespace HashJoinExecutor

variable {Val : Type}

/-- `ht_.count(key)`. -/
def count (eq : Val → Val → Bool) (ht : List (Val × List (List Val))) (key : Val) : Nat :=
  if ht.any (fun e => eq key e.1) then 1 else 0

/-- `ht_[key]` for a key that the table holds. -/
def bucket (eq : Val → Val → Bool) (ht : List (Val × List (List Val))) (key : Val) :
    List (List Val) :=
  ((ht.find? (fun e => eq key e.1)).map (fun e => e.2)).getD []

/-- `ht_[key].emplace_back(vals)` for a key that the table holds. -/
def emplaceBack (eq : Val → Val → Bool) :
    List (Val × List (List Val)) → Val → List Val → List (Val × List (List Val))
  | [], _, _ => []
  | e :: es, key, vals =>
    if eq key e.1 then (e.1, e.2 ++ [vals]) :: es else e :: emplaceBack eq es key vals

/-- The body of the loop of the constructor for one left row. -/
def build1 (eq : Val → Val → Bool) (leftKey : List Val → Val)
    (ht : List (Val × List (List Val))) (tuple : List Val) : List (Val × List (List Val)) :=
  if count eq ht (leftKey tuple) > 0 then emplaceBack eq ht (leftKey tuple) tuple
  else ht ++ [(leftKey tuple, [tuple])]

/-- Constructor: the left child is initialised and read to its end, and the
hash table is built from its rows.  The constructor neither initialises the
right child nor assigns `cur_idx`: `right0` are the rows the right child would
yield before its `Init`, `idx0` is the value the uninitialised `int cur_idx`
holds.  `cur_key` and `right_tuple` are default-constructed. -/
def mk0 [Inhabited Val] (left right : List (List Val)) (right0 : List (List Val)) (idx0 : Int)
    (CompareEquals : Val → Val → CmpBool)
    (leftKey rightKey : List Val → Val) (columns : List OutputColumn) : HashJoinExecutor Val :=
  { left_executor := ⟨left, []⟩
    right_executor := ⟨right, right0⟩
    ht := left.foldl (build1 (HashJoinKey.eq CompareEquals) leftKey) []
    cur_key := default
    cur_idx := idx0
    right_tuple := []
    CompareEquals := CompareEquals
    LeftJoinKeyExpression := leftKey
    RightJoinKeyExpression := rightKey
    columns := columns }

def Init (e : HashJoinExecutor Val) : HashJoinExecutor Val :=
  { e with
    left_executor := e.left_executor.Init
    right_executor := e.right_executor.Init
    cur_idx := -1 }

/-- The tuple `Next` builds from a left row of the hash table and the right
tuple: a column with tuple index 0 is read from the left row, any other from
the right tuple. -/
def output [Inhabited Val] (columns : List OutputColumn) (left right : List Val) : List Val :=
  columns.map (fun c => if c.tuple_idx = 0 then left.getD c.col_idx default
    else right.getD c.col_idx default)

/-- The part of `Next` behind the `if`: one row is built and `cur_idx`
advances. -/
def emit [Inhabited Val] (e : HashJoinExecutor Val) : Option (List Val) × HashJoinExecutor Val :=
  (some (output e.columns
      ((bucket (HashJoinKey.eq e.CompareEquals) e.ht e.cur_key).getD e.cur_idx.toNat [])
      e.right_tuple),
    { e with cur_idx := e.cur_idx + 1 })

/-- The `if` of `Next` over the rows the right child has left: a right row
whose key the table does not hold makes `Next` call itself. -/
def advance [Inhabited Val] (e : HashJoinExecutor Val) :
    List (List Val) → Option (List Val) × HashJoinExecutor Val
  | [] => (none, { e with right_executor := { e.right_executor with rest := [] } })
  | tuple :: rest =>
    if count (HashJoinKey.eq e.CompareEquals) e.ht (e.RightJoinKeyExpression tuple) = 0 then
      advance { e with right_tuple := tuple } rest
    else
      emit { e with
        right_tuple := tuple
        right_executor := { e.right_executor with rest := rest }
        cur_key := e.RightJoinKeyExpression tuple
        cur_idx := 0 }

/-- Models `HashJoinExecutor::Next`. -/
def Next [Inhabited Val] (e : HashJoinExecutor Val) : Option (List Val) × HashJoinExecutor Val :=
  if e.cur_idx = -1 ∨
      (e.cur_idx.toNat % 4294967296 ≥
        (bucket (HashJoinKey.eq e.CompareEquals) e.ht e.cur_key).length) then
    e.advance e.right_executor.rest
  else e.emit

/-- The rows `Next` has still to yield, in closed form: the rest of the current
bucket with the current right tuple, then the buckets of the right rows that
are left. -/
def pending [Inhabited Val] (e : HashJoinExecutor Val) : List (List Val) :=
  (if e.cur_idx = -1 then []
    else ((bucket (HashJoinKey.eq e.CompareEquals) e.ht e.cur_key).drop e.cur_idx.toNat).map
      (fun l => output e.columns l e.right_tuple)) ++
  e.right_executor.rest.flatMap (fun r =>
    (bucket (HashJoinKey.eq e.CompareEquals) e.ht (e.RightJoinKeyExpression r)).map
      (fun l => output e.columns l r))

/-- What holds of the executor between calls: no bucket is empty or has 2^31
rows, and `cur_idx` is -1 or a position in the bucket of `cur_key`. -/
structure Inv [Inhabited Val] (e : HashJoinExecutor Val) : Prop where
  nonempty : ∀ x, x ∈ e.ht → x.2 ≠ []
  small : ∀ key, (bucket (HashJoinKey.eq e.CompareEquals) e.ht key).length < 2147483648
  idx : e.cur_idx = -1 ∨ (0 ≤ e.cur_idx ∧
    e.cur_idx.toNat ≤ (bucket (HashJoinKey.eq e.CompareEquals) e.ht e.cur_key).length)

end HashJoinExecutor
end Bustub

/-! ## Log flushing: a scenario -/

namespace Bustub
namespace LogManager

/-- Two appends of BEGIN records, each followed by a flush cycle, on a
128-byte buffer. -/
def twoFlushes : List Call :=
  [Call.append (beginRecord 1), Call.flush, Call.append (beginRecord 2), Call.flush]

end LogManager
end Bustub

/-! ## Buffer pool: pinned frames -/

namespace Bustub
namespace BufferPoolManagerInstance

end BufferPoolManagerInstance
end Bustub

/-! ## Lock manager: reachable lock tables -/

namespace Bustub
namespace LockManager

/-- The shape of a request queue: state NOTHING and no entry, or state WRITE
and a single exclusive entry, or state READ and one or more entries, all of
them shared. -/
def QInv (q : LockRequestQueue) : Prop :=
  (q.state = RequestQueueState.NOTHING ∧ q.request_queue = []) ∨
  (q.state = RequestQueueState.WRITE ∧
    ∃ e, q.request_queue = [e] ∧ e.lock_mode = LockMode.EXCLUSIVE) ∨
  (q.state = RequestQueueState.READ ∧ q.request_queue ≠ [] ∧
    ∀ e, e ∈ q.request_queue → e.lock_mode = LockMode.SHARED)

/-- Every queue of the lock table has the shape `QInv`. -/
def QueuesOk (lm : LockManager) : Prop := ∀ rid, QInv (lm.queueOf rid)

/-- What a call leaves behind: queues of the shape `QInv`, and an outcome that
is not the UPGRADE_CONFLICT abort. -/
def CallOk (r : Outcome × LockManager) : Prop :=
  QueuesOk r.2 ∧ r.1 ≠ Outcome.thrown AbortReason.UPGRADE_CONFLICT

/-- A call on the lock manager: the start of `LockShared`, `LockExclusive` or
`LockUpgrade` (which returns, throws or blocks), the wake-up of a blocked
call, or `Unlock`. -/
inductive Call where
  | lockShared (t : txn_id_t) (rid : RID)
  | lockExclusive (t : txn_id_t) (rid : RID)
  | lockUpgrade (t : txn_id_t) (rid : RID)
  | resumeShared (t : txn_id_t) (rid : RID)
  | resumeExclusive (t : txn_id_t) (rid : RID)
  | resumeUpgrade (t : txn_id_t) (rid : RID)
  | unlock (t : txn_id_t) (rid : RID)

/-- Outcome and lock manager after one call. -/
def call (lm : LockManager) : Call → Outcome × LockManager
  | .lockShared t rid => lm.LockShared t rid
  | .lockExclusive t rid => lm.LockExclusive t rid
  | .lockUpgrade t rid => lm.LockUpgrade t rid
  | .resumeShared t rid => lm.LockSharedResume t rid
  | .resumeExclusive t rid => lm.LockExclusiveResume t rid
  | .resumeUpgrade t rid => lm.LockUpgradeResume t rid
  | .unlock t rid => (Outcome.returned (lm.Unlock t rid).1, (lm.Unlock t rid).2)

/-- The lock manager after one call. -/
def step (lm : LockManager) (c : Call) : LockManager := (lm.call c).2

/-- The lock manager after a sequence of calls. -/
def run (lm : LockManager) (calls : List Call) : LockManager := calls.foldl step lm

/-- Lock managers that calls can produce from an empty lock table, whatever
the transactions are.  States in which a call is blocked in its wait are
included. -/
inductive Reachable : LockManager → Prop where
  | init (txns : txn_id_t → Transaction) : Reachable (init txns)
  | step (lm : LockManager) (c : Call) : Reachable lm → Reachable (lm.step c)

/-- The lock manager at line 123 of `LockUpgrade`, where the grant is decided,
when the call gets there without blocking: the transaction's own entry is
erased and, when the queue state is not NOTHING, `PreventDeadLock` has run and
the wait predicate holds. -/
def upgradeDecision (lm : LockManager) (t : txn_id_t) (rid : RID) : Option LockManager :=
  match lm.CheckShrinking t with
  | (some _, _) => none
  | (none, lm1) =>
    let lm2 := lm1.register t
    match lm2.lock_table rid with
    | none => none
    | some q =>
      let rq := q.request_queue.eraseP (fun e => decide (e.txn_id = t))
      let q1 : LockRequestQueue :=
        ⟨rq, if rq.length = 0 then RequestQueueState.NOTHING else q.state⟩
      let lm3 := lm2.setQueue rid q1
      if q1.state ≠ RequestQueueState.NOTHING then
        let lm4 := lm3.preventOn t rid
        if lm4.exclusiveWake t rid then some lm4 else none
      else some lm3

/-- A granting `LockUpgrade` of transaction `t` on `rid`, started from `lm` or
woken up in `lm`, discards a request of another transaction: at the point
`d` where the grant is decided the queue still holds an entry of another
transaction, which `request_queue_.clear()` then removes. -/
def DiscardsOther (lm : LockManager) (t : txn_id_t) (rid : RID) : Prop :=
  ∃ d e, (lm.upgradeDecision t rid = some d ∨ (d = lm ∧ lm.exclusiveWake t rid = true)) ∧
    (d.LockUpgradeFinish t rid).1 = Outcome.returned true ∧
    e ∈ (d.queueOf rid).request_queue ∧ e.txn_id ≠ t

/-- Transactions 1 and 2 hold shared locks on `rid0`. -/
def twoReaders : LockManager :=
  run emptyManager [.lockShared 1 rid0, .lockShared 2 rid0]

/-- Lines 98-104 of `LockUpgrade`, which run before the latch is taken at line
109: the first entry of the transaction is erased from the queue of `rid`. -/
def upgradeErase (lm : LockManager) (t : txn_id_t) (rid : RID) : LockManager :=
  lm.setQueue rid
    ⟨(lm.queueOf rid).request_queue.eraseP (fun e => decide (e.txn_id = t)),
      (lm.queueOf rid).state⟩

/-- Line 105 of `LockUpgrade`: the test `queue.size() == 0`. -/
def upgradeQueueEmpty (lm : LockManager) (rid : RID) : Bool :=
  decide ((lm.queueOf rid).request_queue.length = 0)

/-- Line 106 of `LockUpgrade`: `lock_table_[rid].state = NOTHING`. -/
def upgradeSetNothing (lm : LockManager) (rid : RID) : LockManager :=
  lm.setQueue rid ⟨(lm.queueOf rid).request_queue, RequestQueueState.NOTHING⟩

/-- Lines 98-106 of `LockUpgrade` with calls of other threads in between:
`cs1` run after the erase of lines 98-104, `cs2` between the test of line 105
and the assignment of line 106, `cs3` before the latch is taken at line 109.
The result is the lock manager at line 109. -/
def upgradeUnlatched (lm : LockManager) (t : txn_id_t) (rid : RID) (cs1 cs2 cs3 : List Call) :
    LockManager :=
  let a := (lm.upgradeErase t rid).run cs1
  let b := a.run cs2
  (if a.upgradeQueueEmpty rid then b.upgradeSetNothing rid else b).run cs3

/-- Lines 109-134 of `LockUpgrade`, run under the latch, up to the point where
the call returns, throws or blocks. -/
def upgradeLatched (lm : LockManager) (t : txn_id_t) (rid : RID) : Outcome × LockManager :=
  if (lm.queueOf rid).state ≠ RequestQueueState.NOTHING then
    let lm4 := lm.preventOn t rid
    if lm4.exclusiveWake t rid then lm4.LockUpgradeFinish t rid else (Outcome.waiting, lm4)
  else lm.LockUpgradeFinish t rid

/-- The lock manager at line 123, where the grant is decided, when the latched
part gets there without blocking. -/
def latchedDecision (lm : LockManager) (t : txn_id_t) (rid : RID) : Option LockManager :=
  if (lm.queueOf rid).state ≠ RequestQueueState.NOTHING then
    let lm4 := lm.preventOn t rid
    if lm4.exclusiveWake t rid then some lm4 else none
  else some lm

/-- `LockUpgrade` of transaction `t` while other threads make the calls `cs1`,
`cs2` and `cs3` between its statements that run without the latch. -/
def LockUpgradeRacing (lm : LockManager) (t : txn_id_t) (rid : RID) (cs1 cs2 cs3 : List Call) :
    Outcome × LockManager :=
  match lm.CheckShrinking t with
  | (some r, lm1) => (Outcome.thrown r, lm1)
  | (none, lm1) =>
    let lm2 := lm1.register t
    match lm2.lock_table rid with
    | none => (Outcome.returned false, lm2)
    | some _ => (lm2.upgradeUnlatched t rid cs1 cs2 cs3).upgradeLatched t rid

/-- The lock manager at line 123 of the call `LockUpgradeRacing`, where the
grant is decided, when the call gets there without blocking. -/
def racingDecision (lm : LockManager) (t : txn_id_t) (rid : RID) (cs1 cs2 cs3 : List Call) :
    Option LockManager :=
  match lm.CheckShrinking t with
  | (some _, _) => none
  | (none, lm1) =>
    let lm2 := lm1.register t
    match lm2.lock_table rid with
    | none => none
    | some _ => (lm2.upgradeUnlatched t rid cs1 cs2 cs3).latchedDecision t rid

/-- Transaction 1 holds a shared lock on `rid0`. -/
def oneReader : LockManager := run emptyManager [.lockShared 1 rid0]

/-- The lock manager at line 123 of `LockUpgrade` of transaction 1 on
`oneReader`, when `LockShared` of transaction 0 ran between line 105 and line
106. -/
def racedUpgrade : LockManager :=
  ((((oneReader.register 1).upgradeErase 1 rid0).run [.lockShared 0 rid0]).upgradeSetNothing
    rid0)

end LockManager
end Bustub

/-! ## Extendible hash table: further scenarios -/

namespace Bustub

namespace HashTableBucketPage

/-- A bucket of 101 slots (`GenericKey<32>` keys and record ids:
`BUCKET_ARRAY_SIZE` is `4 * 4096 / (4 * 40 + 1) = 101`) after 101 different
pairs were inserted. -/
def fullBucket101 : HashTableBucketPage Nat Nat :=
  run 101 (zeroed 101) ((List.range 101).map (fun i => Call.insert (2 * i) 0))

end HashTableBucketPage

namespace ExtendibleHashTable

variable {K V : Type} [DecidableEq K] [DecidableEq V] [Inhabited K] [Inhabited V]

/-- A table of 56-slot buckets, keys named by their hash: the 55 pairs of
`oneBucket55` and the pair (56, 0) fill the bucket of directory slot 0. -/
def filled56 : ExtendibleHashTable Nat Nat :=
  (oneBucket55.Insert 56 0 insertFuel).2

/-- The table `filled56` after `Insert(1880, 0)`: the full bucket is split up
to global depth 6, and the last split skips directory slot 56. -/
def skippedSplit : ExtendibleHashTable Nat Nat :=
  (filled56.Insert 1880 0 insertFuel).2

/-- The calls `GetValue` makes on the buffer pool, for a table whose directory
page is `dir`. -/
def GetValueCalls (t : ExtendibleHashTable K V) (dir : page_id_t) (key : K) :
    List BufferPoolManagerInstance.Call :=
  [.fetch dir, .fetch (t.KeyToPageId key), .unpin (t.KeyToPageId key) false, .unpin dir false]

/-- The calls `Insert` makes on the buffer pool, with those of `SplitInsert`.
When the directory cannot grow, `SplitInsert` returns right after it fetched
the directory page. -/
def InsertCalls (t : ExtendibleHashTable K V) (dir : page_id_t) (key : K) :
    Nat → List BufferPoolManagerInstance.Call
  | 0 => []
  | fuel + 1 =>
    let bucket_page_id := t.KeyToPageId key
    if (t.pages bucket_page_id).IsFull t.bucket_array_size then
      [.fetch dir, .fetch bucket_page_id, .unpin bucket_page_id false, .unpin dir false,
        .fetch dir] ++
      match t.splitBucket key with
      | none => []
      | some t1 =>
        [.fetch bucket_page_id, .newPage, .unpin dir true, .unpin bucket_page_id true,
          .unpin t.next_page_id true] ++ InsertCalls t1 dir key fuel
    else
      [.fetch dir, .fetch bucket_page_id, .unpin bucket_page_id true, .unpin dir false]

/-- The calls `Merge` makes on the buffer pool. -/
def MergeCalls (t : ExtendibleHashTable K V) (dir : page_id_t) (key : K) :
    List BufferPoolManagerInstance.Call :=
  let bucket_page_id := t.KeyToPageId key
  [.fetch dir, .fetch bucket_page_id] ++
  if !(t.pages bucket_page_id).IsEmpty t.bucket_array_size then
    [.unpin dir false, .unpin bucket_page_id false]
  else
    let bucket_idx := t.KeyToDirectoryIndex key
    let sibling_bucket_idx := t.GetSplitImageIndex bucket_idx
    let sibling_page_id := t.GetBucketPageId sibling_bucket_idx
    (if bucket_page_id ≠ sibling_page_id ∧
        t.GetLocalDepth bucket_idx = t.GetLocalDepth sibling_bucket_idx ∧
        t.GetLocalDepth bucket_idx > 0 then
      [.unpin bucket_page_id false, .delete bucket_page_id]
    else []) ++ [.unpin dir true]

/-- The calls `Remove` makes on the buffer pool, with those of `Merge`. -/
def RemoveCalls (t : ExtendibleHashTable K V) (dir : page_id_t) (key : K) (value : V) :
    List BufferPoolManagerInstance.Call :=
  let bucket_page_id := t.KeyToPageId key
  let r := (t.pages bucket_page_id).Remove t.bucket_array_size key value
  let t1 := { t with pages := setAt t.pages bucket_page_id r.2 }
  [.fetch dir, .fetch bucket_page_id, .unpin bucket_page_id true, .unpin dir false] ++
  if r.1 ∧ r.2.IsEmpty t.bucket_array_size then t1.MergeCalls dir key else []

/-- The calls the constructor makes on a buffer pool whose next page id is
`first`. -/
def constructorCalls (first : page_id_t) : List BufferPoolManagerInstance.Call :=
  [.newPage, .newPage, .newPage, .unpin first true, .unpin (first + 1) false,
    .unpin (first + 2) false]

/-- The table together with the buffer pool it lives in: one call of the table
changes the table and makes its calls on the pool.  The directory page is page
0 of the pool. -/
def stepPool (s : ExtendibleHashTable K V × BufferPoolManagerInstance) (c : Call K V) :
    ExtendibleHashTable K V × BufferPoolManagerInstance :=
  match c with
  | .insert key _ => (s.1.step c, s.2.run (s.1.InsertCalls 0 key insertFuel))
  | .remove key value => (s.1.step c, s.2.run (s.1.RemoveCalls 0 key value))

/-- A table of 56-slot buckets, keys named by their hash, built in a fresh
pool of 10 frames, after a sequence of calls. -/
def runPool (calls : List (Call Nat Nat)) :
    ExtendibleHashTable Nat Nat × BufferPoolManagerInstance :=
  calls.foldl stepPool
    (init 56 id 0, (BufferPoolManagerInstance.init 10 1 0 4 (fun _ => [])).run
      (constructorCalls 0))

/-- On a fresh table: `Insert(0, 0)`, `Remove(0, 0)` (the emptied bucket is
merged into its sibling, both directory slots get local depth 0), and
`Insert(0, 0)` again. -/
def mergedOnce : List (Call Nat Nat) := [.insert 0 0, .remove 0 0, .insert 0 0]

/-- The pin counts of the frames of the pool. -/
def pinCounts (p : BufferPoolManagerInstance) : List Nat :=
  (List.range p.pool_size).map (fun f => (p.pages f).pin_count)

/-- One call on the pool as the table makes it: `FetchDirectoryPage`,
`FetchBucketPage` and `SplitInsert` use the page that `FetchPage` or `NewPage`
returns without a test, so a call that returns `nullptr` ends the run
(`none`). -/
def stepChecked (p : BufferPoolManagerInstance) :
    BufferPoolManagerInstance.Call → Option BufferPoolManagerInstance
  | .fetch page_id =>
    match p.FetchPgImp page_id with
    | (none, _) => none
    | (some _, p1) => some p1
  | .newPage =>
    match p.NewPgImp with
    | (none, _) => none
    | (some _, p1) => some p1
  | c => some (p.step c)

/-- The calls of the table on the pool, up to the first `FetchPage` or
`NewPage` that returns `nullptr`. -/
def runChecked : BufferPoolManagerInstance → List BufferPoolManagerInstance.Call →
    Option BufferPoolManagerInstance
  | p, [] => some p
  | p, c :: cs =>
    match stepChecked p c with
    | none => none
    | some p1 => runChecked p1 cs

/-- One call of the table in its pool, `none` when the pool returned `nullptr`
to the table during this call or an earlier one. -/
def stepPoolChecked (s : Option (ExtendibleHashTable K V × BufferPoolManagerInstance))
    (c : Call K V) : Option (ExtendibleHashTable K V × BufferPoolManagerInstance) :=
  match s with
  | none => none
  | some (t, p) =>
    match c with
    | .insert key _ => (runChecked p (t.InsertCalls 0 key insertFuel)).map (fun p1 => (t.step c, p1))
    | .remove key value => (runChecked p (t.RemoveCalls 0 key value)).map (fun p1 => (t.step c, p1))

/-- A table of 56-slot buckets, keys named by their hash, built in a fresh
pool of three frames, after a sequence of calls. -/
def runSmallPool (calls : List (Call Nat Nat)) :
    Option (ExtendibleHashTable Nat Nat × BufferPoolManagerInstance) :=
  calls.foldl stepPoolChecked
    ((runChecked (BufferPoolManagerInstance.init 3 1 0 4 (fun _ => []))
      (constructorCalls 0)).map (fun p => (init 56 id 0, p)))

/-- Two rounds of `Insert(0, 0)`, `Remove(0, 0)` (the second `Merge` leaves
page 2 pinned), 56 pairs with even hashes, which fill the bucket of page 2, and
the pair (1, 0), whose `SplitInsert` moves the 56 pairs to the new page 3. -/
def pinnedAndFull : List (Call Nat Nat) :=
  [.insert 0 0, .remove 0 0, .insert 0 0, .remove 0 0] ++
  (List.range 56).map (fun i => Call.insert (2 * i) 0) ++ [.insert 1 0]

/-- The pool after the first calls of `Insert(key, _)` up to `FetchBucketPage`
of `SplitInsert` (line 159), `NewPage` of line 162 being the next call. -/
def beforeNewPage (s : ExtendibleHashTable K V × BufferPoolManagerInstance) (key : K) :
    Option BufferPoolManagerInstance :=
  runChecked s.2
    [.fetch 0, .fetch (s.1.KeyToPageId key), .unpin (s.1.KeyToPageId key) false,
      .unpin 0 false, .fetch 0, .fetch (s.1.KeyToPageId key)]

/-- Lines 150-155 of `SplitInsert`: the directory is doubled and the global
depth incremented. -/
def growDirectory (t : ExtendibleHashTable K V) : ExtendibleHashTable K V :=
  let t1 := doubleLoop t 0 t.Size
  { t1 with global_depth := t1.global_depth + 1 }

/-- Lines 159-187 of `SplitInsert`, on the directory `t1` (grown or not):
the new bucket page, the local depth of `dir_index`, the two loops. -/
def splitRest (t1 : ExtendibleHashTable K V) (dir_index : Nat)
    (old_bucket_page_id : page_id_t) : ExtendibleHashTable K V :=
  let t3 := t1.NewPage.2.IncrLocalDepth dir_index
  let local_mask := t3.GetLocalDepthMask dir_index
  let t4 := redirectLoop t3 dir_index old_bucket_page_id t1.NewPage.1 local_mask
              0 t3.bucket_array_size
  let r := rehashLoop t4 dir_index local_mask (t4.pages old_bucket_page_id)
             (t4.pages t1.NewPage.1) 0 t4.bucket_array_size
  { t4 with pages := setAt (setAt t4.pages old_bucket_page_id r.1) t1.NewPage.1 r.2 }

/-- What every table that calls produce satisfies: the global depth is at most
9, the directory has `DIRECTORY_ARRAY_SIZE` local depths, and each of them
fits in a byte. -/
structure DirInv (t : ExtendibleHashTable K V) : Prop where
  depth : t.global_depth ≤ 9
  len : t.local_depths.length = DIRECTORY_ARRAY_SIZE
  small : ∀ x, x ∈ t.local_depths → x < 256

/-- Tables that `Insert` and `Remove` make of a new table. -/
inductive Reachable : ExtendibleHashTable K V → Prop where
  | init (bucket_array_size : Nat) (hash_fn : K → Nat) (first : page_id_t) :
      Reachable (init bucket_array_size hash_fn first)
  | step (t : ExtendibleHashTable K V) (c : Call K V) : Reachable t → Reachable (t.step c)

/-- A bound on the number of splits an `Insert` of `key` can still make: two
for every doubling left, and the number of increments that take the local
depth of the key's slot to the global depth, modulo 256. -/
def splitsLeft (t : ExtendibleHashTable K V) (key : K) : Nat :=
  (9 - t.global_depth) * 2 +
    (t.global_depth + 256 - t.GetLocalDepth (t.KeyToDirectoryIndex key)) % 256

/-- How an `Insert` ends in the table `t1` it has reached by its splits: the
bucket of the key is full and the directory cannot grow, so `SplitInsert`
returns false; or the bucket is not full and takes or rejects the pair. -/
def InsertEnds (t1 : ExtendibleHashTable K V) (key : K) (value : V)
    (r : Option Bool × ExtendibleHashTable K V) : Prop :=
  ((t1.pages (t1.KeyToPageId key)).IsFull t1.bucket_array_size = true ∧
    t1.Size = DIRECTORY_ARRAY_SIZE ∧ r = (some false, t1)) ∨
  ((t1.pages (t1.KeyToPageId key)).IsFull t1.bucket_array_size = false ∧
    r = (some ((t1.pages (t1.KeyToPageId key)).Insert t1.bucket_array_size key value).1,
      { t1 with
        pages := setAt t1.pages (t1.KeyToPageId key)
                   ((t1.pages (t1.KeyToPageId key)).Insert t1.bucket_array_size key value).2 }))

/-- The table `t1` is what `n` rounds of `Insert(key, _)` make of `t`: in each
round the bucket of the key is full and `SplitInsert` splits it. -/
inductive SplitsIn (key : K) : Nat → ExtendibleHashTable K V → ExtendibleHashTable K V → Prop where
  | done (t : ExtendibleHashTable K V) : SplitsIn key 0 t t
  | split (n : Nat) (t t1 t2 : ExtendibleHashTable K V) :
      (t.pages (t.KeyToPageId key)).IsFull t.bucket_array_size = true →
      t.splitBucket key = some t1 → SplitsIn key n t1 t2 → SplitsIn key (n + 1) t t2

end ExtendibleHashTable

end Bustub

/-! ### Aggregation (`aggregation_executor.cpp`) -/

namespace Bustub

/-- Modelled from the spec: the aggregate kinds of the plan
(`AggregationType`; the plan's header is not part of the sources at hand). -/
inductive AggregationType
  | CountAggregate | SumAggregate | MinAggregate | MaxAggregate
  deriving DecidableEq, Repr

/-- The aggregation executor.  Rows of the child are of type `Row`; values are
integers.  `group_bys` and `aggregates` are `MakeAggregateKey` and
`MakeAggregateValue` (the values of the group-by and of the aggregate
expressions on a row), `having` is the HAVING predicate of the plan (null is
`none`), `output` builds the output tuple from the columns of the output
schema.  `aht` is the aggregation hash table `aht_` as its entries in the
order its iterator visits them, `aht_iterator` the position of the
iterator. -/
structure AggregationExecutor (Row Out : Type) where
  child : ChildExecutor Row
  group_bys : Row → List Int
  aggregates : Row → List Int
  agg_types : List AggregationType
  having : Option (List Int → List Int → Bool)
  output : List Int → List Int → Out
  aht : List (List Int × List Int)
  aht_iterator : Nat

namespace AggregationExecutor

variable {Row Out : Type}

/-- Modelled from the spec: `SimpleAggregationHashTable`'s
`GenerateInitialAggregateValue` (the header of the executor is not part of the
sources at hand): 0 for count and sum, the largest 32-bit integer for min, the
smallest for max. -/
def GenerateInitialAggregateValue (agg_types : List AggregationType) : List Int :=
  agg_types.map (fun ty =>
    match ty with
    | .CountAggregate => 0
    | .SumAggregate => 0
    | .MinAggregate => 2147483647
    | .MaxAggregate => -2147483648)

/-- Modelled from the spec: one column of `CombineAggregateValues`: count adds
1, sum adds the input, min and max keep the smaller and the larger value. -/
def combine1 (ty : AggregationType) (result input : Int) : Int :=
  match ty with
  | .CountAggregate => result + 1
  | .SumAggregate => result + input
  | .MinAggregate => min result input
  | .MaxAggregate => max result input

/-- Modelled from the spec: `CombineAggregateValues(result, input)`, column by
column. -/
def CombineAggregateValues : List AggregationType → List Int → List Int → List Int
  | ty :: tys, r :: rs, i :: is => combine1 ty r i :: CombineAggregateValues tys rs is
  | _, rs, _ => rs

/-- Modelled from the spec: `InsertCombine(agg_key, agg_val)`: a key the table
does not hold gets the initial value first; then the input is combined into
the value of the key. -/
def InsertCombine (agg_types : List AggregationType) :
    List (List Int × List Int) → List Int → List Int → List (List Int × List Int)
  | [], key, val =>
    [(key, CombineAggregateValues agg_types (GenerateInitialAggregateValue agg_types) val)]
  | (k, v) :: rest, key, val =>
    if k = key then (k, CombineAggregateValues agg_types v val) :: rest
    else (k, v) :: InsertCombine agg_types rest key val

/-- Constructor: an empty aggregation table, the iterator at its begin. -/
def mk0 (child : ChildExecutor Row) (group_bys aggregates : Row → List Int)
    (agg_types : List AggregationType) (having : Option (List Int → List Int → Bool))
    (output : List Int → List Int → Out) : AggregationExecutor Row Out :=
  ⟨child, group_bys, aggregates, agg_types, having, output, [], 0⟩

/-- `AggregationExecutor::Init`: the child is initialised and drained, every
row is combined into `aht_` (which is not emptied), the iterator is set to the
begin of the table. -/
def Init (e : AggregationExecutor Row Out) : AggregationExecutor Row Out :=
  let c := e.child.Init
  { e with
    child := { c with rest := [] }
    aht := c.rest.foldl
      (fun a r => InsertCombine e.agg_types a (e.group_bys r) (e.aggregates r)) e.aht
    aht_iterator := 0 }

/-- The iterator walk of `Next` over the entries from position `i` on: the
first entry that passes the HAVING predicate is yielded, the iterator is left
behind it; at the end of the table nothing is yielded. -/
def nextLoop (e : AggregationExecutor Row Out) : List (List Int × List Int) → Nat → Option Out × Nat
  | [], i => (none, i)
  | (k, v) :: rest, i =>
    match e.having with
    | some h => if !h k v then nextLoop e rest (i + 1) else (some (e.output k v), i + 1)
    | none => (some (e.output k v), i + 1)

/-- `AggregationExecutor::Next`. -/
def Next (e : AggregationExecutor Row Out) : Option Out × AggregationExecutor Row Out :=
  let r := nextLoop e (e.aht.drop e.aht_iterator) e.aht_iterator
  (r.1, { e with aht_iterator := r.2 })

/-- An aggregation that groups rows `(g, x)` by `g` and computes
`COUNT(x), SUM(x)`, over a child that yields (1, 5), (1, 7), (2, 3); the output
row is the group followed by the aggregates. -/
def countSum : AggregationExecutor (Int × Int) (List Int) :=
  mk0 ⟨[(1, 5), (1, 7), (2, 3)], []⟩ (fun r => [r.1]) (fun r => [r.2, r.2])
    [.CountAggregate, .SumAggregate] none (fun k v => k ++ v)

end AggregationExecutor

end Bustub

/-! ## Theorems: LRU replacer -/

namespace Bustub
namespace LRUReplacer

variable {F : Type} [DecidableEq F]

omit [DecidableEq F] in
theorem Trace.inv_init : (Trace.init : Trace F).Inv where
  held := by intro f; simp [Trace.init, LRUReplacer.init]
  nodup := by simp [Trace.init, LRUReplacer.init]
  past := by intro f n h; simp [Trace.init] at h
  sorted := by simp [Trace.init, LRUReplacer.init]

theorem Trace.inv_unpin {t : Trace F} (h : t.Inv) (f : F) : (t.step (.unpin f)).Inv := by
  by_cases hf : f ∈ t.r.frames
  · obtain ⟨n, hn⟩ := (h.held f).1 hf
    have hadd : ∀ g, (t.step (.unpin f)).added g = t.added g := by
      intro g
      by_cases hg : g = f
      · subst hg; simp [Trace.step, hn]
      · simp [Trace.step, hg]
    have hr : (t.step (.unpin f)).r = t.r := by simp [Trace.step, Unpin, hf]
    refine ⟨?_, ?_, ?_, ?_⟩
    · intro g; rw [hr, hadd]; exact h.held g
    · rw [hr]; exact h.nodup
    · intro g m hm
      rw [hadd] at hm
      exact Nat.lt_succ_of_lt (h.past g m hm)
    · rw [hr]
      refine h.sorted.imp ?_
      intro a b hab ta tb ha hb
      rw [hadd] at ha hb
      exact hab ta tb ha hb
  · have hnone : t.added f = none := by
      cases hc : t.added f with
      | none => rfl
      | some n => exact absurd ((h.held f).2 ⟨n, hc⟩) hf
    have haddf : (t.step (.unpin f)).added f = some t.now := by
      simp [Trace.step, hnone]
    have hadd : ∀ g, g ≠ f → (t.step (.unpin f)).added g = t.added g := by
      intro g hg; simp [Trace.step, hg]
    have hr : (t.step (.unpin f)).r.frames = t.r.frames ++ [f] := by
      simp [Trace.step, Unpin, hf]
    refine ⟨?_, ?_, ?_, ?_⟩
    · intro g
      rw [hr, List.mem_append, List.mem_singleton]
      by_cases hg : g = f
      · subst hg; simp [haddf]
      · rw [hadd g hg]; simp [hg, h.held g]
    · rw [hr]
      refine List.Nodup.append h.nodup (List.nodup_singleton f) ?_
      intro a ha hb
      rw [List.mem_singleton] at hb
      exact hf (hb ▸ ha)
    · intro g m hm
      by_cases hg : g = f
      · subst hg; rw [haddf] at hm; cases hm; exact Nat.lt_succ_self _
      · rw [hadd g hg] at hm; exact Nat.lt_succ_of_lt (h.past g m hm)
    · rw [hr, List.pairwise_append]
      refine ⟨?_, List.pairwise_singleton _ _, ?_⟩
      · refine h.sorted.imp_of_mem ?_
        intro a b ha hb hab ta tb hta htb
        have hna : a ≠ f := fun e => hf (e ▸ ha)
        have hnb : b ≠ f := fun e => hf (e ▸ hb)
        rw [hadd a hna] at hta
        rw [hadd b hnb] at htb
        exact hab ta tb hta htb
      · intro a ha b hb ta tb hta htb
        rw [List.mem_singleton] at hb
        subst hb
        have hna : a ≠ b := fun e => hf (e ▸ ha)
        rw [hadd a hna] at hta
        rw [haddf] at htb
        cases htb
        exact h.past a ta hta

theorem Trace.inv_pin {t : Trace F} (h : t.Inv) (f : F) : (t.step (.pin f)).Inv := by
  have hr : (t.step (.pin f)).r.frames = t.r.frames.erase f := by
    by_cases hf : f ∈ t.r.frames
    · simp [Trace.step, Pin, hf]
    · simp [Trace.step, Pin, hf, List.erase_of_not_mem hf]
  have haddf : (t.step (.pin f)).added f = none := by simp [Trace.step]
  have hadd : ∀ g, g ≠ f → (t.step (.pin f)).added g = t.added g := by
    intro g hg; simp [Trace.step, hg]
  refine ⟨?_, ?_, ?_, ?_⟩
  · intro g
    rw [hr, h.nodup.mem_erase_iff]
    by_cases hg : g = f
    · subst hg; simp [haddf]
    · rw [hadd g hg]; simp [hg, h.held g]
  · rw [hr]; exact h.nodup.erase f
  · intro g m hm
    by_cases hg : g = f
    · subst hg; rw [haddf] at hm; cases hm
    · rw [hadd g hg] at hm; exact Nat.lt_succ_of_lt (h.past g m hm)
  · rw [hr]
    have hsub : (t.r.frames.erase f).Sublist t.r.frames := List.erase_sublist f _
    refine (h.sorted.sublist hsub).imp_of_mem ?_
    intro a b ha hb hab ta tb hta htb
    have hna : a ≠ f := ((h.nodup.mem_erase_iff).1 ha).1
    have hnb : b ≠ f := ((h.nodup.mem_erase_iff).1 hb).1
    rw [hadd a hna] at hta
    rw [hadd b hnb] at htb
    exact hab ta tb hta htb

theorem Trace.inv_victim {t : Trace F} (h : t.Inv) : (t.step .victim).Inv := by
  cases hfr : t.r.frames with
  | nil =>
    have hv : t.r.Victim = (none, t.r) := by simp [Victim, hfr]
    have hr : (t.step .victim).r = t.r := by simp [Trace.step, hv]
    have hadd : ∀ g, (t.step .victim).added g = t.added g := by
      intro g; simp [Trace.step, hv]
    refine ⟨?_, ?_, ?_, ?_⟩
    · intro g; rw [hr, hadd]; exact h.held g
    · rw [hr]; exact h.nodup
    · intro g m hm
      rw [hadd] at hm
      exact Nat.lt_succ_of_lt (h.past g m hm)
    · rw [hr]
      refine h.sorted.imp ?_
      intro a b hab ta tb ha hb
      rw [hadd] at ha hb
      exact hab ta tb ha hb
  | cons f rest =>
    have hv : t.r.Victim = (some f, ⟨rest⟩) := by simp [Victim, hfr]
    have hr : (t.step .victim).r.frames = rest := by simp [Trace.step, hv]
    have haddf : (t.step .victim).added f = none := by simp [Trace.step, hv]
    have hadd : ∀ g, g ≠ f → (t.step .victim).added g = t.added g := by
      intro g hg
      have : ¬ f = g := fun e => hg e.symm
      simp [Trace.step, hv, this]
    have hnd := h.nodup
    rw [hfr, List.nodup_cons] at hnd
    have hso := h.sorted
    rw [hfr, List.pairwise_cons] at hso
    refine ⟨?_, ?_, ?_, ?_⟩
    · intro g
      rw [hr]
      by_cases hg : g = f
      · subst hg; simp [haddf, hnd.1]
      · rw [hadd g hg, ← h.held g, hfr]; simp [hg]
    · rw [hr]; exact hnd.2
    · intro g m hm
      by_cases hg : g = f
      · subst hg; rw [haddf] at hm; cases hm
      · rw [hadd g hg] at hm; exact Nat.lt_succ_of_lt (h.past g m hm)
    · rw [hr]
      refine hso.2.imp_of_mem ?_
      intro a b ha hb hab ta tb hta htb
      have hna : a ≠ f := fun e => hnd.1 (e ▸ ha)
      have hnb : b ≠ f := fun e => hnd.1 (e ▸ hb)
      rw [hadd a hna] at hta
      rw [hadd b hnb] at htb
      exact hab ta tb hta htb

theorem Trace.inv_step {t : Trace F} (h : t.Inv) (c : Call F) : (t.step c).Inv := by
  cases c with
  | unpin f => exact Trace.inv_unpin h f
  | pin f => exact Trace.inv_pin h f
  | victim => exact Trace.inv_victim h

theorem Trace.inv_foldl (cs : List (Call F)) :
    ∀ t : Trace F, t.Inv → (cs.foldl Trace.step t).Inv := by
  induction cs with
  | nil => intro t h; exact h
  | cons c cs ih => intro t h; exact ih _ (Trace.inv_step h c)

theorem Trace.inv_run (cs : List (Call F)) : (Trace.run cs).Inv :=
  Trace.inv_foldl cs _ Trace.inv_init

theorem Trace.foldl_r (cs : List (Call F)) :
    ∀ (t : Trace F),
      (cs.foldl Trace.step t).r =
        cs.foldl (fun r c => match c with
                          | .unpin f => r.Unpin f
                          | .pin f => r.Pin f
                          | .victim => r.Victim.2) t.r := by
  induction cs with
  | nil => intro t; rfl
  | cons c cs ih =>
    intro t
    simp only [List.foldl_cons]
    rw [ih]
    cases c <;> rfl

theorem Trace.run_r (cs : List (Call F)) : (Trace.run cs).r = LRUReplacer.run cs :=
  Trace.foldl_r cs _

/-- C9: after any sequence of Unpin, Pin and Victim calls on a fresh replacer,
the replacer holds exactly the frames added by an Unpin and not removed since;
Victim on an empty replacer returns false and changes nothing; on a non-empty
one it returns the held frame whose adding Unpin is older than that of every
other held frame, removes exactly that frame, and Size drops by one.  The
scenario Unpin 1,2,3; Pin 2; Unpin 2 then yields 1, 3, 2. -/
theorem victim_returns_oldest_unpinned (cs : List (Call F)) :
    (∀ g, g ∈ (run cs).frames ↔ ∃ m, (Trace.run cs).added g = some m) ∧
    ((run cs).Size = 0 → (run cs).Victim = (none, run cs)) ∧
    ((run cs).Size ≠ 0 → ∃ f n, (run cs).Victim.1 = some f ∧
        (Trace.run cs).added f = some n ∧
        (∀ g m, (Trace.run cs).added g = some m → g ≠ f → n < m) ∧
        (∀ g, g ∈ (run cs).Victim.2.frames ↔ g ∈ (run cs).frames ∧ g ≠ f) ∧
        (run cs).Victim.2.Size + 1 = (run cs).Size) ∧
    victims (init : LRUReplacer Nat)
        [.unpin 1, .unpin 2, .unpin 3, .pin 2, .unpin 2, .victim, .victim, .victim, .victim]
      = [some 1, some 3, some 2, none] := by
  have hinv := Trace.inv_run cs
  rw [← Trace.run_r cs]
  refine ⟨hinv.held, ?_, ?_, by decide⟩
  · intro h0
    have : (Trace.run cs).r.frames = [] := List.length_eq_zero.1 h0
    simp [Victim, this]
  · intro hne
    cases hfr : (Trace.run cs).r.frames with
    | nil => exact absurd (by simp [Size, hfr]) hne
    | cons f rest =>
      have hnd := hinv.nodup
      rw [hfr, List.nodup_cons] at hnd
      have hso := hinv.sorted
      rw [hfr, List.pairwise_cons] at hso
      obtain ⟨n, hn⟩ := (hinv.held f).1 (by rw [hfr]; exact List.mem_cons_self f rest)
      refine ⟨f, n, by simp [Victim, hfr], hn, ?_, ?_, by simp [Victim, Size, hfr]⟩
      · intro g m hg hgf
        have hmem : g ∈ (Trace.run cs).r.frames := (hinv.held g).2 ⟨m, hg⟩
        rw [hfr, List.mem_cons] at hmem
        rcases hmem with e | hmem
        · exact absurd e hgf
        · exact hso.1 g hmem n m hn hg
      · intro g
        simp only [Victim, hfr, List.mem_cons]
        constructor
        · intro hg
          exact ⟨Or.inr hg, fun e => hnd.1 (e ▸ hg)⟩
        · rintro ⟨e | hg, hgf⟩
          · exact absurd e hgf
          · exact hg

/-- C10: Unpin of a frame the replacer does not hold appends it at the
most-recently-used end and Size grows by one; Unpin of a held frame changes
nothing (the frame keeps its place); and after any sequence of calls on a
fresh replacer no frame is held twice. -/
theorem unpin_appends_absent_frame_only (r : LRUReplacer F) (f : F) :
    (f ∉ r.frames →
        (r.Unpin f).frames = r.frames ++ [f] ∧ (r.Unpin f).Size = r.Size + 1) ∧
    (f ∈ r.frames → r.Unpin f = r) ∧
    (∀ cs : List (Call F), (run cs).frames.Nodup ∧
        (run (cs ++ [.unpin f, .unpin f])).frames = (run (cs ++ [.unpin f])).frames) := by
  refine ⟨?_, ?_, ?_⟩
  · intro hf
    simp [Unpin, hf, Size]
  · intro hf
    simp [Unpin, hf]
  · intro cs
    refine ⟨?_, ?_⟩
    · rw [← Trace.run_r cs]; exact (Trace.inv_run cs).nodup
    · simp only [run, List.foldl_append, List.foldl_cons, List.foldl_nil]
      generalize List.foldl _ init cs = r0
      by_cases h : f ∈ r0.frames
      · simp [Unpin, h]
      · simp [Unpin, h]

end LRUReplacer
end Bustub

/-! ## Theorems: buffer pool manager instance -/

namespace Bustub

@[simp] theorem setAt_same {K V : Type} [DecidableEq K] (m : K → V) (k : K) (v : V) :
    setAt m k v k = v := by simp [setAt]

theorem setAt_ne {K V : Type} [DecidableEq K] (m : K → V) {k x : K} (v : V) (h : x ≠ k) :
    setAt m k v x = m x := by simp [setAt, h]

namespace BufferPoolManagerInstance

theorem rinv_init (pool_size num_instances instance_index page_size : Nat)
    (disk : page_id_t → Bytes) :
    RInv (init pool_size num_instances instance_index page_size disk) where
  free_nodup := by simp [init, List.nodup_range]
  free := by
    intro f hf
    simp [init, LRUReplacer.init] at hf ⊢
    exact hf
  rep_nodup := by simp [init, LRUReplacer.init]
  rep := by intro f hf; simp [init, LRUReplacer.init] at hf
  table := by intro q f h; simp [init] at h

theorem rinv_write {s : BufferPoolManagerInstance} (h : RInv s) (f : frame_id_t) (d : Bytes) :
    RInv (s.WriteData f d) where
  free_nodup := h.free_nodup
  free := by
    intro g hg
    have := h.free g hg
    by_cases e : g = f
    · subst e; simpa [WriteData] using this
    · simpa [WriteData, setAt_ne _ _ e] using this
  rep_nodup := h.rep_nodup
  rep := by
    intro g hg
    have := h.rep g hg
    by_cases e : g = f
    · subst e; simpa [WriteData] using this
    · simpa [WriteData, setAt_ne _ _ e] using this
  table := h.table

/-- After `pickFrame` the frame is in neither list, no table entry of another
page was touched, and the rest of the invariant still holds. -/
theorem pickFrame_rinv {s s1 : BufferPoolManagerInstance} {f : frame_id_t}
    (h : RInv s) (hp : s.pickFrame = some (f, s1)) :
    RInv s1 ∧ f ∉ s1.free_list ∧ f ∉ s1.replacer.frames ∧ f < s1.pool_size ∧
      s1.pages = s.pages ∧ s1.disk = s.disk ∧ s1.next_page_id = s.next_page_id ∧
      s1.num_instances = s.num_instances ∧ s1.pool_size = s.pool_size := by
  unfold pickFrame at hp
  cases hfl : s.free_list with
  | nil =>
    rw [hfl] at hp
    cases hfr : s.replacer.frames with
    | nil => simp [LRUReplacer.Victim, hfr] at hp
    | cons g rest =>
      simp [LRUReplacer.Victim, hfr] at hp
      obtain ⟨hg, hs1⟩ := hp
      subst hg
      subst hs1
      have hnd := h.rep_nodup
      rw [hfr, List.nodup_cons] at hnd
      refine ⟨?_, by simp [hfl], by simpa using hnd.1, ?_, rfl, rfl, rfl, rfl, rfl⟩
      · refine ⟨by simp [hfl], by simp [hfl], by simpa using hnd.2, ?_, ?_⟩
        · intro x hx
          exact h.rep x (by rw [hfr]; exact List.mem_cons_of_mem _ hx)
        · intro q x hq
          by_cases e : q = (s.pages g).page_id
          · simp [e] at hq
          · simp [setAt_ne _ _ e] at hq
            exact h.table q x hq
      · exact (h.rep g (by rw [hfr]; exact List.mem_cons_self g rest)).1
  | cons g rest =>
    rw [hfl] at hp
    simp at hp
    obtain ⟨hg, hs1⟩ := hp
    subst hg
    subst hs1
    have hnd := h.free_nodup
    rw [hfl, List.nodup_cons] at hnd
    have hg := h.free g (by rw [hfl]; exact List.mem_cons_self g rest)
    refine ⟨?_, by simpa using hnd.1, hg.2.2.2.1, hg.1, rfl, rfl, rfl, rfl, rfl⟩
    refine ⟨by simpa using hnd.2, ?_, h.rep_nodup, h.rep, h.table⟩
    intro x hx
    exact h.free x (by rw [hfl]; exact List.mem_cons_of_mem _ hx)


/-- Installing a page in a frame that is in neither list keeps the
invariant. -/
theorem rinv_install {s1 : BufferPoolManagerInstance} (h : RInv s1) (f : frame_id_t)
    (hf1 : f ∉ s1.free_list) (hf2 : f ∉ s1.replacer.frames) (hlt : f < s1.pool_size)
    (p : Page) (pid : page_id_t) (disk : page_id_t → Bytes) (n : page_id_t) :
    RInv { s1 with disk := disk, pages := setAt s1.pages f p,
                   page_table := setAt s1.page_table pid (some f), next_page_id := n } where
  free_nodup := h.free_nodup
  free := by
    intro g hg
    have hgf : g ≠ f := fun e => hf1 (e ▸ hg)
    obtain ⟨h1, h2, h3, h4, h5⟩ := h.free g hg
    refine ⟨h1, ?_, ?_, h4, ?_⟩
    · simpa [setAt_ne _ _ hgf] using h2
    · simpa [setAt_ne _ _ hgf] using h3
    · intro q
      by_cases e : q = pid
      · subst e
        simp only [setAt_same]
        intro c
        exact hgf (Option.some.inj c).symm
      · simpa [setAt_ne _ _ e] using h5 q
  rep_nodup := h.rep_nodup
  rep := by
    intro g hg
    have hgf : g ≠ f := fun e => hf2 (e ▸ hg)
    simpa [setAt_ne _ _ hgf] using h.rep g hg
  table := by
    intro q g hq
    by_cases e : q = pid
    · subst e
      simp only [setAt_same] at hq
      cases hq
      exact hlt
    · simp only [setAt_ne _ _ e] at hq
      exact h.table q g hq

/-- Changing one frame, the replacer and the disk keeps the invariant when a
free frame stays free and clean and the new replacer holds, besides frames it
held before, at most the changed frame with pin count 0. -/
theorem rinv_touch {s : BufferPoolManagerInstance} (h : RInv s) (i : frame_id_t) (p : Page)
    (r : LRUReplacer frame_id_t) (disk : page_id_t → Bytes)
    (hfree : i ∈ s.free_list → p.page_id = INVALID_PAGE_ID ∧ p.is_dirty = false)
    (hnd : r.frames.Nodup)
    (hsub : ∀ g, g ∈ r.frames → g ≠ i → g ∈ s.replacer.frames)
    (hi : i ∈ r.frames → i ∉ s.free_list ∧ i < s.pool_size ∧ p.pin_count = 0) :
    RInv { s with disk := disk, pages := setAt s.pages i p, replacer := r } where
  free_nodup := h.free_nodup
  free := by
    intro g hg
    obtain ⟨h1, h2, h3, h4, h5⟩ := h.free g hg
    by_cases e : g = i
    · subst e
      refine ⟨h1, ?_, ?_, ?_, h5⟩
      · simpa using (hfree hg).1
      · simpa using (hfree hg).2
      · intro c
        exact (hi c).1 hg
    · refine ⟨h1, ?_, ?_, ?_, h5⟩
      · simpa [setAt_ne _ _ e] using h2
      · simpa [setAt_ne _ _ e] using h3
      · intro c
        exact h4 (hsub g c e)
  rep_nodup := hnd
  rep := by
    intro g hg
    by_cases e : g = i
    · subst e
      have := hi hg
      exact ⟨this.2.1, by simpa using this.2.2⟩
    · simpa [setAt_ne _ _ e] using h.rep g (hsub g hg e)
  table := h.table

theorem rinv_fetch {s : BufferPoolManagerInstance} (h : RInv s) (pid : page_id_t) :
    RInv (s.FetchPgImp pid).2 := by
  unfold FetchPgImp
  cases ht : s.page_table pid with
  | some f =>
    simp only
    have hnf : f ∉ s.free_list := fun c => (h.free f c).2.2.2.2 pid ht
    have hpin : (s.replacer.Pin f).frames = s.replacer.frames.erase f := by
      by_cases hf : f ∈ s.replacer.frames
      · simp [LRUReplacer.Pin, hf]
      · simp [LRUReplacer.Pin, hf, List.erase_of_not_mem hf]
    refine rinv_touch h f _ _ s.disk (fun c => absurd c hnf) ?_ ?_ ?_
    · rw [hpin]; exact h.rep_nodup.erase f
    · intro g hg _
      rw [hpin] at hg
      exact List.mem_of_mem_erase hg
    · intro c
      rw [hpin] at c
      exact absurd rfl ((h.rep_nodup.mem_erase_iff).1 c).1
  | none =>
    simp only
    cases hp : s.pickFrame with
    | none => exact h
    | some fs =>
      obtain ⟨f, s1⟩ := fs
      obtain ⟨h1, hf1, hf2, hlt, _, _, _, _, _⟩ := pickFrame_rinv h hp
      simp only
      exact rinv_install h1 f hf1 hf2 hlt _ pid _ s1.next_page_id

theorem rinv_new {s : BufferPoolManagerInstance} (h : RInv s) : RInv s.NewPgImp.2 := by
  unfold NewPgImp
  cases hp : s.pickFrame with
  | none => exact h
  | some fs =>
    obtain ⟨f, s1⟩ := fs
    obtain ⟨h1, hf1, hf2, hlt, _, _, _, _, _⟩ := pickFrame_rinv h hp
    simp only [AllocatePage]
    split
    · exact ⟨h1.free_nodup, h1.free, h1.rep_nodup, h1.rep, h1.table⟩
    · exact rinv_install h1 f hf1 hf2 hlt _ _ _ _

/-- `UnpinPgImp` on a page of the page table, in closed form. -/
theorem UnpinPgImp_some {s : BufferPoolManagerInstance} {pid : page_id_t} {i : frame_id_t}
    (ht : s.page_table pid = some i) (d : Bool) :
    s.UnpinPgImp pid d =
      (true, { s with
        pages := setAt s.pages i
          { s.pages i with pin_count := (s.pages i).pin_count - 1,
                           is_dirty := (s.pages i).is_dirty || d },
        replacer := if (s.pages i).pin_count - 1 = 0 then s.replacer.Unpin i else s.replacer }) := by
  unfold UnpinPgImp
  rw [ht]
  dsimp only
  generalize s.pages i = p
  obtain ⟨dat, id, pin, dirty⟩ := p
  rcases Nat.eq_zero_or_pos pin with h0 | h0
  · subst h0
    cases d <;> simp
  · cases d <;> simp [h0]

theorem rinv_unpin {s : BufferPoolManagerInstance} (h : RInv s) (pid : page_id_t) (d : Bool) :
    RInv (s.UnpinPgImp pid d).2 := by
  cases ht : s.page_table pid with
  | none => simp [UnpinPgImp, ht]; exact h
  | some i =>
    rw [UnpinPgImp_some ht]
    simp only
    have hnf : i ∉ s.free_list := fun c => (h.free i c).2.2.2.2 pid ht
    have hlt : i < s.pool_size := h.table pid i ht
    by_cases h0 : (s.pages i).pin_count - 1 = 0
    · rw [if_pos h0]
      refine rinv_touch h i _ _ s.disk (fun c => absurd c hnf) ?_ ?_ ?_
      · unfold LRUReplacer.Unpin
        split
        · exact h.rep_nodup
        · rename_i hni
          refine List.Nodup.append h.rep_nodup (List.nodup_singleton i) ?_
          intro a ha hb
          rw [List.mem_singleton] at hb
          exact hni (hb ▸ ha)
      · intro g hg hgi
        unfold LRUReplacer.Unpin at hg
        split at hg
        · exact hg
        · simp at hg
          rcases hg with hg | hg
          · exact hg
          · exact absurd hg hgi
      · intro _
        exact ⟨hnf, hlt, h0⟩
    · rw [if_neg h0]
      refine rinv_touch h i _ _ s.disk (fun c => absurd c hnf) h.rep_nodup (fun g hg _ => hg) ?_
      intro c
      exfalso
      apply h0
      simp [(h.rep i c).2]

theorem rinv_flush {s : BufferPoolManagerInstance} (h : RInv s) (pid : page_id_t) :
    RInv (s.FlushPgImp pid).2 := by
  unfold FlushPgImp
  cases hf : s.findFrame pid with
  | none => exact h
  | some i =>
    simp only
    refine rinv_touch h i _ _ _ ?_ h.rep_nodup (fun g hg _ => hg) ?_
    · intro c
      exact ⟨(h.free i c).2.1, rfl⟩
    · intro c
      exact ⟨fun c2 => (h.free i c2).2.2.2.1 c, (h.rep i c).1, (h.rep i c).2⟩

theorem rinv_flushFrame {s : BufferPoolManagerInstance} (h : RInv s) (i : frame_id_t) :
    RInv (s.flushFrame i) := by
  unfold flushFrame
  split
  · refine rinv_touch h i _ _ _ ?_ h.rep_nodup (fun g hg _ => hg) ?_
    · intro c
      exact ⟨(h.free i c).2.1, rfl⟩
    · intro c
      exact ⟨fun c2 => (h.free i c2).2.2.2.1 c, (h.rep i c).1, (h.rep i c).2⟩
  · exact h

theorem rinv_flushAll {s : BufferPoolManagerInstance} (h : RInv s) : RInv s.FlushAllPgsImp := by
  unfold FlushAllPgsImp
  generalize List.range s.pool_size = l
  induction l generalizing s with
  | nil => exact h
  | cons i l ih => exact ih (rinv_flushFrame h i)

theorem rinv_delete {s : BufferPoolManagerInstance} (h : RInv s) (pid : page_id_t) :
    RInv (s.DeletePgImp pid).2 := by
  unfold DeletePgImp
  cases ht : s.page_table pid with
  | none => exact h
  | some i =>
    simp only
    split
    · exact h
    · have hnf : i ∉ s.free_list := fun c => (h.free i c).2.2.2.2 pid ht
      exact rinv_touch h i _ _ s.disk (fun c => absurd c hnf) h.rep_nodup (fun g hg _ => hg)
        (fun _ => ⟨hnf, h.table pid i ht, rfl⟩)

theorem rinv_step {s : BufferPoolManagerInstance} (h : RInv s) (c : Call) : RInv (s.step c) := by
  cases c with
  | fetch q => exact rinv_fetch h q
  | newPage => exact rinv_new h
  | unpin q d => exact rinv_unpin h q d
  | flush q => exact rinv_flush h q
  | flushAll => exact rinv_flushAll h
  | delete q => exact rinv_delete h q
  | write f d => exact rinv_write h f d

theorem rinv_of_reachable {s : BufferPoolManagerInstance} (h : Reachable s) : RInv s := by
  induction h with
  | init ps ni ii pz disk _ _ => exact rinv_init ps ni ii pz disk
  | step s c _ ih => exact rinv_step ih c


theorem reachable_run {s : BufferPoolManagerInstance} (h : Reachable s) (cs : List Call) :
    Reachable (s.run cs) := by
  induction cs generalizing s with
  | nil => exact h
  | cons c cs ih => exact ih (Reachable.step s c h)

/-- C5: with an empty free list and an empty replacer, NewPage and FetchPage of
a page that is not in the page table return the null handle and the state
(page table, frames, free list, replacer, next page id, disk) is the one
before the call. -/
theorem out_of_frames_returns_null (s : BufferPoolManagerInstance) (pid : page_id_t)
    (hfree : s.free_list = []) (hrep : s.replacer.Size = 0)
    (hpid : s.page_table pid = none) :
    s.NewPgImp = (none, s) ∧ s.FetchPgImp pid = (none, s) := by
  have hfr : s.replacer.frames = [] := List.length_eq_zero.1 hrep
  have hp : s.pickFrame = none := by
    simp [pickFrame, hfree, LRUReplacer.Victim, hfr]
  constructor
  · simp [NewPgImp, hp]
  · simp [FetchPgImp, hpid, hp]

theorem out_of_frames_returns_null_witness :
    pinnedPool.free_list = [] ∧ pinnedPool.replacer.Size = 0 ∧
      pinnedPool.page_table 7 = none ∧
      pinnedPool.NewPgImp = (none, pinnedPool) ∧
      pinnedPool.FetchPgImp 7 = (none, pinnedPool) :=
  ⟨by decide, by decide, by decide,
   out_of_frames_returns_null pinnedPool 7 (by decide) (by decide) (by decide)⟩

/-- C6: UnpinPage(pid, dirty) returns false and changes nothing when pid is
not in the page table.  Otherwise it returns true, the pin count of the page's
frame becomes max(pin_count - 1, 0), is_dirty becomes (old is_dirty OR dirty),
bytes, page id, the other frames, page table, free list and disk stay, and the
frame is in the replacer afterwards exactly when its new pin count is 0. -/
theorem unpin_page_contract (s : BufferPoolManagerInstance) (hr : Reachable s)
    (pid : page_id_t) (d : Bool) :
    (s.page_table pid = none → s.UnpinPgImp pid d = (false, s)) ∧
    (∀ i, s.page_table pid = some i →
      (s.UnpinPgImp pid d).1 = true ∧
      (((s.UnpinPgImp pid d).2.pages i).pin_count : Int) =
        max (((s.pages i).pin_count : Int) - 1) 0 ∧
      ((s.UnpinPgImp pid d).2.pages i).is_dirty = ((s.pages i).is_dirty || d) ∧
      ((s.UnpinPgImp pid d).2.pages i).data = (s.pages i).data ∧
      ((s.UnpinPgImp pid d).2.pages i).page_id = (s.pages i).page_id ∧
      (i ∈ (s.UnpinPgImp pid d).2.replacer.frames ↔
        ((s.UnpinPgImp pid d).2.pages i).pin_count = 0) ∧
      (∀ g, g ≠ i → (s.UnpinPgImp pid d).2.pages g = s.pages g) ∧
      (s.UnpinPgImp pid d).2.page_table = s.page_table ∧
      (s.UnpinPgImp pid d).2.free_list = s.free_list ∧
      (s.UnpinPgImp pid d).2.disk = s.disk) := by
  have h := rinv_of_reachable hr
  constructor
  · intro ht
    simp [UnpinPgImp, ht]
  · intro i ht
    rw [UnpinPgImp_some ht]
    refine ⟨rfl, ?_, by simp, by simp, by simp, ?_, ?_, rfl, rfl, rfl⟩
    · simp only [setAt_same]
      omega
    · simp only [setAt_same]
      by_cases h0 : (s.pages i).pin_count - 1 = 0
      · simp [h0, LRUReplacer.Unpin]
        split <;> simp_all
      · simp only [if_neg h0]
        constructor
        · intro c
          simp [(h.rep i c).2]
        · intro c
          exact absurd c h0
    · intro g hg
      simp [setAt_ne _ _ hg]

theorem unpin_page_contract_witness :
    Reachable pinnedPool ∧
      (pinnedPool.UnpinPgImp 0 false).1 = true ∧
      (0 ∈ (pinnedPool.UnpinPgImp 0 false).2.replacer.frames ↔
        ((pinnedPool.UnpinPgImp 0 false).2.pages 0).pin_count = 0) :=
  have hr : Reachable pinnedPool :=
    reachable_run (Reachable.init 1 1 0 4 (fun _ => []) (by decide) (by decide)) _
  have h := (unpin_page_contract pinnedPool hr 0 false).2 0 (by decide)
  ⟨hr, h.1, h.2.2.2.2.2.1⟩

/-- C7 (the code at the failing input): DeletePage of a resident page with pin
count 0 returns true and clears the frame (invalid page id, pin count 0, not
dirty, zeroed bytes), but the page id stays in the page table, the frame does
not enter the free list and stays in the replacer. -/
theorem delete_page_keeps_table_entry_and_replacer :
    unpinnedNew.page_table 0 = some 0 ∧ (unpinnedNew.pages 0).pin_count = 0 ∧
    (unpinnedNew.DeletePgImp 0).1 = true ∧
    (unpinnedNew.DeletePgImp 0).2.pages 0 = ⟨[0, 0, 0, 0], INVALID_PAGE_ID, 0, false⟩ ∧
    (unpinnedNew.DeletePgImp 0).2.page_table 0 = some 0 ∧
    (unpinnedNew.DeletePgImp 0).2.free_list = [] ∧
    (unpinnedNew.DeletePgImp 0).2.replacer.frames = [0] := by
  decide

/-- C8 (the code at the failing input): on a fresh pool, where no page is
resident, FlushPage(-1) finds the free frame 0 (its page id is -1), returns
true and writes that frame's bytes to disk page -1. -/
theorem flush_invalid_page_id_writes_free_frame :
    (init 1 1 0 4 (fun _ => [])).page_table INVALID_PAGE_ID = none ∧
    ((init 1 1 0 4 (fun _ => [])).FlushPgImp INVALID_PAGE_ID).1 = true ∧
    (init 1 1 0 4 (fun _ => [])).disk INVALID_PAGE_ID = [] ∧
    ((init 1 1 0 4 (fun _ => [])).FlushPgImp INVALID_PAGE_ID).2.disk INVALID_PAGE_ID
      = [0, 0, 0, 0] := by
  decide


/-- C4 as stated fails: in a pool of one frame, after FetchPage(0) and
UnpinPage(0, false) the free list is empty and the replacer's victim is frame
0, which holds page 0; NewPage evicts it, is handed page id 0 again, and page
id 0, the id of the evicted page, is in the page table after the call. -/
theorem evicted_page_id_still_mapped_after_new_page :
    Reachable fetchedOnce ∧ fetchedOnce.free_list = [] ∧
    fetchedOnce.replacer.Victim.1 = some 0 ∧ (fetchedOnce.pages 0).page_id = 0 ∧
    fetchedOnce.NewPgImp.1 = some (0, 0) ∧
    fetchedOnce.NewPgImp.2.page_table 0 = some 0 := by
  refine ⟨?_, by decide, by decide, by decide, by decide, by decide⟩
  exact reachable_run (Reachable.init 1 1 0 4 (fun _ => []) (by decide) (by decide)) _

/-- C4 (amended): FetchPage of a page that is not in the page table and NewPage
take the front frame of a non-empty free list, and then the replacer, the disk
and every other page table entry stay as they were.  With an empty free list
they take the replacer's victim (the head of its list); its old page id, when
it is not the id being installed, is no longer in the page table.  In both
cases the requested page, or the newly allocated page unless `next_page_id_`
was INVALID_PAGE_ID, is mapped to the frame, which has pin count 1.  In the
pool of three frames with pages 0, 1, 2 unpinned in
this order, fetch 3 takes frame 0 and unmaps page 0, then fetch 0 takes frame 1
and unmaps page 1. -/
theorem frame_from_free_list_else_victim (s : BufferPoolManagerInstance) (hr : Reachable s) :
    (∀ pid f rest, s.page_table pid = none → s.free_list = f :: rest →
      (s.FetchPgImp pid).1 = some f ∧
      (s.FetchPgImp pid).2.free_list = rest ∧
      (s.FetchPgImp pid).2.replacer = s.replacer ∧
      (s.FetchPgImp pid).2.disk = s.disk ∧
      (∀ q, q ≠ pid → (s.FetchPgImp pid).2.page_table q = s.page_table q) ∧
      (s.FetchPgImp pid).2.page_table pid = some f ∧
      ((s.FetchPgImp pid).2.pages f).pin_count = 1 ∧
      ((s.FetchPgImp pid).2.pages f).page_id = pid) ∧
    (∀ pid f, s.page_table pid = none → s.free_list = [] →
      s.replacer.Victim.1 = some f →
      (s.FetchPgImp pid).1 = some f ∧
      (s.FetchPgImp pid).2.replacer = s.replacer.Victim.2 ∧
      ((s.pages f).page_id ≠ pid →
        (s.FetchPgImp pid).2.page_table (s.pages f).page_id = none) ∧
      (∀ q, q ≠ pid → q ≠ (s.pages f).page_id →
        (s.FetchPgImp pid).2.page_table q = s.page_table q) ∧
      (s.FetchPgImp pid).2.page_table pid = some f ∧
      ((s.FetchPgImp pid).2.pages f).pin_count = 1 ∧
      ((s.FetchPgImp pid).2.pages f).page_id = pid) ∧
    (∀ f rest, s.free_list = f :: rest →
      s.NewPgImp.2.free_list = rest ∧
      s.NewPgImp.2.replacer = s.replacer ∧
      s.NewPgImp.2.disk = s.disk ∧
      (∀ q, q ≠ s.next_page_id → s.NewPgImp.2.page_table q = s.page_table q) ∧
      (s.next_page_id ≠ INVALID_PAGE_ID →
        s.NewPgImp.1 = some (s.next_page_id, f) ∧
        s.NewPgImp.2.page_table s.next_page_id = some f ∧
        (s.NewPgImp.2.pages f).pin_count = 1 ∧
        (s.NewPgImp.2.pages f).page_id = s.next_page_id)) ∧
    (∀ f, s.free_list = [] → s.replacer.Victim.1 = some f →
      s.NewPgImp.2.replacer = s.replacer.Victim.2 ∧
      ((s.pages f).page_id ≠ s.next_page_id →
        s.NewPgImp.2.page_table (s.pages f).page_id = none) ∧
      (∀ q, q ≠ s.next_page_id → q ≠ (s.pages f).page_id →
        s.NewPgImp.2.page_table q = s.page_table q) ∧
      (s.next_page_id ≠ INVALID_PAGE_ID →
        s.NewPgImp.1 = some (s.next_page_id, f) ∧
        s.NewPgImp.2.page_table s.next_page_id = some f ∧
        (s.NewPgImp.2.pages f).pin_count = 1 ∧
        (s.NewPgImp.2.pages f).page_id = s.next_page_id)) ∧
    (threeUnpinned.free_list = [] ∧
      (threeUnpinned.FetchPgImp 3).1 = some 0 ∧
      (threeUnpinned.FetchPgImp 3).2.page_table 0 = none ∧
      (threeUnpinned.FetchPgImp 3).2.page_table 3 = some 0 ∧
      ((threeUnpinned.FetchPgImp 3).2.FetchPgImp 0).1 = some 1 ∧
      ((threeUnpinned.FetchPgImp 3).2.FetchPgImp 0).2.page_table 1 = none ∧
      ((threeUnpinned.FetchPgImp 3).2.FetchPgImp 0).2.page_table 0 = some 1) := by
  have h := rinv_of_reachable hr
  refine ⟨?_, ?_, ?_, ?_, by decide⟩
  · intro pid f rest hpid hfl
    have hf := h.free f (by rw [hfl]; exact List.mem_cons_self f rest)
    have hp : s.pickFrame = some (f, { s with free_list := rest }) := by
      simp [pickFrame, hfl]
    have hd : (s.pages f).is_dirty = false := hf.2.2.1
    refine ⟨?_, ?_, ?_, ?_, ?_, ?_, ?_, ?_⟩ <;>
      simp [FetchPgImp, hpid, hp, hd]
    intro q hq
    simp [setAt_ne _ _ hq]
  · intro pid f hpid hfl hv
    have hp : s.pickFrame = some (f, victimState s f) := by
      cases hfr : s.replacer.frames with
      | nil => simp [LRUReplacer.Victim, hfr] at hv
      | cons g rest =>
        simp [LRUReplacer.Victim, hfr] at hv
        subst hv
        simp [pickFrame, victimState, hfl, LRUReplacer.Victim, hfr]
    refine ⟨?_, ?_, ?_, ?_, ?_, ?_, ?_⟩ <;>
      simp [FetchPgImp, hpid, hp, victimState]
    · intro hne
      simp [setAt_ne _ _ hne]
    · intro q hq hq2
      simp [setAt_ne _ _ hq, setAt_ne _ _ hq2]
  · intro f rest hfl
    have hf := h.free f (by rw [hfl]; exact List.mem_cons_self f rest)
    have hp : s.pickFrame = some (f, { s with free_list := rest }) := by
      simp [pickFrame, hfl]
    have hd : (s.pages f).is_dirty = false := hf.2.2.1
    by_cases hnext : s.next_page_id = INVALID_PAGE_ID
    · refine ⟨?_, ?_, ?_, ?_, fun c => absurd hnext c⟩ <;>
        simp [NewPgImp, hp, AllocatePage, hnext]
    · refine ⟨?_, ?_, ?_, ?_, fun _ => ⟨?_, ?_, ?_, ?_⟩⟩ <;>
        simp [NewPgImp, hp, AllocatePage, hnext, hd]
      intro q hq
      simp [setAt_ne _ _ hq]
  · intro f hfl hv
    have hp : s.pickFrame = some (f, victimState s f) := by
      cases hfr : s.replacer.frames with
      | nil => simp [LRUReplacer.Victim, hfr] at hv
      | cons g rest =>
        simp [LRUReplacer.Victim, hfr] at hv
        subst hv
        simp [pickFrame, victimState, hfl, LRUReplacer.Victim, hfr]
    by_cases hnext : s.next_page_id = INVALID_PAGE_ID
    · refine ⟨?_, ?_, ?_, fun c => absurd hnext c⟩ <;>
        simp [NewPgImp, hp, AllocatePage, hnext, victimState]
      intro q _ hq2
      simp [setAt_ne _ _ hq2]
    · refine ⟨?_, ?_, ?_, fun _ => ⟨?_, ?_, ?_, ?_⟩⟩ <;>
        simp [NewPgImp, hp, AllocatePage, hnext, victimState]
      · intro hne
        simp [setAt_ne _ _ hne]
      · intro q hq hq2
        simp [setAt_ne _ _ hq, setAt_ne _ _ hq2]

theorem frame_from_free_list_else_victim_witness :
    Reachable threeUnpinned ∧
      (threeUnpinned.FetchPgImp 3).1 = some 0 ∧
      (threeUnpinned.FetchPgImp 3).2.page_table 0 = none ∧
      ((threeUnpinned.FetchPgImp 3).2.pages 0).pin_count = 1 ∧
      threeUnpinned.NewPgImp.1 = some (threeUnpinned.next_page_id, 0) ∧
      (threeUnpinned.NewPgImp.2.pages 0).pin_count = 1 :=
  have hr : Reachable threeUnpinned :=
    reachable_run (Reachable.init 3 1 0 4 (fun _ => []) (by decide) (by decide)) _
  have h := (frame_from_free_list_else_victim threeUnpinned hr).2.1 3 0
    (by decide) (by decide) (by decide)
  have h2 := ((frame_from_free_list_else_victim threeUnpinned hr).2.2.2.1 0
    (by decide) (by decide)).2.2.2 (by decide)
  ⟨hr, h.1, h.2.2.1 (by decide), h.2.2.2.2.2.1, h2.1, h2.2.2.1⟩


/-- A change of one frame that keeps its page id and bytes and does not clean
it keeps the bytes safe. -/
theorem holds_touch {s s1 : BufferPoolManagerInstance} {pid : page_id_t} {B : Bytes}
    (hh : Holds s pid B) (i : frame_id_t) (p : Page)
    (hid : p.page_id = (s.pages i).page_id) (hdata : p.data = (s.pages i).data)
    (hdirty : (s.pages i).is_dirty = true → p.is_dirty = true)
    (hps : s1.pool_size = s.pool_size) (hpg : s1.pages = setAt s.pages i p)
    (htb : s1.page_table = s.page_table) (hdk : s1.disk = s.disk) :
    Holds s1 pid B := by
  have key : ∀ g, (s1.pages g).page_id = (s.pages g).page_id ∧
      (s1.pages g).data = (s.pages g).data ∧
      ((s.pages g).is_dirty = true → (s1.pages g).is_dirty = true) := by
    intro g
    rw [hpg]
    by_cases e : g = i
    · subst e; simp [hid, hdata]; exact hdirty
    · simp [setAt_ne _ _ e]
  refine ⟨?_, ?_, ?_⟩
  · intro g hg hgp
    rw [hps] at hg
    rw [(key g).1] at hgp
    obtain ⟨h1, h2, h3⟩ := hh.frames g hg hgp
    rw [htb, hdk, (key g).2.1]
    refine ⟨h1, h2, ?_⟩
    rcases h3 with h3 | h3
    · exact Or.inl ((key g).2.2 h3)
    · exact Or.inr h3
  · intro f hf
    rw [htb] at hf
    rw [(key f).1]
    exact hh.table f hf
  · intro hn
    rw [htb] at hn
    rw [hdk]
    exact hh.absent hn

/-- Reusing frame `f` for page `q` keeps the bytes of `pid` safe when the old
page of `f` was written back if it had to be, its table entry went with it,
and, if `q` is `pid`, the frame was filled from disk. -/
theorem holds_install {s s1 : BufferPoolManagerInstance} {pid : page_id_t} {B : Bytes}
    (hh : Holds s pid B) (f : frame_id_t) (hf : f < s.pool_size) (q : page_id_t)
    (tbl : page_id_t → Option frame_id_t) (p1 : Page)
    (htbl : (tbl = s.page_table ∧ (s.pages f).page_id ≠ pid) ∨
            tbl = setAt s.page_table (s.pages f).page_id none)
    (hd1 : (s.pages f).page_id = pid → s1.disk pid = B)
    (hd2 : (s.pages f).page_id ≠ pid → s1.disk pid = s.disk pid)
    (hp1 : p1.page_id = q)
    (hq : q = pid → s.page_table pid = none ∧ p1.data = s1.disk pid)
    (hps : s1.pool_size = s.pool_size) (hpg : s1.pages = setAt s.pages f p1)
    (htb : s1.page_table = setAt tbl q (some f)) :
    Holds s1 pid B := by
  have hnone : s.page_table pid = none → (s.pages f).page_id ≠ pid := by
    intro hn c
    have := (hh.frames f hf c).1
    rw [hn] at this
    cases this
  have htbl_pid : q ≠ pid → (s.pages f).page_id ≠ pid → tbl pid = s.page_table pid := by
    intro _ hold
    rcases htbl with ⟨e, _⟩ | e
    · rw [e]
    · rw [e, setAt_ne _ _ (fun c => hold c.symm)]
  have htbl_old : q ≠ pid → (s.pages f).page_id = pid → tbl pid = none := by
    intro _ hold
    rcases htbl with ⟨_, e⟩ | e
    · exact absurd hold e
    · rw [e, ← hold, setAt_same]
  refine ⟨?_, ?_, ?_⟩
  · intro g hg hgp
    rw [hps] at hg
    rw [hpg] at hgp ⊢
    by_cases e : g = f
    · subst e
      simp only [setAt_same] at hgp ⊢
      have hqp : q = pid := by rw [← hp1]; exact hgp
      obtain ⟨hn, hdat⟩ := hq hqp
      have hdisk : s1.disk pid = B := by
        rw [hd2 (hnone hn)]; exact hh.absent hn
      refine ⟨by rw [htb, hqp, setAt_same], by rw [hdat, hdisk], Or.inr hdisk⟩
    · simp only [setAt_ne _ _ e] at hgp ⊢
      obtain ⟨h1, h2, h3⟩ := hh.frames g hg hgp
      have hqp : q ≠ pid := by
        intro c
        have := (hq c).1
        rw [h1] at this
        cases this
      have hold : (s.pages f).page_id ≠ pid := by
        intro c
        have := (hh.frames f hf c).1
        rw [h1] at this
        exact e (Option.some.inj this)
      refine ⟨?_, h2, ?_⟩
      · rw [htb, setAt_ne _ _ (fun c => hqp c.symm), htbl_pid hqp hold]
        exact h1
      · rw [hd2 hold]; exact h3
  · intro g hg
    rw [htb] at hg
    rw [hpg]
    by_cases hqp : q = pid
    · rw [hqp, setAt_same] at hg
      cases hg
      simp only [setAt_same]
      rw [hp1, hqp]
    · rw [setAt_ne _ _ (fun c => hqp c.symm)] at hg
      by_cases hold : (s.pages f).page_id = pid
      · rw [htbl_old hqp hold] at hg
        cases hg
      · rw [htbl_pid hqp hold] at hg
        have hgp := hh.table g hg
        have e : g ≠ f := by
          intro c
          rw [c] at hgp
          exact hold hgp
        rw [setAt_ne _ _ e]
        exact hgp
  · intro hn
    rw [htb] at hn
    by_cases hqp : q = pid
    · rw [hqp, setAt_same] at hn
      cases hn
    · rw [setAt_ne _ _ (fun c => hqp c.symm)] at hn
      by_cases hold : (s.pages f).page_id = pid
      · exact hd1 hold
      · rw [htbl_pid hqp hold] at hn
        rw [hd2 hold]
        exact hh.absent hn

/-- What `pickFrame` does to the page table. -/
theorem pickFrame_table {s s1 : BufferPoolManagerInstance} {f : frame_id_t}
    (h : RInv s) (hp : s.pickFrame = some (f, s1)) :
    (s1.page_table = s.page_table ∧ (s.pages f).page_id = INVALID_PAGE_ID ∧
        (s.pages f).is_dirty = false) ∨
      s1.page_table = setAt s.page_table (s.pages f).page_id none := by
  unfold pickFrame at hp
  cases hfl : s.free_list with
  | nil =>
    rw [hfl] at hp
    cases hfr : s.replacer.frames with
    | nil => simp [LRUReplacer.Victim, hfr] at hp
    | cons g rest =>
      simp [LRUReplacer.Victim, hfr] at hp
      obtain ⟨hg, hs1⟩ := hp
      subst hg
      subst hs1
      exact Or.inr rfl
  | cons g rest =>
    rw [hfl] at hp
    simp at hp
    obtain ⟨hg, hs1⟩ := hp
    subst hg
    subst hs1
    have hg := h.free g (by rw [hfl]; exact List.mem_cons_self g rest)
    exact Or.inl ⟨rfl, hg.2.1, hg.2.2.1⟩


theorem holds_fetch {s : BufferPoolManagerInstance} {pid : page_id_t} {B : Bytes}
    (h : RInv s) (hh : Holds s pid B) (hv : pid ≠ INVALID_PAGE_ID) (q : page_id_t) :
    Holds (s.FetchPgImp q).2 pid B := by
  unfold FetchPgImp
  cases ht : s.page_table q with
  | some f =>
    simp only
    refine holds_touch hh f _ ?_ ?_ ?_ rfl rfl rfl rfl
    · rfl
    · rfl
    · exact fun c => c
  | none =>
    simp only
    cases hp : s.pickFrame with
    | none => exact hh
    | some fs =>
      obtain ⟨f, s1⟩ := fs
      obtain ⟨_, _, _, hlt, hpg, hdk, _, _, hps⟩ := pickFrame_rinv h hp
      have htb := pickFrame_table h hp
      simp only
      rw [hps] at hlt
      rw [hpg, hdk]
      refine holds_install hh f hlt q s1.page_table _ ?_ ?_ ?_ ?_ ?_ hps rfl rfl
      · rcases htb with ⟨e, e2, _⟩ | e
        · exact Or.inl ⟨e, by rw [e2]; exact fun c => hv c.symm⟩
        · exact Or.inr e
      · intro hold
        have hfr := hh.frames f hlt hold
        by_cases hd : (s.pages f).is_dirty = true
        · have : (s.pages f).page_id ≠ INVALID_PAGE_ID := by rw [hold]; exact hv
          simp [hd, hv, WritePage, hold, hfr.2.1]
        · rcases hfr.2.2 with c | c
          · exact absurd c hd
          · simp [hd, c]
      · intro hold
        simp only
        split
        · simp [WritePage, setAt_ne _ _ (fun c => hold c.symm)]
        · rfl
      · rfl
      · intro hq
        subst hq
        exact ⟨ht, rfl⟩

theorem holds_new {s : BufferPoolManagerInstance} {pid : page_id_t} {B : Bytes}
    (h : RInv s) (hh : Holds s pid B) (hv : pid ≠ INVALID_PAGE_ID)
    (hk : s.next_page_id ≠ pid) (hn : s.next_page_id ≠ INVALID_PAGE_ID) :
    Holds s.NewPgImp.2 pid B := by
  unfold NewPgImp
  cases hp : s.pickFrame with
  | none => exact hh
  | some fs =>
    obtain ⟨f, s1⟩ := fs
    obtain ⟨h1, _, _, hlt, hpg, hdk, hnx, _, hps⟩ := pickFrame_rinv h hp
    have htb := pickFrame_table h hp
    have hnext : s1.next_page_id ≠ INVALID_PAGE_ID := by
      rw [hnx]
      exact hn
    simp only [AllocatePage, if_neg hnext]
    rw [hps] at hlt
    rw [hpg, hdk, hnx]
    refine holds_install hh f hlt s.next_page_id s1.page_table _ ?_ ?_ ?_ ?_ ?_ hps rfl rfl
    · rcases htb with ⟨e, e2, _⟩ | e
      · exact Or.inl ⟨e, by rw [e2]; exact fun c => hv c.symm⟩
      · exact Or.inr e
    · intro hold
      have hfr := hh.frames f hlt hold
      by_cases hd : (s.pages f).is_dirty = true
      · simp [hd, WritePage, hold, hfr.2.1]
      · rcases hfr.2.2 with c | c
        · exact absurd c hd
        · simp [hd, c]
    · intro hold
      simp only
      split
      · simp [WritePage, setAt_ne _ _ (fun c => hold c.symm)]
      · rfl
    · rfl
    · intro hq
      exact absurd hq hk

theorem holds_unpin {s : BufferPoolManagerInstance} {pid : page_id_t} {B : Bytes}
    (hh : Holds s pid B) (q : page_id_t) (d : Bool) :
    Holds (s.UnpinPgImp q d).2 pid B := by
  cases ht : s.page_table q with
  | none => simp [UnpinPgImp, ht]; exact hh
  | some i =>
    rw [UnpinPgImp_some ht]
    refine holds_touch hh i _ ?_ ?_ ?_ rfl rfl rfl rfl
    · rfl
    · rfl
    · intro c
      simp [c]

theorem findFrame_some {s : BufferPoolManagerInstance} {q : page_id_t} {i : frame_id_t}
    (hf : s.findFrame q = some i) : i < s.pool_size ∧ (s.pages i).page_id = q := by
  unfold findFrame at hf
  have h1 := List.mem_of_find?_eq_some hf
  have h2 := List.find?_some hf
  exact ⟨List.mem_range.1 h1, of_decide_eq_true h2⟩

theorem findFrame_none {s : BufferPoolManagerInstance} {q : page_id_t}
    (hf : s.findFrame q = none) (g : frame_id_t) (hg : g < s.pool_size) :
    (s.pages g).page_id ≠ q := by
  unfold findFrame at hf
  rw [List.find?_eq_none] at hf
  have := hf g (List.mem_range.2 hg)
  simpa using this

theorem holds_flush {s : BufferPoolManagerInstance} {pid : page_id_t} {B : Bytes}
    (h : RInv s) (hh : Holds s pid B) (q : page_id_t) :
    Holds (s.FlushPgImp q).2 pid B ∧ (q = pid → (s.FlushPgImp q).2.disk pid = B) := by
  unfold FlushPgImp
  cases hf : s.findFrame q with
  | none =>
    refine ⟨hh, ?_⟩
    intro hq
    subst hq
    simp only
    cases ht : s.page_table q with
    | none => exact hh.absent ht
    | some f =>
      exact absurd (hh.table f ht) (findFrame_none hf f (h.table q f ht))
  | some i =>
    obtain ⟨hi, hiq⟩ := findFrame_some hf
    simp only
    have key : ∀ g, ((setAt s.pages i { s.pages i with is_dirty := false }) g).page_id
          = (s.pages g).page_id ∧
        ((setAt s.pages i { s.pages i with is_dirty := false }) g).data = (s.pages g).data ∧
        (g ≠ i → ((setAt s.pages i { s.pages i with is_dirty := false }) g).is_dirty
          = (s.pages g).is_dirty) := by
      intro g
      by_cases e : g = i
      · subst e; simp
      · simp [setAt_ne _ _ e]
    by_cases hq : q = pid
    · subst hq
      have hB : (s.pages i).data = B := (hh.frames i hi hiq).2.1
      have hdisk : WritePage s.disk q (s.pages i).data q = B := by
        simp [WritePage, hB]
      refine ⟨⟨?_, ?_, ?_⟩, fun _ => hdisk⟩
      · intro g hg hgp
        rw [(key g).1] at hgp
        obtain ⟨h1, h2, _⟩ := hh.frames g hg hgp
        exact ⟨h1, by rw [(key g).2.1]; exact h2, Or.inr hdisk⟩
      · intro f hf2
        rw [(key f).1]
        exact hh.table f hf2
      · intro _
        exact hdisk
    · have hdisk : WritePage s.disk q (s.pages i).data pid = s.disk pid := by
        simp [WritePage, setAt_ne _ _ (fun c => hq c.symm)]
      refine ⟨⟨?_, ?_, ?_⟩, fun c => absurd c hq⟩
      · intro g hg hgp
        rw [(key g).1] at hgp
        obtain ⟨h1, h2, h3⟩ := hh.frames g hg hgp
        have hgi : g ≠ i := by
          intro c
          rw [c, hiq] at hgp
          exact hq hgp
        refine ⟨h1, by rw [(key g).2.1]; exact h2, ?_⟩
        rw [(key g).2.2 hgi]
        simp only [hdisk]
        exact h3
      · intro f hf2
        rw [(key f).1]
        exact hh.table f hf2
      · intro hn
        simp only [hdisk]
        exact hh.absent hn

/-- Along a later sequence of FetchPage, NewPage, UnpinPage and FlushPage calls
that does not hand out `pid` again, the bytes of `pid` stay safe. -/
theorem holds_run {pid : page_id_t} {B : Bytes} (hv : pid ≠ INVALID_PAGE_ID)
    (cs : List Call) :
    ∀ s : BufferPoolManagerInstance, RInv s → Holds s pid B → Keeps pid s cs →
      RInv (s.run cs) ∧ Holds (s.run cs) pid B := by
  induction cs with
  | nil => intro s h hh _; exact ⟨h, hh⟩
  | cons c cs ih =>
    intro s h hh hk
    cases c with
    | fetch q => exact ih _ (rinv_fetch h q) (holds_fetch h hh hv q) hk
    | newPage => exact ih _ (rinv_new h) (holds_new h hh hv hk.1 hk.2.1) hk.2.2
    | unpin q d => exact ih _ (rinv_unpin h q d) (holds_unpin hh q d) hk
    | flush q => exact ih _ (rinv_flush h q) (holds_flush h hh q).1 hk
    | flushAll => exact absurd hk (by simp [Keeps])
    | delete q => exact absurd hk (by simp [Keeps])
    | write f d => exact absurd hk (by simp [Keeps])

/-- After the bytes of a solely held page are written and the page is unpinned
dirty, they are safe. -/
theorem holds_after_write {s : BufferPoolManagerInstance} {pid : page_id_t} {f : frame_id_t}
    (hs : SoleHolder s pid f) (hlt : f < s.pool_size) (B : Bytes) :
    Holds ((s.WriteData f B).UnpinPgImp pid true).2 pid B := by
  obtain ⟨ht, hu⟩ := hs
  have ht2 : (s.WriteData f B).page_table pid = some f := ht
  have hfp : (s.pages f).page_id = pid := (hu f hlt).2 rfl
  rw [UnpinPgImp_some ht2]
  refine ⟨?_, ?_, ?_⟩
  · intro g hg hgp
    have hg2 : g < s.pool_size := hg
    by_cases e : g = f
    · subst e
      simp [WriteData, ht]
    · exfalso
      simp [WriteData, setAt_ne _ _ e] at hgp
      exact e ((hu g hg2).1 hgp)
  · intro g hg
    have hg2 : s.page_table pid = some g := hg
    rw [ht] at hg2
    cases hg2
    simp [WriteData, hfp]
  · intro hn
    have hn2 : s.page_table pid = none := hn
    rw [ht] at hn2
    cases hn2

theorem FetchPgImp_maps_result (s : BufferPoolManagerInstance) (pid : page_id_t)
    (g : frame_id_t) (hg : (s.FetchPgImp pid).1 = some g) :
    (s.FetchPgImp pid).2.page_table pid = some g := by
  unfold FetchPgImp at hg ⊢
  cases ht : s.page_table pid with
  | some f =>
    rw [ht] at hg
    simp only at hg ⊢
    rw [ht, ← hg]
  | none =>
    rw [ht] at hg
    simp only at hg ⊢
    cases hp : s.pickFrame with
    | none => rw [hp] at hg; simp at hg
    | some fs =>
      obtain ⟨f, s1⟩ := fs
      rw [hp] at hg
      simp only at hg ⊢
      rw [setAt_same, ← hg]

/-- C3 as stated fails: in the pool of two frames where NewPage handed out page
id 0 for frame 1 while frame 0 still carries page id 0, the bytes of frame 1
(page 0 of the page table, pinned) are changed to [9] and the page is unpinned
dirty; FlushPage(0) then returns true but writes the bytes of frame 0, so the
disk copy of page 0 is [5]. -/
theorem flush_after_id_collision_writes_other_frame :
    Reachable collided ∧ collided.page_table 0 = some 1 ∧
    0 < (collided.pages 1).pin_count ∧
    (collided.afterDirtyWrite 0 1 [9] []).page_table 0 = some 1 ∧
    ((collided.afterDirtyWrite 0 1 [9] []).pages 1).data = [9] ∧
    ((collided.afterDirtyWrite 0 1 [9] []).FlushPgImp 0).1 = true ∧
    ((collided.afterDirtyWrite 0 1 [9] []).FlushPgImp 0).2.disk 0 = [5] := by
  refine ⟨?_, by decide, by decide, by decide, by decide, by decide, by decide⟩
  exact reachable_run (Reachable.init 2 1 0 1 (fun _ => [5]) (by decide) (by decide)) _

/-- NewPage with the allocator at INVALID_PAGE_ID takes its frame before it
looks at the id: page 2147483647, changed to [9] in frame 1 and unpinned dirty,
is the victim of such a NewPage, which returns nothing, erases the page from
the page table and writes nothing to disk; a later FetchPage(2147483647) reads
the old disk copy [5] into frame 0, and FlushPage after it writes [5]. -/
theorem new_page_at_invalid_id_loses_dirty_bytes :
    Reachable allocatorAtInvalid ∧ allocatorAtInvalid.next_page_id = INVALID_PAGE_ID ∧
    allocatorAtInvalid.page_table 2147483647 = some 1 ∧
    (allocatorAtInvalid.pages 0).page_id = -1073741825 ∧
    0 < (allocatorAtInvalid.pages 1).pin_count ∧
    (allocatorAtInvalid.afterDirtyWrite 2147483647 1 [9] []).NewPgImp.1 = none ∧
    (allocatorAtInvalid.afterDirtyWrite 2147483647 1 [9] []).NewPgImp.2.page_table 2147483647
      = none ∧
    (allocatorAtInvalid.afterDirtyWrite 2147483647 1 [9] []).NewPgImp.2.disk 2147483647
      = [5] ∧
    ((allocatorAtInvalid.afterDirtyWrite 2147483647 1 [9]
      [.newPage, .unpin (-1073741825) false]).FetchPgImp 2147483647).1 = some 0 ∧
    (((allocatorAtInvalid.afterDirtyWrite 2147483647 1 [9]
      [.newPage, .unpin (-1073741825) false]).FetchPgImp 2147483647).2.pages 0).data = [5] ∧
    ((allocatorAtInvalid.afterDirtyWrite 2147483647 1 [9]
      [.newPage, .unpin (-1073741825) false, .fetch 2147483647]).FlushPgImp
        2147483647).2.disk 2147483647 = [5] := by
  refine ⟨?_, by decide, by decide, by decide, by decide, by decide, by decide, by decide,
    by decide, by decide, by decide⟩
  exact reachable_run
    (Reachable.init 2 1073741824 1073741823 1 (fun _ => [5]) (by decide) (by decide)) _

/-- C3 (amended): let a valid page id be mapped by the page table to a pinned
frame that is the only frame of the pool carrying that id.  If the frame's
bytes are changed to B and the page is unpinned with dirty=true, then after
any later sequence of FetchPage, NewPage, UnpinPage and FlushPage calls in
which NewPage does not hand out that id and is not called while
`next_page_id_` is INVALID_PAGE_ID, a successful FetchPage(pid) returns a
frame holding B, and after FlushPage(pid) the disk copy of pid is B. -/
theorem dirty_bytes_survive_eviction (s : BufferPoolManagerInstance) (hr : Reachable s)
    (pid : page_id_t) (f : frame_id_t) (B : Bytes) (cs : List Call)
    (hv : pid ≠ INVALID_PAGE_ID) (hs : SoleHolder s pid f)
    (_hpin : 0 < (s.pages f).pin_count)
    (hk : Keeps pid ((s.WriteData f B).UnpinPgImp pid true).2 cs) :
    (∀ g, ((s.afterDirtyWrite pid f B cs).FetchPgImp pid).1 = some g →
      (((s.afterDirtyWrite pid f B cs).FetchPgImp pid).2.pages g).data = B) ∧
    ((s.afterDirtyWrite pid f B cs).FlushPgImp pid).2.disk pid = B := by
  have h := rinv_of_reachable hr
  have hlt : f < s.pool_size := h.table pid f hs.1
  have h2 : RInv ((s.WriteData f B).UnpinPgImp pid true).2 :=
    rinv_unpin (rinv_write h f B) pid true
  obtain ⟨h3, hh3⟩ := holds_run hv cs _ h2 (holds_after_write hs hlt B) hk
  refine ⟨?_, ((holds_flush h3 hh3 pid).2 rfl)⟩
  intro g hg
  have h4 := rinv_fetch h3 pid
  have hh4 := holds_fetch h3 hh3 hv pid
  have hm := FetchPgImp_maps_result _ pid g hg
  exact (hh4.frames g (h4.table pid g hm) (hh4.table g hm)).2.1

theorem dirty_bytes_survive_eviction_witness :
    Reachable pinnedPool ∧ SoleHolder pinnedPool 0 0 ∧
      ((pinnedPool.afterDirtyWrite 0 0 [7, 7, 7, 7] [.newPage, .unpin 1 false]).FetchPgImp 0).1
        = some 0 ∧
      (((pinnedPool.afterDirtyWrite 0 0 [7, 7, 7, 7] [.newPage, .unpin 1 false]).FetchPgImp
        0).2.pages 0).data = [7, 7, 7, 7] ∧
      ((pinnedPool.afterDirtyWrite 0 0 [7, 7, 7, 7] [.newPage, .unpin 1 false]).FlushPgImp
        0).2.disk 0 = [7, 7, 7, 7] :=
  have hr : Reachable pinnedPool :=
    reachable_run (Reachable.init 1 1 0 4 (fun _ => []) (by decide) (by decide)) _
  have hs : SoleHolder pinnedPool 0 0 := by
    refine ⟨by decide, ?_⟩
    intro g hg
    have hg1 : g < 1 := hg
    have hg0 : g = 0 := by omega
    subst hg0
    exact ⟨fun _ => rfl, fun _ => by decide⟩
  have h := dirty_bytes_survive_eviction pinnedPool hr 0 0 [7, 7, 7, 7]
    [.newPage, .unpin 1 false] (by decide) hs (by decide)
    ⟨by decide, by decide, trivial⟩
  ⟨hr, hs, by decide, h.1 0 (by decide), h.2⟩

end BufferPoolManagerInstance
end Bustub

/-! ## Theorems: extendible hash table -/

namespace Bustub
namespace ExtendibleHashTable

set_option maxRecDepth 100000 in
/-- C1 (the code at the failing input): on a fresh table the second Insert of
a pair returns false.  On the table with 55 pairs in one bucket, Insert(56, 0)
returns true and GetValue(56) then yields 0, but the second Insert(56, 0),
which finds the bucket full and splits it up to global depth 6, returns true
again. -/
theorem second_insert_after_split_returns_true :
    (((init 56 id 0 : ExtendibleHashTable Nat Nat).Insert 56 0 insertFuel).2.Insert 56 0
      insertFuel).1 = some false ∧
    (oneBucket55.Insert 56 0 insertFuel).1 = some true ∧
    (oneBucket55.Insert 56 0 insertFuel).2.GetValue 56 = (true, [0]) ∧
    ((oneBucket55.Insert 56 0 insertFuel).2.Insert 56 0 insertFuel).1 = some true ∧
    ((oneBucket55.Insert 56 0 insertFuel).2.Insert 56 0 insertFuel).2.global_depth = 6 := by
  decide

set_option maxRecDepth 100000 in
/-- C2 (the code at the failing input): in the table reached by
`twiceStoredCalls` (global depth 5), GetValue(58) yields 0 and Remove(58, 0)
returns true; the removal empties the bucket and Merge points the directory
slot at the sibling bucket, which holds a second copy of the pair, so the
GetValue(58) that follows still yields 0. -/
theorem remove_then_get_value_finds_second_copy :
    twiceStored.global_depth = 5 ∧
    twiceStored.GetValue 58 = (true, [0]) ∧
    (twiceStored.Remove 58 0).1 = true ∧
    (twiceStored.Remove 58 0).2.GetValue 58 = (true, [0]) := by
  decide

end ExtendibleHashTable
end Bustub

/-! ## Theorems: hash bucket page -/

namespace Bustub

theorem getD_set_eq {α : Type} (l : List α) (i : Nat) (a d : α) (h : i < l.length) :
    (l.set i a).getD i d = a := by
  simp [List.getD_eq_getElem?_getD, List.getElem?_set, h]

theorem getD_set_ne {α : Type} (l : List α) {i j : Nat} (a d : α) (h : i ≠ j) :
    (l.set i a).getD j d = l.getD j d := by
  simp [List.getD_eq_getElem?_getD, List.getElem?_set, h]

theorem getD_of_length_le {α : Type} (l : List α) (i : Nat) (d : α) (h : l.length ≤ i) :
    l.getD i d = d := by
  simp [List.getD_eq_getElem?_getD, List.getElem?_eq_none h]

theorem size_le_bits (size : Nat) : size ≤ 8 * ((size - 1) / 8 + 1) := by omega

namespace HashTableBucketPage

set_option linter.unusedSectionVars false

variable {K V : Type} [DecidableEq K] [DecidableEq V] [Inhabited K] [Inhabited V]

/-- What the first loop of `Insert` (the loop of `Remove`) returns when it
finds the pair. -/
theorem findPair_inl (b : HashTableBucketPage K V) (key : K) (value : V) (n : Nat) :
    ∀ i0 j, findPair b key value i0 n = .inl j →
      i0 ≤ j ∧ j < i0 + n ∧ b.HoldsAt j key value ∧ b.IsOccupied j = true ∧
        ∀ i, i0 ≤ i → i < j → b.IsOccupied i = true ∧ ¬ b.HoldsAt i key value := by
  induction n with
  | zero => intro i0 j h; simp [findPair] at h
  | succ n ih =>
    intro i0 j h
    unfold findPair at h
    by_cases ho : b.IsOccupied i0 = true
    · simp only [ho, Bool.not_true, Bool.false_eq_true, if_false] at h
      by_cases hm : b.IsReadable i0 = true ∧ b.KeyAt i0 = key ∧ b.ValueAt i0 = value
      · rw [if_pos hm] at h
        cases h
        exact ⟨Nat.le_refl _, by omega, hm, ho, fun i h1 h2 => absurd h1 (by omega)⟩
      · rw [if_neg hm] at h
        obtain ⟨h1, h2, h3, h4, h5⟩ := ih (i0 + 1) j h
        refine ⟨by omega, by omega, h3, h4, ?_⟩
        intro i hi1 hi2
        by_cases e : i = i0
        · subst e; exact ⟨ho, hm⟩
        · exact h5 i (by omega) hi2
    · simp [ho] at h

/-- What the first loop of `Insert` (the loop of `Remove`) returns when it
does not find the pair. -/
theorem findPair_inr (b : HashTableBucketPage K V) (key : K) (value : V) (n : Nat) :
    ∀ i0 j, findPair b key value i0 n = .inr j →
      i0 ≤ j ∧ j ≤ i0 + n ∧ (j < i0 + n → b.IsOccupied j = false) ∧
        ∀ i, i0 ≤ i → i < j → b.IsOccupied i = true ∧ ¬ b.HoldsAt i key value := by
  induction n with
  | zero =>
    intro i0 j h
    simp [findPair] at h
    subst h
    exact ⟨Nat.le_refl _, Nat.le_refl _, fun c => absurd c (by omega),
      fun i h1 h2 => absurd h1 (by omega)⟩
  | succ n ih =>
    intro i0 j h
    unfold findPair at h
    by_cases ho : b.IsOccupied i0 = true
    · simp only [ho, Bool.not_true, Bool.false_eq_true, if_false] at h
      by_cases hm : b.IsReadable i0 = true ∧ b.KeyAt i0 = key ∧ b.ValueAt i0 = value
      · rw [if_pos hm] at h
        cases h
      · rw [if_neg hm] at h
        obtain ⟨h1, h2, h3, h4⟩ := ih (i0 + 1) j h
        refine ⟨by omega, by omega, fun c => h3 (by omega), ?_⟩
        intro i hi1 hi2
        by_cases e : i = i0
        · subst e; exact ⟨ho, hm⟩
        · exact h4 i (by omega) hi2
    · simp [ho] at h
      subst h
      refine ⟨Nat.le_refl _, by omega, fun _ => by simpa using ho, ?_⟩
      intro i h1 h2
      exact absurd h1 (by omega)

/-- What the second loop of `Insert` returns. -/
theorem findFree_some (b : HashTableBucketPage K V) (n : Nat) :
    ∀ i0 j, findFree b i0 n = some j →
      i0 ≤ j ∧ j < i0 + n ∧ b.IsReadable j = false ∧
        ∀ i, i0 ≤ i → i < j → b.IsReadable i = true := by
  induction n with
  | zero => intro i0 j h; simp [findFree] at h
  | succ n ih =>
    intro i0 j h
    unfold findFree at h
    by_cases hr : b.IsReadable i0 = true
    · simp only [hr, Bool.not_true, Bool.false_eq_true, if_false] at h
      obtain ⟨h1, h2, h3, h4⟩ := ih (i0 + 1) j h
      refine ⟨by omega, by omega, h3, ?_⟩
      intro i hi1 hi2
      by_cases e : i = i0
      · subst e; exact hr
      · exact h4 i (by omega) hi2
    · simp [hr] at h
      subst h
      exact ⟨Nat.le_refl _, by omega, by simpa using hr, fun i h1 h2 => absurd h1 (by omega)⟩

theorem findFree_none (b : HashTableBucketPage K V) (n : Nat) :
    ∀ i0, findFree b i0 n = none → ∀ i, i0 ≤ i → i < i0 + n → b.IsReadable i = true := by
  induction n with
  | zero => intro i0 _ i h1 h2; exact absurd h1 (by omega)
  | succ n ih =>
    intro i0 h i hi1 hi2
    unfold findFree at h
    by_cases hr : b.IsReadable i0 = true
    · simp only [hr, Bool.not_true, Bool.false_eq_true, if_false] at h
      by_cases e : i = i0
      · subst e; exact hr
      · exact ih (i0 + 1) h i (by omega) (by omega)
    · simp [hr] at h


/-- The bucket after the pair is written into a slot that was never occupied:
lines 58-60 of `Insert`. -/
theorem fresh_slot_spec (size : Nat) (b : HashTableBucketPage K V) (h : WF size b)
    (j : Nat) (hj : j < size) (key : K) (value : V) (i : Nat) :
    (((b.setPair j key value).SetOccupied j).SetReadable j true).IsOccupied i
        = (if i = j then true else b.IsOccupied i) ∧
    (((b.setPair j key value).SetOccupied j).SetReadable j true).IsReadable i
        = (if i = j then true else b.IsReadable i) ∧
    (((b.setPair j key value).SetOccupied j).SetReadable j true).KeyAt i
        = (if i = j then key else b.KeyAt i) ∧
    (((b.setPair j key value).SetOccupied j).SetReadable j true).ValueAt i
        = (if i = j then value else b.ValueAt i) := by
  have hb := size_le_bits size
  have h1 : j < b.occupied.length := by rw [h.occ_len]; omega
  have h2 : j < b.readable.length := by rw [h.rd_len]; omega
  have h3 : j < b.array.length := by rw [h.arr_len]; exact hj
  by_cases e : i = j
  · subst e
    simp [IsOccupied, IsReadable, KeyAt, ValueAt, SetOccupied, SetReadable, setPair,
      getD_set_eq, h1, h2, h3]
  · have e2 : j ≠ i := fun c => e c.symm
    simp [IsOccupied, IsReadable, KeyAt, ValueAt, SetOccupied, SetReadable, setPair,
      List.getElem?_set, e2, e]

/-- The bucket after the pair is written into a tombstone: lines 50-51 of
`Insert`. -/
theorem reuse_slot_spec (size : Nat) (b : HashTableBucketPage K V) (h : WF size b)
    (j : Nat) (hj : j < size) (key : K) (value : V) (i : Nat) :
    ((b.setPair j key value).SetReadable j true).IsOccupied i = b.IsOccupied i ∧
    ((b.setPair j key value).SetReadable j true).IsReadable i
        = (if i = j then true else b.IsReadable i) ∧
    ((b.setPair j key value).SetReadable j true).KeyAt i
        = (if i = j then key else b.KeyAt i) ∧
    ((b.setPair j key value).SetReadable j true).ValueAt i
        = (if i = j then value else b.ValueAt i) := by
  have hb := size_le_bits size
  have h2 : j < b.readable.length := by rw [h.rd_len]; omega
  have h3 : j < b.array.length := by rw [h.arr_len]; exact hj
  by_cases e : i = j
  · subst e
    simp [IsOccupied, IsReadable, KeyAt, ValueAt, SetReadable, setPair, getD_set_eq, h2, h3]
  · have e2 : j ≠ i := fun c => e c.symm
    simp [IsOccupied, IsReadable, KeyAt, ValueAt, SetReadable, setPair,
      List.getElem?_set, e2, e]

/-- The bucket after a readable bit is cleared: line 71 of `Remove`. -/
theorem clear_slot_spec (size : Nat) (b : HashTableBucketPage K V) (h : WF size b)
    (j : Nat) (hj : j < size) (i : Nat) :
    (b.SetReadable j false).IsOccupied i = b.IsOccupied i ∧
    (b.SetReadable j false).IsReadable i = (if i = j then false else b.IsReadable i) ∧
    (b.SetReadable j false).KeyAt i = b.KeyAt i ∧
    (b.SetReadable j false).ValueAt i = b.ValueAt i := by
  have hb := size_le_bits size
  have h2 : j < b.readable.length := by rw [h.rd_len]; omega
  by_cases e : i = j
  · subst e
    simp [IsOccupied, IsReadable, KeyAt, ValueAt, SetReadable, getD_set_eq, h2]
  · have e2 : j ≠ i := fun c => e c.symm
    simp [IsOccupied, IsReadable, KeyAt, ValueAt, SetReadable, List.getElem?_set, e2, e]

/-- A readable slot of a well-formed bucket is a slot of the array. -/
theorem readable_lt (size : Nat) (b : HashTableBucketPage K V) (h : WF size b) (i : Nat)
    (hr : b.IsReadable i = true) : i < size := by
  obtain ⟨n, hn, hp⟩ := h.occ_initial
  have := (hp i).1 (h.rd_occ i hr)
  omega

/-- The four ways `Insert` can go on a well-formed bucket whose occupied slots
are the slots below `n`. -/
theorem insert_cases (size : Nat) (b : HashTableBucketPage K V) (h : WF size b)
    (n : Nat) (hn : n ≤ size) (hp : ∀ i, b.IsOccupied i = true ↔ i < n) (key : K) (value : V) :
    ((∃ i, b.HoldsAt i key value) ∧ b.Insert size key value = (false, b)) ∨
    ((¬ ∃ i, b.HoldsAt i key value) ∧ n < size ∧
      b.Insert size key value
        = (true, ((b.setPair n key value).SetOccupied n).SetReadable n true)) ∨
    ((¬ ∃ i, b.HoldsAt i key value) ∧ n = size ∧
      ∃ j, j < size ∧ b.IsReadable j = false ∧ (∀ i, i < j → b.IsReadable i = true) ∧
        b.Insert size key value = (true, (b.setPair j key value).SetReadable j true)) ∨
    ((¬ ∃ i, b.HoldsAt i key value) ∧ n = size ∧ (∀ i, i < size → b.IsReadable i = true) ∧
      b.Insert size key value = (false, b)) := by
  unfold Insert
  cases hfp : findPair b key value 0 size with
  | inl j =>
    obtain ⟨_, _, hh, _, _⟩ := findPair_inl b key value size 0 j hfp
    exact Or.inl ⟨⟨j, hh⟩, rfl⟩
  | inr j =>
    obtain ⟨_, hle, hno, hall⟩ := findPair_inr b key value size 0 j hfp
    have hjn : j = n := by
      by_cases hlt : j < size
      · have h1 : ¬ j < n := by
          intro c
          have := (hp j).2 c
          rw [hno (by omega)] at this
          cases this
        have h2 : ¬ n < j := by
          intro c
          have := (hp n).1 (hall n (Nat.zero_le _) c).1
          omega
        omega
      · have hjs : j = size := by omega
        by_cases hz : size = 0
        · omega
        · have := (hp (size - 1)).1 (hall (size - 1) (Nat.zero_le _) (by omega)).1
          omega
    subst hjn
    have hnone : ¬ ∃ i, b.HoldsAt i key value := by
      rintro ⟨i, hi⟩
      have hlt : i < j := (hp i).1 (h.rd_occ i hi.1)
      exact (hall i (Nat.zero_le _) hlt).2 hi
    right
    dsimp only
    by_cases hjs : j = size
    · rw [if_pos hjs]
      cases hff : findFree b 0 size with
      | some i =>
        obtain ⟨_, h2, h3, h4⟩ := findFree_some b size 0 i hff
        exact Or.inr (Or.inl ⟨hnone, hjs, i, by omega, h3, fun x hx => h4 x (Nat.zero_le _) hx,
          rfl⟩)
      | none =>
        have := findFree_none b size 0 hff
        exact Or.inr (Or.inr ⟨hnone, hjs, fun x hx => this x (Nat.zero_le _) (by omega), rfl⟩)
    · rw [if_neg hjs]
      exact Or.inl ⟨hnone, by omega, rfl⟩

/-- The two ways `Remove` can go on a well-formed bucket. -/
theorem remove_cases (size : Nat) (b : HashTableBucketPage K V) (h : WF size b)
    (key : K) (value : V) :
    (∃ j, j < size ∧ b.HoldsAt j key value ∧
      b.Remove size key value = (true, b.SetReadable j false)) ∨
    ((¬ ∃ i, b.HoldsAt i key value) ∧ b.Remove size key value = (false, b)) := by
  unfold Remove
  obtain ⟨n, hn, hp⟩ := h.occ_initial
  cases hfp : findPair b key value 0 size with
  | inl j =>
    obtain ⟨_, hlt, hh, _, _⟩ := findPair_inl b key value size 0 j hfp
    exact Or.inl ⟨j, by omega, hh, rfl⟩
  | inr j =>
    obtain ⟨_, hle, hno, hall⟩ := findPair_inr b key value size 0 j hfp
    right
    refine ⟨?_, rfl⟩
    rintro ⟨i, hi⟩
    have hin : i < n := (hp i).1 (h.rd_occ i hi.1)
    by_cases hlt : i < j
    · exact (hall i (Nat.zero_le _) hlt).2 hi
    · have hjn : j < n := by omega
      have := (hp j).2 hjn
      rw [hno (by omega)] at this
      cases this


theorem wf_zeroed (size : Nat) : WF size (zeroed size : HashTableBucketPage K V) where
  occ_len := by simp [zeroed]
  rd_len := by simp [zeroed]
  arr_len := by simp [zeroed]
  occ_initial := by
    refine ⟨0, Nat.zero_le _, ?_⟩
    intro i
    simp [IsOccupied, zeroed, List.getElem?_replicate]
    split <;> simp
  rd_occ := by
    intro i hi
    simp [IsReadable, zeroed, List.getElem?_replicate] at hi
    split at hi <;> simp at hi
  nodup := by
    intro i j key value hi _
    have := hi.1
    simp [IsReadable, zeroed, List.getElem?_replicate] at this
    split at this <;> simp at this

/-- Writing a pair that no readable slot holds into a slot that is not
readable and whose predecessors are all occupied keeps the bucket well formed;
afterwards that slot, and no other, holds the pair, and the other slots are as
before. -/
theorem wf_write (size : Nat) (b b1 : HashTableBucketPage K V) (h : WF size b)
    (j : Nat) (hj : j < size) (key : K) (value : V)
    (hnone : ¬ ∃ i, b.HoldsAt i key value) (hjr : b.IsReadable j = false)
    (hpre : ∀ i, i < j → b.IsOccupied i = true)
    (hl1 : b1.occupied.length = b.occupied.length)
    (hl2 : b1.readable.length = b.readable.length)
    (hl3 : b1.array.length = b.array.length)
    (hs : ∀ i, b1.IsOccupied i = (if i = j then true else b.IsOccupied i) ∧
      b1.IsReadable i = (if i = j then true else b.IsReadable i) ∧
      b1.KeyAt i = (if i = j then key else b.KeyAt i) ∧
      b1.ValueAt i = (if i = j then value else b.ValueAt i)) :
    WF size b1 ∧ b1.HoldsAt j key value ∧ (∀ i, b1.HoldsAt i key value → i = j) ∧
      ∀ i, i ≠ j → b1.IsOccupied i = b.IsOccupied i ∧ b1.IsReadable i = b.IsReadable i ∧
        b1.KeyAt i = b.KeyAt i ∧ b1.ValueAt i = b.ValueAt i := by
  have hother : ∀ i, i ≠ j → b1.IsOccupied i = b.IsOccupied i ∧
      b1.IsReadable i = b.IsReadable i ∧ b1.KeyAt i = b.KeyAt i ∧
      b1.ValueAt i = b.ValueAt i := by
    intro i hi
    have := hs i
    simp only [if_neg hi] at this
    exact this
  have hat : b1.IsOccupied j = true ∧ b1.IsReadable j = true ∧ b1.KeyAt j = key ∧
      b1.ValueAt j = value := by
    have := hs j
    simp only [if_true] at this
    exact this
  have hold : ∀ i k v, i ≠ j → b1.HoldsAt i k v → b.HoldsAt i k v := by
    intro i k v hi hh
    obtain ⟨_, h2, h3, h4⟩ := hother i hi
    exact ⟨by rw [← h2]; exact hh.1, by rw [← h3]; exact hh.2.1, by rw [← h4]; exact hh.2.2⟩
  have huniq : ∀ i, b1.HoldsAt i key value → i = j := by
    intro i hh
    by_cases e : i = j
    · exact e
    · exact absurd ⟨i, hold i key value e hh⟩ hnone
  refine ⟨?_, ⟨hat.2.1, hat.2.2.1, hat.2.2.2⟩, huniq, hother⟩
  obtain ⟨n, hn, hp⟩ := h.occ_initial
  refine ⟨by rw [hl1]; exact h.occ_len, by rw [hl2]; exact h.rd_len,
    by rw [hl3]; exact h.arr_len, ?_, ?_, ?_⟩
  · have hjn : j ≤ n := by
      by_cases c : j ≤ n
      · exact c
      · have := (hp n).1 (hpre n (by omega))
        omega
    by_cases c : j < n
    · refine ⟨n, hn, ?_⟩
      intro i
      by_cases e : i = j
      · subst e; simp [hat.1, c]
      · rw [(hother i e).1]; exact hp i
    · have e0 : j = n := by omega
      refine ⟨n + 1, by omega, ?_⟩
      intro i
      by_cases e : i = j
      · subst e; simp [hat.1]; omega
      · rw [(hother i e).1, hp i]; omega
  · intro i hi
    by_cases e : i = j
    · subst e; exact hat.1
    · rw [(hother i e).1]
      rw [(hother i e).2.1] at hi
      exact h.rd_occ i hi
  · intro i i2 k v h1 h2
    by_cases e1 : i = j
    · by_cases e2 : i2 = j
      · rw [e1, e2]
      · exfalso
        subst e1
        have hk : k = key := by rw [← h1.2.1]; exact hat.2.2.1
        have hv : v = value := by rw [← h1.2.2]; exact hat.2.2.2
        subst hk; subst hv
        exact e2 (huniq i2 h2)
    · by_cases e2 : i2 = j
      · exfalso
        subst e2
        have hk : k = key := by rw [← h2.2.1]; exact hat.2.2.1
        have hv : v = value := by rw [← h2.2.2]; exact hat.2.2.2
        subst hk; subst hv
        exact e1 (huniq i h1)
      · exact h.nodup i i2 k v (hold i k v e1 h1) (hold i2 k v e2 h2)

/-- Clearing the readable bit of a slot keeps the bucket well formed. -/
theorem wf_clear (size : Nat) (b : HashTableBucketPage K V) (h : WF size b)
    (j : Nat) (hj : j < size) : WF size (b.SetReadable j false) := by
  have hs := clear_slot_spec size b h j hj
  obtain ⟨n, hn, hp⟩ := h.occ_initial
  have hsub : ∀ i k v, (b.SetReadable j false).HoldsAt i k v → b.HoldsAt i k v := by
    intro i k v hh
    obtain ⟨h1, h2, h3, h4⟩ := hs i
    have hr := hh.1
    rw [h2] at hr
    by_cases e : i = j
    · simp [e] at hr
    · simp only [if_neg e] at hr
      exact ⟨hr, by rw [← h3]; exact hh.2.1, by rw [← h4]; exact hh.2.2⟩
  refine ⟨by simpa [SetReadable] using h.occ_len, by simpa [SetReadable] using h.rd_len,
    by simpa [SetReadable] using h.arr_len, ⟨n, hn, ?_⟩, ?_, ?_⟩
  · intro i
    rw [(hs i).1]
    exact hp i
  · intro i hi
    rw [(hs i).1]
    rw [(hs i).2.1] at hi
    by_cases e : i = j
    · simp [e] at hi
    · simp only [if_neg e] at hi
      exact h.rd_occ i hi
  · intro i i2 k v h1 h2
    exact h.nodup i i2 k v (hsub i k v h1) (hsub i2 k v h2)

theorem wf_insert (size : Nat) (b : HashTableBucketPage K V) (h : WF size b)
    (key : K) (value : V) : WF size (b.Insert size key value).2 := by
  obtain ⟨n, hn, hp⟩ := h.occ_initial
  rcases insert_cases size b h n hn hp key value with
    ⟨_, e⟩ | ⟨hnone, hlt, e⟩ | ⟨hnone, hns, j, hj, hjr, hjf, e⟩ | ⟨_, _, _, e⟩
  · rw [e]; exact h
  · rw [e]
    have hnr : b.IsReadable n = false := by
      cases c : b.IsReadable n with
      | false => rfl
      | true => exact absurd ((hp n).1 (h.rd_occ n c)) (Nat.lt_irrefl n)
    exact (wf_write size b _ h n hlt key value hnone hnr (fun i hi => (hp i).2 hi)
      (by simp [SetOccupied, SetReadable, setPair]) (by simp [SetOccupied, SetReadable, setPair])
      (by simp [SetOccupied, SetReadable, setPair])
      (fresh_slot_spec size b h n hlt key value)).1
  · rw [e]
    refine (wf_write size b _ h j hj key value hnone hjr (fun i hi => (hp i).2 (by omega))
      (by simp [SetReadable, setPair]) (by simp [SetReadable, setPair])
      (by simp [SetReadable, setPair]) ?_).1
    intro i
    have := reuse_slot_spec size b h j hj key value i
    refine ⟨?_, this.2⟩
    rw [this.1]
    by_cases c : i = j
    · subst c; simp [(hp i).2 (by omega)]
    · simp [c]
  · rw [e]; exact h

theorem wf_remove (size : Nat) (b : HashTableBucketPage K V) (h : WF size b)
    (key : K) (value : V) : WF size (b.Remove size key value).2 := by
  rcases remove_cases size b h key value with ⟨j, hj, _, e⟩ | ⟨_, e⟩
  · rw [e]; exact wf_clear size b h j hj
  · rw [e]; exact h

theorem wf_of_reachable (size : Nat) (b : HashTableBucketPage K V) (h : Reachable size b) :
    WF size b := by
  induction h with
  | zeroed => exact wf_zeroed size
  | step b c _ ih =>
    cases c with
    | insert key value => exact wf_insert size b ih key value
    | remove key value => exact wf_remove size b ih key value

theorem reachable_bucket_run (size : Nat) (b : HashTableBucketPage K V) (h : Reachable size b)
    (cs : List (Call K V)) : Reachable size (run size b cs) := by
  induction cs generalizing b with
  | nil => exact h
  | cons c cs ih => exact ih _ (Reachable.step b c h)


/-- C16: for every bucket reachable from a zeroed page by Insert and Remove and
every pair: Insert returns false and leaves the bucket unchanged when a
readable slot already holds the pair; otherwise, if some slot is not readable,
it returns true, afterwards exactly one readable slot holds the pair and
every other slot has its readable bit and its pair unchanged; and if every
slot is readable it returns false and leaves the bucket unchanged. -/
theorem bucket_insert_contract (size : Nat) (b : HashTableBucketPage K V)
    (hr : Reachable size b) (key : K) (value : V) :
    ((∃ i, b.HoldsAt i key value) → b.Insert size key value = (false, b)) ∧
    ((¬ ∃ i, b.HoldsAt i key value) → (∃ i, i < size ∧ b.IsReadable i = false) →
      (b.Insert size key value).1 = true ∧
      ∃ j, j < size ∧ b.IsReadable j = false ∧
        (b.Insert size key value).2.HoldsAt j key value ∧
        (∀ i, (b.Insert size key value).2.HoldsAt i key value → i = j) ∧
        ∀ i, i ≠ j →
          (b.Insert size key value).2.IsReadable i = b.IsReadable i ∧
          (b.Insert size key value).2.KeyAt i = b.KeyAt i ∧
          (b.Insert size key value).2.ValueAt i = b.ValueAt i) ∧
    ((∀ i, i < size → b.IsReadable i = true) → b.Insert size key value = (false, b)) := by
  have h := wf_of_reachable size b hr
  obtain ⟨n, hn, hp⟩ := h.occ_initial
  have hnr : n < size → b.IsReadable n = false := by
    intro _
    cases c : b.IsReadable n with
    | false => rfl
    | true => exact absurd ((hp n).1 (h.rd_occ n c)) (Nat.lt_irrefl n)
  rcases insert_cases size b h n hn hp key value with
    ⟨hex, e⟩ | ⟨hnone, hlt, e⟩ | ⟨hnone, hns, j, hj, hjr, hjf, e⟩ | ⟨hnone, _, hall, e⟩
  · exact ⟨fun _ => e, fun c => absurd hex c, fun _ => e⟩
  · refine ⟨fun c => absurd c hnone, ?_, ?_⟩
    · intro _ _
      rw [e]
      obtain ⟨_, w2, w3, w4⟩ := wf_write size b _ h n hlt key value hnone (hnr hlt)
        (fun i hi => (hp i).2 hi)
        (by simp [SetOccupied, SetReadable, setPair])
        (by simp [SetOccupied, SetReadable, setPair])
        (by simp [SetOccupied, SetReadable, setPair])
        (fresh_slot_spec size b h n hlt key value)
      exact ⟨rfl, n, hlt, hnr hlt, w2, w3, fun i hi => (w4 i hi).2⟩
    · intro hall
      have := hall n hlt
      rw [hnr hlt] at this
      cases this
  · refine ⟨fun c => absurd c hnone, ?_, ?_⟩
    · intro _ _
      rw [e]
      have hspec : ∀ i,
          ((b.setPair j key value).SetReadable j true).IsOccupied i
            = (if i = j then true else b.IsOccupied i) ∧
          ((b.setPair j key value).SetReadable j true).IsReadable i
            = (if i = j then true else b.IsReadable i) ∧
          ((b.setPair j key value).SetReadable j true).KeyAt i
            = (if i = j then key else b.KeyAt i) ∧
          ((b.setPair j key value).SetReadable j true).ValueAt i
            = (if i = j then value else b.ValueAt i) := by
        intro i
        have := reuse_slot_spec size b h j hj key value i
        refine ⟨?_, this.2⟩
        rw [this.1]
        by_cases c : i = j
        · subst c; simp [(hp i).2 (by omega)]
        · simp [c]
      obtain ⟨_, w2, w3, w4⟩ := wf_write size b _ h j hj key value hnone hjr
        (fun i hi => (hp i).2 (by omega))
        (by simp [SetReadable, setPair]) (by simp [SetReadable, setPair])
        (by simp [SetReadable, setPair]) hspec
      exact ⟨rfl, j, hj, hjr, w2, w3, fun i hi => (w4 i hi).2⟩
    · intro hall
      have := hall j hj
      rw [hjr] at this
      cases this
  · refine ⟨fun c => absurd c hnone, ?_, fun _ => e⟩
    rintro _ ⟨i, hi, hir⟩
    have := hall i hi
    rw [hir] at this
    cases this

theorem bucket_insert_contract_witness :
    Reachable 496 tombstoneFirst ∧
      (tombstoneFirst.Insert 496 2 2 = (false, tombstoneFirst)) :=
  have hr : Reachable 496 tombstoneFirst := reachable_bucket_run 496 _ Reachable.zeroed _
  ⟨hr, (bucket_insert_contract 496 tombstoneFirst hr 2 2).1 ⟨1, ⟨by decide, by decide, by decide⟩⟩⟩

/-- The loop of `GetValue` on a well-formed bucket appends the values of the
readable slots that hold the key, in slot order. -/
theorem getLoop_eq (size : Nat) (b : HashTableBucketPage K V) (h : WF size b) (key : K)
    (n : Nat) : ∀ lo result, getLoop b key lo n result = result ++ b.matching key lo n := by
  obtain ⟨m, hm, hp⟩ := h.occ_initial
  induction n with
  | zero => intro lo result; simp [getLoop, matching]
  | succ n ih =>
    intro lo result
    unfold getLoop
    by_cases ho : b.IsOccupied lo = true
    · simp only [ho, Bool.not_true, Bool.false_eq_true, if_false]
      by_cases hc : b.IsReadable lo = true ∧ b.KeyAt lo = key
      · rw [if_pos hc, ih]
        simp [matching, List.range'_succ, List.filter_cons, hc.1, hc.2]
      · rw [if_neg hc, ih]
        have : (b.IsReadable lo && decide (b.KeyAt lo = key)) = false := by
          cases hr : b.IsReadable lo with
          | false => rfl
          | true =>
            have : ¬ b.KeyAt lo = key := fun c => hc ⟨hr, c⟩
            simp [this]
        simp [matching, List.range'_succ, List.filter_cons, this]
    · have hnone : b.matching key lo (n + 1) = [] := by
        unfold matching
        rw [List.map_eq_nil_iff, List.filter_eq_nil_iff]
        intro i hi
        rw [List.mem_range'_1] at hi
        have hlo : ¬ lo < m := fun c => ho ((hp lo).2 c)
        have : b.IsReadable i = false := by
          cases hr : b.IsReadable i with
          | false => rfl
          | true =>
            have := (hp i).1 (h.rd_occ i hr)
            omega
        simp [this]
      simp [ho, hnone]

/-- `GetValue` on a reachable bucket, for every initial content of the result:
the values of the readable slots with the key are appended in slot order, and
the return value says whether the result is non-empty afterwards. -/
theorem bucket_get_value_eq (size : Nat) (b : HashTableBucketPage K V)
    (hr : Reachable size b) (key : K) (result : List V) :
    b.GetValue size key result =
      (decide ((result ++ b.matching key 0 size).length > 0),
       result ++ b.matching key 0 size) := by
  unfold GetValue
  rw [getLoop_eq size b (wf_of_reachable size b hr) key size 0 result]

theorem zeroed_not_readable (size i : Nat) :
    (zeroed size : HashTableBucketPage K V).IsReadable i = false := by
  simp [IsReadable, zeroed, List.getElem?_replicate]
  split <;> simp

/-- C17 (the code at the failing input): on a zeroed bucket, where no slot is
readable, GetValue for key 1 called with the result vector [7] leaves the
result as it is and returns true, although no slot matches; with an empty
result vector it returns false. -/
theorem get_value_true_without_match :
    (zeroed 496 : HashTableBucketPage Nat Nat).matching 1 0 496 = [] ∧
    (zeroed 496 : HashTableBucketPage Nat Nat).GetValue 496 1 [7] = (true, [7]) ∧
    (zeroed 496 : HashTableBucketPage Nat Nat).GetValue 496 1 [] = (false, []) := by
  have hr : Reachable 496 (zeroed 496 : HashTableBucketPage Nat Nat) := Reachable.zeroed
  have hm : (zeroed 496 : HashTableBucketPage Nat Nat).matching 1 0 496 = [] := by
    unfold matching
    rw [List.map_eq_nil_iff, List.filter_eq_nil_iff]
    intro i _
    simp [zeroed_not_readable 496 i]
  refine ⟨hm, ?_, ?_⟩
  · rw [bucket_get_value_eq 496 _ hr, hm]; rfl
  · rw [bucket_get_value_eq 496 _ hr, hm]; rfl


theorem run_nil (size : Nat) (b : HashTableBucketPage K V) : run size b [] = b := rfl

theorem zeroed_not_occupied (size i : Nat) :
    (zeroed size : HashTableBucketPage K V).IsOccupied i = false := by
  simp [IsOccupied, zeroed, List.getElem?_replicate]
  split <;> simp

theorem run_snoc (size : Nat) (b : HashTableBucketPage K V) (cs : List (Call K V))
    (c : Call K V) : run size b (cs ++ [c]) = step size (run size b cs) c := by
  simp [run, List.foldl_append]

/-- The bucket of the page test after the first `m` inserts: slots below `m`
are occupied and readable and slot `i` holds the pair `(i, i)`. -/
theorem sample_insert_state (m : Nat) (hm : m ≤ 100) :
    Reachable 496 (run 496 (zeroed 496) ((List.range m).map (fun i => Call.insert i i))) ∧
    (∀ i, (run 496 (zeroed 496)
        ((List.range m).map (fun i => Call.insert i i))).IsOccupied i = true ↔ i < m) ∧
    (∀ i, (run 496 (zeroed 496)
        ((List.range m).map (fun i => Call.insert i i))).IsReadable i = true ↔ i < m) ∧
    (∀ i, i < m →
      (run 496 (zeroed 496) ((List.range m).map (fun i => Call.insert i i))).KeyAt i = i ∧
      (run 496 (zeroed 496) ((List.range m).map (fun i => Call.insert i i))).ValueAt i = i) := by
  induction m with
  | zero =>
    refine ⟨Reachable.zeroed, ?_, ?_, ?_⟩
    · intro i
      rw [List.range_zero, List.map_nil, run_nil, zeroed_not_occupied]
      constructor
      · intro c; cases c
      · intro c; omega
    · intro i
      rw [List.range_zero, List.map_nil, run_nil, zeroed_not_readable]
      constructor
      · intro c; cases c
      · intro c; omega
    · intro i hi; omega
  | succ m ih =>
    obtain ⟨hr, ho, hrd, hkv⟩ := ih (by omega)
    rw [List.range_succ, List.map_append, List.map_singleton, run_snoc]
    generalize run 496 (zeroed 496) ((List.range m).map (fun i => Call.insert i i)) = b
      at hr ho hrd hkv
    have h := wf_of_reachable 496 b hr
    have hnone : ¬ ∃ i, b.HoldsAt i m m := by
      rintro ⟨i, hi⟩
      have hlt := (hrd i).1 hi.1
      have := (hkv i hlt).1
      rw [hi.2.1] at this
      omega
    refine ⟨Reachable.step b _ hr, ?_⟩
    rcases insert_cases 496 b h m (by omega) ho m m with
      ⟨hex, _⟩ | ⟨_, hlt, e⟩ | ⟨_, hns, _⟩ | ⟨_, hns, _⟩
    · exact absurd hex hnone
    · have hs := fresh_slot_spec 496 b h m hlt m m
      simp only [step, e]
      refine ⟨?_, ?_, ?_⟩
      · intro i
        rw [(hs i).1]
        by_cases c : i = m
        · simp [c]
        · simp only [if_neg c]; rw [ho i]; omega
      · intro i
        rw [(hs i).2.1]
        by_cases c : i = m
        · simp [c]
        · simp only [if_neg c]; rw [hrd i]; omega
      · intro i hi
        rw [(hs i).2.2.1, (hs i).2.2.2]
        by_cases c : i = m
        · simp [c]
        · simp only [if_neg c]; exact hkv i (by omega)
    · omega
    · omega

/-- The bucket of the page test after the first `m` odd pairs were removed. -/
theorem sample_remove_state (b0 : HashTableBucketPage Nat Nat) (hr0 : Reachable 496 b0)
    (ho0 : ∀ i, b0.IsOccupied i = true ↔ i < 100)
    (hrd0 : ∀ i, b0.IsReadable i = true ↔ i < 100)
    (hkv0 : ∀ i, i < 100 → b0.KeyAt i = i ∧ b0.ValueAt i = i)
    (m : Nat) (hm : m ≤ 50) :
    Reachable 496
      (run 496 b0 ((List.range m).map (fun i => Call.remove (2 * i + 1) (2 * i + 1)))) ∧
    (∀ i, (run 496 b0
        ((List.range m).map (fun i => Call.remove (2 * i + 1) (2 * i + 1)))).IsOccupied i = true
          ↔ i < 100) ∧
    (∀ i, (run 496 b0
        ((List.range m).map (fun i => Call.remove (2 * i + 1) (2 * i + 1)))).IsReadable i = true
          ↔ (i < 100 ∧ ¬ (i % 2 = 1 ∧ i < 2 * m))) ∧
    (∀ i, i < 100 →
      (run 496 b0
        ((List.range m).map (fun i => Call.remove (2 * i + 1) (2 * i + 1)))).KeyAt i = i ∧
      (run 496 b0
        ((List.range m).map (fun i => Call.remove (2 * i + 1) (2 * i + 1)))).ValueAt i = i) := by
  induction m with
  | zero =>
    rw [List.range_zero, List.map_nil, run_nil]
    refine ⟨hr0, ho0, ?_, hkv0⟩
    intro i
    rw [hrd0 i]
    omega
  | succ m ih =>
    obtain ⟨hr, ho, hrd, hkv⟩ := ih (by omega)
    rw [List.range_succ, List.map_append, List.map_singleton, run_snoc]
    generalize run 496 b0
      ((List.range m).map (fun i => Call.remove (2 * i + 1) (2 * i + 1))) = b at hr ho hrd hkv
    have h := wf_of_reachable 496 b hr
    refine ⟨Reachable.step b _ hr, ?_⟩
    have hhold : b.HoldsAt (2 * m + 1) (2 * m + 1) (2 * m + 1) :=
      ⟨(hrd _).2 ⟨by omega, by omega⟩, (hkv _ (by omega)).1, (hkv _ (by omega)).2⟩
    rcases remove_cases 496 b h (2 * m + 1) (2 * m + 1) with ⟨j, hj, hjh, e⟩ | ⟨hnone, _⟩
    · have hj100 : j < 100 := ((hrd j).1 hjh.1).1
      have hjm : j = 2 * m + 1 := by
        have := (hkv j hj100).1
        rw [hjh.2.1] at this
        exact this.symm
      subst hjm
      have hs := clear_slot_spec 496 b h (2 * m + 1) hj
      simp only [step, e]
      refine ⟨?_, ?_, ?_⟩
      · intro i
        rw [(hs i).1]
        exact ho i
      · intro i
        rw [(hs i).2.1]
        by_cases c : i = 2 * m + 1
        · simp [c]; omega
        · simp only [if_neg c]; rw [hrd i]; omega
      · intro i hi
        rw [(hs i).2.2.1, (hs i).2.2.2]
        exact hkv i hi
    · exact absurd ⟨_, hhold⟩ hnone

/-- C18: for every reachable bucket, Remove returns true exactly when a
readable slot holds the pair; it then clears the readable bit of that slot
and nothing else, the occupied bits stay, and a second Remove of the pair
returns false.  In every reachable bucket the occupied slots are the slots
below some n and every readable slot is occupied.  After the 100 inserts and
the removal of the odd pairs of the page test, slots 0..99 are occupied, the
odd ones are not readable, the even ones are, and no slot from 100 on is
occupied. -/
theorem bucket_remove_contract (size : Nat) (b : HashTableBucketPage K V)
    (hr : Reachable size b) (key : K) (value : V) :
    ((b.Remove size key value).1 = true ↔ ∃ i, b.HoldsAt i key value) ∧
    ((b.Remove size key value).1 = true →
      ∃ j, j < size ∧ b.HoldsAt j key value ∧
        (b.Remove size key value).2 = b.SetReadable j false) ∧
    ((b.Remove size key value).1 = false → (b.Remove size key value).2 = b) ∧
    (b.Remove size key value).2.occupied = b.occupied ∧
    ((b.Remove size key value).2.Remove size key value).1 = false ∧
    (∃ n, n ≤ size ∧ ∀ i, b.IsOccupied i = true ↔ i < n) ∧
    (∀ i, b.IsReadable i = true → b.IsOccupied i = true) ∧
    ((∀ i, i < 100 → sampleEven.IsOccupied i = true ∧
        (sampleEven.IsReadable i = true ↔ i % 2 = 0)) ∧
      ∀ i, 100 ≤ i → sampleEven.IsOccupied i = false) := by
  have h := wf_of_reachable size b hr
  have hscen : (∀ i, i < 100 → sampleEven.IsOccupied i = true ∧
        (sampleEven.IsReadable i = true ↔ i % 2 = 0)) ∧
      ∀ i, 100 ≤ i → sampleEven.IsOccupied i = false := by
    obtain ⟨hr0, ho0, hrd0, hkv0⟩ := sample_insert_state 100 (Nat.le_refl _)
    have hrd1 : ∀ i, sample100.IsReadable i = true ↔ i < 100 := hrd0
    obtain ⟨_, ho, hrd, _⟩ :=
      sample_remove_state sample100 hr0 ho0 hrd1 hkv0 50 (Nat.le_refl _)
    have hdef : sampleEven = run 496 sample100
        ((List.range 50).map (fun i => Call.remove (2 * i + 1) (2 * i + 1))) := rfl
    rw [← hdef] at ho hrd
    constructor
    · intro i hi
      refine ⟨(ho i).2 hi, ?_⟩
      rw [hrd i]
      omega
    · intro i hi
      cases c : sampleEven.IsOccupied i with
      | false => rfl
      | true =>
        have := (ho i).1 c
        omega
  rcases remove_cases size b h key value with ⟨j, hj, hjh, e⟩ | ⟨hnone, e⟩
  · have hw := wf_clear size b h j hj
    have hs := clear_slot_spec size b h j hj
    have hnone2 : ¬ ∃ i, (b.SetReadable j false).HoldsAt i key value := by
      rintro ⟨i, hi⟩
      have hri := hi.1
      rw [(hs i).2.1] at hri
      by_cases c : i = j
      · simp [c] at hri
      · simp only [if_neg c] at hri
        have hbi : b.HoldsAt i key value :=
          ⟨hri, by rw [← (hs i).2.2.1]; exact hi.2.1, by rw [← (hs i).2.2.2]; exact hi.2.2⟩
        exact c (h.nodup i j key value hbi hjh)
    refine ⟨?_, ?_, ?_, ?_, ?_, h.occ_initial, h.rd_occ, hscen⟩
    · rw [e]; exact ⟨fun _ => ⟨j, hjh⟩, fun _ => rfl⟩
    · intro _; exact ⟨j, hj, hjh, by rw [e]⟩
    · rw [e]; intro c; cases c
    · rw [e]; rfl
    · rw [e]
      rcases remove_cases size _ hw key value with ⟨j2, _, hj2, _⟩ | ⟨_, e2⟩
      · exact absurd ⟨j2, hj2⟩ hnone2
      · rw [e2]
  · refine ⟨?_, ?_, ?_, ?_, ?_, h.occ_initial, h.rd_occ, hscen⟩
    · rw [e]; exact ⟨fun c => (by cases c), fun c => absurd c hnone⟩
    · rw [e]; intro c; cases c
    · rw [e]; intro _; rfl
    · rw [e]
    · rw [e]; simp only; rw [e]

theorem bucket_remove_contract_witness :
    Reachable 496 tombstoneFirst ∧
      ((tombstoneFirst.Remove 496 2 2).1 = true ↔ ∃ i, tombstoneFirst.HoldsAt i 2 2) ∧
      ((tombstoneFirst.Remove 496 2 2).2.Remove 496 2 2).1 = false :=
  have hr : Reachable 496 tombstoneFirst := reachable_bucket_run 496 _ Reachable.zeroed _
  have h := bucket_remove_contract 496 tombstoneFirst hr 2 2
  ⟨hr, h.1, h.2.2.2.2.1⟩

/-- C19 as stated fails: in a bucket whose slot 0 is a tombstone, slot 1 is
readable and slots 2 and above were never occupied, the first slot that is not
readable is slot 0, but Insert(3, 3) succeeds by writing the pair into slot 2
and leaves slot 0 unreadable. -/
theorem insert_skips_tombstone_before_fresh_slot :
    tombstoneFirst.IsOccupied 0 = true ∧ tombstoneFirst.IsReadable 0 = false ∧
    tombstoneFirst.IsReadable 1 = true ∧ tombstoneFirst.IsOccupied 2 = false ∧
    (tombstoneFirst.Insert 496 3 3).1 = true ∧
    (tombstoneFirst.Insert 496 3 3).2.HoldsAt 2 3 3 ∧
    (tombstoneFirst.Insert 496 3 3).2.IsReadable 0 = false := by
  refine ⟨by decide, by decide, by decide, by decide, by decide,
    ⟨by decide, by decide, by decide⟩, by decide⟩

/-- C19 (amended): a successful Insert stores the pair in the first slot that
was never occupied and sets both bits of that slot; only when every slot is
occupied does it store the pair in the first slot that is not readable, a
tombstone, and then only the readable bit of that slot (and its pair)
changes. -/
theorem insert_slot_choice (size : Nat) (b : HashTableBucketPage K V)
    (hr : Reachable size b) (key : K) (value : V)
    (hs : (b.Insert size key value).1 = true) :
    (∃ j, j < size ∧ (∀ i, i < j → b.IsOccupied i = true) ∧ b.IsOccupied j = false ∧
        b.IsReadable j = false ∧
        (b.Insert size key value).2
          = ((b.setPair j key value).SetOccupied j).SetReadable j true) ∨
    (∃ j, j < size ∧ (∀ i, i < size → b.IsOccupied i = true) ∧
        (∀ i, i < j → b.IsReadable i = true) ∧ b.IsReadable j = false ∧
        (b.Insert size key value).2 = (b.setPair j key value).SetReadable j true ∧
        (b.Insert size key value).2.occupied = b.occupied) := by
  have h := wf_of_reachable size b hr
  obtain ⟨n, hn, hp⟩ := h.occ_initial
  rcases insert_cases size b h n hn hp key value with
    ⟨_, e⟩ | ⟨_, hlt, e⟩ | ⟨_, hns, j, hj, hjr, hjf, e⟩ | ⟨_, _, _, e⟩
  · rw [e] at hs; cases hs
  · left
    have hno : b.IsOccupied n = false := by
      cases c : b.IsOccupied n with
      | false => rfl
      | true => exact absurd ((hp n).1 c) (Nat.lt_irrefl n)
    have hnr : b.IsReadable n = false := by
      cases c : b.IsReadable n with
      | false => rfl
      | true =>
        have := h.rd_occ n c
        rw [hno] at this
        cases this
    exact ⟨n, hlt, fun i hi => (hp i).2 hi, hno, hnr, by rw [e]⟩
  · right
    exact ⟨j, hj, fun i hi => (hp i).2 (by omega), hjf, hjr, by rw [e], by rw [e]; rfl⟩
  · rw [e] at hs; cases hs

theorem insert_slot_choice_witness :
    Reachable 496 tombstoneFirst ∧ (tombstoneFirst.Insert 496 3 3).1 = true ∧
      ((∃ j, j < 496 ∧ (∀ i, i < j → tombstoneFirst.IsOccupied i = true) ∧
          tombstoneFirst.IsOccupied j = false ∧ tombstoneFirst.IsReadable j = false ∧
          (tombstoneFirst.Insert 496 3 3).2
            = ((tombstoneFirst.setPair j 3 3).SetOccupied j).SetReadable j true) ∨
        (∃ j, j < 496 ∧ (∀ i, i < 496 → tombstoneFirst.IsOccupied i = true) ∧
          (∀ i, i < j → tombstoneFirst.IsReadable i = true) ∧
          tombstoneFirst.IsReadable j = false ∧
          (tombstoneFirst.Insert 496 3 3).2 = (tombstoneFirst.setPair j 3 3).SetReadable j true ∧
          (tombstoneFirst.Insert 496 3 3).2.occupied = tombstoneFirst.occupied)) :=
  have hr : Reachable 496 tombstoneFirst := reachable_bucket_run 496 _ Reachable.zeroed _
  ⟨hr, by decide, insert_slot_choice 496 tombstoneFirst hr 3 3 (by decide)⟩

end HashTableBucketPage
end Bustub

/-! ## Theorems: lock manager -/

namespace Bustub
namespace LockManager

theorem wound_eq (t : txn_id_t) (l : List LockRequest) :
    ∀ (txns : txn_id_t → Transaction) (id : txn_id_t),
      wound txns t l id =
        if (∃ e, e ∈ l ∧ e.txn_id = id ∧ id > t) then
          (txns id).SetState TransactionState.ABORTED
        else txns id := by
  induction l with
  | nil => intro txns id; simp [wound]
  | cons e es ih =>
    intro txns id
    unfold wound
    by_cases he : e.txn_id > t
    · rw [if_pos he, ih]
      by_cases hid : id = e.txn_id
      · subst hid
        have h1 : ∃ x, x ∈ e :: es ∧ x.txn_id = e.txn_id ∧ e.txn_id > t :=
          ⟨e, List.mem_cons_self _ _, rfl, he⟩
        rw [if_pos h1]
        simp only [setAt, if_true]
        split <;> rfl
      · simp only [setAt, if_neg hid]
        have : (∃ x, x ∈ es ∧ x.txn_id = id ∧ id > t) ↔
            (∃ x, x ∈ e :: es ∧ x.txn_id = id ∧ id > t) := by
          constructor
          · rintro ⟨x, hx, h⟩; exact ⟨x, List.mem_cons_of_mem _ hx, h⟩
          · rintro ⟨x, hx, h⟩
            rcases List.mem_cons.1 hx with rfl | hx
            · exact absurd h.1.symm hid
            · exact ⟨x, hx, h⟩
        simp only [this]
    · rw [if_neg he, ih]
      have : (∃ x, x ∈ es ∧ x.txn_id = id ∧ id > t) ↔
          (∃ x, x ∈ e :: es ∧ x.txn_id = id ∧ id > t) := by
        constructor
        · rintro ⟨x, hx, h⟩; exact ⟨x, List.mem_cons_of_mem _ hx, h⟩
        · rintro ⟨x, hx, h⟩
          rcases List.mem_cons.1 hx with rfl | hx
          · exact absurd (h.1 ▸ h.2) he
          · exact ⟨x, hx, h⟩
      simp only [this]

theorem wound_self (txns : txn_id_t → Transaction) (t : txn_id_t) (l : List LockRequest) :
    wound txns t l t = txns t := by
  rw [wound_eq]
  rw [if_neg]
  rintro ⟨_, _, _, h⟩
  exact absurd h (lt_irrefl t)

theorem queueOf_setQueue (lm : LockManager) (rid : RID) (q : LockRequestQueue) :
    (lm.setQueue rid q).queueOf rid = q := by
  simp [queueOf, setQueue, setAt]

theorem preventOn_txn (lm : LockManager) (t : txn_id_t) (rid : RID) :
    (lm.preventOn t rid).txns t = lm.txns t := by
  simp only [preventOn, PreventDeadLock]
  exact wound_self _ _ _

theorem preventOn_queue (lm : LockManager) (t : txn_id_t) (rid : RID) :
    ((lm.preventOn t rid).queueOf rid).request_queue =
      (lm.queueOf rid).request_queue.filter (fun e => decide (¬ e.txn_id > t)) := by
  simp [preventOn, PreventDeadLock, queueOf, setAt]

end LockManager
end Bustub

namespace Bustub
namespace LockManager

theorem abortedOnly_setTxnState (lm : LockManager) (t : txn_id_t) (reason : AbortReason) :
    AbortedOnly lm t (Outcome.thrown reason, lm.setTxnState t TransactionState.ABORTED)
      reason := by
  refine ⟨rfl, ?_, rfl, ?_, ?_, ?_⟩
  · simp [setTxnState, setAt, Transaction.SetState]
  · simp [setTxnState, setAt, Transaction.SetState]
  · simp [setTxnState, setAt, Transaction.SetState]
  · intro u hu
    simp [setTxnState, setAt, hu]

theorem CheckShrinking_shrinking (lm : LockManager) (t : txn_id_t)
    (hs : (lm.txns t).state = TransactionState.SHRINKING) :
    lm.CheckShrinking t =
      (some AbortReason.LOCK_ON_SHRINKING, lm.setTxnState t TransactionState.ABORTED) := by
  simp [CheckShrinking, hs]

theorem CheckShrinking_other (lm : LockManager) (t : txn_id_t)
    (hs : (lm.txns t).state ≠ TransactionState.SHRINKING) :
    lm.CheckShrinking t = (none, lm) := by
  simp [CheckShrinking, hs]

/-- C11: for a transaction whose state is SHRINKING and every record id,
LockShared, LockExclusive and LockUpgrade throw (LOCK_ON_SHRINKING, or
LOCKSHARED_ON_READ_UNCOMMITTED for LockShared under READ_UNCOMMITTED), the
transaction is ABORTED afterwards, and the lock table, both lock sets of the
transaction and every other transaction are unchanged. -/
theorem shrinking_txn_lock_call_aborts (lm : LockManager) (t : txn_id_t) (rid : RID)
    (hs : (lm.txns t).state = TransactionState.SHRINKING) :
    AbortedOnly lm t (lm.LockShared t rid)
      (if (lm.txns t).isolation_level = IsolationLevel.READ_UNCOMMITTED then
        AbortReason.LOCKSHARED_ON_READ_UNCOMMITTED else AbortReason.LOCK_ON_SHRINKING) ∧
    AbortedOnly lm t (lm.LockExclusive t rid) AbortReason.LOCK_ON_SHRINKING ∧
    AbortedOnly lm t (lm.LockUpgrade t rid) AbortReason.LOCK_ON_SHRINKING := by
  refine ⟨?_, ?_, ?_⟩
  · unfold LockShared
    by_cases hi : (lm.txns t).isolation_level = IsolationLevel.READ_UNCOMMITTED
    · rw [if_pos hi, if_pos hi]
      exact abortedOnly_setTxnState lm t _
    · rw [if_neg hi, if_neg hi, CheckShrinking_shrinking lm t hs]
      exact abortedOnly_setTxnState lm t _
  · unfold LockExclusive
    rw [CheckShrinking_shrinking lm t hs]
    exact abortedOnly_setTxnState lm t _
  · unfold LockUpgrade
    rw [CheckShrinking_shrinking lm t hs]
    exact abortedOnly_setTxnState lm t _

theorem shrinking_txn_lock_call_aborts_witness :
    (shrinkingTxn.txns 1).state = TransactionState.SHRINKING ∧
      AbortedOnly shrinkingTxn 1 (shrinkingTxn.LockExclusive 1 rid0)
        AbortReason.LOCK_ON_SHRINKING :=
  ⟨by decide, (shrinking_txn_lock_call_aborts shrinkingTxn 1 rid0 (by decide)).2.1⟩

end LockManager
end Bustub

namespace Bustub
namespace LockManager

/-- C13 as stated fails: transaction 1 runs under READ_UNCOMMITTED, is GROWING
and holds an exclusive lock on the record; Unlock returns true and the
transaction is SHRINKING afterwards. -/
theorem unlock_under_read_uncommitted_shrinks :
    (uncommittedWriter.txns 1).state = TransactionState.GROWING ∧
    (uncommittedWriter.txns 1).isolation_level = IsolationLevel.READ_UNCOMMITTED ∧
    uncommittedWriter.Holds 1 rid0 ⟨1, LockMode.EXCLUSIVE, false⟩ ∧
    (uncommittedWriter.Unlock 1 rid0).1 = true ∧
    ((uncommittedWriter.Unlock 1 rid0).2.txns 1).state = TransactionState.SHRINKING := by
  refine ⟨by decide, by decide, ?_, by decide, by decide⟩
  unfold Holds
  decide

/-- C13 (amended): Unlock of a lock the transaction holds returns true,
removes the first queue entry of the transaction, sets the queue state to
NOTHING when the queue becomes empty and leaves it otherwise, erases the
record id from both lock sets, and changes a GROWING transaction to SHRINKING
unless the isolation level is READ_COMMITTED and the released lock is shared:
under REPEATABLE_READ and under READ_UNCOMMITTED every release does. A
transaction that is not GROWING keeps its state. -/
theorem unlock_contract (lm : LockManager) (t : txn_id_t) (rid : RID) (e : LockRequest)
    (h : lm.Holds t rid e) :
    (lm.Unlock t rid).1 = true ∧
    ((lm.Unlock t rid).2.queueOf rid).request_queue =
      (lm.queueOf rid).request_queue.eraseP (fun x => decide (x.txn_id = t)) ∧
    (((lm.Unlock t rid).2.queueOf rid).request_queue = [] →
      ((lm.Unlock t rid).2.queueOf rid).state = RequestQueueState.NOTHING) ∧
    (((lm.Unlock t rid).2.queueOf rid).request_queue ≠ [] →
      ((lm.Unlock t rid).2.queueOf rid).state = (lm.queueOf rid).state) ∧
    rid ∉ ((lm.Unlock t rid).2.txns t).shared_lock_set ∧
    rid ∉ ((lm.Unlock t rid).2.txns t).exclusive_lock_set ∧
    ((lm.txns t).state = TransactionState.GROWING →
      (((lm.Unlock t rid).2.txns t).state = TransactionState.SHRINKING ↔
        ¬ ((lm.txns t).isolation_level = IsolationLevel.READ_COMMITTED ∧
            e.lock_mode = LockMode.SHARED)) ∧
      (((lm.Unlock t rid).2.txns t).state = TransactionState.GROWING ↔
        ((lm.txns t).isolation_level = IsolationLevel.READ_COMMITTED ∧
            e.lock_mode = LockMode.SHARED))) ∧
    ((lm.txns t).state ≠ TransactionState.GROWING →
      ((lm.Unlock t rid).2.txns t).state = (lm.txns t).state) := by
  have hq : (lm.eraseLocks t rid).queueOf rid = lm.queueOf rid := rfl
  have hst : ((lm.eraseLocks t rid).txns t).state = (lm.txns t).state := by
    simp [eraseLocks, setAt]
  have hiso : ((lm.eraseLocks t rid).txns t).isolation_level = (lm.txns t).isolation_level := by
    simp [eraseLocks, setAt]
  have hsh : rid ∉ ((lm.eraseLocks t rid).txns t).shared_lock_set := by
    simp [eraseLocks, setAt, setErase]
  have hex : rid ∉ ((lm.eraseLocks t rid).txns t).exclusive_lock_set := by
    simp [eraseLocks, setAt, setErase]
  unfold Holds at h
  unfold Unlock
  dsimp only
  rw [hq, h]
  dsimp only
  generalize lm.eraseLocks t rid = lm1 at hst hiso hsh hex
  generalize hrq : (lm.queueOf rid).request_queue.eraseP (fun x => decide (x.txn_id = t)) = rq
  refine ⟨rfl, ?_, ?_, ?_, ?_, ?_, ?_, ?_⟩
  · rw [queueOf_setQueue]
  · rw [queueOf_setQueue]
    intro h0
    dsimp only at h0 ⊢
    rw [h0]
    rfl
  · rw [queueOf_setQueue]
    intro h0
    dsimp only at h0 ⊢
    have : rq.length ≠ 0 := by
      intro c
      exact h0 (List.length_eq_zero.1 c)
    rw [if_neg this]
  · split
    · simpa [setQueue, setTxnState, setAt, Transaction.SetState] using hsh
    · simpa [setQueue] using hsh
  · split
    · simpa [setQueue, setTxnState, setAt, Transaction.SetState] using hex
    · simpa [setQueue] using hex
  · intro hg
    by_cases c : (lm.txns t).isolation_level = IsolationLevel.READ_COMMITTED ∧
        e.lock_mode = LockMode.SHARED
    · simp [setQueue, setTxnState, setAt, Transaction.SetState, hg, c, hst, hiso]
    · simp [setQueue, setTxnState, setAt, Transaction.SetState, hg, c, hst, hiso]
  · intro hg
    simp [setQueue, setTxnState, setAt, Transaction.SetState, hg, hst, hiso]

theorem unlock_contract_witness :
    uncommittedWriter.Holds 1 rid0 ⟨1, LockMode.EXCLUSIVE, false⟩ ∧
      (uncommittedWriter.Unlock 1 rid0).1 = true :=
  have h : uncommittedWriter.Holds 1 rid0 ⟨1, LockMode.EXCLUSIVE, false⟩ := by
    unfold Holds
    decide
  ⟨h, (unlock_contract uncommittedWriter 1 rid0 _ h).1⟩

end LockManager
end Bustub

namespace Bustub
namespace LockManager

theorem ensureQueue_txns (lm : LockManager) (rid : RID) : (lm.ensureQueue rid).txns = lm.txns := by
  unfold ensureQueue
  split <;> rfl

theorem finish_shared_ok (lm : LockManager) (t : txn_id_t) (rid : RID)
    (hc : (lm.txns t).state ≠ TransactionState.COMMITTED)
    (hs : (lm.txns t).state ≠ TransactionState.SHRINKING) :
    GrantOrAbort (lm.LockSharedFinish t rid) t rid LockMode.SHARED := by
  unfold LockSharedFinish CheckAborted
  by_cases ha : (lm.txns t).state = TransactionState.ABORTED
  · rw [if_pos ha]
    exact Or.inr ⟨_, rfl, ha⟩
  · rw [if_neg ha]
    refine Or.inl ⟨rfl, ?_, ?_, ?_⟩
    · refine ⟨⟨t, LockMode.SHARED, false⟩, ?_, rfl, rfl⟩
      dsimp only
      rw [queueOf_setQueue]
      simp
    · simp only [lockSet, setQueue, setAt, if_true, setEmplace]
      split <;> simp_all
    · simp only [setQueue, setAt, if_true]
      cases h : (lm.txns t).state <;> simp_all

theorem finish_exclusive_ok (lm : LockManager) (t : txn_id_t) (rid : RID)
    (hc : (lm.txns t).state ≠ TransactionState.COMMITTED)
    (hs : (lm.txns t).state ≠ TransactionState.SHRINKING) :
    GrantOrAbort (lm.LockExclusiveFinish t rid) t rid LockMode.EXCLUSIVE := by
  unfold LockExclusiveFinish CheckAborted
  by_cases ha : (lm.txns t).state = TransactionState.ABORTED
  · rw [if_pos ha]
    exact Or.inr ⟨_, rfl, ha⟩
  · rw [if_neg ha]
    refine Or.inl ⟨rfl, ?_, ?_, ?_⟩
    · refine ⟨⟨t, LockMode.EXCLUSIVE, false⟩, ?_, rfl, rfl⟩
      dsimp only
      rw [queueOf_setQueue]
      simp
    · simp only [lockSet, setQueue, setAt, if_true, setEmplace]
      split <;> simp_all
    · simp only [setQueue, setAt, if_true]
      cases h : (lm.txns t).state <;> simp_all

theorem finish_upgrade_ok (lm : LockManager) (t : txn_id_t) (rid : RID)
    (hc : (lm.txns t).state ≠ TransactionState.COMMITTED)
    (hs : (lm.txns t).state ≠ TransactionState.SHRINKING) :
    GrantOrAbort (lm.LockUpgradeFinish t rid) t rid LockMode.EXCLUSIVE := by
  unfold LockUpgradeFinish CheckAborted
  by_cases hu : (lm.queueOf rid).state = RequestQueueState.UPGRADE
  · rw [if_pos hu]
    refine Or.inr ⟨_, rfl, ?_⟩
    simp [setTxnState, setAt, Transaction.SetState]
  · rw [if_neg hu]
    by_cases ha : (lm.txns t).state = TransactionState.ABORTED
    · rw [if_pos ha]
      exact Or.inr ⟨_, rfl, ha⟩
    · rw [if_neg ha]
      refine Or.inl ⟨rfl, ?_, ?_, ?_⟩
      · refine ⟨⟨t, LockMode.EXCLUSIVE, false⟩, ?_, rfl, rfl⟩
        dsimp only
        rw [queueOf_setQueue]
        simp
      · simp only [lockSet, setQueue, setAt, if_true, setEmplace]
        split <;> simp_all
      · simp only [setQueue, setAt, if_true]
        cases h : (lm.txns t).state <;> simp_all

theorem finish_upgrade_granted (lm : LockManager) (t : txn_id_t) (rid : RID)
    (hg : (lm.LockUpgradeFinish t rid).1 = Outcome.returned true) :
    Upgraded lm (lm.LockUpgradeFinish t rid).2 t rid := by
  unfold LockUpgradeFinish CheckAborted at hg ⊢
  by_cases hu : (lm.queueOf rid).state = RequestQueueState.UPGRADE
  · rw [if_pos hu] at hg; cases hg
  · rw [if_neg hu] at hg ⊢
    by_cases ha : (lm.txns t).state = TransactionState.ABORTED
    · rw [if_pos ha] at hg; cases hg
    · rw [if_neg ha]
      refine ⟨?_, ?_, ?_, ?_, ?_⟩
      · simp [setQueue, setAt]
      · simp [setQueue, setAt]
      · simp [setQueue, setAt, setErase]
      · simp only [setQueue, setAt, if_true, setEmplace]
        split <;> simp_all
      · simp [setQueue, setAt]

theorem start_shared_form (lm : LockManager) (t : txn_id_t) (rid : RID)
    (hi : (lm.txns t).isolation_level ≠ IsolationLevel.READ_UNCOMMITTED)
    (hs : (lm.txns t).state ≠ TransactionState.SHRINKING) :
    ∃ lm3 : LockManager, lm3.txns t = lm.txns t ∧
      (lm.LockShared t rid = lm3.LockSharedFinish t rid ∨
        lm.LockShared t rid = (Outcome.waiting, lm3)) := by
  unfold LockShared
  rw [if_neg hi, CheckShrinking_other lm t hs]
  dsimp only
  have h3 : ((lm.register t).ensureQueue rid).txns t = lm.txns t := by
    rw [ensureQueue_txns]; rfl
  generalize (lm.register t).ensureQueue rid = lm3 at h3
  by_cases h1 : (lm3.queueOf rid).state = RequestQueueState.WRITE ∨
      (lm3.queueOf rid).state = RequestQueueState.UPGRADE
  · rw [if_pos h1]
    refine ⟨lm3.preventOn t rid, by rw [preventOn_txn, h3], ?_⟩
    by_cases h2 : (lm3.preventOn t rid).sharedWake t rid = true
    · rw [if_pos h2]; exact Or.inl rfl
    · rw [if_neg h2]; exact Or.inr rfl
  · rw [if_neg h1]
    exact ⟨lm3, h3, Or.inl rfl⟩

theorem start_exclusive_form (lm : LockManager) (t : txn_id_t) (rid : RID)
    (hs : (lm.txns t).state ≠ TransactionState.SHRINKING) :
    ∃ lm3 : LockManager, lm3.txns t = lm.txns t ∧
      (lm.LockExclusive t rid = lm3.LockExclusiveFinish t rid ∨
        lm.LockExclusive t rid = (Outcome.waiting, lm3)) := by
  unfold LockExclusive
  rw [CheckShrinking_other lm t hs]
  dsimp only
  have h3 : ((lm.register t).ensureQueue rid).txns t = lm.txns t := by
    rw [ensureQueue_txns]; rfl
  generalize (lm.register t).ensureQueue rid = lm3 at h3
  by_cases h1 : (lm3.queueOf rid).state ≠ RequestQueueState.NOTHING
  · rw [if_pos h1]
    refine ⟨lm3.preventOn t rid, by rw [preventOn_txn, h3], ?_⟩
    by_cases h2 : (lm3.preventOn t rid).exclusiveWake t rid = true
    · rw [if_pos h2]; exact Or.inl rfl
    · rw [if_neg h2]; exact Or.inr rfl
  · rw [if_neg h1]
    exact ⟨lm3, h3, Or.inl rfl⟩

theorem start_upgrade_form (lm : LockManager) (t : txn_id_t) (rid : RID)
    (hs : (lm.txns t).state ≠ TransactionState.SHRINKING) :
    Refused lm (lm.LockUpgrade t rid) rid ∨
    ∃ lm3 : LockManager, lm3.txns t = lm.txns t ∧
      (lm.LockUpgrade t rid = lm3.LockUpgradeFinish t rid ∨
        lm.LockUpgrade t rid = (Outcome.waiting, lm3)) := by
  unfold LockUpgrade
  rw [CheckShrinking_other lm t hs]
  dsimp only
  cases hq : (lm.register t).lock_table rid with
  | none => exact Or.inl ⟨rfl, hq, rfl, rfl⟩
  | some q =>
    right
    dsimp only
    generalize (if (List.eraseP (fun e => decide (e.txn_id = t)) q.request_queue).length = 0
      then RequestQueueState.NOTHING else q.state) = st
    have h3 : ((lm.register t).setQueue rid
        ⟨List.eraseP (fun e => decide (e.txn_id = t)) q.request_queue, st⟩).txns t
          = lm.txns t := rfl
    generalize (lm.register t).setQueue rid _ = lm3 at h3
    by_cases h1 : st ≠ RequestQueueState.NOTHING
    · rw [if_pos h1]
      refine ⟨lm3.preventOn t rid, by rw [preventOn_txn, h3], ?_⟩
      by_cases h2 : (lm3.preventOn t rid).exclusiveWake t rid = true
      · rw [if_pos h2]; exact Or.inl rfl
      · rw [if_neg h2]; exact Or.inr rfl
    · rw [if_neg h1]
      exact ⟨lm3, h3, Or.inl rfl⟩

end LockManager
end Bustub

namespace Bustub
namespace LockManager

/-- C14 as stated fails: LockUpgrade of a GROWING transaction on a record id
for which the lock table has no queue returns false; nothing is recorded, no
abort is raised and the transaction stays GROWING. -/
theorem lock_upgrade_without_queue_returns_false :
    (emptyManager.txns 1).state = TransactionState.GROWING ∧
    emptyManager.lock_table rid0 = none ∧
    (emptyManager.LockUpgrade 1 rid0).1 = Outcome.returned false ∧
    ((emptyManager.LockUpgrade 1 rid0).2.txns 1).state = TransactionState.GROWING ∧
    ((emptyManager.LockUpgrade 1 rid0).2.txns 1).exclusive_lock_set = [] ∧
    (emptyManager.LockUpgrade 1 rid0).2.lock_table rid0 = none := by
  refine ⟨by decide, by decide, by decide, by decide, by decide, by decide⟩

/-- C14 (amended): for a transaction that is not COMMITTED, every call of
LockShared, LockExclusive or LockUpgrade that does not block, and every such
call that completes after waiting, returns true with the lock recorded (an
entry of the transaction in the queue, the record id in the matching lock set)
and the transaction in GROWING, or throws with the transaction in ABORTED; the
one other end is LockUpgrade on a record id without a queue, which returns
false and changes neither the lock table nor a transaction. -/
theorem lock_call_outcomes (lm : LockManager) (t : txn_id_t) (rid : RID)
    (hc : (lm.txns t).state ≠ TransactionState.COMMITTED) :
    ((lm.LockShared t rid).1 ≠ Outcome.waiting →
      GrantOrAbort (lm.LockShared t rid) t rid LockMode.SHARED) ∧
    ((lm.LockExclusive t rid).1 ≠ Outcome.waiting →
      GrantOrAbort (lm.LockExclusive t rid) t rid LockMode.EXCLUSIVE) ∧
    ((lm.LockUpgrade t rid).1 ≠ Outcome.waiting →
      GrantOrAbort (lm.LockUpgrade t rid) t rid LockMode.EXCLUSIVE ∨
        Refused lm (lm.LockUpgrade t rid) rid) ∧
    ((lm.txns t).state ≠ TransactionState.SHRINKING →
      ((lm.LockSharedResume t rid).1 ≠ Outcome.waiting →
        GrantOrAbort (lm.LockSharedResume t rid) t rid LockMode.SHARED) ∧
      ((lm.LockExclusiveResume t rid).1 ≠ Outcome.waiting →
        GrantOrAbort (lm.LockExclusiveResume t rid) t rid LockMode.EXCLUSIVE) ∧
      ((lm.LockUpgradeResume t rid).1 ≠ Outcome.waiting →
        GrantOrAbort (lm.LockUpgradeResume t rid) t rid LockMode.EXCLUSIVE)) := by
  have habort : ∀ (mode : LockMode) (reason : AbortReason),
      GrantOrAbort (Outcome.thrown reason, lm.setTxnState t TransactionState.ABORTED)
        t rid mode := by
    intro mode reason
    exact Or.inr ⟨reason, rfl, by simp [setTxnState, setAt, Transaction.SetState]⟩
  refine ⟨?_, ?_, ?_, ?_⟩
  · intro hw
    by_cases hi : (lm.txns t).isolation_level = IsolationLevel.READ_UNCOMMITTED
    · have : lm.LockShared t rid = (Outcome.thrown AbortReason.LOCKSHARED_ON_READ_UNCOMMITTED,
          lm.setTxnState t TransactionState.ABORTED) := by
        unfold LockShared; rw [if_pos hi]
      rw [this]; exact habort _ _
    · by_cases hs : (lm.txns t).state = TransactionState.SHRINKING
      · have : lm.LockShared t rid = (Outcome.thrown AbortReason.LOCK_ON_SHRINKING,
            lm.setTxnState t TransactionState.ABORTED) := by
          unfold LockShared; rw [if_neg hi, CheckShrinking_shrinking lm t hs]
        rw [this]; exact habort _ _
      · obtain ⟨lm3, h3, e | e⟩ := start_shared_form lm t rid hi hs
        · rw [e]; exact finish_shared_ok lm3 t rid (by rw [h3]; exact hc) (by rw [h3]; exact hs)
        · rw [e] at hw; exact absurd rfl hw
  · intro hw
    by_cases hs : (lm.txns t).state = TransactionState.SHRINKING
    · have : lm.LockExclusive t rid = (Outcome.thrown AbortReason.LOCK_ON_SHRINKING,
          lm.setTxnState t TransactionState.ABORTED) := by
        unfold LockExclusive; rw [CheckShrinking_shrinking lm t hs]
      rw [this]; exact habort _ _
    · obtain ⟨lm3, h3, e | e⟩ := start_exclusive_form lm t rid hs
      · rw [e]; exact finish_exclusive_ok lm3 t rid (by rw [h3]; exact hc) (by rw [h3]; exact hs)
      · rw [e] at hw; exact absurd rfl hw
  · intro hw
    by_cases hs : (lm.txns t).state = TransactionState.SHRINKING
    · have : lm.LockUpgrade t rid = (Outcome.thrown AbortReason.LOCK_ON_SHRINKING,
          lm.setTxnState t TransactionState.ABORTED) := by
        unfold LockUpgrade; rw [CheckShrinking_shrinking lm t hs]
      rw [this]; exact Or.inl (habort _ _)
    · rcases start_upgrade_form lm t rid hs with hr | ⟨lm3, h3, e | e⟩
      · exact Or.inr hr
      · rw [e]
        exact Or.inl (finish_upgrade_ok lm3 t rid (by rw [h3]; exact hc) (by rw [h3]; exact hs))
      · rw [e] at hw; exact absurd rfl hw
  · intro hs
    refine ⟨?_, ?_, ?_⟩
    · intro hw
      unfold LockSharedResume at hw ⊢
      split at hw
      · rename_i h; rw [if_pos h]; exact finish_shared_ok lm t rid hc hs
      · exact absurd rfl hw
    · intro hw
      unfold LockExclusiveResume at hw ⊢
      split at hw
      · rename_i h; rw [if_pos h]; exact finish_exclusive_ok lm t rid hc hs
      · exact absurd rfl hw
    · intro hw
      unfold LockUpgradeResume at hw ⊢
      split at hw
      · rename_i h; rw [if_pos h]; exact finish_upgrade_ok lm t rid hc hs
      · exact absurd rfl hw

theorem lock_call_outcomes_witness :
    (sharedHolders.txns 3).state ≠ TransactionState.COMMITTED ∧
      (sharedHolders.LockUpgrade 3 rid0).1 ≠ Outcome.waiting ∧
      (GrantOrAbort (sharedHolders.LockUpgrade 3 rid0) 3 rid0 LockMode.EXCLUSIVE ∨
        Refused sharedHolders (sharedHolders.LockUpgrade 3 rid0) rid0) :=
  ⟨by decide, by decide,
    (lock_call_outcomes sharedHolders 3 rid0 (by decide)).2.2.1 (by decide)⟩

/-- C15: when LockUpgrade grants, at once or after waiting, the record id is
erased from the shared-lock set of the transaction and added to its
exclusive-lock set, and the queue of the record id is exactly one entry, the
exclusive request of the transaction, with queue state WRITE. -/
theorem lock_upgrade_grant_effect (lm : LockManager) (t : txn_id_t) (rid : RID) :
    ((lm.LockUpgrade t rid).1 = Outcome.returned true →
      Upgraded lm (lm.LockUpgrade t rid).2 t rid) ∧
    ((lm.LockUpgradeResume t rid).1 = Outcome.returned true →
      Upgraded lm (lm.LockUpgradeResume t rid).2 t rid) := by
  constructor
  · intro hg
    by_cases hs : (lm.txns t).state = TransactionState.SHRINKING
    · have : lm.LockUpgrade t rid = (Outcome.thrown AbortReason.LOCK_ON_SHRINKING,
          lm.setTxnState t TransactionState.ABORTED) := by
        unfold LockUpgrade; rw [CheckShrinking_shrinking lm t hs]
      rw [this] at hg; cases hg
    · rcases start_upgrade_form lm t rid hs with hr | ⟨lm3, h3, e | e⟩
      · rw [hr.1] at hg; cases hg
      · rw [e] at hg ⊢
        have h := finish_upgrade_granted lm3 t rid hg
        unfold Upgraded at h ⊢
        rw [h3] at h
        exact h
      · rw [e] at hg; cases hg
  · intro hg
    unfold LockUpgradeResume at hg ⊢
    split at hg
    · rename_i h; rw [if_pos h]; exact finish_upgrade_granted lm t rid hg
    · cases hg

theorem lock_upgrade_grant_effect_witness :
    (sharedHolders.LockUpgrade 3 rid0).1 = Outcome.returned true ∧
      Upgraded sharedHolders (sharedHolders.LockUpgrade 3 rid0).2 3 rid0 :=
  ⟨by decide, (lock_upgrade_grant_effect sharedHolders 3 rid0).1 (by decide)⟩

end LockManager
end Bustub

/-! ## Theorems: log manager -/

namespace Bustub
namespace LogManager

theorem wrap32_of_range (x : Int) (hlo : -2147483648 ≤ x) (hhi : x < 2147483648) :
    wrap32 x = x := by
  unfold wrap32
  omega

theorem write_to_buffer_next_lsn (lm : LogManager) (data : Bytes) :
    (lm.write_to_buffer data).next_lsn = lm.next_lsn := rfl

theorem appendBody_next_lsn (lm : LogManager) (r : LogRecord) :
    (lm.appendBody r).2.2.next_lsn = wrap32 (lm.next_lsn + 1) := by
  unfold appendBody
  dsimp only
  split <;> rfl

theorem appendBody_spec (lm : LogManager) (r : LogRecord)
    (hlo : (-2147483648 : Int) ≤ lm.next_lsn) (hhi : (lm.next_lsn : Int) + 1 < 2147483648) :
    (lm.appendBody r).1 = lm.next_lsn ∧ (lm.appendBody r).2.1.lsn = lm.next_lsn ∧
      (lm.appendBody r).2.2.next_lsn = lm.next_lsn + 1 := by
  have h1 := appendBody_next_lsn lm r
  have hw : wrap32 ((lm.next_lsn : Int) + 1) = lm.next_lsn + 1 :=
    wrap32_of_range _ (by omega) hhi
  have hw2 : wrap32 ((lm.next_lsn : Int) + 1 - 1) = lm.next_lsn := by
    rw [wrap32_of_range ((lm.next_lsn : Int) + 1 - 1) (by omega) (by omega)]
    omega
  rw [hw] at h1
  refine ⟨?_, rfl, h1⟩
  have : (lm.appendBody r).1 = wrap32 ((lm.appendBody r).2.2.next_lsn - 1) := rfl
  rw [this, h1]
  exact hw2

theorem flushCycle_next_lsn (B : Nat) (lm : LogManager) :
    (flushCycle B lm).next_lsn = lm.next_lsn := by
  unfold flushCycle
  dsimp only
  split <;> rfl

/-- The LSNs `n0, n0 + 1, ..., n0 + k - 1`. -/
theorem step_consecutive (B : Nat) (n0 : Int) (acc : List Int × LogManager) (c : Call)
    (hlo : (-2147483648 : Int) ≤ n0) (hhi : n0 + acc.1.length + 1 < 2147483648)
    (hacc : acc.1 = (List.range acc.1.length).map (fun (i : Nat) => n0 + (i : Int)))
    (hn : (acc.2.next_lsn : Int) = n0 + acc.1.length) :
    (step B acc c).1 = (List.range (step B acc c).1.length).map (fun (i : Nat) => n0 + (i : Int)) ∧
    (step B acc c).2.next_lsn = n0 + (step B acc c).1.length ∧
    (step B acc c).1.length ≤ acc.1.length + 1 := by
  have happ : ∀ lm1 : LogManager, (lm1.next_lsn : Int) = n0 + acc.1.length + 1 →
      (acc.1 ++ [acc.2.next_lsn]) =
        (List.range (acc.1 ++ [acc.2.next_lsn]).length).map (fun (i : Nat) => n0 + (i : Int)) ∧
      (lm1.next_lsn : Int) = n0 + ((acc.1 ++ [acc.2.next_lsn]).length : Nat) ∧
      (acc.1 ++ [acc.2.next_lsn]).length ≤ acc.1.length + 1 := by
    intro lm1 h1
    have hlen : (acc.1 ++ [acc.2.next_lsn]).length = acc.1.length + 1 := by simp
    rw [hlen]
    refine ⟨?_, ?_, Nat.le_refl _⟩
    · rw [List.range_succ, List.map_append, ← hacc, hn]
      rfl
    · rw [h1]
      push_cast
      ring
  have hb := fun r => appendBody_spec acc.2 r (by omega) (by omega)
  cases c with
  | append r =>
    dsimp only [step]
    unfold AppendLogRecord
    by_cases h : acc.2.buffer_offset + r.size ≥ B
    · rw [if_pos h]
      exact ⟨hacc, hn, Nat.le_succ _⟩
    · rw [if_neg h]
      dsimp only
      rw [(hb r).1]
      exact happ _ (by rw [(hb r).2.2, hn])
  | resume r =>
    dsimp only [step]
    unfold AppendResume
    by_cases h : acc.2.buffer_offset + r.size < B
    · rw [if_pos h]
      dsimp only
      rw [(hb r).1]
      exact happ _ (by rw [(hb r).2.2, hn])
    · rw [if_neg h]
      exact ⟨hacc, hn, Nat.le_succ _⟩
  | flush =>
    dsimp only [step]
    exact ⟨hacc, by rw [flushCycle_next_lsn]; exact hn, by omega⟩

theorem foldl_consecutive (B : Nat) (n0 : Int) (hlo : (-2147483648 : Int) ≤ n0) (calls : List Call) :
    ∀ (acc : List Int × LogManager),
      n0 + acc.1.length + calls.length < 2147483648 →
      acc.1 = (List.range acc.1.length).map (fun (i : Nat) => n0 + (i : Int)) →
      acc.2.next_lsn = n0 + acc.1.length →
      (calls.foldl (step B) acc).1 =
          (List.range (calls.foldl (step B) acc).1.length).map (fun (i : Nat) => n0 + (i : Int)) ∧
        (calls.foldl (step B) acc).2.next_lsn = n0 + (calls.foldl (step B) acc).1.length := by
  induction calls with
  | nil => intro acc _ hacc hn; exact ⟨hacc, hn⟩
  | cons c cs ih =>
    intro acc hhi hacc hn
    rw [List.length_cons] at hhi
    push_cast at hhi
    obtain ⟨h1, h2, h3⟩ := step_consecutive B n0 acc c hlo (by omega) hacc hn
    rw [List.foldl_cons]
    refine ih _ ?_ h1 h2
    have : ((step B acc c).1.length : Int) ≤ acc.1.length + 1 := by exact_mod_cast h3
    omega

/-- C20 as stated fails: `next_lsn_` is a 32-bit signed integer.  On a log
manager whose next LSN is 2147483647 an AppendLogRecord with room in the buffer
gives the record LSN 2147483647 and returns it, but next_lsn becomes
-2147483648, not 2147483648; the next append returns -2147483648, so the LSNs
returned by the two appends are neither consecutive nor increasing. -/
theorem append_at_last_lsn_wraps :
    atLastLsn.next_lsn = 2147483647 ∧
    (AppendLogRecord 128 atLastLsn (beginRecord 1)).1 = some 2147483647 ∧
    (AppendLogRecord 128 atLastLsn (beginRecord 1)).2.1.lsn = 2147483647 ∧
    (AppendLogRecord 128 atLastLsn (beginRecord 1)).2.2.next_lsn = -2147483648 ∧
    (AppendLogRecord 128 atLastLsn (beginRecord 1)).2.2.next_lsn ≠ atLastLsn.next_lsn + 1 ∧
    (run 128 atLastLsn [Call.append (beginRecord 1), Call.append (beginRecord 2)]).1 =
      [2147483647, -2147483648] := by
  refine ⟨by decide, by decide, by decide, by decide, by decide, by decide⟩

/-- C20 (amended): while the next LSN stays below 2^31, an AppendLogRecord that
finds room in the buffer gives the record the current next_lsn, increases
next_lsn by exactly one and returns the LSN it gave (the lsn field of the
record); one that finds no room blocks and assigns nothing; and for every
sequence of appends, resumed appends and flush cycles the LSNs returned are,
in the order the calls return, next_lsn, next_lsn + 1, ... without a gap. -/
theorem append_returns_consecutive_lsns (LOG_BUFFER_SIZE : Nat) (lm : LogManager)
    (r : LogRecord) (calls : List Call)
    (hlo : (-2147483648 : Int) ≤ lm.next_lsn)
    (hhi : (lm.next_lsn : Int) + 1 + calls.length < 2147483648) :
    (lm.buffer_offset + r.size < LOG_BUFFER_SIZE →
      (AppendLogRecord LOG_BUFFER_SIZE lm r).1 = some lm.next_lsn ∧
      (AppendLogRecord LOG_BUFFER_SIZE lm r).2.1.lsn = lm.next_lsn ∧
      (AppendLogRecord LOG_BUFFER_SIZE lm r).2.2.next_lsn = lm.next_lsn + 1) ∧
    (LOG_BUFFER_SIZE ≤ lm.buffer_offset + r.size →
      (AppendLogRecord LOG_BUFFER_SIZE lm r).1 = none ∧
      (AppendLogRecord LOG_BUFFER_SIZE lm r).2.1 = r ∧
      (AppendLogRecord LOG_BUFFER_SIZE lm r).2.2.next_lsn = lm.next_lsn) ∧
    (run LOG_BUFFER_SIZE lm calls).1 =
      (List.range (run LOG_BUFFER_SIZE lm calls).1.length).map
        (fun (i : Nat) => (lm.next_lsn : Int) + (i : Int)) ∧
    (run LOG_BUFFER_SIZE lm calls).2.next_lsn =
      lm.next_lsn + (run LOG_BUFFER_SIZE lm calls).1.length := by
  refine ⟨?_, ?_, ?_⟩
  · intro hroom
    have hb := appendBody_spec lm r hlo (by omega)
    unfold AppendLogRecord
    rw [if_neg (by omega)]
    dsimp only
    exact ⟨by rw [hb.1], hb.2.1, hb.2.2⟩
  · intro hfull
    unfold AppendLogRecord
    rw [if_pos (by omega)]
    exact ⟨rfl, rfl, rfl⟩
  · unfold run
    exact foldl_consecutive LOG_BUFFER_SIZE lm.next_lsn hlo calls ([], lm)
      (by simp only [List.length_nil]; push_cast; omega) (by simp) (by simp)

theorem append_returns_consecutive_lsns_witness :
    ((-2147483648 : Int) ≤ (init 128).next_lsn ∧
      ((init 128).next_lsn : Int) + 1 + threeAppends.length < 2147483648) ∧
    (run 128 (init 128) threeAppends).1 =
      (List.range (run 128 (init 128) threeAppends).1.length).map
        (fun (i : Nat) => ((init 128).next_lsn : Int) + (i : Int)) ∧
    (run 128 (init 128) threeAppends).1.length = 3 :=
  ⟨⟨by decide, by decide⟩,
    (append_returns_consecutive_lsns 128 (init 128) (beginRecord 1) threeAppends
      (by decide) (by decide)).2.2.1,
    by decide⟩

end LogManager
end Bustub

/-! ## Theorems: page-table invariant, sharding, parallel pool -/

namespace Bustub
namespace BufferPoolManagerInstance

end BufferPoolManagerInstance
end Bustub

namespace Bustub
namespace BufferPoolManagerInstance

theorem pickFrame_fields {s s1 : BufferPoolManagerInstance} {f : frame_id_t}
    (hp : s.pickFrame = some (f, s1)) :
    s1.num_instances = s.num_instances ∧ s1.instance_index = s.instance_index ∧
      s1.next_page_id = s.next_page_id := by
  unfold pickFrame at hp
  split at hp
  · simp at hp
    obtain ⟨_, hs1⟩ := hp
    subst hs1
    exact ⟨rfl, rfl, rfl⟩
  · split at hp
    · cases hp
    · simp at hp
      obtain ⟨_, hs1⟩ := hp
      subst hs1
      exact ⟨rfl, rfl, rfl⟩

theorem fetch_fields (s : BufferPoolManagerInstance) (pid : page_id_t) :
    (s.FetchPgImp pid).2.num_instances = s.num_instances ∧
    (s.FetchPgImp pid).2.instance_index = s.instance_index ∧
    (s.FetchPgImp pid).2.next_page_id = s.next_page_id := by
  unfold FetchPgImp
  cases hq : s.page_table pid with
  | some f => exact ⟨rfl, rfl, rfl⟩
  | none =>
    simp only
    cases hp : s.pickFrame with
    | none => exact ⟨rfl, rfl, rfl⟩
    | some fs =>
      obtain ⟨f, s1⟩ := fs
      obtain ⟨a, b, c⟩ := pickFrame_fields hp
      exact ⟨a, b, c⟩

theorem unpin_fields (s : BufferPoolManagerInstance) (pid : page_id_t) (d : Bool) :
    (s.UnpinPgImp pid d).2.num_instances = s.num_instances ∧
    (s.UnpinPgImp pid d).2.instance_index = s.instance_index ∧
    (s.UnpinPgImp pid d).2.next_page_id = s.next_page_id := by
  unfold UnpinPgImp
  cases hq : s.page_table pid with
  | some f => exact ⟨rfl, rfl, rfl⟩
  | none => exact ⟨rfl, rfl, rfl⟩

theorem flush_fields (s : BufferPoolManagerInstance) (pid : page_id_t) :
    (s.FlushPgImp pid).2.num_instances = s.num_instances ∧
    (s.FlushPgImp pid).2.instance_index = s.instance_index ∧
    (s.FlushPgImp pid).2.next_page_id = s.next_page_id := by
  unfold FlushPgImp
  split <;> exact ⟨rfl, rfl, rfl⟩

theorem flushFrame_fields (s : BufferPoolManagerInstance) (i : frame_id_t) :
    (s.flushFrame i).num_instances = s.num_instances ∧
    (s.flushFrame i).instance_index = s.instance_index ∧
    (s.flushFrame i).next_page_id = s.next_page_id := by
  unfold flushFrame
  split <;> exact ⟨rfl, rfl, rfl⟩

theorem flushAll_fields (s : BufferPoolManagerInstance) :
    s.FlushAllPgsImp.num_instances = s.num_instances ∧
    s.FlushAllPgsImp.instance_index = s.instance_index ∧
    s.FlushAllPgsImp.next_page_id = s.next_page_id := by
  unfold FlushAllPgsImp
  generalize List.range s.pool_size = l
  induction l generalizing s with
  | nil => exact ⟨rfl, rfl, rfl⟩
  | cons i l ih =>
    obtain ⟨a, b, c⟩ := ih (s.flushFrame i)
    obtain ⟨a1, b1, c1⟩ := flushFrame_fields s i
    rw [List.foldl_cons]
    exact ⟨a.trans a1, b.trans b1, c.trans c1⟩

theorem delete_fields (s : BufferPoolManagerInstance) (pid : page_id_t) :
    (s.DeletePgImp pid).2.num_instances = s.num_instances ∧
    (s.DeletePgImp pid).2.instance_index = s.instance_index ∧
    (s.DeletePgImp pid).2.next_page_id = s.next_page_id := by
  unfold DeletePgImp
  cases hq : s.page_table pid with
  | none => exact ⟨rfl, rfl, rfl⟩
  | some f =>
    simp only
    split <;> exact ⟨rfl, rfl, rfl⟩

theorem wrap32_of_nonneg {x : Int} (h0 : 0 ≤ x) (h1 : x < 2147483648) : wrap32 x = x := by
  unfold wrap32
  omega

theorem nonneg_ne_invalid {x : Int} (h : 0 ≤ x) : x ≠ INVALID_PAGE_ID := by
  unfold INVALID_PAGE_ID
  omega

theorem wrap32_add (a b : Int) : wrap32 (wrap32 a + b) = wrap32 (a + b) := by
  unfold wrap32
  omega

/-- `NewPgImp`: it finds no frame and leaves the allocator, or it advances the
allocator by the number of instances (32-bit sum) and then returns
`next_page_id_`, unless that is `INVALID_PAGE_ID`. -/
theorem new_fields (s : BufferPoolManagerInstance) :
    s.NewPgImp.2.num_instances = s.num_instances ∧
    s.NewPgImp.2.instance_index = s.instance_index ∧
    ((s.NewPgImp.1 = none ∧ s.NewPgImp.2.next_page_id = s.next_page_id) ∨
      (s.NewPgImp.2.next_page_id = wrap32 (s.next_page_id + s.num_instances) ∧
        ((s.NewPgImp.1 = none ∧ s.next_page_id = INVALID_PAGE_ID) ∨
          ∃ f, s.NewPgImp.1 = some (s.next_page_id, f) ∧
            s.NewPgImp.2.page_table s.next_page_id = some f))) := by
  unfold NewPgImp
  cases hp : s.pickFrame with
  | none => exact ⟨rfl, rfl, Or.inl ⟨rfl, rfl⟩⟩
  | some fs =>
    obtain ⟨f, s1⟩ := fs
    obtain ⟨a, b, c⟩ := pickFrame_fields hp
    simp only [AllocatePage]
    by_cases hne : s1.next_page_id = INVALID_PAGE_ID
    · rw [if_pos hne]
      refine ⟨a, b, Or.inr ⟨?_, Or.inl ⟨rfl, ?_⟩⟩⟩
      · simp only [c, a]
      · rw [← c]; exact hne
    · rw [if_neg hne]
      refine ⟨a, b, Or.inr ⟨?_, Or.inr ⟨f, ?_, ?_⟩⟩⟩
      · simp only [c, a]
      · simp only [c]
      · simp only [c, setAt_same]

theorem step_fields (s : BufferPoolManagerInstance) (c : Call) :
    (s.step c).num_instances = s.num_instances ∧
    (s.step c).instance_index = s.instance_index ∧
    ((s.newPageId c = none ∧ (s.step c).next_page_id = s.next_page_id) ∨
      (newPages [c] = 1 ∧
        (s.step c).next_page_id = wrap32 (s.next_page_id + s.num_instances) ∧
        ((s.newPageId c = none ∧ s.next_page_id = INVALID_PAGE_ID) ∨
          s.newPageId c = some s.next_page_id))) := by
  cases c with
  | fetch q =>
    obtain ⟨a, b, c⟩ := fetch_fields s q
    exact ⟨a, b, Or.inl ⟨rfl, c⟩⟩
  | newPage =>
    obtain ⟨a, b, c⟩ := new_fields s
    refine ⟨a, b, ?_⟩
    rcases c with ⟨c1, c2⟩ | ⟨c2, ⟨c1, c3⟩ | ⟨f, c1, _⟩⟩
    · exact Or.inl ⟨by simp [newPageId, c1], c2⟩
    · exact Or.inr ⟨rfl, c2, Or.inl ⟨by simp [newPageId, c1], c3⟩⟩
    · exact Or.inr ⟨rfl, c2, Or.inr (by simp [newPageId, c1])⟩
  | unpin q d =>
    obtain ⟨a, b, c⟩ := unpin_fields s q d
    exact ⟨a, b, Or.inl ⟨rfl, c⟩⟩
  | flush q =>
    obtain ⟨a, b, c⟩ := flush_fields s q
    exact ⟨a, b, Or.inl ⟨rfl, c⟩⟩
  | flushAll =>
    obtain ⟨a, b, c⟩ := flushAll_fields s
    exact ⟨a, b, Or.inl ⟨rfl, c⟩⟩
  | delete q =>
    obtain ⟨a, b, c⟩ := delete_fields s q
    exact ⟨a, b, Or.inl ⟨rfl, c⟩⟩
  | write f d => exact ⟨rfl, rfl, Or.inl ⟨rfl, rfl⟩⟩

theorem newPages_cons (c : Call) (cs : List Call) :
    newPages (c :: cs) = newPages [c] + newPages cs := by
  cases c <;> simp [newPages, Nat.add_comm]

theorem newPages_single_le (c : Call) : newPages [c] ≤ 1 := by
  cases c <;> simp [newPages]

theorem newPageId_none_of_not_new (s : BufferPoolManagerInstance) (c : Call)
    (h : newPages [c] = 0) : s.newPageId c = none := by
  cases c <;> simp [newPages, newPageId] at h ⊢

/-- No more ids are handed out than there are `NewPage` calls. -/
theorem newPageIds_length_le (cs : List Call) :
    ∀ (s : BufferPoolManagerInstance), (newPageIds s cs).length ≤ newPages cs := by
  induction cs with
  | nil => intro s; simp [newPageIds, newPages]
  | cons c cs ih =>
    intro s
    rw [newPages_cons]
    unfold newPageIds
    rw [List.length_append]
    have h1 : (s.newPageId c).toList.length ≤ newPages [c] := by
      cases c <;> simp [newPageId, newPages]
      cases s.NewPgImp.1 <;> simp
    have h2 := ih (s.step c)
    omega

/-- The ids handed out along a run from an allocator at `n` are `n, n + N,
n + 2N, ...`, as long as these are below 2^31. -/
theorem newPageIds_progression (cs : List Call) :
    ∀ (s : BufferPoolManagerInstance), 0 ≤ s.next_page_id →
      (∀ k : Nat, k < newPages cs →
        s.next_page_id + (k : Int) * (s.num_instances : Int) < 2147483648) →
      newPageIds s cs =
        (List.range (newPageIds s cs).length).map
          (fun (k : Nat) => s.next_page_id + (k : Int) * (s.num_instances : Int)) := by
  induction cs with
  | nil => intro s _ _; simp [newPageIds]
  | cons c cs ih =>
    intro s hn hb
    obtain ⟨a, _, h⟩ := step_fields s c
    rw [newPages_cons] at hb
    unfold newPageIds
    rcases h with ⟨h1, h2⟩ | ⟨hc, h2, h3⟩
    · have := ih (s.step c) (by rw [h2]; exact hn)
        (by
          intro k hk
          rw [h2, a]
          exact hb k (by omega))
      rw [h1, h2, a] at *
      simpa using this
    · have hlt : s.next_page_id < 2147483648 := by
        have := hb 0 (by omega)
        simpa using this
      have hinv : s.next_page_id ≠ INVALID_PAGE_ID := nonneg_ne_invalid hn
      have h1 : s.newPageId c = some s.next_page_id := by
        rcases h3 with ⟨_, h3⟩ | h3
        · exact absurd h3 hinv
        · exact h3
      have hlen := newPageIds_length_le cs (s.step c)
      by_cases hz : newPages cs = 0
      · have hnil : newPageIds (s.step c) cs = [] := by
          apply List.eq_nil_of_length_eq_zero
          omega
        rw [h1, hnil]
        simp [List.range_succ]
      · have hb1 := hb 1 (by omega)
        have hN : (0 : Int) ≤ (s.num_instances : Int) := Int.ofNat_nonneg _
        have hnext : (s.step c).next_page_id = s.next_page_id + (s.num_instances : Int) := by
          rw [h2]
          apply wrap32_of_nonneg
          · exact Int.add_nonneg hn hN
          · simpa using hb1
        have := ih (s.step c) (by rw [hnext]; exact Int.add_nonneg hn hN)
          (by
            intro k hk
            rw [hnext, a]
            have := hb (k + 1) (by omega)
            push_cast at this
            have e : s.next_page_id + (s.num_instances : Int) + (k : Int) * (s.num_instances : Int)
                = s.next_page_id + ((k : Int) + 1) * (s.num_instances : Int) := by ring
            rw [e]
            exact this)
        rw [h1]
        simp only [Option.toList, List.singleton_append, List.length_cons]
        rw [List.range_succ_eq_map, List.map_cons, List.map_map]
        rw [this, hnext, a]
        simp only [List.length_map, List.length_range, Nat.cast_zero, zero_mul, add_zero,
          List.cons.injEq, true_and]
        apply List.map_congr_left
        intro k _
        simp only [Function.comp, Nat.cast_succ]
        ring

end BufferPoolManagerInstance
end Bustub

namespace Bustub

theorem BufferPoolManagerInstance.shardedBy_mono {s : BufferPoolManagerInstance} {m n : Nat}
    (h : s.ShardedBy m) (hmn : m ≤ n) : s.ShardedBy n := by
  obtain ⟨k, hk, e⟩ := h
  exact ⟨k, Nat.le_trans hk hmn, e⟩

/-- A call keeps the allocator on its 32-bit progression; `NewPage` makes at
most one allocation. -/
theorem BufferPoolManagerInstance.shardedBy_step {s : BufferPoolManagerInstance} {m : Nat}
    (h : s.ShardedBy m) (c : BufferPoolManagerInstance.Call) :
    (s.step c).num_instances = s.num_instances ∧
    (s.step c).instance_index = s.instance_index ∧
    (s.step c).ShardedBy (m + BufferPoolManagerInstance.newPages [c]) := by
  obtain ⟨a, b, hc⟩ := BufferPoolManagerInstance.step_fields s c
  refine ⟨a, b, ?_⟩
  obtain ⟨k, hkm, hk⟩ := h
  rcases hc with ⟨_, h2⟩ | ⟨h1, h2, _⟩
  · exact ⟨k, by omega, by rw [h2, a, b]; exact hk⟩
  · refine ⟨k + 1, by omega, ?_⟩
    rw [h2, a, b, hk, BufferPoolManagerInstance.wrap32_add]
    congr 1
    push_cast
    ring

namespace ParallelBufferPoolManager

theorem index_of_progression (p : ParallelBufferPoolManager) (i k : Nat)
    (hi : i < p.num_instance) :
    p.GetBufferPoolManager ((i : Int) + (k : Int) * (p.num_instance : Int)) = i := by
  unfold GetBufferPoolManager toSizeT
  have h0 : ¬ ((i : Int) + (k : Int) * (p.num_instance : Int) < 0) := by
    have : (0 : Int) ≤ (i : Int) + (k : Int) * (p.num_instance : Int) := by positivity
    omega
  rw [if_neg h0]
  have : ((i : Int) + (k : Int) * (p.num_instance : Int)).toNat = i + k * p.num_instance := by
    have e : (i : Int) + (k : Int) * (p.num_instance : Int) = ((i + k * p.num_instance : Nat) : Int) := by
      push_cast; rfl
    rw [e, Int.toNat_ofNat]
  rw [this, Nat.add_mul_mod_self_right, Nat.mod_eq_of_lt hi]

theorem onInstance_fields {α : Type} (p : ParallelBufferPoolManager) (k : Nat)
    (op : BufferPoolManagerInstance → α × BufferPoolManagerInstance) (dflt : α) :
    (p.onInstance k op dflt).2.num_instance = p.num_instance ∧
    (p.onInstance k op dflt).2.starting_index = p.starting_index ∧
    (p.onInstance k op dflt).2.buffer_pool_managers.length = p.buffer_pool_managers.length := by
  unfold onInstance
  split
  · exact ⟨rfl, rfl, rfl⟩
  · exact ⟨rfl, rfl, by simp⟩

theorem poolInv_mono {p : ParallelBufferPoolManager} {m n : Nat} (h : PoolInv m p)
    (hmn : m ≤ n) : PoolInv n p :=
  ⟨h.pos, h.len, fun k s hk =>
    ⟨(h.inst k s hk).1, (h.inst k s hk).2.1,
      BufferPoolManagerInstance.shardedBy_mono (h.inst k s hk).2.2 hmn⟩⟩

/-- A call on one instance that keeps that instance on its progression keeps
the pool invariant. -/
theorem onInstance_inv {α : Type} {m n : Nat} (p : ParallelBufferPoolManager)
    (h : PoolInv m p) (hmn : m ≤ n) (k : Nat)
    (op : BufferPoolManagerInstance → α × BufferPoolManagerInstance) (dflt : α)
    (hop : ∀ inst : BufferPoolManagerInstance, p.buffer_pool_managers.get? k = some inst →
      (op { inst with disk := p.disk }).2.num_instances = inst.num_instances ∧
      (op { inst with disk := p.disk }).2.instance_index = inst.instance_index ∧
      (op { inst with disk := p.disk }).2.ShardedBy n) :
    PoolInv n (p.onInstance k op dflt).2 := by
  unfold onInstance
  cases hk : p.buffer_pool_managers.get? k with
  | none => exact poolInv_mono h hmn
  | some inst =>
    simp only
    obtain ⟨a, b, _⟩ := h.inst k inst hk
    obtain ⟨a1, b1, c1⟩ := hop inst hk
    refine ⟨h.pos, by simpa using h.len, ?_⟩
    intro j s hj
    simp only [List.get?_eq_getElem?, List.getElem?_set] at hj
    by_cases e : k = j
    · subst e
      rw [if_pos rfl] at hj
      split at hj
      · cases hj
        exact ⟨a1.trans a, b1.trans b, c1⟩
      · cases hj
    · rw [if_neg e] at hj
      exact (poolInv_mono h hmn).inst j s (by simpa [List.get?_eq_getElem?] using hj)

/-- A call of one instance other than through the pool's `NewPage`. -/
theorem onInstance_call {α : Type} {m : Nat} (p : ParallelBufferPoolManager)
    (h : PoolInv m p) (k : Nat)
    (op : BufferPoolManagerInstance → α × BufferPoolManagerInstance) (dflt : α)
    (c : BufferPoolManagerInstance.Call)
    (hop : ∀ s : BufferPoolManagerInstance, (op s).2 = s.step c) :
    PoolInv (m + BufferPoolManagerInstance.newPages [c]) (p.onInstance k op dflt).2 := by
  apply onInstance_inv p h (Nat.le_add_right _ _)
  intro inst hk
  obtain ⟨_, _, hs⟩ := h.inst k inst hk
  have hs2 : ({ inst with disk := p.disk } : BufferPoolManagerInstance).ShardedBy m := hs
  rw [hop]
  exact BufferPoolManagerInstance.shardedBy_step hs2 c

theorem poolInv_init (n pool_size page_size : Nat) (disk : page_id_t → Bytes) (h0 : 0 < n) :
    PoolInv 0 (init n pool_size page_size disk) := by
  refine ⟨h0, by simp [init], ?_⟩
  intro k s hk
  simp only [init, List.get?_eq_getElem?, List.getElem?_map] at hk
  by_cases hlt : k < n
  · rw [List.getElem?_range hlt] at hk
    simp only [Option.map_some'] at hk
    cases hk
    refine ⟨rfl, rfl, 0, Nat.le_refl _, ?_⟩
    simp [BufferPoolManagerInstance.init]
  · have : (List.range n)[k]? = none := by
      apply List.getElem?_eq_none
      simp
      omega
    rw [this] at hk
    cases hk

end ParallelBufferPoolManager
end Bustub

namespace Bustub

/-- Below the 32-bit limit the allocator is on the arithmetic progression
itself. -/
theorem BufferPoolManagerInstance.shardedBy_unwrapped {s : BufferPoolManagerInstance}
    {m : Nat} (h : s.ShardedBy m) (hi : s.instance_index < s.num_instances)
    (hb : (m + 1) * s.num_instances ≤ 2147483648) :
    ∃ k : Nat, k ≤ m ∧
      s.next_page_id = (s.instance_index : Int) + (k : Int) * (s.num_instances : Int) ∧
      0 ≤ s.next_page_id ∧ s.next_page_id < 2147483648 := by
  obtain ⟨k, hk, e⟩ := h
  have hnat : s.instance_index + k * s.num_instances < 2147483648 := by
    have h1 : k * s.num_instances ≤ m * s.num_instances := Nat.mul_le_mul_right _ hk
    have h2 : (m + 1) * s.num_instances = m * s.num_instances + s.num_instances := by ring
    omega
  have hcast : (s.instance_index : Int) + (k : Int) * (s.num_instances : Int) =
      ((s.instance_index + k * s.num_instances : Nat) : Int) := by
    push_cast; rfl
  have hw : s.next_page_id = (s.instance_index : Int) + (k : Int) * (s.num_instances : Int) := by
    rw [e, hcast]
    exact BufferPoolManagerInstance.wrap32_of_nonneg (Int.ofNat_nonneg _)
      (by exact_mod_cast hnat)
  refine ⟨k, hk, hw, ?_, ?_⟩
  · rw [hw, hcast]; exact Int.ofNat_nonneg _
  · rw [hw, hcast]; exact_mod_cast hnat

namespace ParallelBufferPoolManager

theorem poolInv_fields {m : Nat} {p q : ParallelBufferPoolManager} (h : PoolInv m p)
    (hn : q.num_instance = p.num_instance)
    (hb : q.buffer_pool_managers = p.buffer_pool_managers) : PoolInv m q :=
  ⟨by rw [hn]; exact h.pos, by rw [hn, hb]; exact h.len, by rw [hn, hb]; exact h.inst⟩

/-- `NewPage` on instance `i` of a pool whose allocators are below the 32-bit
limit: a failed call leaves every allocator; a successful call hands out an id
that the pool dispatches to instance `i`, whose page table then maps it. -/
theorem onInstance_new {m : Nat} (p : ParallelBufferPoolManager) (h : PoolInv m p)
    (hb : (m + 1) * p.num_instance ≤ 2147483648) (i : Nat) :
    PoolInv (m + 1) (p.onInstance i (fun s => s.NewPgImp) none).2 ∧
    ((p.onInstance i (fun s => s.NewPgImp) none).1 = none →
      PoolInv m (p.onInstance i (fun s => s.NewPgImp) none).2) ∧
    ∀ pid f, (p.onInstance i (fun s => s.NewPgImp) none).1 = some (pid, f) →
      i < p.num_instance ∧ pid % (p.num_instance : Int) = (i : Int) ∧
      p.GetBufferPoolManager pid = i ∧
      ∃ s, (p.onInstance i (fun s => s.NewPgImp) none).2.buffer_pool_managers.get? i = some s ∧
        s.page_table pid = some f ∧ s.instance_index = i ∧ s.ValidatePageId pid := by
  refine ⟨onInstance_call p h i _ none .newPage (fun _ => rfl), ?_, ?_⟩
  · intro hr
    apply onInstance_inv p h (Nat.le_refl _)
    intro inst hk
    obtain ⟨a, b, hs⟩ := h.inst i inst hk
    have hlt : i < p.buffer_pool_managers.length := by
      rw [List.get?_eq_getElem?] at hk
      exact (List.getElem?_eq_some_iff.1 hk).1
    have hiN : i < p.num_instance := by rw [← h.len]; exact hlt
    have hs2 : ({ inst with disk := p.disk } : BufferPoolManagerInstance).ShardedBy m := hs
    obtain ⟨k, hkm, hw, h0, _⟩ := BufferPoolManagerInstance.shardedBy_unwrapped hs2
      (by show inst.instance_index < inst.num_instances; rw [a, b]; exact hiN)
      (by show (m + 1) * inst.num_instances ≤ 2147483648; rw [a]; exact hb)
    obtain ⟨a1, b1, c1⟩ := BufferPoolManagerInstance.new_fields { inst with disk := p.disk }
    unfold onInstance at hr
    rw [hk] at hr
    simp only at hr
    rcases c1 with ⟨_, c2⟩ | ⟨_, ⟨_, c3⟩ | ⟨g, c3, _⟩⟩
    · refine ⟨a1, b1, ?_⟩
      obtain ⟨j, hj, e⟩ := hs2
      exact ⟨j, hj, by rw [c2, a1, b1]; exact e⟩
    · exact absurd c3 (BufferPoolManagerInstance.nonneg_ne_invalid h0)
    · rw [c3] at hr; cases hr
  · intro pid f hr
    unfold onInstance at hr ⊢
    cases hk : p.buffer_pool_managers.get? i with
    | none => rw [hk] at hr; cases hr
    | some inst =>
      rw [hk] at hr
      simp only at hr ⊢
      obtain ⟨a, b, hs⟩ := h.inst i inst hk
      have hlt : i < p.buffer_pool_managers.length := by
        rw [List.get?_eq_getElem?] at hk
        exact (List.getElem?_eq_some_iff.1 hk).1
      have hiN : i < p.num_instance := by rw [← h.len]; exact hlt
      have hs2 : ({ inst with disk := p.disk } : BufferPoolManagerInstance).ShardedBy m := hs
      obtain ⟨k, hkm, hw, h0, h1⟩ := BufferPoolManagerInstance.shardedBy_unwrapped hs2
        (by show inst.instance_index < inst.num_instances; rw [a, b]; exact hiN)
        (by show (m + 1) * inst.num_instances ≤ 2147483648; rw [a]; exact hb)
      obtain ⟨a1, b1, c1⟩ :=
        BufferPoolManagerInstance.new_fields { inst with disk := p.disk }
      rcases c1 with ⟨c1, _⟩ | ⟨_, ⟨c1, _⟩ | ⟨g, c1, c3⟩⟩
      · rw [c1] at hr; cases hr
      · rw [c1] at hr; cases hr
      · rw [c1] at hr
        simp only [Option.some.injEq, Prod.mk.injEq] at hr
        obtain ⟨hpid, hg⟩ := hr
        subst hg
        have hpid2 : pid = (i : Int) + (k : Int) * (p.num_instance : Int) := by
          rw [← hpid]
          show inst.next_page_id = _
          have hw2 : inst.next_page_id =
              (inst.instance_index : Int) + (k : Int) * (inst.num_instances : Int) := hw
          rw [hw2, a, b]
        have hmod : pid % (p.num_instance : Int) = (i : Int) := by
          rw [hpid2, Int.add_mul_emod_self]
          exact Int.emod_eq_of_lt (Int.ofNat_nonneg _) (by exact_mod_cast hiN)
        have hp0 : (0 : Int) ≤ pid := by rw [← hpid]; exact h0
        have hp1 : pid < 2147483648 := by rw [← hpid]; exact h1
        refine ⟨hiN, hmod, ?_, _, ?_, ?_, b1.trans b, ?_⟩
        · rw [hpid2]; exact index_of_progression p i k hiN
        · simp [List.get?_eq_getElem?, List.getElem?_set, hlt]
        · rw [← hpid]; exact c3
        · unfold BufferPoolManagerInstance.ValidatePageId
          rw [a1, b1]
          show (pid % 4294967296) % (inst.num_instances : Int) = (inst.instance_index : Int)
          rw [Int.emod_eq_of_lt hp0 (Int.lt_trans hp1 (by decide)), a, b]
          exact hmod

theorem probe_spec {m : Nat} (fuel : Nat) :
    ∀ (p : ParallelBufferPoolManager) (i : Nat), PoolInv m p →
      (m + 1) * p.num_instance ≤ 2147483648 →
      PoolInv (m + 1) (p.probe fuel i).2.2 ∧
      (p.probe fuel i).2.2.num_instance = p.num_instance ∧
      ∀ pid k f, (p.probe fuel i).1 = some (pid, k, f) →
        k < p.num_instance ∧ pid % (p.num_instance : Int) = (k : Int) ∧
        p.GetBufferPoolManager pid = k ∧
        ∃ s, (p.probe fuel i).2.2.buffer_pool_managers.get? k = some s ∧
          s.page_table pid = some f ∧ s.instance_index = k ∧ s.ValidatePageId pid := by
  induction fuel with
  | zero =>
    intro p i h _
    exact ⟨poolInv_mono h (Nat.le_succ _), rfl, fun pid k f c => by simp [probe] at c⟩
  | succ fuel ih =>
    intro p i h hb
    obtain ⟨hinv, hkeep, hnew⟩ := onInstance_new p h hb i
    obtain ⟨hN, hS, _⟩ := onInstance_fields p i (fun s => s.NewPgImp) none
    unfold probe
    simp only
    cases hr : (p.onInstance i (fun s => s.NewPgImp) none).1 with
    | some x =>
      obtain ⟨pid, f⟩ := x
      simp only
      refine ⟨hinv, hN, ?_⟩
      intro pid1 k1 f1 c
      simp only [Option.some.injEq, Prod.mk.injEq] at c
      obtain ⟨c1, c2, c3⟩ := c
      subst c1; subst c2; subst c3
      exact hnew pid f hr
    | none =>
      simp only
      split
      · exact ⟨hinv, hN, fun pid k f c => by cases c⟩
      · obtain ⟨a, b, c⟩ := ih (p.onInstance i (fun s => s.NewPgImp) none).2
          ((i + 1) % p.num_instance) (hkeep hr) (by rw [hN]; exact hb)
        refine ⟨a, b.trans hN, ?_⟩
        intro pid k f hc
        obtain ⟨c1, c2, c3, c4⟩ := c pid k f hc
        rw [hN] at c1 c2
        refine ⟨c1, c2, ?_, c4⟩
        unfold GetBufferPoolManager at c3 ⊢
        rw [hN] at c3
        exact c3

theorem poolInv_step {m : Nat} {p : ParallelBufferPoolManager} (h : PoolInv m p) (c : Call)
    (hb : (m + newPages [c]) * p.num_instance ≤ 2147483648) :
    PoolInv (m + newPages [c]) (p.step c) ∧ (p.step c).num_instance = p.num_instance := by
  cases c with
  | fetch q =>
    exact ⟨onInstance_call p h _ _ none (.fetch q) (fun _ => rfl),
      (onInstance_fields p _ _ none).1⟩
  | newPage =>
    obtain ⟨a, b, _⟩ := probe_spec p.num_instance p p.starting_index h hb
    exact ⟨poolInv_fields a rfl rfl, b⟩
  | unpin q d =>
    exact ⟨onInstance_call p h _ _ false (.unpin q d) (fun _ => rfl),
      (onInstance_fields p _ _ false).1⟩
  | flush q =>
    exact ⟨onInstance_call p h _ _ false (.flush q) (fun _ => rfl),
      (onInstance_fields p _ _ false).1⟩
  | flushAll =>
    show PoolInv m p.FlushAllPgsImp ∧ p.FlushAllPgsImp.num_instance = p.num_instance
    unfold FlushAllPgsImp
    generalize List.range p.buffer_pool_managers.length = l
    clear hb
    induction l generalizing p with
    | nil => exact ⟨h, rfl⟩
    | cons k l ih =>
      have h1 : PoolInv m (p.onInstance k (fun s => ((), s.FlushAllPgsImp)) ()).2 :=
        onInstance_call p h k _ () .flushAll (fun _ => rfl)
      obtain ⟨a, b⟩ := ih h1
      exact ⟨a, b.trans (onInstance_fields p k _ ()).1⟩
  | delete q =>
    exact ⟨onInstance_call p h _ _ false (.delete q) (fun _ => rfl),
      (onInstance_fields p _ _ false).1⟩

theorem newPages_pool_cons (c : Call) (cs : List Call) :
    newPages (c :: cs) = newPages [c] + newPages cs := by
  cases c <;> simp [newPages, Nat.add_comm]

/-- After a run with `n` calls of `NewPage`, none of which can take an
allocator past the 32-bit limit, every allocator has made at most `n`
allocations. -/
theorem poolInv_run (cs : List Call) :
    ∀ (m : Nat) (p : ParallelBufferPoolManager), PoolInv m p →
      (m + newPages cs) * p.num_instance ≤ 2147483648 →
      PoolInv (m + newPages cs) (p.run cs) ∧ (p.run cs).num_instance = p.num_instance := by
  induction cs with
  | nil => intro m p h _; exact ⟨h, rfl⟩
  | cons c cs ih =>
    intro m p h hb
    rw [newPages_pool_cons] at hb ⊢
    have hb1 : (m + newPages [c]) * p.num_instance ≤ 2147483648 :=
      Nat.le_trans (Nat.mul_le_mul_right _ (by omega)) hb
    obtain ⟨h1, hN⟩ := poolInv_step h c hb1
    have := ih (m + newPages [c]) (p.step c) h1 (by rw [hN, Nat.add_assoc]; exact hb)
    rw [Nat.add_assoc] at this
    exact ⟨this.1, this.2.trans hN⟩

end ParallelBufferPoolManager
end Bustub

namespace Bustub
namespace ParallelBufferPoolManager

/-- C22 as stated fails: `next_page_id_` is a 32-bit signed integer.  On
the instance with index 0 among N = 3 * 2^29 instances four NewPage calls
return the ids 0, 1610612736, -1073741824 and 536870912: the third is not
0 + 2N, the fourth is not congruent to 0 modulo N, ValidatePageId does not
hold of it, and the dispatch index of a pool of N instances for it is not 0. -/
theorem page_ids_leave_shard_after_wrap :
    BufferPoolManagerInstance.wideShard.instance_index = 0 ∧
    BufferPoolManagerInstance.wideShard.num_instances = 1610612736 ∧
    BufferPoolManagerInstance.newPageIds BufferPoolManagerInstance.wideShard
      [.newPage, .newPage, .newPage, .newPage] = [0, 1610612736, -1073741824, 536870912] ∧
    (-1073741824 : Int) ≠ 0 + 2 * 1610612736 ∧
    (536870912 : Int) % 1610612736 ≠ 0 ∧
    ¬ BufferPoolManagerInstance.wideShard.ValidatePageId 536870912 ∧
    toSizeT 536870912 % 1610612736 ≠ 0 := by
  refine ⟨by decide, by decide, by decide, by decide, by decide, ?_, by decide⟩
  unfold BufferPoolManagerInstance.ValidatePageId
  decide

/-- C22 (amended): as long as `next_page_id_` stays below 2^31, the page ids
NewPage returns from the instance with index i in a pool of N instances are
i, i + N, i + 2N, ... in allocation order, each congruent to i modulo N (the
ValidatePageId assertion holds); and when NewPage on a parallel pool of N
instances, on which fewer than 2^31 / N calls of NewPage were made, returns
page id pid from instance k, then pid mod N is k, instance k maps pid in its
page table, and FetchPage, UnpinPage, FlushPage and DeletePage for pid are
calls on instance k. -/
theorem new_page_ids_stay_in_shard (pool_size N i page_size : Nat)
    (disk : page_id_t → Bytes) (calls : List BufferPoolManagerInstance.Call)
    (cs : List Call) (p : ParallelBufferPoolManager) (hi : i < N)
    (hb : ∀ k : Nat, k < BufferPoolManagerInstance.newPages calls →
      (i : Int) + (k : Int) * (N : Int) < 2147483648)
    (hp : p = (init N pool_size page_size disk).run cs)
    (hc : (newPages cs + 1) * N ≤ 2147483648) :
    (BufferPoolManagerInstance.newPageIds
        (BufferPoolManagerInstance.init pool_size N i page_size disk) calls =
      (List.range (BufferPoolManagerInstance.newPageIds
        (BufferPoolManagerInstance.init pool_size N i page_size disk) calls).length).map
          (fun (k : Nat) => (i : Int) + (k : Int) * (N : Int))) ∧
    (∀ pid, pid ∈ BufferPoolManagerInstance.newPageIds
        (BufferPoolManagerInstance.init pool_size N i page_size disk) calls →
      pid % (N : Int) = (i : Int) ∧
      (BufferPoolManagerInstance.init pool_size N i page_size disk).ValidatePageId pid) ∧
    (∀ pid k f, p.NewPgImp.1 = some (pid, k, f) →
      k < p.num_instance ∧ pid % (p.num_instance : Int) = (k : Int) ∧
      p.NewPgImp.2.GetBufferPoolManager pid = k ∧
      (∃ s, p.NewPgImp.2.buffer_pool_managers.get? k = some s ∧
        s.page_table pid = some f ∧ s.instance_index = k ∧ s.ValidatePageId pid) ∧
      p.NewPgImp.2.FetchPgImp pid =
        p.NewPgImp.2.onInstance k (fun s => s.FetchPgImp pid) none ∧
      (∀ d, p.NewPgImp.2.UnpinPgImp pid d =
        p.NewPgImp.2.onInstance k (fun s => s.UnpinPgImp pid d) false) ∧
      p.NewPgImp.2.FlushPgImp pid =
        p.NewPgImp.2.onInstance k (fun s => s.FlushPgImp pid) false ∧
      p.NewPgImp.2.DeletePgImp pid =
        p.NewPgImp.2.onInstance k (fun s => s.DeletePgImp pid) false) := by
  have hN0 : 0 < N := Nat.lt_of_le_of_lt (Nat.zero_le _) hi
  have hiN : (i : Int) < 2147483648 := by
    have h1 : 1 * N ≤ (newPages cs + 1) * N := Nat.mul_le_mul_right _ (by omega)
    have h2 : i < 2147483648 := by omega
    exact_mod_cast h2
  have hinit : (BufferPoolManagerInstance.init pool_size N i page_size disk).next_page_id
      = (i : Int) := by
    show wrap32 (i : Int) = (i : Int)
    exact BufferPoolManagerInstance.wrap32_of_nonneg (Int.ofNat_nonneg _) hiN
  have hprog := BufferPoolManagerInstance.newPageIds_progression calls
    (BufferPoolManagerInstance.init pool_size N i page_size disk)
    (by rw [hinit]; exact Int.ofNat_nonneg _)
    (by
      intro k hk
      rw [hinit]
      exact hb k hk)
  rw [hinit] at hprog
  have hprog2 : BufferPoolManagerInstance.newPageIds
        (BufferPoolManagerInstance.init pool_size N i page_size disk) calls =
      (List.range (BufferPoolManagerInstance.newPageIds
        (BufferPoolManagerInstance.init pool_size N i page_size disk) calls).length).map
          (fun (k : Nat) => (i : Int) + (k : Int) * (N : Int)) := hprog
  refine ⟨hprog2, ?_, ?_⟩
  · intro pid hpid
    rw [hprog2] at hpid
    obtain ⟨k, hkr, hk0⟩ := List.mem_map.1 hpid
    have hk : (i : Int) + (k : Int) * (N : Int) = pid := hk0
    have hklt : k < BufferPoolManagerInstance.newPages calls :=
      Nat.lt_of_lt_of_le (List.mem_range.1 hkr)
        (BufferPoolManagerInstance.newPageIds_length_le calls _)
    have hlt := hb k hklt
    have hmod : pid % (N : Int) = (i : Int) := by
      rw [← hk, Int.add_mul_emod_self]
      exact Int.emod_eq_of_lt (Int.ofNat_nonneg _) (by exact_mod_cast hi)
    refine ⟨hmod, ?_⟩
    have h0 : (0 : Int) ≤ pid := by
      rw [← hk]
      exact Int.add_nonneg (Int.ofNat_nonneg _)
        (Int.mul_nonneg (Int.ofNat_nonneg _) (Int.ofNat_nonneg _))
    have h1 : pid < 4294967296 := by
      rw [← hk]
      exact Int.lt_trans hlt (by decide)
    show (pid % 4294967296) % (N : Int) = (i : Int)
    rw [Int.emod_eq_of_lt h0 h1]
    exact hmod
  · intro pid k f hr
    subst hp
    obtain ⟨hinv, hnum⟩ := poolInv_run cs 0 (init N pool_size page_size disk)
      (poolInv_init N pool_size page_size disk hN0)
      (by
        show (0 + newPages cs) * N ≤ 2147483648
        exact Nat.le_trans (Nat.mul_le_mul_right _ (by omega)) hc)
    have hnum2 : ((init N pool_size page_size disk).run cs).num_instance = N := hnum
    obtain ⟨_, hN, hs⟩ := probe_spec ((init N pool_size page_size disk).run cs).num_instance
      ((init N pool_size page_size disk).run cs)
      ((init N pool_size page_size disk).run cs).starting_index hinv
      (by rw [hnum2, Nat.zero_add]; exact hc)
    obtain ⟨c1, c2, c3, c4⟩ := hs pid k f hr
    have hidx : ((init N pool_size page_size disk).run cs).NewPgImp.2.GetBufferPoolManager pid
        = k := by
      unfold GetBufferPoolManager at c3 ⊢
      show toSizeT pid % (((init N pool_size page_size disk).run cs).probe
        ((init N pool_size page_size disk).run cs).num_instance
        ((init N pool_size page_size disk).run cs).starting_index).2.2.num_instance = k
      rw [hN]
      exact c3
    refine ⟨c1, c2, hidx, c4, ?_, ?_, ?_, ?_⟩
    · unfold FetchPgImp; rw [hidx]
    · intro d; unfold UnpinPgImp; rw [hidx]
    · unfold FlushPgImp; rw [hidx]
    · unfold DeletePgImp; rw [hidx]

theorem new_page_ids_stay_in_shard_witness :
    (1 < 2 ∧ (newPages [.newPage] + 1) * 2 ≤ 2147483648) ∧
    BufferPoolManagerInstance.newPageIds (BufferPoolManagerInstance.init 2 2 1 4 (fun _ => []))
      [.newPage, .unpin 1 false, .newPage] = [1, 3] ∧
    (∀ pid k f, (twoByTwo.run [.newPage]).NewPgImp.1 = some (pid, k, f) →
      k < (twoByTwo.run [.newPage]).num_instance ∧
      (twoByTwo.run [.newPage]).NewPgImp.2.GetBufferPoolManager pid = k) ∧
    (twoByTwo.run [.newPage]).NewPgImp.1 = some (2, 0, 1) :=
  have hb : ∀ k : Nat, k < BufferPoolManagerInstance.newPages
      [.newPage, .unpin 1 false, .newPage] →
      ((1 : Nat) : Int) + (k : Int) * ((2 : Nat) : Int) < 2147483648 := by
    intro k hk
    have hk2 : k < 2 := hk
    omega
  have h := new_page_ids_stay_in_shard 2 2 1 4 (fun _ => [])
    [.newPage, .unpin 1 false, .newPage] [.newPage] (twoByTwo.run [.newPage])
    (by decide) hb rfl (by decide)
  ⟨⟨by decide, by decide⟩, by decide,
    fun pid k f e => ⟨(h.2.2 pid k f e).1, (h.2.2 pid k f e).2.2.1⟩, by decide⟩

/-- C23: in a pool of two instances with free frames the first NewPage starts
at instance 0, succeeds there at once, and leaves the starting index at 0: the
next NewPage begins its search at instance 0 again and takes its page from
instance 0 again. -/
theorem starting_index_unchanged_for_two_instances :
    twoByTwo.num_instance = 2 ∧ twoByTwo.starting_index = 0 ∧
    twoByTwo.NewPgImp.1 = some (0, 0, 0) ∧
    twoByTwo.NewPgImp.2.starting_index = 0 ∧
    twoByTwo.NewPgImp.2.NewPgImp.1 = some (2, 0, 1) ∧
    twoByTwo.NewPgImp.2.NewPgImp.2.starting_index = 0 := by
  refine ⟨by decide, by decide, by decide, by decide, by decide, by decide⟩

end ParallelBufferPoolManager

namespace BufferPoolManagerInstance

/-- C28: with logging enabled, a persistent LSN of -1 and page LSN 5, the
eviction of the dirty page 0 from a pool of one frame writes the page to disk
first and forces the log flush afterwards, in `NewPgImp` and in
`FetchPgImp`. -/
theorem dirty_page_written_before_log_flush :
    (unpinnedNew.pages 0).is_dirty = true ∧ (unpinnedNew.pages 0).page_id = 0 ∧
    NewPgImpOps unpinnedNew true (fun _ => 5) (-1) =
      [DiskOp.WritePage 0, DiskOp.FlushLog] ∧
    FetchPgImpOps unpinnedNew 7 true (fun _ => 5) (-1) =
      [DiskOp.WritePage 0, DiskOp.FlushLog, DiskOp.ReadPage 7] := by
  refine ⟨by decide, by decide, by decide, by decide⟩

end BufferPoolManagerInstance
end Bustub

/-! ## Theorems: log recovery -/

namespace Bustub
namespace LogRecovery

set_option maxRecDepth 100000 in
/-- C21: the UPDATE record with original tuple bytes 1, 0, 0, 0 and updated
tuple bytes 9, 9 is appended to an empty log buffer and gets LSN 0.
DeserializeLogRecord on the bytes succeeds and yields the header, the record
id and the original tuple, but its updated tuple is the single byte 2, not
9, 9: the record is not the one that was written. -/
theorem update_record_round_trip_loses_new_tuple :
    (LogManager.AppendLogRecord 128 (LogManager.init 128) LogManager.updateRecord).1 = some 0 ∧
    (LogManager.AppendLogRecord 128 (LogManager.init 128) LogManager.updateRecord).2.1.new_tuple
      = ⟨[9, 9]⟩ ∧
    (DeserializeLogRecord 128
      (LogManager.AppendLogRecord 128 (LogManager.init 128)
        LogManager.updateRecord).2.2.log_buffer 0 LogManager.emptyRecord).1 = true ∧
    (DeserializeLogRecord 128
      (LogManager.AppendLogRecord 128 (LogManager.init 128)
        LogManager.updateRecord).2.2.log_buffer 0 LogManager.emptyRecord).2.old_tuple
      = ⟨[1, 0, 0, 0]⟩ ∧
    (DeserializeLogRecord 128
      (LogManager.AppendLogRecord 128 (LogManager.init 128)
        LogManager.updateRecord).2.2.log_buffer 0 LogManager.emptyRecord).2.new_tuple
      = ⟨[2]⟩ := by
  refine ⟨by decide, by decide, by decide, by decide, by decide⟩

set_option maxRecDepth 100000 in
/-- C29: the log holds NEWPAGE records for pages 0 and 1 and then an INSERT
record whose record id is on page 0. For the INSERT record Redo fetches page 1,
the page of the NEWPAGE record before it, compares the LSN with that of page 1
and replays the insert on page 1; when the same INSERT record is the only
record of the log, Redo fetches page -1. -/
theorem redo_fetches_page_of_earlier_record :
    LogManager.insertRecord.insert_rid.page_id = 0 ∧
    (Redo 128 LogManager.insertAfterNewPages LogManager.emptyRecord 4 0 RedoState.fresh).map
        (fun st => st.trace.drop 15) =
      some [RedoEvent.FetchPage 1, RedoEvent.InsertTuple 1 ⟨0, 0⟩ ⟨[7, 8, 9]⟩,
        RedoEvent.UnpinPage 1 true] ∧
    (Redo 128 LogManager.insertOnly LogManager.emptyRecord 4 0 RedoState.fresh).map
        (fun st => st.trace) =
      some [RedoEvent.FetchPage (-1), RedoEvent.InsertTuple (-1) ⟨0, 0⟩ ⟨[7, 8, 9]⟩,
        RedoEvent.UnpinPage (-1) true] := by
  refine ⟨by decide, by decide, by decide⟩

end LogRecovery
end Bustub

/-! ## Theorems: executors -/

namespace Bustub

/-- When `pending` lists the rows an executor has still to yield, `drain` with
enough fuel yields exactly those rows. -/
theorem drain_eq_pending {S Row : Type} (next : S → Option Row × S) (pending : S → List Row)
    (I : S → Prop)
    (hstep : ∀ s, I s →
      ((next s).1 = none ∧ pending s = []) ∨
      (∃ r, (next s).1 = some r ∧ pending s = r :: pending (next s).2 ∧ I (next s).2)) :
    ∀ (fuel : Nat) (s : S), I s → (pending s).length ≤ fuel → drain next fuel s = pending s := by
  intro fuel
  induction fuel with
  | zero =>
    intro s _ hl
    have : pending s = [] := List.length_eq_zero.1 (Nat.le_zero.1 hl)
    rw [this]; rfl
  | succ fuel ih =>
    intro s hI hl
    unfold drain
    rcases hstep s hI with ⟨h1, h2⟩ | ⟨r, h1, h2, h3⟩
    · rw [h2]
      cases hn : next s with
      | mk a b =>
        rw [hn] at h1
        simp only at h1
        subst h1
        rfl
    · cases hn : next s with
      | mk a b =>
        rw [hn] at h1 h2 h3
        simp only at h1 h2 h3
        subst h1
        simp only
        rw [h2]
        rw [h2, List.length_cons] at hl
        rw [ih b h3 (by omega)]

namespace SeqScanExecutor

/-- C24: a REPEATABLE_READ transaction scans a table of two rows. The first
Next returns the row with record id (0, 0), but the shared lock it takes is on
(0, 1), the record id of the following row: (0, 0) is not in the shared-lock
set and has no queue. Under READ_COMMITTED the same call locks and unlocks
(0, 1) and never touches (0, 0). -/
theorem scan_locks_following_row :
    (LockManager.emptyManager.txns 1).isolation_level = IsolationLevel.REPEATABLE_READ ∧
    (twoRows.Next LockManager.emptyManager (some 1)).1 = ScanResult.row 10 ⟨0, 0⟩ ∧
    ((twoRows.Next LockManager.emptyManager (some 1)).2.2.txns 1).shared_lock_set
      = [⟨0, 1⟩] ∧
    (twoRows.Next LockManager.emptyManager (some 1)).2.2.lock_table ⟨0, 0⟩ = none ∧
    (twoRows.Next committedReaders (some 1)).1 = ScanResult.row 10 ⟨0, 0⟩ ∧
    (twoRows.Next committedReaders (some 1)).2.2.lock_table ⟨0, 0⟩ = none ∧
    (twoRows.Next committedReaders (some 1)).2.2.lock_table ⟨0, 1⟩
      = some ⟨[], RequestQueueState.NOTHING⟩ := by
  refine ⟨by decide, by decide, by decide, by decide, by decide, by decide, by decide⟩

end SeqScanExecutor

namespace NestedLoopJoinExecutor

/-- C26: the left child is empty, the right child yields one row, the
predicate is null. After Init the first Next yields a row, built from the
default-constructed outer tuple and the right row; the rows yielded are not
the empty list. -/
theorem empty_left_child_yields_rows :
    emptyLeft.left_executor.rows = [] ∧ emptyLeft.right_executor.rows = [5] ∧
    emptyLeft.Init.Next.1 = some 5 ∧
    drain Next 3 emptyLeft.Init = [5] := by
  refine ⟨by decide, by decide, by decide, by decide⟩

end NestedLoopJoinExecutor
end Bustub

namespace Bustub

theorem DistinctKey.eq_trans {Val : Type} (ce : Val → Val → CmpBool)
    (htrans : ∀ a b c, ce a b = CmpBool.CmpTrue → ce b c = CmpBool.CmpTrue →
      ce a c = CmpBool.CmpTrue) :
    ∀ (x y z : List Val), DistinctKey.eq ce x y = true → DistinctKey.eq ce y z = true →
      DistinctKey.eq ce x z = true := by
  intro x
  induction x with
  | nil =>
    intro y z h1 h2
    cases y with
    | nil => exact h2
    | cons b bs => simp [DistinctKey.eq] at h1
  | cons a as ih =>
    intro y z h1 h2
    cases y with
    | nil => simp [DistinctKey.eq] at h1
    | cons b bs =>
      cases z with
      | nil => simp [DistinctKey.eq] at h2
      | cons c cs =>
        simp only [DistinctKey.eq, ne_eq, ite_not] at h1 h2 ⊢
        by_cases hab : ce a b = CmpBool.CmpTrue
        · by_cases hbc : ce b c = CmpBool.CmpTrue
          · rw [if_pos hab] at h1
            rw [if_pos hbc] at h2
            rw [if_pos (htrans a b c hab hbc)]
            exact ih bs cs h1 h2
          · rw [if_neg hbc] at h2; cases h2
        · rw [if_neg hab] at h1; cases h1

namespace DistinctExecutor

variable {Val : Type}

theorem yielded_cons (ce : Val → Val → CmpBool) (ks : List (List Val)) (r : List Val)
    (rs : List (List Val)) :
    yielded ce ks (r :: rs) =
      if ks.any (fun stored => DistinctKey.eq ce (MakeDistinctKey r) stored) then
        yielded ce ks rs
      else r :: yielded ce (ks ++ [MakeDistinctKey r]) rs := rfl

theorem nextLoop_cons (e : DistinctExecutor Val) (ks : List (List Val)) (t : List Val)
    (rest : List (List Val)) :
    e.nextLoop ks (t :: rest) =
      if e.count ks (MakeDistinctKey t) = 0 then
        (some t, { e with
          key_set := ks ++ [MakeDistinctKey t]
          child_executor := { e.child_executor with rest := rest } })
      else e.nextLoop ks rest := rfl

theorem firstOccurrences_cons (e : DistinctExecutor Val) (earlier : List (List Val))
    (r : List Val) (rs : List (List Val)) :
    e.firstOccurrences earlier (r :: rs) =
      if earlier.any (fun x => e.rowEq r x) then e.firstOccurrences (earlier ++ [r]) rs
      else r :: e.firstOccurrences (earlier ++ [r]) rs := rfl

theorem count_eq_zero (e : DistinctExecutor Val) (ks : List (List Val)) (key : List Val) :
    e.count ks key = 0 ↔
      ks.any (fun stored => DistinctKey.eq e.CompareEquals key stored) = false := by
  unfold count
  split <;> simp_all

/-- One `Next` yields the head of the closed form and leaves its tail. -/
theorem nextLoop_yielded (e : DistinctExecutor Val) (rest : List (List Val)) :
    ∀ ks : List (List Val),
      ((e.nextLoop ks rest).1 = none ∧ yielded e.CompareEquals ks rest = []) ∨
      (∃ r, (e.nextLoop ks rest).1 = some r ∧
        yielded e.CompareEquals ks rest =
          r :: yielded e.CompareEquals (e.nextLoop ks rest).2.key_set
            (e.nextLoop ks rest).2.child_executor.rest ∧
        (e.nextLoop ks rest).2.CompareEquals = e.CompareEquals) := by
  induction rest with
  | nil => intro ks; exact Or.inl ⟨rfl, rfl⟩
  | cons t rest ih =>
    intro ks
    rw [nextLoop_cons, yielded_cons]
    by_cases h : e.count ks (MakeDistinctKey t) = 0
    · rw [if_pos h]
      have h2 := (count_eq_zero e ks _).1 h
      rw [h2]
      exact Or.inr ⟨t, rfl, by simp, rfl⟩
    · rw [if_neg h]
      have h2 : ks.any (fun stored =>
          DistinctKey.eq e.CompareEquals (MakeDistinctKey t) stored) = true := by
        cases c : ks.any (fun stored =>
          DistinctKey.eq e.CompareEquals (MakeDistinctKey t) stored) with
        | true => rfl
        | false => exact absurd ((count_eq_zero e ks _).2 c) h
      rw [h2]
      simpa using ih ks

theorem yielded_length (ce : Val → Val → CmpBool) (rest : List (List Val)) :
    ∀ ks, (yielded ce ks rest).length ≤ rest.length := by
  induction rest with
  | nil => intro ks; simp [yielded]
  | cons t rest ih =>
    intro ks
    rw [yielded_cons]
    split
    · exact Nat.le_succ_of_le (ih ks)
    · simp only [List.length_cons]
      exact Nat.succ_le_succ (ih _)

/-- No yielded row equals a stored key or an earlier yielded row. -/
theorem yielded_pairwise (ce : Val → Val → CmpBool) (rest : List (List Val)) :
    ∀ ks, (∀ y, y ∈ yielded ce ks rest → ∀ k, k ∈ ks → DistinctKey.eq ce y k = false) ∧
      (yielded ce ks rest).Pairwise (fun a b => DistinctKey.eq ce b a = false) := by
  induction rest with
  | nil => intro ks; simp [yielded]
  | cons t rest ih =>
    intro ks
    rw [yielded_cons]
    by_cases h : ks.any (fun stored => DistinctKey.eq ce (MakeDistinctKey t) stored) = true
    · rw [if_pos h]; exact ih ks
    · rw [if_neg h]
      obtain ⟨h1, h2⟩ := ih (ks ++ [MakeDistinctKey t])
      have hnone : ∀ k, k ∈ ks → DistinctKey.eq ce t k = false := by
        intro k hk
        cases c : DistinctKey.eq ce t k with
        | false => rfl
        | true => exact absurd (List.any_eq_true.2 ⟨k, hk, c⟩) h
      refine ⟨?_, ?_⟩
      · intro y hy k hk
        rcases List.mem_cons.1 hy with hy | hy
        · rw [hy]; exact hnone k hk
        · exact h1 y hy k (List.mem_append_left _ hk)
      · rw [List.pairwise_cons]
        refine ⟨?_, h2⟩
        intro y hy
        exact h1 y hy t (List.mem_append_right _ (List.mem_singleton_self _))

/-- Every row is a stored key's equal, is yielded, or equals a yielded row. -/
theorem yielded_covers (ce : Val → Val → CmpBool) (rest : List (List Val)) :
    ∀ ks r, r ∈ rest →
      (∃ k, k ∈ ks ∧ DistinctKey.eq ce r k = true) ∨ r ∈ yielded ce ks rest ∨
      ∃ y, y ∈ yielded ce ks rest ∧ DistinctKey.eq ce r y = true := by
  induction rest with
  | nil => intro ks r hr; cases hr
  | cons t rest ih =>
    intro ks r hr
    rw [yielded_cons]
    by_cases h : ks.any (fun stored => DistinctKey.eq ce (MakeDistinctKey t) stored) = true
    · rw [if_pos h]
      rcases List.mem_cons.1 hr with hr | hr
      · obtain ⟨k, hk, hkt⟩ := List.any_eq_true.1 h
        rw [hr]
        exact Or.inl ⟨k, hk, hkt⟩
      · exact ih ks r hr
    · rw [if_neg h]
      rcases List.mem_cons.1 hr with hr | hr
      · rw [hr]; exact Or.inr (Or.inl (List.mem_cons_self _ _))
      · rcases ih (ks ++ [MakeDistinctKey t]) r hr with ⟨k, hk, hkr⟩ | h2 | ⟨y, hy, hyr⟩
        · rcases List.mem_append.1 hk with hk | hk
          · exact Or.inl ⟨k, hk, hkr⟩
          · rw [List.mem_singleton] at hk
            rw [hk] at hkr
            exact Or.inr (Or.inr ⟨t, List.mem_cons_self _ _, hkr⟩)
        · exact Or.inr (Or.inl (List.mem_cons_of_mem _ h2))
        · exact Or.inr (Or.inr ⟨y, List.mem_cons_of_mem _ hy, hyr⟩)

/-- With a transitive equality the closed form is the list of first
occurrences. -/
theorem yielded_eq_firstOccurrences (e : DistinctExecutor Val)
    (htrans : ∀ a b c, e.CompareEquals a b = CmpBool.CmpTrue →
      e.CompareEquals b c = CmpBool.CmpTrue → e.CompareEquals a c = CmpBool.CmpTrue)
    (rest : List (List Val)) :
    ∀ ks earlier,
      (∀ r, (∃ x, x ∈ earlier ∧ e.rowEq r x = true) ↔
        (∃ k, k ∈ ks ∧ DistinctKey.eq e.CompareEquals r k = true)) →
      yielded e.CompareEquals ks rest = e.firstOccurrences earlier rest := by
  induction rest with
  | nil => intro ks earlier _; rfl
  | cons t rest ih =>
    intro ks earlier H
    rw [yielded_cons, firstOccurrences_cons]
    by_cases h : ks.any (fun stored =>
        DistinctKey.eq e.CompareEquals (MakeDistinctKey t) stored) = true
    · have h2 : earlier.any (fun x => e.rowEq t x) = true := by
        obtain ⟨k, hk, hkt⟩ := List.any_eq_true.1 h
        obtain ⟨x, hx, hxt⟩ := (H t).2 ⟨k, hk, hkt⟩
        exact List.any_eq_true.2 ⟨x, hx, hxt⟩
      rw [if_pos h, if_pos h2]
      apply ih
      intro r
      constructor
      · rintro ⟨x, hx, hxr⟩
        rcases List.mem_append.1 hx with hx | hx
        · exact (H r).1 ⟨x, hx, hxr⟩
        · rw [List.mem_singleton] at hx
          subst hx
          obtain ⟨k, hk, hkt⟩ := List.any_eq_true.1 h
          exact ⟨k, hk, DistinctKey.eq_trans e.CompareEquals htrans r x k hxr hkt⟩
      · rintro ⟨k, hk, hkr⟩
        obtain ⟨x, hx, hxr⟩ := (H r).2 ⟨k, hk, hkr⟩
        exact ⟨x, List.mem_append_left _ hx, hxr⟩
    · have h2 : ¬ earlier.any (fun x => e.rowEq t x) = true := by
        intro c
        obtain ⟨x, hx, hxt⟩ := List.any_eq_true.1 c
        obtain ⟨k, hk, hkt⟩ := (H t).1 ⟨x, hx, hxt⟩
        exact h (List.any_eq_true.2 ⟨k, hk, hkt⟩)
      rw [if_neg h, if_neg h2]
      congr 1
      apply ih
      intro r
      constructor
      · rintro ⟨x, hx, hxr⟩
        rcases List.mem_append.1 hx with hx | hx
        · obtain ⟨k, hk, hkr⟩ := (H r).1 ⟨x, hx, hxr⟩
          exact ⟨k, List.mem_append_left _ hk, hkr⟩
        · rw [List.mem_singleton] at hx
          subst hx
          exact ⟨MakeDistinctKey x, List.mem_append_right _ (List.mem_singleton_self _), hxr⟩
      · rintro ⟨k, hk, hkr⟩
        rcases List.mem_append.1 hk with hk | hk
        · obtain ⟨x, hx, hxr⟩ := (H r).2 ⟨k, hk, hkr⟩
          exact ⟨x, List.mem_append_left _ hx, hxr⟩
        · rw [List.mem_singleton] at hk
          rw [hk] at hkr
          exact ⟨t, List.mem_append_right _ (List.mem_singleton_self _), hkr⟩

end DistinctExecutor
end Bustub

namespace Bustub
namespace DistinctExecutor

variable {Val : Type}

theorem drain_eq_yielded (e : DistinctExecutor Val) (fuel : Nat)
    (hf : e.child_executor.rows.length ≤ fuel) :
    drain Next fuel e.Init = yielded e.CompareEquals [] e.child_executor.rows := by
  have h := drain_eq_pending (Next : DistinctExecutor Val → _)
    (fun s => yielded e.CompareEquals s.key_set s.child_executor.rest)
    (fun s => s.CompareEquals = e.CompareEquals)
    (by
      intro s hs
      rcases nextLoop_yielded s s.child_executor.rest s.key_set with ⟨h1, h2⟩ | ⟨r, h1, h2, h3⟩
      · rw [hs] at h2
        exact Or.inl ⟨h1, h2⟩
      · rw [hs] at h2 h3
        exact Or.inr ⟨r, h1, h2, h3⟩)
    fuel e.Init rfl
    (Nat.le_trans (yielded_length _ _ _) hf)
  exact h

/-- C25: after Init, Next yields the rows of the child with every row that
equals an earlier row removed, in the order of the child (equality of rows is
the equality of their distinct keys, which has to be transitive, as an
equality of values is); no yielded row equals an earlier yielded row, and
every row of the child is yielded or equals a yielded row. -/
theorem distinct_yields_first_occurrences (e : DistinctExecutor Val) (fuel : Nat)
    (hf : e.child_executor.rows.length ≤ fuel)
    (htrans : ∀ a b c, e.CompareEquals a b = CmpBool.CmpTrue →
      e.CompareEquals b c = CmpBool.CmpTrue → e.CompareEquals a c = CmpBool.CmpTrue) :
    drain Next fuel e.Init = e.firstOccurrences [] e.child_executor.rows ∧
    (drain Next fuel e.Init).Pairwise (fun a b => e.rowEq b a = false) ∧
    (∀ r, r ∈ e.child_executor.rows →
      r ∈ drain Next fuel e.Init ∨ ∃ y, y ∈ drain Next fuel e.Init ∧ e.rowEq r y = true) := by
  rw [drain_eq_yielded e fuel hf]
  refine ⟨?_, ?_, ?_⟩
  · apply yielded_eq_firstOccurrences e htrans
    intro r
    constructor
    · rintro ⟨x, hx, _⟩; cases hx
    · rintro ⟨x, hx, _⟩; cases hx
  · exact (yielded_pairwise e.CompareEquals e.child_executor.rows []).2
  · intro r hr
    rcases yielded_covers e.CompareEquals e.child_executor.rows [] r hr with
      ⟨k, hk, _⟩ | h | h
    · cases hk
    · exact Or.inl h
    · exact Or.inr h

theorem distinct_yields_first_occurrences_witness :
    (intRows [[1, 2], [1, 3], [1, 2]]).child_executor.rows.length ≤ 3 ∧
    drain Next 3 (intRows [[1, 2], [1, 3], [1, 2]]).Init = [[1, 2], [1, 3]] :=
  ⟨by decide,
    (distinct_yields_first_occurrences (intRows [[1, 2], [1, 3], [1, 2]]) 3 (by decide)
      (by
        intro a b c h1 h2
        simp only [intRows] at h1 h2 ⊢
        split at h1
        · split at h2
          · rename_i e1 e2; rw [if_pos (e1.trans e2)]
          · cases h2
        · cases h1)).1.trans (by decide)⟩

end DistinctExecutor
end Bustub

namespace Bustub
namespace HashJoinExecutor

variable {Val : Type}

end HashJoinExecutor
end Bustub

namespace Bustub
namespace HashJoinExecutor

variable {Val : Type} [Inhabited Val]

end HashJoinExecutor
end Bustub

namespace Bustub
namespace HashJoinExecutor

variable {Val : Type} [Inhabited Val]

end HashJoinExecutor
end Bustub

/-! ## Theorems: log flushing -/

namespace Bustub
namespace LogManager

/-- C39 (the code at the failing input): a flush cycle writes the buffer up to
the buffer offset but never resets the offset.  After append, flush, append,
flush of two 20-byte BEGIN records the buffer offset is 40, not 0, and the log
file holds the first record, then 20 zero bytes, then the second record,
although the persistent LSN is 1. -/
theorem flush_cycle_keeps_buffer_offset :
    (run 128 (init 128) [Call.append (beginRecord 1), Call.flush]).2.buffer_offset = 20 ∧
    (run 128 (init 128) twoFlushes).2.buffer_offset = 40 ∧
    (run 128 (init 128) twoFlushes).2.persistent_lsn = 1 ∧
    (run 128 (init 128) twoFlushes).2.log_file =
      ({ beginRecord 1 with lsn := 0 }).header ++ List.replicate 20 0 ++
        ({ beginRecord 2 with lsn := 1 }).header ∧
    (run 128 (init 128) twoFlushes).2.log_file ≠
      ({ beginRecord 1 with lsn := 0 }).header ++ ({ beginRecord 2 with lsn := 1 }).header := by
  decide

end LogManager
end Bustub

/-! ## Theorems: pinned frames of the buffer pool -/

namespace Bustub
namespace BufferPoolManagerInstance

end BufferPoolManagerInstance
end Bustub

/-! ## Theorems: reachable lock tables -/

namespace Bustub
namespace LockManager

theorem qinv_empty : QInv LockRequestQueue.empty := Or.inl ⟨rfl, rfl⟩

theorem qinv_of_shared (rq : List LockRequest) :
    (∀ e, e ∈ rq → e.lock_mode = LockMode.SHARED) →
    QInv ⟨rq, match rq with
      | [] => RequestQueueState.NOTHING
      | e :: _ => if e.lock_mode = LockMode.EXCLUSIVE then RequestQueueState.WRITE
                  else RequestQueueState.READ⟩ := by
  intro hall
  cases rq with
  | nil => exact Or.inl ⟨rfl, rfl⟩
  | cons a l =>
    have ha := hall a (List.mem_cons_self _ _)
    right; right
    refine ⟨?_, by simp, hall⟩
    simp [ha]

theorem qinv_prevent (txns : txn_id_t → Transaction) (t : txn_id_t) (q : LockRequestQueue)
    (h : QInv q) : QInv (PreventDeadLock txns t q).2 := by
  simp only [PreventDeadLock]
  generalize (fun (e : LockRequest) => decide (¬ e.txn_id > t)) = p
  rcases h with ⟨_, hq⟩ | ⟨_, e, hq, he⟩ | ⟨_, _, hall⟩
  · rw [hq]; exact Or.inl ⟨rfl, rfl⟩
  · rw [hq]
    by_cases hk : p e = true
    · rw [List.filter_cons_of_pos hk]
      right; left
      exact ⟨by simp [he], e, rfl, he⟩
    · rw [List.filter_cons_of_neg hk]
      exact Or.inl ⟨rfl, rfl⟩
  · exact qinv_of_shared _ (fun e he => hall e (List.mem_filter.1 he).1)

theorem qinv_erase (q : LockRequestQueue) (p : LockRequest → Bool) (h : QInv q) :
    QInv ⟨q.request_queue.eraseP p,
      if (q.request_queue.eraseP p).length = 0 then RequestQueueState.NOTHING else q.state⟩ := by
  rcases h with ⟨_, hq⟩ | ⟨hs, e, hq, he⟩ | ⟨hs, _, hall⟩
  · rw [hq]; exact Or.inl ⟨rfl, rfl⟩
  · rw [hq]
    by_cases hp : p e = true
    · rw [List.eraseP_cons_of_pos hp]
      exact Or.inl ⟨rfl, rfl⟩
    · rw [List.eraseP_cons_of_neg hp]
      right; left
      exact ⟨by simp [hs], e, rfl, he⟩
  · cases hr : q.request_queue.eraseP p with
    | nil => exact Or.inl ⟨rfl, rfl⟩
    | cons a l =>
      right; right
      refine ⟨by simp [hs], by simp, ?_⟩
      intro e he
      exact hall e (List.mem_of_mem_eraseP (hr ▸ he))

theorem queueOf_setQueue_ne (lm : LockManager) {rid r : RID} (q : LockRequestQueue)
    (h : r ≠ rid) : (lm.setQueue rid q).queueOf r = lm.queueOf r := by
  simp [queueOf, setQueue, setAt, h]

theorem ok_congr {lm lm1 : LockManager} (e : lm1.lock_table = lm.lock_table)
    (h : QueuesOk lm) : QueuesOk lm1 := by
  intro r
  have := h r
  unfold queueOf at this ⊢
  rw [e]
  exact this

theorem ok_setQueue {lm : LockManager} (rid : RID) {q : LockRequestQueue} (h : QueuesOk lm)
    (hq : QInv q) : QueuesOk (lm.setQueue rid q) := by
  intro r
  by_cases hr : r = rid
  · rw [hr, queueOf_setQueue]; exact hq
  · rw [queueOf_setQueue_ne _ _ hr]; exact h r

theorem ok_ensureQueue {lm : LockManager} (rid : RID) (h : QueuesOk lm) :
    QueuesOk (lm.ensureQueue rid) := by
  unfold ensureQueue
  split
  · exact ok_setQueue rid h qinv_empty
  · exact h

theorem ok_preventOn {lm : LockManager} (t : txn_id_t) (rid : RID) (h : QueuesOk lm) :
    QueuesOk (lm.preventOn t rid) := by
  have e : (lm.preventOn t rid).lock_table =
      (lm.setQueue rid (PreventDeadLock lm.txns t (lm.queueOf rid)).2).lock_table := rfl
  exact ok_congr e (ok_setQueue rid h (qinv_prevent _ _ _ (h rid)))

theorem ok_init (txns : txn_id_t → Transaction) : QueuesOk (init txns) :=
  fun _ => qinv_empty

theorem ok_finish_shared (lm : LockManager) (t : txn_id_t) (rid : RID) (h : QueuesOk lm)
    (hw : (lm.txns t).state = TransactionState.ABORTED ∨
      (lm.queueOf rid).state ≠ RequestQueueState.WRITE) :
    CallOk (lm.LockSharedFinish t rid) := by
  unfold LockSharedFinish CheckAborted
  by_cases ha : (lm.txns t).state = TransactionState.ABORTED
  · rw [if_pos ha]
    exact ⟨h, by simp⟩
  · rw [if_neg ha]
    refine ⟨?_, by simp⟩
    have hw1 : (lm.queueOf rid).state ≠ RequestQueueState.WRITE := hw.resolve_left ha
    refine ok_setQueue rid (ok_congr rfl h) ?_
    show QInv ⟨(lm.queueOf rid).request_queue ++ [⟨t, LockMode.SHARED, false⟩],
      RequestQueueState.READ⟩
    right; right
    refine ⟨rfl, by simp, ?_⟩
    intro e he
    rcases h rid with ⟨_, hq⟩ | ⟨hs, _⟩ | ⟨_, _, hall⟩
    · rw [hq] at he
      simp at he
      rw [he]
    · exact absurd hs hw1
    · rcases List.mem_append.1 he with h1 | h1
      · exact hall e h1
      · simp at h1
        rw [h1]

theorem ok_finish_exclusive (lm : LockManager) (t : txn_id_t) (rid : RID) (h : QueuesOk lm)
    (hw : (lm.txns t).state = TransactionState.ABORTED ∨
      (lm.queueOf rid).state = RequestQueueState.NOTHING) :
    CallOk (lm.LockExclusiveFinish t rid) := by
  unfold LockExclusiveFinish CheckAborted
  by_cases ha : (lm.txns t).state = TransactionState.ABORTED
  · rw [if_pos ha]
    exact ⟨h, by simp⟩
  · rw [if_neg ha]
    refine ⟨?_, by simp⟩
    have hw1 : (lm.queueOf rid).state = RequestQueueState.NOTHING := hw.resolve_left ha
    refine ok_setQueue rid (ok_congr rfl h) ?_
    show QInv ⟨(lm.queueOf rid).request_queue ++ [⟨t, LockMode.EXCLUSIVE, false⟩],
      RequestQueueState.WRITE⟩
    right; left
    refine ⟨rfl, ⟨t, LockMode.EXCLUSIVE, false⟩, ?_, rfl⟩
    rcases h rid with ⟨_, hq⟩ | ⟨hs, _⟩ | ⟨hs, _⟩
    · show (lm.queueOf rid).request_queue ++ _ = _
      rw [hq]; rfl
    · rw [hw1] at hs; cases hs
    · rw [hw1] at hs; cases hs

theorem ok_finish_upgrade (lm : LockManager) (t : txn_id_t) (rid : RID) (h : QueuesOk lm) :
    CallOk (lm.LockUpgradeFinish t rid) := by
  unfold LockUpgradeFinish CheckAborted
  have hu : (lm.queueOf rid).state ≠ RequestQueueState.UPGRADE := by
    rcases h rid with ⟨hs, _⟩ | ⟨hs, _⟩ | ⟨hs, _⟩ <;> rw [hs] <;> simp
  rw [if_neg hu]
  by_cases ha : (lm.txns t).state = TransactionState.ABORTED
  · rw [if_pos ha]
    exact ⟨h, by simp⟩
  · rw [if_neg ha]
    refine ⟨?_, by simp⟩
    refine ok_setQueue rid (ok_congr rfl h) ?_
    right; left
    exact ⟨rfl, _, rfl, rfl⟩

end LockManager
end Bustub

namespace Bustub
namespace LockManager

theorem ok_lock_shared (lm : LockManager) (t : txn_id_t) (rid : RID) (h : QueuesOk lm) :
    CallOk (lm.LockShared t rid) := by
  unfold LockShared
  by_cases hi : (lm.txns t).isolation_level = IsolationLevel.READ_UNCOMMITTED
  · rw [if_pos hi]
    exact ⟨ok_congr rfl h, by simp⟩
  · rw [if_neg hi]
    by_cases hs : (lm.txns t).state = TransactionState.SHRINKING
    · rw [CheckShrinking_shrinking lm t hs]
      exact ⟨ok_congr rfl h, by simp⟩
    · rw [CheckShrinking_other lm t hs]
      dsimp only
      have h3 : QueuesOk ((lm.register t).ensureQueue rid) :=
        ok_ensureQueue rid (ok_congr rfl h)
      generalize (lm.register t).ensureQueue rid = lm3 at h3
      by_cases h1 : (lm3.queueOf rid).state = RequestQueueState.WRITE ∨
          (lm3.queueOf rid).state = RequestQueueState.UPGRADE
      · rw [if_pos h1]
        have h4 := ok_preventOn t rid h3
        by_cases h2 : (lm3.preventOn t rid).sharedWake t rid = true
        · rw [if_pos h2]
          refine ok_finish_shared _ _ _ h4 ?_
          simp only [sharedWake, Bool.or_eq_true, Bool.and_eq_true, decide_eq_true_eq] at h2
          rcases h2 with h2 | h2
          · exact Or.inl h2
          · exact Or.inr h2.1
        · rw [if_neg h2]
          exact ⟨h4, by simp⟩
      · rw [if_neg h1]
        exact ok_finish_shared _ _ _ h3 (Or.inr (fun e => h1 (Or.inl e)))

theorem ok_resume_shared (lm : LockManager) (t : txn_id_t) (rid : RID) (h : QueuesOk lm) :
    CallOk (lm.LockSharedResume t rid) := by
  unfold LockSharedResume
  by_cases h2 : lm.sharedWake t rid = true
  · rw [if_pos h2]
    refine ok_finish_shared _ _ _ h ?_
    simp only [sharedWake, Bool.or_eq_true, Bool.and_eq_true, decide_eq_true_eq] at h2
    rcases h2 with h2 | h2
    · exact Or.inl h2
    · exact Or.inr h2.1
  · rw [if_neg h2]
    exact ⟨h, by simp⟩

theorem wake_exclusive {lm : LockManager} {t : txn_id_t} {rid : RID}
    (h : lm.exclusiveWake t rid = true) :
    (lm.txns t).state = TransactionState.ABORTED ∨
      (lm.queueOf rid).state = RequestQueueState.NOTHING := by
  simpa only [exclusiveWake, Bool.or_eq_true, decide_eq_true_eq] using h

theorem ok_lock_exclusive (lm : LockManager) (t : txn_id_t) (rid : RID) (h : QueuesOk lm) :
    CallOk (lm.LockExclusive t rid) := by
  unfold LockExclusive
  by_cases hs : (lm.txns t).state = TransactionState.SHRINKING
  · rw [CheckShrinking_shrinking lm t hs]
    exact ⟨ok_congr rfl h, by simp⟩
  · rw [CheckShrinking_other lm t hs]
    dsimp only
    have h3 : QueuesOk ((lm.register t).ensureQueue rid) :=
      ok_ensureQueue rid (ok_congr rfl h)
    generalize (lm.register t).ensureQueue rid = lm3 at h3
    by_cases h1 : (lm3.queueOf rid).state ≠ RequestQueueState.NOTHING
    · rw [if_pos h1]
      have h4 := ok_preventOn t rid h3
      by_cases h2 : (lm3.preventOn t rid).exclusiveWake t rid = true
      · rw [if_pos h2]
        exact ok_finish_exclusive _ _ _ h4 (wake_exclusive h2)
      · rw [if_neg h2]
        exact ⟨h4, by simp⟩
    · rw [if_neg h1]
      exact ok_finish_exclusive _ _ _ h3 (Or.inr (not_not.1 h1))

theorem ok_resume_exclusive (lm : LockManager) (t : txn_id_t) (rid : RID) (h : QueuesOk lm) :
    CallOk (lm.LockExclusiveResume t rid) := by
  unfold LockExclusiveResume
  by_cases h2 : lm.exclusiveWake t rid = true
  · rw [if_pos h2]
    exact ok_finish_exclusive _ _ _ h (wake_exclusive h2)
  · rw [if_neg h2]
    exact ⟨h, by simp⟩

theorem qinv_of_table {lm : LockManager} {rid : RID} {q : LockRequestQueue}
    (h : QueuesOk lm) (hq : lm.lock_table rid = some q) : QInv q := by
  have := h rid
  unfold queueOf at this
  rw [hq] at this
  exact this

/-- The paths of `LockUpgrade`: it ends without deciding a grant and does not
return true, or it decides the grant in the state `upgradeDecision` names. -/
theorem upgrade_paths (lm : LockManager) (t : txn_id_t) (rid : RID) (h : QueuesOk lm) :
    (lm.upgradeDecision t rid = none ∧ CallOk (lm.LockUpgrade t rid) ∧
      (lm.LockUpgrade t rid).1 ≠ Outcome.returned true) ∨
    (∃ d, lm.upgradeDecision t rid = some d ∧
      lm.LockUpgrade t rid = d.LockUpgradeFinish t rid ∧ QueuesOk d ∧
      d.exclusiveWake t rid = true ∧
      ∀ e, e ∈ (lm.queueOf rid).request_queue.eraseP (fun e => decide (e.txn_id = t)) →
        e ∉ (d.queueOf rid).request_queue → e.txn_id > t) := by
  unfold LockUpgrade upgradeDecision
  by_cases hs : (lm.txns t).state = TransactionState.SHRINKING
  · rw [CheckShrinking_shrinking lm t hs]
    exact Or.inl ⟨rfl, ⟨ok_congr rfl h, by simp⟩, by simp⟩
  · rw [CheckShrinking_other lm t hs]
    dsimp only
    have h2 : QueuesOk (lm.register t) := ok_congr rfl h
    have hq0 : (lm.register t).lock_table rid = lm.lock_table rid := rfl
    cases hq : (lm.register t).lock_table rid with
    | none => exact Or.inl ⟨rfl, ⟨h2, by simp⟩, by simp⟩
    | some q =>
      dsimp only
      have hqq : lm.queueOf rid = q := by
        unfold queueOf
        rw [← hq0, hq]
        rfl
      rw [hqq]
      have hqi : QInv q := qinv_of_table h2 hq
      have h3 := ok_setQueue rid h2 (qinv_erase q (fun e => decide (e.txn_id = t)) hqi)
      have hst : ((lm.register t).setQueue rid
          ⟨List.eraseP (fun e => decide (e.txn_id = t)) q.request_queue,
            if (List.eraseP (fun e => decide (e.txn_id = t)) q.request_queue).length = 0
            then RequestQueueState.NOTHING else q.state⟩).queueOf rid =
          ⟨List.eraseP (fun e => decide (e.txn_id = t)) q.request_queue,
            if (List.eraseP (fun e => decide (e.txn_id = t)) q.request_queue).length = 0
            then RequestQueueState.NOTHING else q.state⟩ := queueOf_setQueue _ _ _
      have htx : ((lm.register t).setQueue rid
          ⟨List.eraseP (fun e => decide (e.txn_id = t)) q.request_queue,
            if (List.eraseP (fun e => decide (e.txn_id = t)) q.request_queue).length = 0
            then RequestQueueState.NOTHING else q.state⟩).txns = lm.txns := rfl
      generalize (if (List.eraseP (fun e => decide (e.txn_id = t)) q.request_queue).length = 0
        then RequestQueueState.NOTHING else q.state) = st at h3 hst htx ⊢
      generalize (lm.register t).setQueue rid _ = lm3 at h3 hst htx ⊢
      by_cases h1 : st ≠ RequestQueueState.NOTHING
      · rw [if_pos h1, if_pos h1]
        have h4 := ok_preventOn t rid h3
        by_cases hw : (lm3.preventOn t rid).exclusiveWake t rid = true
        · rw [if_pos hw, if_pos hw]
          refine Or.inr ⟨_, rfl, rfl, h4, hw, ?_⟩
          intro e he hne
          rw [preventOn_queue, hst] at hne
          by_contra hle
          exact hne (List.mem_filter.2 ⟨he, by simpa using hle⟩)
        · rw [if_neg hw, if_neg hw]
          exact Or.inl ⟨rfl, ⟨h4, by simp⟩, by simp⟩
      · rw [if_neg h1, if_neg h1]
        refine Or.inr ⟨_, rfl, rfl, h3, ?_, ?_⟩
        · simp only [exclusiveWake, Bool.or_eq_true, decide_eq_true_eq]
          right
          rw [hst]
          exact not_not.1 h1
        · intro e he hne
          rw [hst] at hne
          exact absurd he hne

theorem ok_lock_upgrade (lm : LockManager) (t : txn_id_t) (rid : RID) (h : QueuesOk lm) :
    CallOk (lm.LockUpgrade t rid) := by
  rcases upgrade_paths lm t rid h with ⟨_, h1, _⟩ | ⟨d, _, h1, h2, _⟩
  · exact h1
  · rw [h1]
    exact ok_finish_upgrade _ _ _ h2

theorem ok_resume_upgrade (lm : LockManager) (t : txn_id_t) (rid : RID) (h : QueuesOk lm) :
    CallOk (lm.LockUpgradeResume t rid) := by
  unfold LockUpgradeResume
  by_cases h2 : lm.exclusiveWake t rid = true
  · rw [if_pos h2]
    exact ok_finish_upgrade _ _ _ h
  · rw [if_neg h2]
    exact ⟨h, by simp⟩

theorem ok_unlock (lm : LockManager) (t : txn_id_t) (rid : RID) (h : QueuesOk lm) :
    QueuesOk (lm.Unlock t rid).2 := by
  unfold Unlock
  have h1 : QueuesOk (lm.eraseLocks t rid) := ok_congr rfl h
  generalize lm.eraseLocks t rid = lm1 at h1
  dsimp only
  have h2 : QueuesOk (lm1.setQueue rid (lm1.queueOf rid)) := ok_setQueue rid h1 (h1 rid)
  cases hf : (lm1.queueOf rid).request_queue.find? (fun e => decide (e.txn_id = t)) with
  | none => exact h2
  | some e =>
    dsimp only
    refine ok_setQueue rid ?_ (qinv_erase _ _ (h1 rid))
    split
    · exact ok_congr rfl h2
    · exact h2

theorem ok_call (lm : LockManager) (c : Call) (h : QueuesOk lm) : CallOk (lm.call c) := by
  cases c with
  | lockShared t rid => exact ok_lock_shared lm t rid h
  | lockExclusive t rid => exact ok_lock_exclusive lm t rid h
  | lockUpgrade t rid => exact ok_lock_upgrade lm t rid h
  | resumeShared t rid => exact ok_resume_shared lm t rid h
  | resumeExclusive t rid => exact ok_resume_exclusive lm t rid h
  | resumeUpgrade t rid => exact ok_resume_upgrade lm t rid h
  | unlock t rid => exact ⟨ok_unlock lm t rid h, by simp [call]⟩

theorem ok_of_reachable {lm : LockManager} (h : Reachable lm) : QueuesOk lm := by
  induction h with
  | init txns => exact ok_init txns
  | step lm c _ ih => exact (ok_call lm c ih).1

theorem reachable_lock_run {lm : LockManager} (h : Reachable lm) (cs : List Call) :
    Reachable (lm.run cs) := by
  induction cs generalizing lm with
  | nil => exact h
  | cons c cs ih => exact ih (Reachable.step lm c h)

theorem finish_upgrade_true {d : LockManager} {t : txn_id_t} {rid : RID}
    (hg : (d.LockUpgradeFinish t rid).1 = Outcome.returned true) :
    (d.txns t).state ≠ TransactionState.ABORTED := by
  intro ha
  unfold LockUpgradeFinish CheckAborted at hg
  rw [if_pos ha] at hg
  split at hg <;> simp at hg

/-- Where a grant of `LockUpgrade` is decided, the queue has no entry. -/
theorem decision_queue_empty {d : LockManager} {t : txn_id_t} {rid : RID} (h : QueuesOk d)
    (hw : d.exclusiveWake t rid = true)
    (hg : (d.LockUpgradeFinish t rid).1 = Outcome.returned true) :
    (d.queueOf rid).request_queue = [] := by
  have hn := (wake_exclusive hw).resolve_left (finish_upgrade_true hg)
  rcases h rid with ⟨_, hq⟩ | ⟨hs, _⟩ | ⟨hs, _⟩
  · exact hq
  · rw [hn] at hs; cases hs
  · rw [hn] at hs; cases hs

end LockManager
end Bustub

namespace Bustub
namespace LockManager

theorem qinv_facts {q : LockRequestQueue} (h : QInv q) :
    (q.state = RequestQueueState.NOTHING ↔ q.request_queue = []) ∧
    (q.state = RequestQueueState.WRITE ↔
      ∃ e, q.request_queue = [e] ∧ e.lock_mode = LockMode.EXCLUSIVE) ∧
    (q.state = RequestQueueState.READ ↔
      q.request_queue ≠ [] ∧ ∀ e, e ∈ q.request_queue → e.lock_mode = LockMode.SHARED) ∧
    q.state ≠ RequestQueueState.UPGRADE ∧
    ∀ e, e ∈ q.request_queue → e.lock_mode = LockMode.EXCLUSIVE → q.request_queue = [e] := by
  rcases h with ⟨hs, hq⟩ | ⟨hs, e, hq, he⟩ | ⟨hs, hne, hall⟩
  · rw [hs, hq]
    simp
  · rw [hs, hq]
    refine ⟨by simp, by simp [he], ?_, by simp, ?_⟩
    · simp [he]
    · intro e1 h1 _
      simp only [List.mem_singleton] at h1
      rw [h1]
  · rw [hs]
    refine ⟨by simp [hne], ?_, by simp only [true_iff]; exact ⟨hne, hall⟩, by simp, ?_⟩
    · constructor
      · intro h; cases h
      · rintro ⟨e, hq, he⟩
        have := hall e (by rw [hq]; exact List.mem_singleton_self e)
        rw [this] at he
        cases he
    · intro e he hx
      rw [hall e he] at hx
      cases hx

/-- When calls run one at a time (no call of another thread between the
statements of LockUpgrade that run without the latch), no reachable lock
manager has a granting LockUpgrade that discards a request of another
transaction: where the grant is decided, the queue holds no entry of another
transaction. -/
theorem no_upgrade_grant_discards_a_request :
    ¬ ∃ (lm : LockManager) (t : txn_id_t) (rid : RID),
        Reachable lm ∧ DiscardsOther lm t rid := by
  rintro ⟨lm, t, rid, hr, d, e, hd, hg, he, _⟩
  have hok := ok_of_reachable hr
  have hempty : (d.queueOf rid).request_queue = [] := by
    rcases hd with hd | ⟨hd, hw⟩
    · rcases upgrade_paths lm t rid hok with ⟨hn, _⟩ | ⟨d1, h1, _, h2, h3, _⟩
      · rw [hn] at hd; cases hd
      · rw [h1] at hd
        cases hd
        exact decision_queue_empty h2 h3 hg
    · rw [hd] at hg ⊢
      exact decision_queue_empty hok hw hg
  rw [hempty] at he
  cases he

/-- When calls run one at a time, a LockUpgrade that returns true in a
reachable lock manager decides the grant on an empty queue: every entry that
was in the queue besides the transaction's own belongs to a younger
transaction (larger id) and was removed before by PreventDeadLock; a blocked
LockUpgrade that is granted on wake-up finds the queue empty too.  After the
grant the queue is the transaction's exclusive entry. -/
theorem upgrade_grant_is_decided_on_empty_queue (lm : LockManager) (h : Reachable lm)
    (t : txn_id_t) (rid : RID) :
    ((lm.LockUpgrade t rid).1 = Outcome.returned true →
      ∃ d, lm.upgradeDecision t rid = some d ∧
        lm.LockUpgrade t rid = d.LockUpgradeFinish t rid ∧
        (d.queueOf rid).request_queue = [] ∧
        (∀ e, e ∈ (lm.queueOf rid).request_queue.eraseP (fun e => decide (e.txn_id = t)) →
          e.txn_id > t) ∧
        ((lm.LockUpgrade t rid).2.queueOf rid).request_queue =
          [⟨t, LockMode.EXCLUSIVE, false⟩]) ∧
    ((lm.LockUpgradeResume t rid).1 = Outcome.returned true →
      (lm.queueOf rid).request_queue = [] ∧
        ((lm.LockUpgradeResume t rid).2.queueOf rid).request_queue =
          [⟨t, LockMode.EXCLUSIVE, false⟩]) := by
  have hok := ok_of_reachable h
  have hfin : ∀ d : LockManager, (d.LockUpgradeFinish t rid).1 = Outcome.returned true →
      QueuesOk d →
      ((d.LockUpgradeFinish t rid).2.queueOf rid).request_queue =
        [⟨t, LockMode.EXCLUSIVE, false⟩] := by
    intro d hg hd
    have ha := finish_upgrade_true hg
    have hu : (d.queueOf rid).state ≠ RequestQueueState.UPGRADE := (qinv_facts (hd rid)).2.2.2.1
    unfold LockUpgradeFinish CheckAborted
    rw [if_neg hu, if_neg ha]
    dsimp only
    rw [queueOf_setQueue]
  constructor
  · intro hg
    rcases upgrade_paths lm t rid hok with ⟨_, _, hn⟩ | ⟨d, h1, h2, h3, h4, h5⟩
    · exact absurd hg hn
    · rw [h2] at hg
      have hempty := decision_queue_empty h3 h4 hg
      refine ⟨d, h1, h2, hempty, ?_, ?_⟩
      · intro e he
        exact h5 e he (by rw [hempty]; simp)
      · rw [h2]
        exact hfin d hg h3
  · intro hg
    unfold LockUpgradeResume at hg ⊢
    by_cases hw : lm.exclusiveWake t rid = true
    · rw [if_pos hw] at hg ⊢
      exact ⟨decision_queue_empty hok hw hg, hfin lm hg hok⟩
    · rw [if_neg hw] at hg
      simp at hg

theorem upgrade_grant_is_decided_on_empty_queue_witness :
    Reachable twoReaders ∧
    (twoReaders.LockUpgrade 1 rid0).1 = Outcome.returned true ∧
    ∃ d, twoReaders.upgradeDecision 1 rid0 = some d ∧
      twoReaders.LockUpgrade 1 rid0 = d.LockUpgradeFinish 1 rid0 ∧
      (d.queueOf rid0).request_queue = [] ∧
      (∀ e, e ∈ (twoReaders.queueOf rid0).request_queue.eraseP
          (fun e => decide (e.txn_id = 1)) → e.txn_id > 1) ∧
      ((twoReaders.LockUpgrade 1 rid0).2.queueOf rid0).request_queue =
        [⟨1, LockMode.EXCLUSIVE, false⟩] :=
  have hr : Reachable twoReaders := reachable_lock_run (Reachable.init _) _
  ⟨hr, by decide,
    (upgrade_grant_is_decided_on_empty_queue twoReaders hr 1 rid0).1 (by decide)⟩

end LockManager
end Bustub

namespace Bustub
namespace LockManager

theorem setQueue_setQueue (lm : LockManager) (rid : RID) (q1 q2 : LockRequestQueue) :
    (lm.setQueue rid q1).setQueue rid q2 = lm.setQueue rid q2 := by
  unfold setQueue
  simp only
  congr 1
  funext x
  unfold setAt
  split <;> rfl

theorem queueOf_of_table {lm : LockManager} {rid : RID} {q : LockRequestQueue}
    (h : lm.lock_table rid = some q) : lm.queueOf rid = q := by
  unfold queueOf
  rw [h]
  rfl

/-- Without calls of other threads in between, lines 98-106 leave the queue
without the entry of the transaction, in state NOTHING when it is empty. -/
theorem upgradeUnlatched_alone (lm : LockManager) (t : txn_id_t) (rid : RID)
    (q : LockRequestQueue) (h : lm.lock_table rid = some q) :
    lm.upgradeUnlatched t rid [] [] [] =
      lm.setQueue rid
        ⟨q.request_queue.eraseP (fun e => decide (e.txn_id = t)),
          if (q.request_queue.eraseP (fun e => decide (e.txn_id = t))).length = 0
            then RequestQueueState.NOTHING else q.state⟩ := by
  unfold upgradeUnlatched upgradeQueueEmpty upgradeSetNothing upgradeErase run
  simp only [List.foldl_nil]
  simp only [queueOf_of_table h, queueOf_setQueue]
  by_cases hl : (q.request_queue.eraseP (fun e => decide (e.txn_id = t))).length = 0
  · simp only [hl, decide_True, if_true]
    rw [setQueue_setQueue]
  · simp only [hl, decide_False, if_false]
    simp

/-- Run alone, the call with its unlatched statements spelled out is
`LockUpgrade`, and its decision point is `upgradeDecision`. -/
theorem racing_alone (lm : LockManager) (t : txn_id_t) (rid : RID) :
    lm.LockUpgradeRacing t rid [] [] [] = lm.LockUpgrade t rid ∧
    lm.racingDecision t rid [] [] [] = lm.upgradeDecision t rid := by
  unfold LockUpgradeRacing LockUpgrade racingDecision upgradeDecision
  cases hc : lm.CheckShrinking t with
  | mk r lm1 =>
    cases r with
    | some r => exact ⟨rfl, rfl⟩
    | none =>
      simp only
      cases hq : (lm1.register t).lock_table rid with
      | none => exact ⟨rfl, rfl⟩
      | some q =>
        simp only
        rw [upgradeUnlatched_alone _ t rid q hq]
        unfold upgradeLatched latchedDecision
        rw [queueOf_setQueue]
        exact ⟨rfl, rfl⟩

/-- C38: LockUpgrade erases the entire queue on grant and thereby discards a
request of another transaction.  Transaction 1 holds a shared lock on a record
(a reachable lock manager) and calls LockUpgrade, whose lines 98-106 run before
the latch is taken: it erases its own entry and finds the queue empty (line
105); LockShared of transaction 0 is granted now, the queue being in state
READ; line 106 sets the state to NOTHING.  The latched part finds state
NOTHING, so the grant is decided with the entry of transaction 0 in the queue,
and `request_queue_.clear()` removes it: LockUpgrade returns true, the queue is
the exclusive entry of transaction 1, and transaction 0 still has the record
in its shared lock set. -/
theorem upgrade_grant_discards_concurrent_request :
    ∃ (lm : LockManager) (t u : txn_id_t) (rid : RID) (d : LockManager) (e : LockRequest),
      Reachable lm ∧ u ≠ t ∧ e.txn_id = u ∧
      (lm.LockShared u rid).1 = Outcome.returned true ∧
      lm.racingDecision t rid [] [.lockShared u rid] [] = some d ∧
      lm.LockUpgradeRacing t rid [] [.lockShared u rid] [] = d.LockUpgradeFinish t rid ∧
      (d.LockUpgradeFinish t rid).1 = Outcome.returned true ∧
      e ∈ (d.queueOf rid).request_queue ∧
      e ∉ ((d.LockUpgradeFinish t rid).2.queueOf rid).request_queue ∧
      ((d.LockUpgradeFinish t rid).2.queueOf rid).request_queue =
        [⟨t, LockMode.EXCLUSIVE, false⟩] ∧
      rid ∈ ((d.LockUpgradeFinish t rid).2.txns u).shared_lock_set ∧
      ((d.LockUpgradeFinish t rid).2.txns u).state = TransactionState.GROWING := by
  refine ⟨oneReader, 1, 0, rid0, racedUpgrade, ⟨0, LockMode.SHARED, false⟩,
    reachable_lock_run (Reachable.init _) _, by decide, rfl, by decide, rfl, rfl,
    by decide, by decide, by decide, by decide, by decide, by decide⟩

end LockManager
end Bustub

/-! ## Theorems: `IsFull` on a bucket whose size is not a multiple of 8 -/

namespace Bustub
namespace HashTableBucketPage

variable {K V : Type} [DecidableEq K] [DecidableEq V] [Inhabited K] [Inhabited V]

/-- The bucket of `size` slots after the first `m` of the inserts
`Insert(2 * i, 0)`: the slots below `m` are occupied and readable, and slot
`i` holds the key `2 * i`. -/
theorem fill_state (size m : Nat) (hm : m ≤ size) :
    Reachable size
      (run size (zeroed size) ((List.range m).map (fun i => Call.insert (2 * i) 0))) ∧
    (∀ i, (run size (zeroed size)
        ((List.range m).map (fun i => Call.insert (2 * i) 0))).IsOccupied i = true ↔ i < m) ∧
    (∀ i, (run size (zeroed size)
        ((List.range m).map (fun i => Call.insert (2 * i) 0))).IsReadable i = true ↔ i < m) ∧
    (∀ i, i < m →
      (run size (zeroed size)
        ((List.range m).map (fun i => Call.insert (2 * i) 0))).KeyAt i = 2 * i) := by
  induction m with
  | zero =>
    refine ⟨Reachable.zeroed, ?_, ?_, ?_⟩
    · intro i
      rw [List.range_zero, List.map_nil, run_nil, zeroed_not_occupied]
      constructor
      · intro c; cases c
      · intro c; omega
    · intro i
      rw [List.range_zero, List.map_nil, run_nil, zeroed_not_readable]
      constructor
      · intro c; cases c
      · intro c; omega
    · intro i hi; omega
  | succ m ih =>
    obtain ⟨hr, ho, hrd, hkv⟩ := ih (by omega)
    rw [List.range_succ, List.map_append, List.map_singleton, run_snoc]
    generalize run size (zeroed size) ((List.range m).map (fun i => Call.insert (2 * i) 0)) = b
      at hr ho hrd hkv
    have h := wf_of_reachable size b hr
    have hnone : ¬ ∃ i, b.HoldsAt i (2 * m) 0 := by
      rintro ⟨i, hi⟩
      have hlt := (hrd i).1 hi.1
      have := hkv i hlt
      rw [hi.2.1] at this
      omega
    refine ⟨Reachable.step b _ hr, ?_⟩
    rcases insert_cases size b h m (by omega) ho (2 * m) 0 with
      ⟨hex, _⟩ | ⟨_, hlt, e⟩ | ⟨_, hns, _⟩ | ⟨_, hns, _⟩
    · exact absurd hex hnone
    · have hs := fresh_slot_spec size b h m hlt (2 * m) 0
      simp only [step, e]
      refine ⟨?_, ?_, ?_⟩
      · intro i
        rw [(hs i).1]
        by_cases c : i = m
        · simp [c]
        · simp only [if_neg c]; rw [ho i]; omega
      · intro i
        rw [(hs i).2.1]
        by_cases c : i = m
        · simp [c]
        · simp only [if_neg c]; rw [hrd i]; omega
      · intro i hi
        rw [(hs i).2.2.1]
        by_cases c : i = m
        · simp [c]
        · simp only [if_neg c]; exact hkv i (by omega)
    · omega
    · omega

/-- C36 (the code, for every failing size): when BUCKET_ARRAY_SIZE is not a
multiple of 8, IsFull returns false on every reachable bucket, also when all
slots are readable: the last byte of the bit map has bits that no slot sets.
Insert of a new pair into such a bucket with no free slot returns false and
leaves the bucket as it is; a table whose bucket for the key is this bucket
does not split it: its Insert returns false and leaves the directory as it
is. -/
theorem full_bucket_is_not_reported_full (size : Nat) (hs : size % 8 ≠ 0)
    (b : HashTableBucketPage K V) (hr : Reachable size b) :
    b.IsFull size = false ∧
    ((∀ i, i < size → b.IsReadable i = true) → ∀ key value,
      (¬ ∃ i, b.HoldsAt i key value) →
        b.Insert size key value = (false, b) ∧
        ∀ (t : ExtendibleHashTable K V) (fuel : Nat), t.bucket_array_size = size →
          t.pages (t.KeyToPageId key) = b →
          (t.Insert key value (fuel + 1)).1 = some false ∧
          (t.Insert key value (fuel + 1)).2.global_depth = t.global_depth ∧
          (t.Insert key value (fuel + 1)).2.local_depths = t.local_depths ∧
          (t.Insert key value (fuel + 1)).2.bucket_page_ids = t.bucket_page_ids) := by
  have hwf := wf_of_reachable size b hr
  have hfull : b.IsFull size = false := by
    by_contra hf
    have hf1 : b.IsFull size = true := by simpa using hf
    unfold IsFull at hf1
    rw [List.all_eq_true] at hf1
    have h1 := hf1 ((size - 1) / 8) (List.mem_range.2 (Nat.lt_succ_self _))
    unfold byteAllOnes at h1
    rw [List.all_eq_true] at h1
    have h2 : b.IsReadable (8 * ((size - 1) / 8) + 7) = true := h1 7 (by decide)
    have h3 := readable_lt size b hwf _ h2
    omega
  refine ⟨hfull, ?_⟩
  intro hall key value hnone
  have hins : b.Insert size key value = (false, b) := by
    obtain ⟨n, hn, hp⟩ := hwf.occ_initial
    rcases insert_cases size b hwf n hn hp key value with
      ⟨_, e⟩ | ⟨_, hlt, _⟩ | ⟨_, _, j, hj, hjr, _⟩ | ⟨_, _, _, e⟩
    · exact e
    · have := (hp n).1 (hwf.rd_occ n (hall n hlt))
      omega
    · rw [hall j hj] at hjr
      cases hjr
    · exact e
  refine ⟨hins, ?_⟩
  intro t fuel hsz hpg
  rw [ExtendibleHashTable.Insert]
  simp only [hsz, hpg, hfull, Bool.false_eq_true, if_false, hins]
  exact ⟨trivial, trivial, trivial, trivial⟩

theorem full_bucket_is_not_reported_full_witness :
    101 % 8 ≠ 0 ∧ Reachable 101 fullBucket101 ∧
    (∀ i, i < 101 → fullBucket101.IsReadable i = true) ∧
    (¬ ∃ i, fullBucket101.HoldsAt i 202 0) ∧
    fullBucket101.IsFull 101 = false ∧
    fullBucket101.Insert 101 202 0 = (false, fullBucket101) :=
  have hf := fill_state 101 101 (Nat.le_refl _)
  have hall : ∀ i, i < 101 → fullBucket101.IsReadable i = true := fun i hi => (hf.2.2.1 i).2 hi
  have hnone : ¬ ∃ i, fullBucket101.HoldsAt i 202 0 := fun ⟨i, hi⟩ => by
    have hlt : i < 101 := (hf.2.2.1 i).1 hi.1
    have hk : fullBucket101.KeyAt i = 2 * i := hf.2.2.2 i hlt
    have := hi.2.1
    omega
  have h := full_bucket_is_not_reported_full 101 (by decide) fullBucket101 hf.1
  ⟨by decide, hf.1, hall, hnone, h.1, (h.2 hall 202 0 hnone).1⟩

end HashTableBucketPage
end Bustub

/-! ## Theorems: extendible hash table, directory and pins -/

namespace Bustub
namespace ExtendibleHashTable

set_option maxRecDepth 100000 in
/-- The tables `filled56` and `skippedSplit`, evaluated. -/
theorem skippedSplit_evaluated :
    (skippedSplit.global_depth = 6 ∧ skippedSplit.GetLocalDepth 56 = 5 ∧
      skippedSplit.GetLocalDepth 24 = 6 ∧
      skippedSplit.GetBucketPageId 24 = 6 ∧ skippedSplit.GetBucketPageId 56 = 6) ∧
    (filled56.GetValue 56 = (true, [0]) ∧
      (filled56.Insert 1880 0 insertFuel).1 = some true ∧
      skippedSplit.GetValue 56 = (false, []) ∧
      skippedSplit.KeyToPageId 56 = 6 ∧
      (skippedSplit.pages 7).GetValue 56 56 [] = (true, [0])) := by
  decide

/-- C32 (the code at the failing input): with BUCKET_ARRAY_SIZE 56, the table
reached by inserting the 55 pairs of `oneBucket55`, (56, 0) and (1880, 0) has
global depth 6, and its directory slots 24 and 56, which agree on the low 5
bits (5 is the local depth of slot 56) and hold the same bucket page id, have
different local depths, 6 and 5: the loop of SplitInsert over
`i < BUCKET_ARRAY_SIZE` never reaches slot 56. -/
theorem split_leaves_slot_with_stale_local_depth :
    skippedSplit.global_depth = 6 ∧
    24 < 2 ^ skippedSplit.global_depth ∧ 56 < 2 ^ skippedSplit.global_depth ∧
    skippedSplit.GetLocalDepth 56 = 5 ∧
    56 % 2 ^ skippedSplit.GetLocalDepth 56 = 24 % 2 ^ skippedSplit.GetLocalDepth 56 ∧
    skippedSplit.GetLocalDepth 24 = 6 ∧
    skippedSplit.GetLocalDepth 24 ≠ skippedSplit.GetLocalDepth 56 ∧
    skippedSplit.GetBucketPageId 24 = 6 ∧ skippedSplit.GetBucketPageId 56 = 6 := by
  obtain ⟨⟨h1, h2, h3, h4, h5⟩, _⟩ := skippedSplit_evaluated
  rw [h1, h2, h3]
  exact ⟨rfl, by decide, by decide, rfl, by decide, rfl, by decide, h4, h5⟩

/-- C33 (the code at the failing input): in the table `filled56`
(BUCKET_ARRAY_SIZE 56) GetValue(56) yields 0.  Insert(1880, 0), a pair with
another key, returns true and splits the bucket; afterwards GetValue(56)
yields nothing, although (56, 0) was never removed: the pair was moved to page
7, while the directory slot of key 56 still points to page 6. -/
theorem insert_of_other_key_loses_pair :
    filled56.GetValue 56 = (true, [0]) ∧
    (filled56.Insert 1880 0 insertFuel).1 = some true ∧
    skippedSplit.GetValue 56 = (false, []) ∧
    skippedSplit.KeyToPageId 56 = 6 ∧
    (skippedSplit.pages 7).GetValue 56 56 [] = (true, [0]) :=
  skippedSplit_evaluated.2

/-- C34 (the code at the failing input): on a fresh table in a fresh pool,
after Insert(0, 0), Remove(0, 0), Insert(0, 0) every frame has pin count 0.
The Remove(0, 0) that follows returns true and empties the bucket; Merge
fetches the bucket page (page 2, in frame 2) and, as the bucket has local
depth 0 and no sibling, returns without unpinning it: the pin count of the
bucket page is 1 after the call. -/
theorem merge_leaves_bucket_page_pinned :
    pinCounts (runPool mergedOnce).2 = List.replicate 10 0 ∧
    ((runPool mergedOnce).1.Remove 0 0).1 = true ∧
    (runPool mergedOnce).1.KeyToPageId 0 = 2 ∧
    (runPool (mergedOnce ++ [.remove 0 0])).2.page_table 2 = some 2 ∧
    ((runPool (mergedOnce ++ [.remove 0 0])).2.pages 2).pin_count = 1 ∧
    pinCounts (runPool (mergedOnce ++ [.remove 0 0])).2 = [0, 0, 1, 0, 0, 0, 0, 0, 0, 0] := by
  decide

end ExtendibleHashTable
end Bustub

/-! ## Theorems: termination of `Insert` on the extendible hash table -/

namespace Bustub

theorem getD_lt_of_all (l : List Nat) (i : Nat) (h : ∀ x, x ∈ l → x < 256) :
    l.getD i 0 < 256 := by
  by_cases hi : i < l.length
  · rw [List.getD_eq_getElem _ _ hi]
    exact h _ (List.getElem_mem hi)
  · rw [getD_of_length_le l i 0 (by omega)]
    decide

theorem getD_set_cases {α : Type} (l : List α) (i j : Nat) (a d : α) :
    (l.set i a).getD j d = l.getD j d ∨ (l.set i a).getD j d = a := by
  by_cases hij : i = j
  · by_cases hi : i < l.length
    · right
      rw [← hij]
      exact getD_set_eq l i a d hi
    · left
      rw [List.set_eq_of_length_le (by omega)]
  · left
    exact getD_set_ne l a d hij

theorem and_mask_lt (h g : Nat) : h &&& ((1 <<< g) - 1) < 2 ^ g := by
  rw [Nat.one_shiftLeft, Nat.and_pow_two_sub_one_eq_mod]
  exact Nat.mod_lt _ (by positivity)

theorem and_mask_succ (h g : Nat) :
    h &&& ((1 <<< (g + 1)) - 1) = h &&& ((1 <<< g) - 1) ∨
    h &&& ((1 <<< (g + 1)) - 1) = (h &&& ((1 <<< g) - 1)) + 2 ^ g := by
  rw [Nat.one_shiftLeft, Nat.one_shiftLeft, Nat.and_pow_two_sub_one_eq_mod,
    Nat.and_pow_two_sub_one_eq_mod, Nat.mod_pow_succ]
  have h2 : h / 2 ^ g % 2 < 2 := Nat.mod_lt _ (by decide)
  rcases Nat.lt_succ_iff_lt_or_eq.1 h2 with h3 | h3
  · have h4 : h / 2 ^ g % 2 = 0 := by omega
    left
    rw [h4]
    simp
  · right
    rw [h3]
    simp

namespace ExtendibleHashTable

set_option linter.unusedSectionVars false

variable {K V : Type} [DecidableEq K] [DecidableEq V] [Inhabited K] [Inhabited V]

theorem splitBucket_eq (t : ExtendibleHashTable K V) (key : K) :
    t.splitBucket key =
      if t.global_depth = t.GetLocalDepth (t.KeyToDirectoryIndex key) then
        if t.Size = DIRECTORY_ARRAY_SIZE then none
        else some (splitRest (growDirectory t) (t.KeyToDirectoryIndex key) (t.KeyToPageId key))
      else some (splitRest t (t.KeyToDirectoryIndex key) (t.KeyToPageId key)) := by
  unfold splitBucket
  by_cases h1 : t.global_depth = t.GetLocalDepth (t.KeyToDirectoryIndex key)
  · by_cases h2 : t.Size = DIRECTORY_ARRAY_SIZE
    · simp only [h1, h2, if_true]
    · simp only [h1, h2, if_true, if_false]
      rfl
  · simp only [h1, if_false]
    rfl

theorem ld_lt (t : ExtendibleHashTable K V) (h : DirInv t) (i : Nat) :
    t.GetLocalDepth i < 256 :=
  getD_lt_of_all _ _ h.small

theorem ld_set (t : ExtendibleHashTable K V) (i j v : Nat) (hi : i < t.local_depths.length) :
    (t.SetLocalDepth i v).GetLocalDepth j = if j = i then v % 256 else t.GetLocalDepth j := by
  unfold GetLocalDepth SetLocalDepth
  by_cases hj : j = i
  · rw [if_pos hj, hj]
    exact getD_set_eq _ _ _ _ hi
  · rw [if_neg hj]
    exact getD_set_ne _ _ _ (fun e => hj e.symm)

theorem ld_set_ne (t : ExtendibleHashTable K V) {i j : Nat} (v : Nat) (h : j ≠ i) :
    (t.SetLocalDepth i v).GetLocalDepth j = t.GetLocalDepth j := by
  unfold GetLocalDepth SetLocalDepth
  exact getD_set_ne _ _ _ (fun e => h e.symm)

theorem ld_set_cases (t : ExtendibleHashTable K V) (i j v : Nat) :
    (t.SetLocalDepth i v).GetLocalDepth j = t.GetLocalDepth j ∨
    (t.SetLocalDepth i v).GetLocalDepth j = v % 256 := by
  unfold GetLocalDepth SetLocalDepth
  exact getD_set_cases _ _ _ _ _

theorem dirInv_set (t : ExtendibleHashTable K V) (h : DirInv t) (i v : Nat) :
    DirInv (t.SetLocalDepth i v) where
  depth := h.depth
  len := by
    show (t.local_depths.set i (v % 256)).length = _
    rw [List.length_set]
    exact h.len
  small := by
    intro x hx
    rcases List.mem_or_eq_of_mem_set hx with h1 | h1
    · exact h.small x h1
    · rw [h1]
      exact Nat.mod_lt _ (by decide)

theorem dirInv_congr {t t1 : ExtendibleHashTable K V} (h : DirInv t)
    (e1 : t1.global_depth = t.global_depth) (e2 : t1.local_depths = t.local_depths) :
    DirInv t1 where
  depth := by rw [e1]; exact h.depth
  len := by rw [e2]; exact h.len
  small := by rw [e2]; exact h.small

theorem doubleLoop_fields (t : ExtendibleHashTable K V) (b n : Nat) :
    (doubleLoop t b n).global_depth = t.global_depth ∧
    (doubleLoop t b n).hash_fn = t.hash_fn ∧
    (doubleLoop t b n).bucket_array_size = t.bucket_array_size ∧
    (doubleLoop t b n).pages = t.pages ∧
    (doubleLoop t b n).next_page_id = t.next_page_id := by
  induction n generalizing t b with
  | zero => exact ⟨rfl, rfl, rfl, rfl, rfl⟩
  | succ n ih =>
    unfold doubleLoop
    exact ih _ _

theorem dirInv_doubleLoop (t : ExtendibleHashTable K V) (h : DirInv t) (b n : Nat) :
    DirInv (doubleLoop t b n) := by
  induction n generalizing t b with
  | zero => exact h
  | succ n ih =>
    unfold doubleLoop
    dsimp only
    refine ih _ ?_ _
    exact dirInv_congr (dirInv_set t h _ _) rfl rfl

theorem doubleLoop_ld_low (t : ExtendibleHashTable K V) (b n j : Nat)
    (hj : j < b + 2 ^ t.global_depth) :
    (doubleLoop t b n).GetLocalDepth j = t.GetLocalDepth j := by
  induction n generalizing t b with
  | zero => rfl
  | succ n ih =>
    unfold doubleLoop
    dsimp only
    rw [ih _ (b + 1) (by
      show j < b + 1 + 2 ^ t.global_depth
      omega)]
    show (t.SetLocalDepth (b + 1 <<< t.global_depth) (t.GetLocalDepth b)).GetLocalDepth j = _
    rw [Nat.one_shiftLeft]
    exact ld_set_ne t _ (by omega)

theorem doubleLoop_ld_high (t : ExtendibleHashTable K V) (b n j : Nat)
    (hb : b + n ≤ 2 ^ t.global_depth)
    (hl : 2 ^ t.global_depth + 2 ^ t.global_depth ≤ t.local_depths.length)
    (h1 : b ≤ j) (h2 : j < b + n) :
    (doubleLoop t b n).GetLocalDepth (j + 2 ^ t.global_depth) = t.GetLocalDepth j % 256 := by
  induction n generalizing t b with
  | zero => omega
  | succ n ih =>
    unfold doubleLoop
    dsimp only
    have hw : ∀ i, ((t.SetLocalDepth (b + 1 <<< t.global_depth)
        (t.GetLocalDepth b)).SetBucketPageId (b + 1 <<< t.global_depth)
          ((t.SetLocalDepth (b + 1 <<< t.global_depth)
            (t.GetLocalDepth b)).GetBucketPageId b)).GetLocalDepth i =
        if i = b + 2 ^ t.global_depth then t.GetLocalDepth b % 256 else t.GetLocalDepth i := by
      intro i
      show (t.SetLocalDepth (b + 1 <<< t.global_depth) (t.GetLocalDepth b)).GetLocalDepth i = _
      rw [Nat.one_shiftLeft]
      exact ld_set t _ i _ (by omega)
    by_cases hjb : j = b
    · rw [doubleLoop_ld_low _ (b + 1) n _ (by
        show j + 2 ^ t.global_depth < b + 1 + 2 ^ t.global_depth
        omega)]
      rw [hw, hjb, if_pos (by omega)]
    · have := ih
        ((t.SetLocalDepth (b + 1 <<< t.global_depth)
        (t.GetLocalDepth b)).SetBucketPageId (b + 1 <<< t.global_depth)
          ((t.SetLocalDepth (b + 1 <<< t.global_depth)
            (t.GetLocalDepth b)).GetBucketPageId b)) (b + 1)
        (by show b + 1 + n ≤ 2 ^ t.global_depth; omega)
        (by
          show 2 ^ t.global_depth + 2 ^ t.global_depth ≤
            (t.local_depths.set _ _).length
          rw [List.length_set]
          exact hl)
        (by omega) (by omega)
      rw [hw, if_neg (by omega)] at this
      exact this

theorem redirectLoop_fields (t : ExtendibleHashTable K V) (d : Nat) (o nw : page_id_t)
    (m i n : Nat) :
    (redirectLoop t d o nw m i n).global_depth = t.global_depth ∧
    (redirectLoop t d o nw m i n).hash_fn = t.hash_fn ∧
    (redirectLoop t d o nw m i n).bucket_array_size = t.bucket_array_size ∧
    (redirectLoop t d o nw m i n).pages = t.pages ∧
    (redirectLoop t d o nw m i n).next_page_id = t.next_page_id := by
  induction n generalizing t i with
  | zero => exact ⟨rfl, rfl, rfl, rfl, rfl⟩
  | succ n ih =>
    unfold redirectLoop
    split
    · dsimp only
      split
      · exact ih _ _
      · exact ih _ _
    · exact ih _ _

theorem dirInv_redirectLoop (t : ExtendibleHashTable K V) (h : DirInv t) (d : Nat)
    (o nw : page_id_t) (m i n : Nat) : DirInv (redirectLoop t d o nw m i n) := by
  induction n generalizing t i with
  | zero => exact h
  | succ n ih =>
    unfold redirectLoop
    split
    · dsimp only
      split
      · refine ih _ ?_ _
        exact dirInv_congr (dirInv_set t h _ _) rfl rfl
      · exact ih _ (dirInv_set t h _ _) _
    · exact ih _ h _

theorem redirectLoop_ld_dir (t : ExtendibleHashTable K V) (d : Nat) (o nw : page_id_t)
    (m i n : Nat) :
    (redirectLoop t d o nw m i n).GetLocalDepth d = t.GetLocalDepth d := by
  induction n generalizing t i with
  | zero => rfl
  | succ n ih =>
    unfold redirectLoop
    split
    · rename_i hc
      dsimp only
      split
      · rw [ih]
        show (t.SetLocalDepth i (t.GetLocalDepth d)).GetLocalDepth d = _
        exact ld_set_ne t _ (fun e => hc.1 e.symm)
      · rw [ih]
        exact ld_set_ne t _ (fun e => hc.1 e.symm)
    · exact ih _ _

theorem redirectLoop_ld_cases (t : ExtendibleHashTable K V) (d : Nat) (o nw : page_id_t)
    (m i n j : Nat) :
    (redirectLoop t d o nw m i n).GetLocalDepth j = t.GetLocalDepth j ∨
    (redirectLoop t d o nw m i n).GetLocalDepth j = t.GetLocalDepth d % 256 := by
  induction n generalizing t i with
  | zero => exact Or.inl rfl
  | succ n ih =>
    unfold redirectLoop
    split
    · rename_i hc
      have hd : (t.SetLocalDepth i (t.GetLocalDepth d)).GetLocalDepth d = t.GetLocalDepth d :=
        ld_set_ne t _ (fun e => hc.1 e.symm)
      have hj := ld_set_cases t i j (t.GetLocalDepth d)
      dsimp only
      split
      · rcases ih ((t.SetLocalDepth i (t.GetLocalDepth d)).SetBucketPageId i nw) (i + 1)
          with h1 | h1
        · rw [h1]
          exact hj
        · rw [h1]
          right
          show (t.SetLocalDepth i (t.GetLocalDepth d)).GetLocalDepth d % 256 = _
          rw [hd]
      · rcases ih (t.SetLocalDepth i (t.GetLocalDepth d)) (i + 1) with h1 | h1
        · rw [h1]
          exact hj
        · rw [h1]
          right
          rw [hd]
    · exact ih _ _

theorem splitRest_fields (t1 : ExtendibleHashTable K V) (d : Nat) (o : page_id_t) :
    (splitRest t1 d o).global_depth = t1.global_depth ∧
    (splitRest t1 d o).hash_fn = t1.hash_fn ∧
    (splitRest t1 d o).bucket_array_size = t1.bucket_array_size := by
  obtain ⟨h1, h2, h3, _, _⟩ := redirectLoop_fields (t1.NewPage.2.IncrLocalDepth d) d o
    t1.NewPage.1 ((t1.NewPage.2.IncrLocalDepth d).GetLocalDepthMask d) 0
    (t1.NewPage.2.IncrLocalDepth d).bucket_array_size
  exact ⟨h1, h2, h3⟩

theorem dirInv_splitRest (t1 : ExtendibleHashTable K V) (h : DirInv t1) (d : Nat)
    (o : page_id_t) : DirInv (splitRest t1 d o) := by
  have h3 : DirInv (t1.NewPage.2.IncrLocalDepth d) :=
    dirInv_set t1.NewPage.2 (dirInv_congr h rfl rfl) _ _
  exact dirInv_congr (dirInv_redirectLoop _ h3 d o t1.NewPage.1
    ((t1.NewPage.2.IncrLocalDepth d).GetLocalDepthMask d) 0
    (t1.NewPage.2.IncrLocalDepth d).bucket_array_size) rfl rfl

theorem splitRest_ld_dir (t1 : ExtendibleHashTable K V) (d : Nat) (o : page_id_t)
    (hd : d < t1.local_depths.length) :
    (splitRest t1 d o).GetLocalDepth d = (t1.GetLocalDepth d + 1) % 256 := by
  show (redirectLoop (t1.NewPage.2.IncrLocalDepth d) d o t1.NewPage.1 _ 0 _).GetLocalDepth d = _
  rw [redirectLoop_ld_dir]
  show (t1.NewPage.2.SetLocalDepth d (t1.NewPage.2.GetLocalDepth d + 1)).GetLocalDepth d = _
  rw [ld_set t1.NewPage.2 _ _ _ hd, if_pos rfl]
  rfl

theorem splitRest_ld_cases (t1 : ExtendibleHashTable K V) (d : Nat) (o : page_id_t) (j : Nat)
    (hd : d < t1.local_depths.length) (hj : j ≠ d) :
    (splitRest t1 d o).GetLocalDepth j = t1.GetLocalDepth j ∨
    (splitRest t1 d o).GetLocalDepth j = (t1.GetLocalDepth d + 1) % 256 := by
  have h3d : (t1.NewPage.2.IncrLocalDepth d).GetLocalDepth d = (t1.GetLocalDepth d + 1) % 256 := by
    show (t1.NewPage.2.SetLocalDepth d (t1.NewPage.2.GetLocalDepth d + 1)).GetLocalDepth d = _
    rw [ld_set t1.NewPage.2 _ _ _ hd, if_pos rfl]
    rfl
  have h3j : (t1.NewPage.2.IncrLocalDepth d).GetLocalDepth j = t1.GetLocalDepth j := by
    show (t1.NewPage.2.SetLocalDepth d (t1.NewPage.2.GetLocalDepth d + 1)).GetLocalDepth j = _
    rw [ld_set_ne t1.NewPage.2 _ hj]
    rfl
  rcases redirectLoop_ld_cases (t1.NewPage.2.IncrLocalDepth d) d o t1.NewPage.1
    ((t1.NewPage.2.IncrLocalDepth d).GetLocalDepthMask d) 0
    (t1.NewPage.2.IncrLocalDepth d).bucket_array_size j with h | h
  · left
    rw [← h3j]
    exact h
  · right
    rw [h3d, Nat.mod_mod] at h
    exact h

theorem growDirectory_fields (t : ExtendibleHashTable K V) :
    (growDirectory t).global_depth = t.global_depth + 1 ∧
    (growDirectory t).hash_fn = t.hash_fn ∧
    (growDirectory t).bucket_array_size = t.bucket_array_size := by
  obtain ⟨h1, h2, h3, _, _⟩ := doubleLoop_fields t 0 t.Size
  refine ⟨?_, h2, h3⟩
  show (doubleLoop t 0 t.Size).global_depth + 1 = _
  rw [h1]

theorem dirInv_growDirectory (t : ExtendibleHashTable K V) (h : DirInv t)
    (h8 : t.global_depth ≤ 8) : DirInv (growDirectory t) where
  depth := by
    rw [(growDirectory_fields t).1]
    omega
  len := (dirInv_doubleLoop t h 0 t.Size).len
  small := (dirInv_doubleLoop t h 0 t.Size).small

theorem depth_le_8 (t : ExtendibleHashTable K V) (h : DirInv t)
    (h2 : ¬ t.Size = DIRECTORY_ARRAY_SIZE) : t.global_depth ≤ 8 := by
  by_contra hc
  have h9 : t.global_depth = 9 := by
    have := h.depth
    omega
  apply h2
  unfold Size
  rw [h9]
  rfl

theorem pow_depth_le (g : Nat) (h8 : g ≤ 8) : 2 ^ g ≤ 256 := by
  have : 2 ^ g ≤ 2 ^ 8 := Nat.pow_le_pow_right (by decide) h8
  simpa using this

/-- A split brings `Insert` nearer to its end. -/
theorem split_decreases (t t1 : ExtendibleHashTable K V) (h : DirInv t) (key : K)
    (hs : t.splitBucket key = some t1) :
    DirInv t1 ∧ splitsLeft t1 key < splitsLeft t key := by
  rw [splitBucket_eq] at hs
  have hslt : t.KeyToDirectoryIndex key < 2 ^ t.global_depth := and_mask_lt _ _
  have hld := ld_lt t h (t.KeyToDirectoryIndex key)
  have h9 := h.depth
  by_cases h1 : t.global_depth = t.GetLocalDepth (t.KeyToDirectoryIndex key)
  · rw [if_pos h1] at hs
    by_cases h2 : t.Size = DIRECTORY_ARRAY_SIZE
    · rw [if_pos h2] at hs
      cases hs
    · rw [if_neg h2] at hs
      have h8 := depth_le_8 t h h2
      have hp := pow_depth_le _ h8
      have hlen := h.len
      have hg := dirInv_growDirectory t h h8
      obtain ⟨g1, g2, _⟩ := growDirectory_fields t
      have hlen1 : (growDirectory t).local_depths.length = DIRECTORY_ARRAY_SIZE := hg.len
      have hD : DIRECTORY_ARRAY_SIZE = 512 := rfl
      injection hs with hs
      subst hs
      obtain ⟨f1, f2, _⟩ := splitRest_fields (growDirectory t) (t.KeyToDirectoryIndex key)
        (t.KeyToPageId key)
      refine ⟨dirInv_splitRest _ hg _ _, ?_⟩
      have hlow : (growDirectory t).GetLocalDepth (t.KeyToDirectoryIndex key) =
          t.global_depth := by
        rw [h1]
        exact doubleLoop_ld_low t 0 t.Size _ (by omega)
      have hsz : t.Size = 2 ^ t.global_depth := Nat.one_shiftLeft _
      have hhigh : (growDirectory t).GetLocalDepth
          (t.KeyToDirectoryIndex key + 2 ^ t.global_depth) = t.global_depth := by
        have := doubleLoop_ld_high t 0 t.Size (t.KeyToDirectoryIndex key)
          (by rw [hsz]; omega) (by rw [hlen, hD]; omega) (Nat.zero_le _) (by rw [hsz]; omega)
        rw [← h1] at this
        have e : t.global_depth % 256 = t.global_depth := Nat.mod_eq_of_lt (by omega)
        rw [e] at this
        exact this
      have hkey : (splitRest (growDirectory t) (t.KeyToDirectoryIndex key)
          (t.KeyToPageId key)).KeyToDirectoryIndex key = t.KeyToDirectoryIndex key ∨
          (splitRest (growDirectory t) (t.KeyToDirectoryIndex key)
          (t.KeyToPageId key)).KeyToDirectoryIndex key =
            t.KeyToDirectoryIndex key + 2 ^ t.global_depth := by
        have e : (splitRest (growDirectory t) (t.KeyToDirectoryIndex key)
            (t.KeyToPageId key)).KeyToDirectoryIndex key =
            (t.hash_fn key % 2 ^ 32) &&& ((1 <<< (t.global_depth + 1)) - 1) := by
          show ((splitRest (growDirectory t) (t.KeyToDirectoryIndex key)
            (t.KeyToPageId key)).hash_fn key % 2 ^ 32) &&&
              ((1 <<< (splitRest (growDirectory t) (t.KeyToDirectoryIndex key)
                (t.KeyToPageId key)).global_depth) - 1) = _
          rw [f1, f2, g1, g2]
        rw [e]
        exact and_mask_succ _ _
      have hdir := splitRest_ld_dir (growDirectory t) (t.KeyToDirectoryIndex key)
        (t.KeyToPageId key) (by rw [hlen1, hD]; omega)
      rw [hlow] at hdir
      have hval : (splitRest (growDirectory t) (t.KeyToDirectoryIndex key)
          (t.KeyToPageId key)).GetLocalDepth
            ((splitRest (growDirectory t) (t.KeyToDirectoryIndex key)
              (t.KeyToPageId key)).KeyToDirectoryIndex key) = t.global_depth ∨
          (splitRest (growDirectory t) (t.KeyToDirectoryIndex key)
          (t.KeyToPageId key)).GetLocalDepth
            ((splitRest (growDirectory t) (t.KeyToDirectoryIndex key)
              (t.KeyToPageId key)).KeyToDirectoryIndex key) = t.global_depth + 1 := by
        rcases hkey with e | e
        · rw [e, hdir]
          right
          exact Nat.mod_eq_of_lt (by omega)
        · rw [e]
          have hne : t.KeyToDirectoryIndex key + 2 ^ t.global_depth ≠
              t.KeyToDirectoryIndex key := by
            have : 0 < 2 ^ t.global_depth := by positivity
            omega
          rcases splitRest_ld_cases (growDirectory t) (t.KeyToDirectoryIndex key)
            (t.KeyToPageId key) _ (by rw [hlen1, hD]; omega) hne with c | c
          · rw [c, hhigh]
            exact Or.inl rfl
          · rw [c, hlow]
            right
            exact Nat.mod_eq_of_lt (by omega)
      unfold splitsLeft
      rw [f1, g1, ← h1]
      rcases hval with e | e
      · rw [e]; omega
      · rw [e]; omega
  · rw [if_neg h1] at hs
    injection hs with hs
    subst hs
    obtain ⟨f1, f2, _⟩ := splitRest_fields t (t.KeyToDirectoryIndex key) (t.KeyToPageId key)
    refine ⟨dirInv_splitRest _ h _ _, ?_⟩
    have hD : DIRECTORY_ARRAY_SIZE = 512 := rfl
    have hp : 2 ^ t.global_depth ≤ 512 := by
      have : 2 ^ t.global_depth ≤ 2 ^ 9 := Nat.pow_le_pow_right (by decide) h9
      simpa using this
    have hkey : (splitRest t (t.KeyToDirectoryIndex key)
        (t.KeyToPageId key)).KeyToDirectoryIndex key = t.KeyToDirectoryIndex key := by
      show ((splitRest t (t.KeyToDirectoryIndex key) (t.KeyToPageId key)).hash_fn key
        % 2 ^ 32) &&& ((1 <<< (splitRest t (t.KeyToDirectoryIndex key)
          (t.KeyToPageId key)).global_depth) - 1) = _
      rw [f1, f2]
      rfl
    have hdir := splitRest_ld_dir t (t.KeyToDirectoryIndex key)
      (t.KeyToPageId key) (by rw [h.len, hD]; omega)
    unfold splitsLeft
    rw [hkey, hdir, f1]
    omega

/-- One round of `Insert`: it ends here, or it splits the bucket and goes on
in a table that is nearer to the end. -/
theorem insert_round (t : ExtendibleHashTable K V) (h : DirInv t) (key : K) (value : V) :
    (∃ r, (∀ fuel, t.Insert key value (fuel + 1) = r) ∧ InsertEnds t key value r) ∨
    (∃ t1, (t.pages (t.KeyToPageId key)).IsFull t.bucket_array_size = true ∧
      t.splitBucket key = some t1 ∧ DirInv t1 ∧ splitsLeft t1 key < splitsLeft t key ∧
      ∀ fuel, t.Insert key value (fuel + 1) = t1.Insert key value fuel) := by
  by_cases hf : (t.pages (t.KeyToPageId key)).IsFull t.bucket_array_size = true
  · cases hsp : t.splitBucket key with
    | none =>
      left
      refine ⟨(some false, t), ?_, Or.inl ⟨hf, ?_, rfl⟩⟩
      · intro fuel
        rw [Insert]
        simp only [hf, if_true, hsp]
      · rw [splitBucket_eq] at hsp
        by_contra hne
        rw [if_neg hne] at hsp
        split at hsp
        · cases hsp
        · cases hsp
    | some t1 =>
      right
      obtain ⟨h1, h2⟩ := split_decreases t t1 h key hsp
      refine ⟨t1, hf, rfl, h1, h2, ?_⟩
      intro fuel
      rw [Insert]
      simp only [hf, if_true, hsp]
  · left
    have hf1 : (t.pages (t.KeyToPageId key)).IsFull t.bucket_array_size = false := by
      simpa using hf
    refine ⟨_, ?_, Or.inr ⟨hf1, rfl⟩⟩
    intro fuel
    rw [Insert]
    simp only [hf1, Bool.false_eq_true, if_false]

/-- With more fuel than `splitsLeft`, `Insert` does not run out of fuel, and
its result does not depend on the fuel. -/
theorem insert_within (n : Nat) (t : ExtendibleHashTable K V) (h : DirInv t) (key : K)
    (value : V) (hm : splitsLeft t key ≤ n) :
    ∃ r, (∀ fuel, n < fuel → t.Insert key value fuel = r) ∧
      ∃ m t1, m ≤ n ∧ SplitsIn key m t t1 ∧ DirInv t1 ∧ InsertEnds t1 key value r := by
  induction n generalizing t with
  | zero =>
    rcases insert_round t h key value with ⟨r, hr, he⟩ | ⟨t1, _, _, _, h2, _⟩
    · refine ⟨r, ?_, 0, t, Nat.le_refl _, SplitsIn.done t, h, he⟩
      intro fuel hfu
      obtain ⟨f, rfl⟩ : ∃ f, fuel = f + 1 := ⟨fuel - 1, by omega⟩
      exact hr f
    · omega
  | succ n ih =>
    rcases insert_round t h key value with ⟨r, hr, he⟩ | ⟨t1, hf, hsp, h1, h2, h3⟩
    · refine ⟨r, ?_, 0, t, Nat.zero_le _, SplitsIn.done t, h, he⟩
      intro fuel hfu
      obtain ⟨f, rfl⟩ : ∃ f, fuel = f + 1 := ⟨fuel - 1, by omega⟩
      exact hr f
    · obtain ⟨r, hr, m, t2, hm2, hsp2, hd2, he⟩ := ih t1 h1 (by omega)
      refine ⟨r, ?_, m + 1, t2, by omega, SplitsIn.split m t t1 t2 hf hsp hsp2, hd2, he⟩
      intro fuel hfu
      obtain ⟨f, rfl⟩ : ∃ f, fuel = f + 1 := ⟨fuel - 1, by omega⟩
      rw [h3 f]
      exact hr f (by omega)

theorem splitsLeft_le (t : ExtendibleHashTable K V) (key : K) : splitsLeft t key ≤ 273 := by
  unfold splitsLeft
  omega

theorem dirInv_ends (t1 : ExtendibleHashTable K V) (h : DirInv t1) (key : K) (value : V)
    (r : Option Bool × ExtendibleHashTable K V) (he : InsertEnds t1 key value r) :
    DirInv r.2 ∧ r.1 ≠ none := by
  rcases he with ⟨_, _, e⟩ | ⟨_, e⟩
  · rw [e]
    exact ⟨h, by simp⟩
  · rw [e]
    exact ⟨dirInv_congr h rfl rfl, by simp⟩

theorem dirInv_insert (t : ExtendibleHashTable K V) (h : DirInv t) (key : K) (value : V) :
    DirInv (t.Insert key value insertFuel).2 := by
  obtain ⟨r, hr, _, t1, _, _, h1, he⟩ := insert_within 273 t h key value (splitsLeft_le t key)
  rw [hr insertFuel (by decide)]
  exact (dirInv_ends t1 h1 key value r he).1

theorem dirInv_mergeLoop (t : ExtendibleHashTable K V) (h : DirInv t) (b s : page_id_t)
    (i n : Nat) : DirInv (mergeLoop t b s i n) := by
  induction n generalizing t i with
  | zero => exact h
  | succ n ih =>
    unfold mergeLoop
    split
    · refine ih _ ?_ _
      exact dirInv_congr (dirInv_set t h _ _) rfl rfl
    · split
      · exact ih _ (dirInv_set t h _ _) _
      · exact ih _ h _

theorem dirInv_shrinkLoop (t : ExtendibleHashTable K V) (h : DirInv t) (n : Nat) :
    DirInv (shrinkLoop t n) := by
  induction n generalizing t with
  | zero => exact h
  | succ n ih =>
    unfold shrinkLoop
    split
    · refine ih _ ⟨?_, h.len, h.small⟩
      show t.global_depth - 1 ≤ 9
      have := h.depth
      omega
    · exact h

theorem dirInv_merge (t : ExtendibleHashTable K V) (h : DirInv t) (key : K) :
    DirInv (t.Merge key) := by
  unfold Merge
  dsimp only
  split
  · exact h
  · refine dirInv_shrinkLoop _ ?_ _
    split
    · refine dirInv_mergeLoop _ ?_ _ _ _ _
      exact dirInv_congr h rfl rfl
    · exact h

theorem dirInv_remove (t : ExtendibleHashTable K V) (h : DirInv t) (key : K) (value : V) :
    DirInv (t.Remove key value).2 := by
  unfold Remove
  dsimp only
  split
  · refine dirInv_merge _ ?_ key
    exact dirInv_congr h rfl rfl
  · exact dirInv_congr h rfl rfl

theorem dirInv_init (bucket_array_size : Nat) (hash_fn : K → Nat) (first : page_id_t) :
    DirInv (init bucket_array_size hash_fn first : ExtendibleHashTable K V) where
  depth := by
    show (1 : Nat) ≤ 9
    decide
  len := by simp [init]
  small := by
    intro x hx
    rcases List.mem_or_eq_of_mem_set hx with h1 | h1
    · rcases List.mem_or_eq_of_mem_set h1 with h2 | h2
      · rw [List.eq_of_mem_replicate h2]
        decide
      · rw [h2]
        decide
    · rw [h1]
      decide

theorem dirInv_of_reachable {t : ExtendibleHashTable K V} (h : Reachable t) : DirInv t := by
  induction h with
  | init sz hf first => exact dirInv_init sz hf first
  | step t c _ ih =>
    cases c with
    | insert key value => exact dirInv_insert t ih key value
    | remove key value => exact dirInv_remove t ih key value

theorem reachable_table_run {t : ExtendibleHashTable K V} (h : Reachable t)
    (cs : List (Call K V)) : Reachable (t.run cs) := by
  induction cs generalizing t with
  | nil => exact h
  | cons c cs ih => exact ih (Reachable.step t c h)

/-- As long as the buffer pool hands the table a page at every FetchPage and
NewPage, for every reachable table and every pair, Insert terminates: with
any fuel above 273 (the fuel of the model included) the nested Insert calls do
not run out of fuel and give one result, reached after at most 273 bucket
splits; the call ends either in SplitInsert returning false, the bucket of the
key being full and the directory having DIRECTORY_ARRAY_SIZE slots, or in the
bucket of the key, which is not full, taking or rejecting the pair.  Nothing
is assumed about the hashes of the pairs in the bucket. -/
theorem insert_terminates (t : ExtendibleHashTable K V) (h : Reachable t) (key : K)
    (value : V) :
    ∃ r : Option Bool × ExtendibleHashTable K V,
      (∀ fuel, 273 < fuel → t.Insert key value fuel = r) ∧
      t.Insert key value insertFuel = r ∧ r.1 ≠ none ∧
      ∃ n t1, n ≤ 273 ∧ SplitsIn key n t t1 ∧ InsertEnds t1 key value r := by
  obtain ⟨r, hr, n, t1, hn, hs, h1, he⟩ :=
    insert_within 273 t (dirInv_of_reachable h) key value (splitsLeft_le t key)
  exact ⟨r, hr, hr insertFuel (by decide), (dirInv_ends t1 h1 key value r he).2,
    n, t1, hn, hs, he⟩

theorem insert_terminates_witness :
    Reachable oneBucket55 ∧
    ∃ r : Option Bool × ExtendibleHashTable Nat Nat,
      (∀ fuel, 273 < fuel → oneBucket55.Insert 56 0 fuel = r) ∧
      oneBucket55.Insert 56 0 insertFuel = r ∧ r.1 ≠ none ∧
      ∃ n t1, n ≤ 273 ∧ SplitsIn 56 n oneBucket55 t1 ∧ InsertEnds t1 56 0 r :=
  have hr : Reachable oneBucket55 := reachable_table_run (Reachable.init 56 id 0) _
  ⟨hr, insert_terminates oneBucket55 hr 56 0⟩
end ExtendibleHashTable
end Bustub

namespace Bustub
namespace ExtendibleHashTable

set_option maxRecDepth 100000 in
set_option maxHeartbeats 4000000 in
/-- C35 (the code at the failing input): a table of 56-slot buckets in a pool
of three frames.  After two rounds of Insert(0, 0), Remove(0, 0), the inserts
of 56 pairs with even hashes and Insert(1, 0), no call has been handed
`nullptr`, page 2 is left pinned by Merge (pin counts 0, 0, 1) and the bucket
of key 112, page 3, is full.  Insert(112, 0) calls SplitInsert, which can grow
the directory, fetches the directory page and the bucket page, and calls
NewPage with every frame pinned: NewPage returns `nullptr`, which line 162
dereferences, so the call of Insert does not run to its end, whereas with a
pool that always has a frame the same Insert stores the pair and returns
true. -/
theorem insert_is_handed_null_page :
    (runSmallPool pinnedAndFull).map (fun s => pinCounts s.2) = some [0, 0, 1] ∧
    (runSmallPool pinnedAndFull).map (fun s => s.1.KeyToPageId 112) = some 3 ∧
    (runSmallPool pinnedAndFull).map
      (fun s => (s.1.pages (s.1.KeyToPageId 112)).IsFull s.1.bucket_array_size) = some true ∧
    (runSmallPool pinnedAndFull).map (fun s => (s.1.splitBucket 112).isSome) = some true ∧
    (runSmallPool pinnedAndFull).map
      (fun s => (beforeNewPage s 112).map (fun p => pinCounts p)) = some (some [1, 1, 1]) ∧
    (runSmallPool pinnedAndFull).map
      (fun s => (beforeNewPage s 112).map (fun p => p.NewPgImp.1.isNone)) = some (some true) ∧
    (runSmallPool pinnedAndFull).map
      (fun s => (runChecked s.2 (s.1.InsertCalls 0 112 insertFuel)).isNone) = some true ∧
    (runSmallPool pinnedAndFull).map (fun s => (s.1.Insert 112 0 insertFuel).1) =
      some (some true) ∧
    (runSmallPool (pinnedAndFull ++ [.insert 112 0])).isNone = true := by
  refine ⟨by decide, by decide, by decide, by decide, by decide, by decide, by decide,
    by decide, by decide⟩

end ExtendibleHashTable
end Bustub

/-! ## Theorems: aggregation executor -/

namespace Bustub
namespace AggregationExecutor

/-- C40 (the code at the failing input): Init combines the child's rows into
the aggregation table without emptying it.  For COUNT and SUM grouped by the
first column over the rows (1, 5), (1, 7), (2, 3), Next yields (1, 2, 12) and
(2, 1, 3) after the first Init, but (1, 4, 24) and (2, 2, 6) after a second
Init: counts and sums are accumulated across Init calls. -/
theorem second_init_accumulates_aggregates :
    drain Next 10 countSum.Init = [[1, 2, 12], [2, 1, 3]] ∧
    drain Next 10 countSum.Init.Init = [[1, 4, 24], [2, 2, 6]] ∧
    drain Next 10 countSum.Init.Init ≠ drain Next 10 countSum.Init := by
  decide

end AggregationExecutor
end Bustub
